import Mathlib


/-!
Fibonacci heap (`fibonacci_heap.c`): shallow embedding and verification.

Modelling conventions.

* A `fib_node_t*` is an `Option Nat` (`none` is `NULL`); node memory is a total map
  from addresses to node records.  The fields `left` and `right` are only ever assigned
  addresses of nodes (never `NULL`), so they are plain addresses.
* A `fib_heap_t*` is an `Option Nat` indexing the heap records of the world.
* `malloc` is a bump allocator that always succeeds; `free` leaves the modelled memory alone.
* `int` and `size_t` counters are unbounded (`Int`/`Nat`), except that `node_count--` wraps
  at zero as `size_t` does; keys are `Int`, with `INT_MIN` and `INT_MAX` the bounds of the
  C type.
* `floor(log(n) / log(GOLDEN_RATIO))`, which the C code evaluates in double precision, is
  computed exactly in `fib_heap_calculate_max_degree`.  The values that double precision
  can give are those of `max_degree_values`; `fib_heap_consolidate_with` is
  `fib_heap_consolidate` for a given one of them.
* A loop that the C code leaves by a pointer comparison takes a `fuel` argument that bounds
  its number of rounds.
* A result `none` of a function stands for undefined behaviour of the C code (an array access
  out of bounds, a `NULL` dereference) or for a loop that used up its fuel.
-/

namespace FibHeap

/-! ## Data model -/

/-- Record `struct fib_node`. -/
structure fib_node where
  key : Int
  data : Nat
  parent : Option Nat
  child : Option Nat
  left : Nat
  right : Nat
  degree : Int
  marked : Bool
  deriving DecidableEq

/-- Record `struct fib_heap`. -/
structure fib_heap where
  min_node : Option Nat
  node_count : Nat
  deriving DecidableEq

/-- Error codes `fib_heap_error_t`. -/
inductive fib_heap_error_t where
  | FIB_HEAP_SUCCESS
  | FIB_HEAP_ERROR_NULL_POINTER
  | FIB_HEAP_ERROR_INVALID_HANDLE
  | FIB_HEAP_ERROR_OUT_OF_MEMORY
  | FIB_HEAP_ERROR_EMPTY_HEAP
  | FIB_HEAP_ERROR_INVALID_KEY
  | FIB_HEAP_ERROR_HEAP_CORRUPTION
  deriving DecidableEq

open fib_heap_error_t

/-- Smallest value of the C type `int`. -/
def INT_MIN : Int := -2147483648

/-- Largest value of the C type `int`. -/
def INT_MAX : Int := 2147483647

/-- Largest value of the C type `size_t`. -/
def SIZE_MAX : Nat := 2 ^ 64 - 1

/-- Program state: node memory, heap records and the two allocation counters. -/
structure World where
  nodes : Nat → fib_node
  heaps : Nat → fib_heap
  next_node : Nat
  next_heap : Nat

/-- Contents of memory that was never written. -/
def blank_node : fib_node :=
  { key := 0, data := 0, parent := none, child := none, left := 0, right := 0,
    degree := 0, marked := false }

/-- The state before any call. -/
def World.init : World :=
  { nodes := fun _ => blank_node
    heaps := fun _ => { min_node := none, node_count := 0 }
    next_node := 0
    next_heap := 0 }

/-- Store `a->key = v`. -/
def World.set_key (w : World) (a : Nat) (v : Int) : World :=
  { w with nodes := fun b => if b = a then { w.nodes a with key := v } else w.nodes b }

/-- Store `a->data = v`. -/
def World.set_data (w : World) (a : Nat) (v : Nat) : World :=
  { w with nodes := fun b => if b = a then { w.nodes a with data := v } else w.nodes b }

/-- Store `a->parent = v`. -/
def World.set_parent (w : World) (a : Nat) (v : Option Nat) : World :=
  { w with nodes := fun b => if b = a then { w.nodes a with parent := v } else w.nodes b }

/-- Store `a->child = v`. -/
def World.set_child (w : World) (a : Nat) (v : Option Nat) : World :=
  { w with nodes := fun b => if b = a then { w.nodes a with child := v } else w.nodes b }

/-- Store `a->left = v`. -/
def World.set_left (w : World) (a : Nat) (v : Nat) : World :=
  { w with nodes := fun b => if b = a then { w.nodes a with left := v } else w.nodes b }

/-- Store `a->right = v`. -/
def World.set_right (w : World) (a : Nat) (v : Nat) : World :=
  { w with nodes := fun b => if b = a then { w.nodes a with right := v } else w.nodes b }

/-- Store `a->degree = v`. -/
def World.set_degree (w : World) (a : Nat) (v : Int) : World :=
  { w with nodes := fun b => if b = a then { w.nodes a with degree := v } else w.nodes b }

/-- Store `a->marked = v`. -/
def World.set_marked (w : World) (a : Nat) (v : Bool) : World :=
  { w with nodes := fun b => if b = a then { w.nodes a with marked := v } else w.nodes b }

/-- Store `h->min_node = v`. -/
def World.set_min_node (w : World) (h : Nat) (v : Option Nat) : World :=
  { w with heaps := fun g => if g = h then { w.heaps h with min_node := v } else w.heaps g }

/-- Store `h->node_count = v`. -/
def World.set_node_count (w : World) (h : Nat) (v : Nat) : World :=
  { w with heaps := fun g => if g = h then { w.heaps h with node_count := v } else w.heaps g }

/-! ## The operations of `fibonacci_heap.c` -/

/-- Function `fib_heap_create`. -/
def fib_heap_create (w : World) : World × Option Nat :=
  let heap := w.next_heap
  let w := { w with next_heap := w.next_heap + 1 }
  let w := w.set_min_node heap none
  let w := w.set_node_count heap 0
  (w, some heap)

/-- Function `fib_heap_insert`. -/
def fib_heap_insert (w : World) (heap : Option Nat) (key : Int) (data : Nat) :
    World × Option Nat :=
  match heap with
  | none => (w, none)
  | some heap =>
    let new_node := w.next_node
    let w := { w with next_node := w.next_node + 1 }
    let w := w.set_key new_node key
    let w := w.set_data new_node data
    let w := w.set_parent new_node none
    let w := w.set_child new_node none
    let w := w.set_degree new_node 0
    let w := w.set_marked new_node false
    let w :=
      match (w.heaps heap).min_node with
      | none =>
        let w := w.set_right new_node new_node
        let w := w.set_left new_node new_node
        w.set_min_node heap (some new_node)
      | some min_node =>
        let w := w.set_right new_node ((w.nodes min_node).right)
        let w := w.set_left new_node min_node
        let w := w.set_left (w.nodes min_node).right new_node
        let w := w.set_right min_node new_node
        if key < (w.nodes min_node).key then
          w.set_min_node heap (some new_node)
        else w
    let w := w.set_node_count heap ((w.heaps heap).node_count + 1)
    (w, some new_node)

/-- Function `fib_heap_minimum`. -/
def fib_heap_minimum (w : World) (heap : Option Nat) : Option Nat :=
  match heap with
  | none => none
  | some heap => (w.heaps heap).min_node

/-- Function `fib_node_add_to_root_list`. -/
def fib_node_add_to_root_list (w : World) (heap : Nat) (node : Nat) : World :=
  match (w.heaps heap).min_node with
  | none =>
    let w := w.set_min_node heap (some node)
    let w := w.set_right node node
    w.set_left node node
  | some min_node =>
    let w := w.set_right node ((w.nodes min_node).right)
    let w := w.set_left node min_node
    let w := w.set_left (w.nodes min_node).right node
    w.set_right min_node node

/-- Function `fib_node_remove_from_list`. -/
def fib_node_remove_from_list (w : World) (node : Nat) : World :=
  let w := w.set_right (w.nodes node).left ((w.nodes node).right)
  w.set_left (w.nodes node).right ((w.nodes node).left)

/-- Function `fib_node_link`. -/
def fib_node_link (w : World) (child : Nat) (parent : Nat) : World :=
  let w := fib_node_remove_from_list w child
  let w := w.set_parent child (some parent)
  let w :=
    match (w.nodes parent).child with
    | none =>
      let w := w.set_child parent (some child)
      let w := w.set_right child child
      w.set_left child child
    | some pc =>
      let w := w.set_right child ((w.nodes pc).right)
      let w := w.set_left child pc
      let w := w.set_left (w.nodes pc).right child
      w.set_right pc child
  let w := w.set_degree parent ((w.nodes parent).degree + 1)
  w.set_marked child false

/-- Test `phi ^ k ≤ n` for the golden ratio `phi`, on the pair `(a, b)` with
`phi ^ k = (a + b * sqrt 5) / 2` (Lucas and Fibonacci numbers). -/
def phi_pow_le (a b : Nat) (n : Nat) : Bool :=
  decide (a ≤ 2 * n) && decide (5 * b * b ≤ (2 * n - a) * (2 * n - a))

/-- Largest `k` (from `k` upwards, at most `fuel` more) with `phi ^ k ≤ n`, where
`(a, b)` represents `phi ^ k`. -/
def floor_log_phi_from : Nat → Nat → Nat → Nat → Nat → Nat
  | 0, _, _, k, _ => k
  | fuel + 1, a, b, k, n =>
    let a1 := (a + 5 * b) / 2
    let b1 := (a + b) / 2
    if phi_pow_le a1 b1 n then floor_log_phi_from fuel a1 b1 (k + 1) n else k

/-- Value `floor(log(n) / log(GOLDEN_RATIO))` for `n ≥ 1`, computed exactly. -/
def floor_log_phi (n : Nat) : Nat := floor_log_phi_from n 2 0 0 n

/-- Function `fib_heap_calculate_max_degree`. -/
def fib_heap_calculate_max_degree (node_count : Nat) : Nat :=
  if node_count = 0 then 0 else floor_log_phi node_count + 1

/-- First loop of `fib_heap_consolidate`: copy the root ring into `root_list`.
The first argument is the number of free slots left in `root_list` (an array of
`node_count` entries); with no slot left the store is out of bounds. -/
def consolidate_collect : Nat → World → Nat → Nat → List Nat → Option (List Nat)
  | 0, _, _, _, _ => none
  | slots + 1, w, heap, current, root_list =>
    let root_list := root_list ++ [current]
    let current := (w.nodes current).right
    if some current ≠ (w.heaps heap).min_node then
      consolidate_collect slots w heap current root_list
    else some root_list

/-- Inner `while (degree_table[d])` loop of `fib_heap_consolidate`.  The first argument
is the number of table slots at index `d` and above; with none left the access
`degree_table[d]` is out of bounds. -/
def consolidate_link_while :
    Nat → World → List (Option Nat) → Nat → Nat → Option (World × List (Option Nat) × Nat × Nat)
  | 0, _, _, _, _ => none
  | slots + 1, w, degree_table, x, d =>
    match degree_table[d]? with
    | none => none
    | some none => some (w, degree_table, x, d)
    | some (some y) =>
      let xy := if (w.nodes x).key > (w.nodes y).key then (y, x) else (x, y)
      let w := fib_node_link w xy.2 xy.1
      let degree_table := degree_table.set d none
      consolidate_link_while slots w degree_table xy.1 (d + 1)

/-- Second loop of `fib_heap_consolidate`: process each root of the snapshot. -/
def consolidate_process :
    World → List (Option Nat) → List Nat → Option (World × List (Option Nat))
  | w, degree_table, [] => some (w, degree_table)
  | w, degree_table, x :: root_list =>
    let d := (w.nodes x).degree
    if d < 0 then none
    else
      match consolidate_link_while (degree_table.length - d.toNat) w degree_table x d.toNat with
      | none => none
      | some (w, degree_table, x, d) =>
        consolidate_process w (degree_table.set d (some x)) root_list

/-- Third loop of `fib_heap_consolidate`: rebuild the root ring from the table. -/
def consolidate_rebuild : World → Nat → List (Option Nat) → World
  | w, _, [] => w
  | w, heap, none :: degree_table => consolidate_rebuild w heap degree_table
  | w, heap, some t :: degree_table =>
    let w :=
      match (w.heaps heap).min_node with
      | none =>
        let w := w.set_min_node heap (some t)
        let w := w.set_right t t
        w.set_left t t
      | some min_node =>
        let w := fib_node_add_to_root_list w heap t
        if (w.nodes t).key < (w.nodes min_node).key then
          w.set_min_node heap (some t)
        else w
    consolidate_rebuild w heap degree_table

/-- Function `fib_heap_consolidate`. -/
def fib_heap_consolidate (w : World) (heap : Nat) : Option World :=
  let max_degree := fib_heap_calculate_max_degree (w.heaps heap).node_count
  let degree_table : List (Option Nat) := List.replicate (max_degree + 1) none
  let root_list : Option (List Nat) :=
    match (w.heaps heap).min_node with
    | none => some []
    | some current => consolidate_collect (w.heaps heap).node_count w heap current []
  match root_list with
  | none => none
  | some root_list =>
    match consolidate_process w degree_table root_list with
    | none => none
    | some (w, degree_table) =>
      let w := w.set_min_node heap none
      some (consolidate_rebuild w heap degree_table)

/-- The `do ... while (child != z->child)` loop of `fib_heap_extract_min`. -/
def extract_promote : Nat → World → Nat → Nat → Nat → Option World
  | 0, _, _, _, _ => none
  | fuel + 1, w, heap, z, child =>
    let next_child := (w.nodes child).right
    let w := w.set_parent child none
    let w := fib_node_add_to_root_list w heap child
    let child := next_child
    if some child ≠ (w.nodes z).child then extract_promote fuel w heap z child
    else some w

/-- Function `fib_heap_extract_min`. -/
def fib_heap_extract_min (fuel : Nat) (w : World) (heap : Option Nat) :
    Option (World × Option Nat) :=
  match heap with
  | none => some (w, none)
  | some heap =>
    match (w.heaps heap).min_node with
    | none => some (w, none)
    | some z =>
      let promoted : Option World :=
        match (w.nodes z).child with
        | none => some w
        | some child => extract_promote fuel w heap z child
      match promoted with
      | none => none
      | some w =>
        let w := fib_node_remove_from_list w z
        let consolidated : Option World :=
          if z = (w.nodes z).right then
            some (w.set_min_node heap none)
          else
            fib_heap_consolidate
              (w.set_min_node heap (some (w.nodes z).right)) heap
        match consolidated with
        | none => none
        | some w =>
          let w := w.set_node_count heap
            (if (w.heaps heap).node_count = 0 then SIZE_MAX else (w.heaps heap).node_count - 1)
          some (w, some z)

/-- Function `fib_heap_cut`. -/
def fib_heap_cut (w : World) (heap : Nat) (x : Nat) (y : Nat) : World :=
  let w :=
    if (w.nodes y).child = some x then
      if (w.nodes x).right = x then w.set_child y none
      else w.set_child y (some (w.nodes x).right)
    else w
  let w := fib_node_remove_from_list w x
  let w := w.set_degree y ((w.nodes y).degree - 1)
  let w := fib_node_add_to_root_list w heap x
  let w := w.set_parent x none
  w.set_marked x false

/-- Function `fib_heap_cascading_cut`; `fuel` bounds the recursion depth. -/
def fib_heap_cascading_cut : Nat → World → Nat → Nat → Option World
  | 0, _, _, _ => none
  | fuel + 1, w, heap, y =>
    match (w.nodes y).parent with
    | none => some w
    | some z =>
      if (w.nodes y).marked = false then
        some (w.set_marked y true)
      else
        fib_heap_cascading_cut fuel (fib_heap_cut w heap y z) heap z

/-- Function `fib_heap_decrease_key`. -/
def fib_heap_decrease_key (fuel : Nat) (w : World) (heap : Option Nat) (node : Option Nat)
    (new_key : Int) : Option (World × fib_heap_error_t) :=
  match heap, node with
  | none, _ => some (w, FIB_HEAP_ERROR_NULL_POINTER)
  | some _, none => some (w, FIB_HEAP_ERROR_NULL_POINTER)
  | some heap, some node =>
    if new_key > (w.nodes node).key then some (w, FIB_HEAP_ERROR_INVALID_KEY)
    else
      let w := w.set_key node new_key
      let restructured : Option World :=
        match (w.nodes node).parent with
        | none => some w
        | some y =>
          if (w.nodes node).key < (w.nodes y).key then
            fib_heap_cascading_cut fuel (fib_heap_cut w heap node y) heap y
          else some w
      match restructured with
      | none => none
      | some w =>
        match (w.heaps heap).min_node with
        | none => none
        | some min_node =>
          let w :=
            if (w.nodes node).key < (w.nodes min_node).key then
              w.set_min_node heap (some node)
            else w
          some (w, FIB_HEAP_SUCCESS)

/-- Function `fib_heap_delete_node`. -/
def fib_heap_delete_node (fuel : Nat) (w : World) (heap : Option Nat) (node : Option Nat) :
    Option (World × fib_heap_error_t) :=
  match heap, node with
  | none, _ => some (w, FIB_HEAP_ERROR_NULL_POINTER)
  | some _, none => some (w, FIB_HEAP_ERROR_NULL_POINTER)
  | some heap, some node =>
    match fib_heap_decrease_key fuel w (some heap) (some node) INT_MIN with
    | none => none
    | some (w, result) =>
      if result ≠ FIB_HEAP_SUCCESS then some (w, result)
      else
        match fib_heap_extract_min fuel w (some heap) with
        | none => none
        | some (w, extracted) =>
          if extracted ≠ some node then some (w, FIB_HEAP_ERROR_HEAP_CORRUPTION)
          else some (w, FIB_HEAP_SUCCESS)

/-- Function `fib_heap_union`. -/
def fib_heap_union (w : World) (heap1 : Option Nat) (heap2 : Option Nat) :
    World × fib_heap_error_t :=
  match heap1, heap2 with
  | none, _ => (w, FIB_HEAP_ERROR_NULL_POINTER)
  | some _, none => (w, FIB_HEAP_ERROR_NULL_POINTER)
  | some heap1, some heap2 =>
    match (w.heaps heap2).min_node with
    | none => (w, FIB_HEAP_SUCCESS)
    | some min2 =>
      let w :=
        match (w.heaps heap1).min_node with
        | none =>
          let w := w.set_min_node heap1 ((w.heaps heap2).min_node)
          w.set_node_count heap1 ((w.heaps heap2).node_count)
        | some min1 =>
          let h1_last := (w.nodes min1).left
          let h2_last := (w.nodes min2).left
          let w := w.set_right h1_last min2
          let w := w.set_left min2 h1_last
          let w := w.set_right h2_last min1
          let w := w.set_left min1 h2_last
          let w :=
            if (w.nodes min2).key < (w.nodes min1).key then
              w.set_min_node heap1 ((w.heaps heap2).min_node)
            else w
          w.set_node_count heap1 ((w.heaps heap1).node_count + (w.heaps heap2).node_count)
      let w := w.set_min_node heap2 none
      let w := w.set_node_count heap2 0
      (w, FIB_HEAP_SUCCESS)

/-- Function `fib_heap_empty`. -/
def fib_heap_empty (w : World) (heap : Option Nat) : Bool :=
  match heap with
  | none => true
  | some heap => decide ((w.heaps heap).node_count = 0)

/-- Function `fib_heap_size`. -/
def fib_heap_size (w : World) (heap : Option Nat) : Nat :=
  match heap with
  | none => 0
  | some heap => (w.heaps heap).node_count

/-- Function `fib_node_get_key`. -/
def fib_node_get_key (w : World) (node : Option Nat) : Int :=
  match node with
  | none => INT_MAX
  | some node => (w.nodes node).key

/-- Function `fib_node_get_data`; `none` is the `NULL` result. -/
def fib_node_get_data (w : World) (node : Option Nat) : Option Nat :=
  match node with
  | none => none
  | some node => some (w.nodes node).data

/-- Function `fib_node_is_root`. -/
def fib_node_is_root (w : World) (node : Option Nat) : Bool :=
  match node with
  | none => false
  | some node => decide ((w.nodes node).parent = none)

/-- Record `fib_heap_statistics_t`.  The field `average_degree`, a `double` in the C code,
holds the exact quotient. -/
structure fib_heap_statistics_t where
  total_nodes : Nat
  marked_nodes : Nat
  root_nodes : Nat
  max_degree : Int
  tree_count : Int
  average_degree : Rat
  deriving DecidableEq

/-- The `do ... while` loop of `fib_heap_get_statistics` over the root ring, from `current`
on; the triple holds `stats.root_nodes`, `max_degree` and `total_degree`. -/
def statistics_loop : Nat → World → Nat → Nat → Nat × Int × Int → Option (Nat × Int × Int)
  | 0, _, _, _, _ => none
  | fuel + 1, w, first, current, (root_nodes, max_degree, total_degree) =>
    let root_nodes := root_nodes + 1
    let max_degree :=
      if (w.nodes current).degree > max_degree then (w.nodes current).degree else max_degree
    let total_degree := total_degree + (w.nodes current).degree
    let current := (w.nodes current).right
    if current ≠ first then
      statistics_loop fuel w first current (root_nodes, max_degree, total_degree)
    else some (root_nodes, max_degree, total_degree)

/-- Function `fib_heap_get_statistics`; the field `marked_nodes` is never assigned and keeps
the zero of the initializer. -/
def fib_heap_get_statistics (fuel : Nat) (w : World) (heap : Option Nat) :
    Option fib_heap_statistics_t :=
  let stats : fib_heap_statistics_t :=
    { total_nodes := 0, marked_nodes := 0, root_nodes := 0, max_degree := 0, tree_count := 0,
      average_degree := 0 }
  match heap with
  | none => some stats
  | some heap =>
    match (w.heaps heap).min_node with
    | none => some stats
    | some min_node =>
      let total_nodes := (w.heaps heap).node_count
      match statistics_loop fuel w min_node min_node (0, 0, 0) with
      | none => none
      | some (root_nodes, max_degree, total_degree) =>
        some
          { total_nodes := total_nodes
            marked_nodes := 0
            root_nodes := root_nodes
            max_degree := max_degree
            tree_count := (root_nodes : Int)
            average_degree :=
              if total_nodes > 0 then (total_degree : Rat) / (total_nodes : Rat) else 0 }

end FibHeap


namespace FibHeap

/-! ## Representation invariant -/

/-- Node memory. -/
abbrev Mem := Nat → fib_node

/-- Nodes `a`, `b` are neighbours: `a->right == b` and `b->left == a`. -/
def Lnk (m : Mem) (a b : Nat) : Prop := (m a).right = b ∧ (m b).left = a

/-- The list `l` is a sibling ring, listed in `right` order from any of its members. -/
def Ring (m : Mem) (l : List Nat) : Prop :=
  List.Chain' (Lnk m) l ∧ ∀ x ∈ l.getLast?, ∀ y ∈ l.head?, Lnk m x y

/-- Degree of `x`, plus one if `x` is marked, plus one if `x` is the node that has just
lost a child and waits for its cascading cut. -/
def dval (m : Mem) (defect : Option Nat) (x : Nat) : Nat :=
  (m x).degree.toNat + (if (m x).marked = true then 1 else 0) + (if defect = some x then 1 else 0)

/-- The nodes `S` form a forest in memory `m`: `K none` lists the root ring and
`K (some p)` the child ring of `p`. -/
structure Forest (m : Mem) (S : List Nat) (K : Option Nat → List Nat) (defect : Option Nat) :
    Prop where
  S_nodup : S.Nodup
  K_nodup : ∀ q, (K q).Nodup
  K_ring : ∀ q, Ring m (K q)
  K_mem : ∀ q x, x ∈ K q ↔ x ∈ S ∧ (m x).parent = q
  parent_mem : ∀ x ∈ S, ∀ p, (m x).parent = some p → p ∈ S
  child_eq : ∀ p ∈ S, (m p).child = (K (some p)).head?
  degree_eq : ∀ p ∈ S, (m p).degree = ((K (some p)).length : Int)
  order : ∀ x ∈ S, ∀ p, (m x).parent = some p → (m p).key ≤ (m x).key
  rank : ∃ rk : Nat → Nat, ∀ x ∈ S, ∀ p, (m x).parent = some p → rk x < rk p
  hall : ∀ p ∈ S, ∀ t : Nat,
    ((K (some p)).filter (fun x => decide (dval m defect x < t))).length ≤ t
  key_ge : ∀ x ∈ S, INT_MIN ≤ (m x).key

/-- The heap record `H` owns exactly the nodes `S`, which form a forest whose root ring
starts at `min_node`, a node of least key. -/
def HeapInv (m : Mem) (H : fib_heap) (S : List Nat) : Prop :=
  ∃ K, Forest m S K none ∧ H.min_node = (K none).head? ∧ H.node_count = S.length ∧
    ∀ z, H.min_node = some z → ∀ x ∈ S, (m z).key ≤ (m x).key

/-- The postcondition shared by the restructuring steps on heap `h`: the forest is intact,
the root ring still starts at `a`, and nothing else moved. -/
def Restructured (w w' : World) (S : List Nat) (a : Nat) : Prop :=
  (∃ K', Forest w'.nodes S K' none ∧ (K' none).head? = some a) ∧
  w'.heaps = w.heaps ∧ w'.next_node = w.next_node ∧ w'.next_heap = w.next_heap ∧
  (∀ u, (w'.nodes u).key = (w.nodes u).key ∧ (w'.nodes u).data = (w.nodes u).data) ∧
  (∀ u, u ∉ S → w'.nodes u = w.nodes u) ∧
  (∀ u, (w.nodes u).parent = none → (w'.nodes u).parent = none)

/-- Loop invariant of the child-promotion loop of `fib_heap_extract_min`: the children
`done` of `z` have been moved into the root ring `z :: t` of the starting state `w0`. -/
structure PromoteInv (w0 w : World) (z : Nat) (t cs done : List Nat) : Prop where
  heaps : w.heaps = w0.heaps
  next_node : w.next_node = w0.next_node
  next_heap : w.next_heap = w0.next_heap
  ring : Ring w.nodes (z :: (done.reverse ++ t))
  parent : ∀ u, (w.nodes u).parent = if u ∈ done then none else (w0.nodes u).parent
  fields : ∀ u, (w.nodes u).key = (w0.nodes u).key ∧ (w.nodes u).data = (w0.nodes u).data ∧
    (w.nodes u).child = (w0.nodes u).child ∧ (w.nodes u).degree = (w0.nodes u).degree ∧
    (w.nodes u).marked = (w0.nodes u).marked
  right_todo : ∀ u, u ∈ cs → u ∉ done → (w.nodes u).right = (w0.nodes u).right
  frame : ∀ u, u ∉ z :: t → u ∉ cs → w.nodes u = w0.nodes u

/-- The child ring of `x` after `y` has been spliced in behind its first member. -/
def link_ring (l : List Nat) (y : Nat) : List Nat :=
  match l with
  | [] => [y]
  | c :: rest => c :: y :: rest

/-- Ancestor-or-self relation of a memory. -/
def Anc (m : Mem) (a b : Nat) : Prop :=
  Relation.ReflTransGen (fun p c => (m c).parent = some p) a b

/-- The degree table `T` of `fib_heap_consolidate`, with the roots `pending` still to be
processed (the first of them being the one in hand). -/
structure TableInv (m : Mem) (K : Option Nat → List Nat) (T : List (Option Nat))
    (pending : List Nat) : Prop where
  entry : ∀ (i : Nat) (y : Nat), T[i]? = some (some y) →
    y ∈ K none ∧ (m y).degree = (i : Int) ∧ y ∉ pending
  cover : ∀ y ∈ K none, y ∈ pending ∨ ∃ i : Nat, T[i]? = some (some y)
  pending_nodup : pending.Nodup
  pending_root : ∀ y ∈ pending, y ∈ K none

/-- The step from `w` to `w'` only re-linked nodes of `S`: heap records, allocation counters,
keys, payloads and all other nodes are as before. -/
def Reshaped (w w' : World) (S : List Nat) : Prop :=
  w'.heaps = w.heaps ∧ w'.next_node = w.next_node ∧ w'.next_heap = w.next_heap ∧
  (∀ u, (w'.nodes u).key = (w.nodes u).key ∧ (w'.nodes u).data = (w.nodes u).data) ∧
  (∀ u, u ∉ S → w'.nodes u = w.nodes u)

/-- Loop invariant of the rebuilding loop of `fib_heap_consolidate`: the table entries `P`
seen so far form the new root ring of heap `h`, headed by one of least key. -/
structure RebInv (w0 w : World) (h : Nat) (P : List Nat) : Prop where
  heaps_ne : ∀ g, g ≠ h → w.heaps g = w0.heaps g
  count : (w.heaps h).node_count = (w0.heaps h).node_count
  next_node : w.next_node = w0.next_node
  next_heap : w.next_heap = w0.next_heap
  fields : ∀ u, (w.nodes u).key = (w0.nodes u).key ∧ (w.nodes u).data = (w0.nodes u).data ∧
    (w.nodes u).parent = (w0.nodes u).parent ∧ (w.nodes u).child = (w0.nodes u).child ∧
    (w.nodes u).degree = (w0.nodes u).degree ∧ (w.nodes u).marked = (w0.nodes u).marked
  frame : ∀ u, u ∉ P → w.nodes u = w0.nodes u
  ring : ∃ Rg : List Nat, Rg.Perm P ∧ Ring w.nodes Rg ∧ (w.heaps h).min_node = Rg.head? ∧
    ∀ mn, (w.heaps h).min_node = some mn → ∀ p ∈ P, (w.nodes mn).key ≤ (w.nodes p).key

/-- The node that `fib_heap_delete_node` on `x` takes out of a heap whose minimum is `a`. -/
def delete_victim (w : World) (x a : Nat) : Nat :=
  if INT_MIN < (w.nodes a).key then x else a

/-- What a successful `fib_heap_decrease_key` on node `x` of heap `h` achieves. -/
def DecreasePost (w w' : World) (h x : Nat) (k : Int) (S : List Nat) : Prop :=
  HeapInv w'.nodes (w'.heaps h) S ∧
  (∀ g, g ≠ h → w'.heaps g = w.heaps g) ∧
  w'.next_node = w.next_node ∧ w'.next_heap = w.next_heap ∧
  (∀ u, (w'.nodes u).key = if u = x then k else (w.nodes u).key) ∧
  (∀ u, (w'.nodes u).data = (w.nodes u).data) ∧
  (∀ u, u ∉ S → w'.nodes u = w.nodes u) ∧
  (∀ a, (w.heaps h).min_node = some a →
    (w'.heaps h).min_node = if k < (w.nodes a).key then some x else some a)

/-- From `w` to `w'` marks were only cleared and parent links only set: a node that is
marked in `w'` was marked in `w`, and a node without parent in `w'` had none in `w`. -/
def MarksCleared (w w' : World) : Prop :=
  ∀ u, ((w'.nodes u).marked = true → (w.nodes u).marked = true) ∧
    ((w'.nodes u).parent = none → (w.nodes u).parent = none)

/-- From `w` to `w'` no root became marked: a node that is without parent and marked in `w'`
was so in `w`, and a parent link of `w'` is a parent link of `w`. -/
def RootMarksKept (w w' : World) : Prop :=
  ∀ u, ((w'.nodes u).parent = none → (w'.nodes u).marked = true →
      (w.nodes u).parent = none ∧ (w.nodes u).marked = true) ∧
    (∀ p, (w'.nodes u).parent = some p → (w.nodes u).parent = some p)

end FibHeap


namespace FibHeap

/-! ## Executions: sequences of well-formed calls -/

/-- A call of the public interface. -/
inductive Op where
  | create
  | insert (h : Nat) (key : Int) (data : Nat)
  | extract_min (h : Nat)
  | decrease_key (h : Nat) (x : Nat) (k : Int)
  | delete_node (h : Nat) (x : Nat)
  | union (h1 : Nat) (h2 : Nat)

/-- Bookkeeping of an execution: the live handles of every heap; for every heap the
numbers of inserts, of `extract_min` calls that returned a node, of deletes and of unions
it took part in; and for every handle the payload given to the insert that created it and
the key given by that insert or by the last successful `fib_heap_decrease_key` on it
(`fib_heap_delete_node` calls `fib_heap_decrease_key` with `INT_MIN`). -/
structure Ghost where
  live : Nat → List Nat
  inserts : Nat → Nat
  extracts : Nat → Nat
  deletes : Nat → Nat
  unions : Nat → Nat
  payload : Nat → Nat
  given_key : Nat → Int

/-- Bookkeeping before any call. -/
def Ghost.init : Ghost :=
  { live := fun _ => [], inserts := fun _ => 0, extracts := fun _ => 0, deletes := fun _ => 0,
    unions := fun _ => 0, payload := fun _ => 0, given_key := fun _ => 0 }

/-- Function update on the bookkeeping maps. -/
def bump {α : Type} (f : Nat → α) (h : Nat) (v : α) : Nat → α :=
  fun g => if g = h then v else f g

/-- One well-formed call: the heap exists, handles are live handles of that heap, keys are
values of the C type `int`, and the two heaps of a union are distinct.  The result is `none`
when the call is not well-formed or the C function does not return within as many loop
rounds as the heap has nodes.  A delete that reports
`FIB_HEAP_ERROR_HEAP_CORRUPTION` has taken the former minimum out of the heap instead of
its argument. -/
def step (s : World × Ghost) : Op → Option (World × Ghost)
  | Op.create => some ((fib_heap_create s.1).1, s.2)
  | Op.insert h key data =>
    if h < s.1.next_heap ∧ INT_MIN ≤ key ∧ key ≤ INT_MAX then
      some ((fib_heap_insert s.1 (some h) key data).1,
        { s.2 with
          live := bump s.2.live h (s.1.next_node :: s.2.live h)
          inserts := bump s.2.inserts h (s.2.inserts h + 1)
          payload := bump s.2.payload s.1.next_node data
          given_key := bump s.2.given_key s.1.next_node key })
    else none
  | Op.extract_min h =>
    if h < s.1.next_heap then
      match fib_heap_extract_min (fib_heap_size s.1 (some h)) s.1 (some h) with
      | none => none
      | some (w, none) => some (w, s.2)
      | some (w, some z) =>
        some (w,
          { s.2 with
            live := bump s.2.live h ((s.2.live h).erase z)
            extracts := bump s.2.extracts h (s.2.extracts h + 1) })
    else none
  | Op.decrease_key h x k =>
    if h < s.1.next_heap ∧ x ∈ s.2.live h ∧ INT_MIN ≤ k ∧ k ≤ INT_MAX then
      match fib_heap_decrease_key (fib_heap_size s.1 (some h)) s.1 (some h) (some x) k with
      | none => none
      | some (w, e) =>
        some (w,
          if e = fib_heap_error_t.FIB_HEAP_SUCCESS then
            { s.2 with given_key := bump s.2.given_key x k }
          else s.2)
    else none
  | Op.delete_node h x =>
    if h < s.1.next_heap ∧ x ∈ s.2.live h then
      match fib_heap_delete_node (fib_heap_size s.1 (some h)) s.1 (some h) (some x) with
      | none => none
      | some (w, e) =>
        some (w,
          { s.2 with
            live := bump s.2.live h
              ((s.2.live h).erase
                (if e = fib_heap_error_t.FIB_HEAP_SUCCESS then x
                  else (fib_heap_minimum s.1 (some h)).getD x))
            deletes := bump s.2.deletes h (s.2.deletes h + 1)
            given_key := bump s.2.given_key x INT_MIN })
    else none
  | Op.union h1 h2 =>
    if h1 < s.1.next_heap ∧ h2 < s.1.next_heap ∧ h1 ≠ h2 then
      some ((fib_heap_union s.1 (some h1) (some h2)).1,
        { s.2 with
          live := bump (bump s.2.live h1 (s.2.live h1 ++ s.2.live h2)) h2 []
          unions := bump (bump s.2.unions h1 (s.2.unions h1 + 1)) h2 (s.2.unions h2 + 1) })
    else none

/-- A sequence of calls. -/
def run : List Op → World × Ghost → Option (World × Ghost)
  | [], s => some s
  | op :: ops, s =>
    match step s op with
    | none => none
    | some s' => run ops s'

/-- The states reached from the initial state by well-formed calls. -/
def Reachable (w : World) (g : Ghost) : Prop :=
  ∃ ops, run ops (World.init, Ghost.init) = some (w, g)

/-! ## Client loops and traversal -/

/-- The insertion loop of the tests: the pairs are inserted one by one, first to last. -/
def insert_all (w : World) (h : Nat) : List (Int × Nat) → World
  | [] => w
  | kv :: rest => insert_all (fib_heap_insert w (some h) kv.1 kv.2).1 h rest

/-- The extraction loop of the tests: `n` calls of `fib_heap_extract_min`, each of which
has to return a node; the key and the payload are read from the returned node right after
its call.  The result is `none` when a call returns `NULL` or does not return. -/
def extract_times (fuel : Nat) : Nat → World → Nat → Option (World × List (Int × Nat))
  | 0, w, _ => some (w, [])
  | n + 1, w, h =>
    match fib_heap_extract_min fuel w (some h) with
    | some (w1, some z) =>
      match extract_times fuel n w1 h with
      | some (w2, out) => some (w2, ((w1.nodes z).key, (w1.nodes z).data) :: out)
      | none => none
    | _ => none

mutual

/-- Function `fib_node_destroy_recursive`; the result lists the nodes in the order in which
they are freed. -/
def fib_node_destroy_recursive : Nat → World → Option Nat → Option (List Nat)
  | 0, _, _ => none
  | _ + 1, _, none => some []
  | fuel + 1, w, some node =>
    match (w.nodes node).child with
    | none => some [node]
    | some child =>
      match destroy_ring fuel w child child with
      | none => none
      | some l => some (l ++ [node])

/-- The `do ... while` loop shared by `fib_node_destroy_recursive` and `fib_heap_destroy`:
`current` and the nodes to its right are destroyed until the walk is back at `first`. -/
def destroy_ring : Nat → World → Nat → Nat → Option (List Nat)
  | 0, _, _, _ => none
  | fuel + 1, w, first, current =>
    let next := (w.nodes current).right
    match fib_node_destroy_recursive fuel w (some current) with
    | none => none
    | some l =>
      if next = first then some l
      else
        match destroy_ring fuel w first next with
        | none => none
        | some l2 => some (l ++ l2)

end

/-- Function `fib_heap_destroy`, as a traversal: the result lists the nodes it frees. -/
def fib_heap_destroy (fuel : Nat) (w : World) (heap : Option Nat) : Option (List Nat) :=
  match heap with
  | none => some []
  | some heap =>
    match (w.heaps heap).min_node with
    | none => some []
    | some first => destroy_ring fuel w first first

/-- The walk `do { ...; current = current->right; } while (current != first)` by which the
code enumerates a sibling ring (the root ring in `fib_heap_get_statistics`, a child ring in
`fib_node_destroy_recursive`): the nodes visited, in order. -/
def sibling_ring : Nat → World → Nat → Nat → Option (List Nat)
  | 0, _, _, _ => none
  | fuel + 1, w, first, current =>
    let next := (w.nodes current).right
    if next = first then some [current]
    else
      match sibling_ring fuel w first next with
      | none => none
      | some l => some (current :: l)

/-- Test on the outcome of a run: heap `h` has the minimum `a`, the right neighbour of `a`
is `r`, and `r` is a live handle of `h` that has no parent and is marked. -/
def marked_root_after (o : Option (World × Ghost)) (h a r : Nat) : Bool :=
  match o with
  | none => false
  | some s =>
    decide (fib_heap_minimum s.1 (some h) = some a) && decide ((s.1.nodes a).right = r) &&
      decide (r ∈ s.2.live h) && fib_node_is_root s.1 (some r) && (s.1.nodes r).marked

/-- The indices at which the loop `while (degree_table[d])` of `fib_heap_consolidate` reads
the table, first to last, for the arguments of `consolidate_link_while`.  The store
`degree_table[d] = NULL` of a round is at the index just read, and the store
`degree_table[d] = x` after the loop is at the last index read. -/
def consolidate_link_while_indices :
    Nat → World → List (Option Nat) → Nat → Nat → List Nat
  | 0, _, _, _, d => [d]
  | slots + 1, w, degree_table, x, d =>
    match degree_table[d]? with
    | none => [d]
    | some none => [d]
    | some (some y) =>
      let xy := if (w.nodes x).key > (w.nodes y).key then (y, x) else (x, y)
      let w := fib_node_link w xy.2 xy.1
      let degree_table := degree_table.set d none
      d :: consolidate_link_while_indices slots w degree_table xy.1 (d + 1)

/-- The indices at which the second loop of `fib_heap_consolidate` reads or writes
`degree_table`, for the arguments of `consolidate_process`; the list ends where the C code
leaves the bounds of the table. -/
def consolidate_process_indices : World → List (Option Nat) → List Nat → List Int
  | _, _, [] => []
  | w, degree_table, x :: root_list =>
    let d := (w.nodes x).degree
    if d < 0 then [d]
    else
      (consolidate_link_while_indices (degree_table.length - d.toNat) w degree_table x
          d.toNat).map Int.ofNat ++
        match consolidate_link_while (degree_table.length - d.toNat) w degree_table x
            d.toNat with
        | none => []
        | some (w, degree_table, x, d) =>
          consolidate_process_indices w (degree_table.set d (some x)) root_list

/-- The number of parent links between a node and the root of its tree. -/
def node_depth : Nat → World → Nat → Nat
  | 0, _, _ => 0
  | fuel + 1, w, x =>
    match (w.nodes x).parent with
    | none => 0
    | some p => node_depth fuel w p + 1

/-- Test on the outcome of a run: heap `h` has `n` nodes and the minimum `z`, whose key is
`k`. -/
def minimum_after (o : Option (World × Ghost)) (h z : Nat) (k : Int) (n : Nat) : Bool :=
  match o with
  | none => false
  | some s =>
    decide (fib_heap_minimum s.1 (some h) = some z) &&
      decide (fib_node_get_key s.1 (some z) = k) && decide (fib_heap_size s.1 (some h) = n)

/-- Test on the outcome of a run: `x` is a live handle of heap `h` whose parent `y` is a
root, `k` is below the key of `y`, and `fib_heap_decrease_key` of `x` to `k` succeeds and
leaves `y` a root that is marked. -/
def marked_parent_after (o : Option (World × Ghost)) (h x y : Nat) (k : Int) : Bool :=
  match o with
  | none => false
  | some s =>
    decide (x ∈ s.2.live h) && decide ((s.1.nodes x).parent = some y) &&
      fib_node_is_root s.1 (some y) && decide (k < fib_node_get_key s.1 (some y)) &&
      match fib_heap_decrease_key (fib_heap_size s.1 (some h)) s.1 (some h) (some x) k with
      | some (w', fib_heap_error_t.FIB_HEAP_SUCCESS) =>
        fib_node_is_root w' (some y) && (w'.nodes y).marked
      | _ => false

/-- The invariant of reachable states. -/
structure WInv (w : World) (L : Nat → List Nat) : Prop where
  heap : ∀ h, HeapInv w.nodes (w.heaps h) (L h)
  disj : ∀ h1 h2, h1 ≠ h2 → ∀ u, u ∈ L h1 → u ∉ L h2
  bound : ∀ h u, u ∈ L h → u < w.next_node
  unborn : ∀ h, w.next_heap ≤ h → L h = []

/-- What holds of every reachable state: the representation invariant, the balance of the
counters of a heap that took part in no union, and the agreement of the node fields with
the recorded payloads and keys. -/
structure RInv (s : World × Ghost) : Prop where
  winv : WInv s.1 s.2.live
  count : ∀ h, s.2.unions h = 0 →
    (s.2.live h).length + s.2.extracts h + s.2.deletes h = s.2.inserts h
  fields : ∀ h, ∀ u ∈ s.2.live h,
    (s.1.nodes u).data = s.2.payload u ∧ (s.1.nodes u).key = s.2.given_key u

end FibHeap


namespace FibHeap

/-! ## Reading memory after a store -/

@[simp] theorem set_key_key (w : World) (a b : Nat) (v) :
    ((w.set_key a v).nodes b).key = if b = a then v else (w.nodes b).key := by
  unfold World.set_key; by_cases h : b = a <;> simp [h]

@[simp] theorem set_key_data (w : World) (a b : Nat) (v) :
    ((w.set_key a v).nodes b).data = (w.nodes b).data := by
  unfold World.set_key; by_cases h : b = a <;> simp [h]

@[simp] theorem set_key_parent (w : World) (a b : Nat) (v) :
    ((w.set_key a v).nodes b).parent = (w.nodes b).parent := by
  unfold World.set_key; by_cases h : b = a <;> simp [h]

@[simp] theorem set_key_child (w : World) (a b : Nat) (v) :
    ((w.set_key a v).nodes b).child = (w.nodes b).child := by
  unfold World.set_key; by_cases h : b = a <;> simp [h]

@[simp] theorem set_key_left (w : World) (a b : Nat) (v) :
    ((w.set_key a v).nodes b).left = (w.nodes b).left := by
  unfold World.set_key; by_cases h : b = a <;> simp [h]

@[simp] theorem set_key_right (w : World) (a b : Nat) (v) :
    ((w.set_key a v).nodes b).right = (w.nodes b).right := by
  unfold World.set_key; by_cases h : b = a <;> simp [h]

@[simp] theorem set_key_degree (w : World) (a b : Nat) (v) :
    ((w.set_key a v).nodes b).degree = (w.nodes b).degree := by
  unfold World.set_key; by_cases h : b = a <;> simp [h]

@[simp] theorem set_key_marked (w : World) (a b : Nat) (v) :
    ((w.set_key a v).nodes b).marked = (w.nodes b).marked := by
  unfold World.set_key; by_cases h : b = a <;> simp [h]

theorem set_key_ne (w : World) (a b : Nat) (v) (h : b ≠ a) :
    (w.set_key a v).nodes b = w.nodes b := by
  unfold World.set_key; simp [h]

@[simp] theorem set_key_heaps (w : World) (a : Nat) (v) : (w.set_key a v).heaps = w.heaps := rfl

@[simp] theorem set_key_next_node (w : World) (a : Nat) (v) :
    (w.set_key a v).next_node = w.next_node := rfl

@[simp] theorem set_key_next_heap (w : World) (a : Nat) (v) :
    (w.set_key a v).next_heap = w.next_heap := rfl

@[simp] theorem set_data_key (w : World) (a b : Nat) (v) :
    ((w.set_data a v).nodes b).key = (w.nodes b).key := by
  unfold World.set_data; by_cases h : b = a <;> simp [h]

@[simp] theorem set_data_data (w : World) (a b : Nat) (v) :
    ((w.set_data a v).nodes b).data = if b = a then v else (w.nodes b).data := by
  unfold World.set_data; by_cases h : b = a <;> simp [h]

@[simp] theorem set_data_parent (w : World) (a b : Nat) (v) :
    ((w.set_data a v).nodes b).parent = (w.nodes b).parent := by
  unfold World.set_data; by_cases h : b = a <;> simp [h]

@[simp] theorem set_data_child (w : World) (a b : Nat) (v) :
    ((w.set_data a v).nodes b).child = (w.nodes b).child := by
  unfold World.set_data; by_cases h : b = a <;> simp [h]

@[simp] theorem set_data_left (w : World) (a b : Nat) (v) :
    ((w.set_data a v).nodes b).left = (w.nodes b).left := by
  unfold World.set_data; by_cases h : b = a <;> simp [h]

@[simp] theorem set_data_right (w : World) (a b : Nat) (v) :
    ((w.set_data a v).nodes b).right = (w.nodes b).right := by
  unfold World.set_data; by_cases h : b = a <;> simp [h]

@[simp] theorem set_data_degree (w : World) (a b : Nat) (v) :
    ((w.set_data a v).nodes b).degree = (w.nodes b).degree := by
  unfold World.set_data; by_cases h : b = a <;> simp [h]

@[simp] theorem set_data_marked (w : World) (a b : Nat) (v) :
    ((w.set_data a v).nodes b).marked = (w.nodes b).marked := by
  unfold World.set_data; by_cases h : b = a <;> simp [h]

theorem set_data_ne (w : World) (a b : Nat) (v) (h : b ≠ a) :
    (w.set_data a v).nodes b = w.nodes b := by
  unfold World.set_data; simp [h]

@[simp] theorem set_data_heaps (w : World) (a : Nat) (v) : (w.set_data a v).heaps = w.heaps := rfl

@[simp] theorem set_data_next_node (w : World) (a : Nat) (v) :
    (w.set_data a v).next_node = w.next_node := rfl

@[simp] theorem set_data_next_heap (w : World) (a : Nat) (v) :
    (w.set_data a v).next_heap = w.next_heap := rfl

@[simp] theorem set_parent_key (w : World) (a b : Nat) (v) :
    ((w.set_parent a v).nodes b).key = (w.nodes b).key := by
  unfold World.set_parent; by_cases h : b = a <;> simp [h]

@[simp] theorem set_parent_data (w : World) (a b : Nat) (v) :
    ((w.set_parent a v).nodes b).data = (w.nodes b).data := by
  unfold World.set_parent; by_cases h : b = a <;> simp [h]

@[simp] theorem set_parent_parent (w : World) (a b : Nat) (v) :
    ((w.set_parent a v).nodes b).parent = if b = a then v else (w.nodes b).parent := by
  unfold World.set_parent; by_cases h : b = a <;> simp [h]

@[simp] theorem set_parent_child (w : World) (a b : Nat) (v) :
    ((w.set_parent a v).nodes b).child = (w.nodes b).child := by
  unfold World.set_parent; by_cases h : b = a <;> simp [h]

@[simp] theorem set_parent_left (w : World) (a b : Nat) (v) :
    ((w.set_parent a v).nodes b).left = (w.nodes b).left := by
  unfold World.set_parent; by_cases h : b = a <;> simp [h]

@[simp] theorem set_parent_right (w : World) (a b : Nat) (v) :
    ((w.set_parent a v).nodes b).right = (w.nodes b).right := by
  unfold World.set_parent; by_cases h : b = a <;> simp [h]

@[simp] theorem set_parent_degree (w : World) (a b : Nat) (v) :
    ((w.set_parent a v).nodes b).degree = (w.nodes b).degree := by
  unfold World.set_parent; by_cases h : b = a <;> simp [h]

@[simp] theorem set_parent_marked (w : World) (a b : Nat) (v) :
    ((w.set_parent a v).nodes b).marked = (w.nodes b).marked := by
  unfold World.set_parent; by_cases h : b = a <;> simp [h]

theorem set_parent_ne (w : World) (a b : Nat) (v) (h : b ≠ a) :
    (w.set_parent a v).nodes b = w.nodes b := by
  unfold World.set_parent; simp [h]

@[simp] theorem set_parent_heaps (w : World) (a : Nat) (v) : (w.set_parent a v).heaps = w.heaps := rfl

@[simp] theorem set_parent_next_node (w : World) (a : Nat) (v) :
    (w.set_parent a v).next_node = w.next_node := rfl

@[simp] theorem set_parent_next_heap (w : World) (a : Nat) (v) :
    (w.set_parent a v).next_heap = w.next_heap := rfl

@[simp] theorem set_child_key (w : World) (a b : Nat) (v) :
    ((w.set_child a v).nodes b).key = (w.nodes b).key := by
  unfold World.set_child; by_cases h : b = a <;> simp [h]

@[simp] theorem set_child_data (w : World) (a b : Nat) (v) :
    ((w.set_child a v).nodes b).data = (w.nodes b).data := by
  unfold World.set_child; by_cases h : b = a <;> simp [h]

@[simp] theorem set_child_parent (w : World) (a b : Nat) (v) :
    ((w.set_child a v).nodes b).parent = (w.nodes b).parent := by
  unfold World.set_child; by_cases h : b = a <;> simp [h]

@[simp] theorem set_child_child (w : World) (a b : Nat) (v) :
    ((w.set_child a v).nodes b).child = if b = a then v else (w.nodes b).child := by
  unfold World.set_child; by_cases h : b = a <;> simp [h]

@[simp] theorem set_child_left (w : World) (a b : Nat) (v) :
    ((w.set_child a v).nodes b).left = (w.nodes b).left := by
  unfold World.set_child; by_cases h : b = a <;> simp [h]

@[simp] theorem set_child_right (w : World) (a b : Nat) (v) :
    ((w.set_child a v).nodes b).right = (w.nodes b).right := by
  unfold World.set_child; by_cases h : b = a <;> simp [h]

@[simp] theorem set_child_degree (w : World) (a b : Nat) (v) :
    ((w.set_child a v).nodes b).degree = (w.nodes b).degree := by
  unfold World.set_child; by_cases h : b = a <;> simp [h]

@[simp] theorem set_child_marked (w : World) (a b : Nat) (v) :
    ((w.set_child a v).nodes b).marked = (w.nodes b).marked := by
  unfold World.set_child; by_cases h : b = a <;> simp [h]

theorem set_child_ne (w : World) (a b : Nat) (v) (h : b ≠ a) :
    (w.set_child a v).nodes b = w.nodes b := by
  unfold World.set_child; simp [h]

@[simp] theorem set_child_heaps (w : World) (a : Nat) (v) : (w.set_child a v).heaps = w.heaps := rfl

@[simp] theorem set_child_next_node (w : World) (a : Nat) (v) :
    (w.set_child a v).next_node = w.next_node := rfl

@[simp] theorem set_child_next_heap (w : World) (a : Nat) (v) :
    (w.set_child a v).next_heap = w.next_heap := rfl

@[simp] theorem set_left_key (w : World) (a b : Nat) (v) :
    ((w.set_left a v).nodes b).key = (w.nodes b).key := by
  unfold World.set_left; by_cases h : b = a <;> simp [h]

@[simp] theorem set_left_data (w : World) (a b : Nat) (v) :
    ((w.set_left a v).nodes b).data = (w.nodes b).data := by
  unfold World.set_left; by_cases h : b = a <;> simp [h]

@[simp] theorem set_left_parent (w : World) (a b : Nat) (v) :
    ((w.set_left a v).nodes b).parent = (w.nodes b).parent := by
  unfold World.set_left; by_cases h : b = a <;> simp [h]

@[simp] theorem set_left_child (w : World) (a b : Nat) (v) :
    ((w.set_left a v).nodes b).child = (w.nodes b).child := by
  unfold World.set_left; by_cases h : b = a <;> simp [h]

@[simp] theorem set_left_left (w : World) (a b : Nat) (v) :
    ((w.set_left a v).nodes b).left = if b = a then v else (w.nodes b).left := by
  unfold World.set_left; by_cases h : b = a <;> simp [h]

@[simp] theorem set_left_right (w : World) (a b : Nat) (v) :
    ((w.set_left a v).nodes b).right = (w.nodes b).right := by
  unfold World.set_left; by_cases h : b = a <;> simp [h]

@[simp] theorem set_left_degree (w : World) (a b : Nat) (v) :
    ((w.set_left a v).nodes b).degree = (w.nodes b).degree := by
  unfold World.set_left; by_cases h : b = a <;> simp [h]

@[simp] theorem set_left_marked (w : World) (a b : Nat) (v) :
    ((w.set_left a v).nodes b).marked = (w.nodes b).marked := by
  unfold World.set_left; by_cases h : b = a <;> simp [h]

theorem set_left_ne (w : World) (a b : Nat) (v) (h : b ≠ a) :
    (w.set_left a v).nodes b = w.nodes b := by
  unfold World.set_left; simp [h]

@[simp] theorem set_left_heaps (w : World) (a : Nat) (v) : (w.set_left a v).heaps = w.heaps := rfl

@[simp] theorem set_left_next_node (w : World) (a : Nat) (v) :
    (w.set_left a v).next_node = w.next_node := rfl

@[simp] theorem set_left_next_heap (w : World) (a : Nat) (v) :
    (w.set_left a v).next_heap = w.next_heap := rfl

@[simp] theorem set_right_key (w : World) (a b : Nat) (v) :
    ((w.set_right a v).nodes b).key = (w.nodes b).key := by
  unfold World.set_right; by_cases h : b = a <;> simp [h]

@[simp] theorem set_right_data (w : World) (a b : Nat) (v) :
    ((w.set_right a v).nodes b).data = (w.nodes b).data := by
  unfold World.set_right; by_cases h : b = a <;> simp [h]

@[simp] theorem set_right_parent (w : World) (a b : Nat) (v) :
    ((w.set_right a v).nodes b).parent = (w.nodes b).parent := by
  unfold World.set_right; by_cases h : b = a <;> simp [h]

@[simp] theorem set_right_child (w : World) (a b : Nat) (v) :
    ((w.set_right a v).nodes b).child = (w.nodes b).child := by
  unfold World.set_right; by_cases h : b = a <;> simp [h]

@[simp] theorem set_right_left (w : World) (a b : Nat) (v) :
    ((w.set_right a v).nodes b).left = (w.nodes b).left := by
  unfold World.set_right; by_cases h : b = a <;> simp [h]

@[simp] theorem set_right_right (w : World) (a b : Nat) (v) :
    ((w.set_right a v).nodes b).right = if b = a then v else (w.nodes b).right := by
  unfold World.set_right; by_cases h : b = a <;> simp [h]

@[simp] theorem set_right_degree (w : World) (a b : Nat) (v) :
    ((w.set_right a v).nodes b).degree = (w.nodes b).degree := by
  unfold World.set_right; by_cases h : b = a <;> simp [h]

@[simp] theorem set_right_marked (w : World) (a b : Nat) (v) :
    ((w.set_right a v).nodes b).marked = (w.nodes b).marked := by
  unfold World.set_right; by_cases h : b = a <;> simp [h]

theorem set_right_ne (w : World) (a b : Nat) (v) (h : b ≠ a) :
    (w.set_right a v).nodes b = w.nodes b := by
  unfold World.set_right; simp [h]

@[simp] theorem set_right_heaps (w : World) (a : Nat) (v) : (w.set_right a v).heaps = w.heaps := rfl

@[simp] theorem set_right_next_node (w : World) (a : Nat) (v) :
    (w.set_right a v).next_node = w.next_node := rfl

@[simp] theorem set_right_next_heap (w : World) (a : Nat) (v) :
    (w.set_right a v).next_heap = w.next_heap := rfl

@[simp] theorem set_degree_key (w : World) (a b : Nat) (v) :
    ((w.set_degree a v).nodes b).key = (w.nodes b).key := by
  unfold World.set_degree; by_cases h : b = a <;> simp [h]

@[simp] theorem set_degree_data (w : World) (a b : Nat) (v) :
    ((w.set_degree a v).nodes b).data = (w.nodes b).data := by
  unfold World.set_degree; by_cases h : b = a <;> simp [h]

@[simp] theorem set_degree_parent (w : World) (a b : Nat) (v) :
    ((w.set_degree a v).nodes b).parent = (w.nodes b).parent := by
  unfold World.set_degree; by_cases h : b = a <;> simp [h]

@[simp] theorem set_degree_child (w : World) (a b : Nat) (v) :
    ((w.set_degree a v).nodes b).child = (w.nodes b).child := by
  unfold World.set_degree; by_cases h : b = a <;> simp [h]

@[simp] theorem set_degree_left (w : World) (a b : Nat) (v) :
    ((w.set_degree a v).nodes b).left = (w.nodes b).left := by
  unfold World.set_degree; by_cases h : b = a <;> simp [h]

@[simp] theorem set_degree_right (w : World) (a b : Nat) (v) :
    ((w.set_degree a v).nodes b).right = (w.nodes b).right := by
  unfold World.set_degree; by_cases h : b = a <;> simp [h]

@[simp] theorem set_degree_degree (w : World) (a b : Nat) (v) :
    ((w.set_degree a v).nodes b).degree = if b = a then v else (w.nodes b).degree := by
  unfold World.set_degree; by_cases h : b = a <;> simp [h]

@[simp] theorem set_degree_marked (w : World) (a b : Nat) (v) :
    ((w.set_degree a v).nodes b).marked = (w.nodes b).marked := by
  unfold World.set_degree; by_cases h : b = a <;> simp [h]

theorem set_degree_ne (w : World) (a b : Nat) (v) (h : b ≠ a) :
    (w.set_degree a v).nodes b = w.nodes b := by
  unfold World.set_degree; simp [h]

@[simp] theorem set_degree_heaps (w : World) (a : Nat) (v) : (w.set_degree a v).heaps = w.heaps := rfl

@[simp] theorem set_degree_next_node (w : World) (a : Nat) (v) :
    (w.set_degree a v).next_node = w.next_node := rfl

@[simp] theorem set_degree_next_heap (w : World) (a : Nat) (v) :
    (w.set_degree a v).next_heap = w.next_heap := rfl

@[simp] theorem set_marked_key (w : World) (a b : Nat) (v) :
    ((w.set_marked a v).nodes b).key = (w.nodes b).key := by
  unfold World.set_marked; by_cases h : b = a <;> simp [h]

@[simp] theorem set_marked_data (w : World) (a b : Nat) (v) :
    ((w.set_marked a v).nodes b).data = (w.nodes b).data := by
  unfold World.set_marked; by_cases h : b = a <;> simp [h]

@[simp] theorem set_marked_parent (w : World) (a b : Nat) (v) :
    ((w.set_marked a v).nodes b).parent = (w.nodes b).parent := by
  unfold World.set_marked; by_cases h : b = a <;> simp [h]

@[simp] theorem set_marked_child (w : World) (a b : Nat) (v) :
    ((w.set_marked a v).nodes b).child = (w.nodes b).child := by
  unfold World.set_marked; by_cases h : b = a <;> simp [h]

@[simp] theorem set_marked_left (w : World) (a b : Nat) (v) :
    ((w.set_marked a v).nodes b).left = (w.nodes b).left := by
  unfold World.set_marked; by_cases h : b = a <;> simp [h]

@[simp] theorem set_marked_right (w : World) (a b : Nat) (v) :
    ((w.set_marked a v).nodes b).right = (w.nodes b).right := by
  unfold World.set_marked; by_cases h : b = a <;> simp [h]

@[simp] theorem set_marked_degree (w : World) (a b : Nat) (v) :
    ((w.set_marked a v).nodes b).degree = (w.nodes b).degree := by
  unfold World.set_marked; by_cases h : b = a <;> simp [h]

@[simp] theorem set_marked_marked (w : World) (a b : Nat) (v) :
    ((w.set_marked a v).nodes b).marked = if b = a then v else (w.nodes b).marked := by
  unfold World.set_marked; by_cases h : b = a <;> simp [h]

theorem set_marked_ne (w : World) (a b : Nat) (v) (h : b ≠ a) :
    (w.set_marked a v).nodes b = w.nodes b := by
  unfold World.set_marked; simp [h]

@[simp] theorem set_marked_heaps (w : World) (a : Nat) (v) : (w.set_marked a v).heaps = w.heaps := rfl

@[simp] theorem set_marked_next_node (w : World) (a : Nat) (v) :
    (w.set_marked a v).next_node = w.next_node := rfl

@[simp] theorem set_marked_next_heap (w : World) (a : Nat) (v) :
    (w.set_marked a v).next_heap = w.next_heap := rfl

@[simp] theorem set_min_node_min_node (w : World) (h g : Nat) (v) :
    ((w.set_min_node h v).heaps g).min_node = if g = h then v else (w.heaps g).min_node := by
  unfold World.set_min_node; by_cases e : g = h <;> simp [e]

@[simp] theorem set_min_node_node_count (w : World) (h g : Nat) (v) :
    ((w.set_min_node h v).heaps g).node_count = (w.heaps g).node_count := by
  unfold World.set_min_node; by_cases e : g = h <;> simp [e]

theorem set_min_node_ne (w : World) (h g : Nat) (v) (e : g ≠ h) :
    (w.set_min_node h v).heaps g = w.heaps g := by
  unfold World.set_min_node; simp [e]

@[simp] theorem set_min_node_nodes (w : World) (h : Nat) (v) : (w.set_min_node h v).nodes = w.nodes := rfl

@[simp] theorem set_min_node_next_node (w : World) (h : Nat) (v) :
    (w.set_min_node h v).next_node = w.next_node := rfl

@[simp] theorem set_min_node_next_heap (w : World) (h : Nat) (v) :
    (w.set_min_node h v).next_heap = w.next_heap := rfl

@[simp] theorem set_node_count_min_node (w : World) (h g : Nat) (v) :
    ((w.set_node_count h v).heaps g).min_node = (w.heaps g).min_node := by
  unfold World.set_node_count; by_cases e : g = h <;> simp [e]

@[simp] theorem set_node_count_node_count (w : World) (h g : Nat) (v) :
    ((w.set_node_count h v).heaps g).node_count = if g = h then v else (w.heaps g).node_count := by
  unfold World.set_node_count; by_cases e : g = h <;> simp [e]

theorem set_node_count_ne (w : World) (h g : Nat) (v) (e : g ≠ h) :
    (w.set_node_count h v).heaps g = w.heaps g := by
  unfold World.set_node_count; simp [e]

@[simp] theorem set_node_count_nodes (w : World) (h : Nat) (v) : (w.set_node_count h v).nodes = w.nodes := rfl

@[simp] theorem set_node_count_next_node (w : World) (h : Nat) (v) :
    (w.set_node_count h v).next_node = w.next_node := rfl

@[simp] theorem set_node_count_next_heap (w : World) (h : Nat) (v) :
    (w.set_node_count h v).next_heap = w.next_heap := rfl

/-! ### `fib_node_remove_from_list` field by field -/

theorem remove_right (w : World) (x a : Nat) :
    ((fib_node_remove_from_list w x).nodes a).right =
      if a = (w.nodes x).left then (w.nodes x).right else (w.nodes a).right := by
  simp [fib_node_remove_from_list]

theorem remove_left (w : World) (x a : Nat) :
    ((fib_node_remove_from_list w x).nodes a).left =
      if a = (w.nodes x).right then (w.nodes x).left else (w.nodes a).left := by
  simp [fib_node_remove_from_list]

end FibHeap


namespace FibHeap

/-! ## Sibling rings -/

theorem Ring_nil (m : Mem) : Ring m [] := by
  simp [Ring]

theorem Ring_singleton (m : Mem) (x : Nat) :
    Ring m [x] ↔ (m x).right = x ∧ (m x).left = x := by
  simp [Ring, Lnk]

theorem Ring_cons_cons (m : Mem) (a b : Nat) (t : List Nat) :
    Ring m (a :: b :: t) ↔
      Lnk m a b ∧ List.Chain' (Lnk m) (b :: t) ∧ Lnk m ((b :: t).getLast (by simp)) a := by
  simp [Ring, List.chain'_cons, List.getLast?_cons_cons, List.getLast?_eq_getLast, and_assoc]

theorem Ring_congr {m m' : Mem} {l : List Nat}
    (h : ∀ u ∈ l, (m' u).right = (m u).right ∧ (m' u).left = (m u).left)
    (hr : Ring m l) : Ring m' l := by
  have key : ∀ a ∈ l, ∀ b ∈ l, Lnk m a b → Lnk m' a b := by
    intro a ha b hb hab
    exact ⟨(h a ha).1.trans hab.1, (h b hb).2.trans hab.2⟩
  refine ⟨?_, ?_⟩
  · have h1 := (List.Chain'.iff_mem (R := Lnk m)).1 hr.1
    exact h1.imp (fun a b hab => key a hab.1 b hab.2.1 hab.2.2)
  · intro x hx y hy
    exact key x (List.mem_of_getLast?_eq_some hx) y (List.mem_of_mem_head? hy) (hr.2 x hx y hy)

theorem Ring_rotate {m : Mem} {l1 l2 : List Nat} (hr : Ring m (l1 ++ l2)) :
    Ring m (l2 ++ l1) := by
  rcases l1 with _ | ⟨a, t1⟩
  · simpa using hr
  rcases l2 with _ | ⟨b, t2⟩
  · simpa using hr
  obtain ⟨hc, hl⟩ := hr
  rw [List.chain'_append] at hc
  obtain ⟨c1, c2, c12⟩ := hc
  refine ⟨?_, ?_⟩
  · rw [List.chain'_append]
    refine ⟨c2, c1, ?_⟩
    intro x hx y hy
    apply hl x _ y _
    · rw [List.getLast?_append_cons]; exact hx
    · simpa using hy
  · intro x hx y hy
    apply c12 x _ y _
    · rw [List.getLast?_append_cons] at hx; exact hx
    · simpa using hy

/-- In a ring every member's `right` neighbour is a member. -/
theorem Ring_right_mem {m : Mem} {l : List Nat} (hr : Ring m l) {x : Nat} (hx : x ∈ l) :
    (m x).right ∈ l := by
  obtain ⟨l1, l2, rfl⟩ := List.append_of_mem hx
  have h2 : Ring m (x :: l2 ++ l1) := by
    have := Ring_rotate hr
    simpa using this
  rcases hl : l2 ++ l1 with _ | ⟨b, t⟩
  · rw [List.cons_append, hl] at h2
    have := (Ring_singleton m x).1 h2
    rw [this.1]; simp
  · rw [List.cons_append, hl] at h2
    have h3 := ((Ring_cons_cons m x b t).1 h2).1.1
    rw [h3]
    have : b ∈ l2 ++ l1 := by rw [hl]; simp
    simp only [List.mem_append, List.mem_cons] at this ⊢
    tauto

/-- In a ring every member's `left` neighbour is a member. -/
theorem Ring_left_mem {m : Mem} {l : List Nat} (hr : Ring m l) {x : Nat} (hx : x ∈ l) :
    (m x).left ∈ l := by
  obtain ⟨l1, l2, rfl⟩ := List.append_of_mem hx
  have h2 : Ring m (x :: l2 ++ l1) := by
    have := Ring_rotate hr
    simpa using this
  rcases hl : l2 ++ l1 with _ | ⟨b, t⟩
  · rw [List.cons_append, hl] at h2
    have := (Ring_singleton m x).1 h2
    rw [this.2]; simp
  · rw [List.cons_append, hl] at h2
    have h3 := ((Ring_cons_cons m x b t).1 h2).2.2.2
    rw [h3]
    have : (b :: t).getLast (by simp) ∈ l2 ++ l1 := by rw [hl]; exact List.getLast_mem _
    simp only [List.mem_append, List.mem_cons] at this ⊢
    tauto


theorem Ring_close {m : Mem} {a : Nat} {t : List Nat} (hr : Ring m (a :: t)) :
    Lnk m ((a :: t).getLast (by simp)) a := by
  apply hr.2
  · rw [List.getLast?_eq_getLast _ (by simp)]; rfl
  · simp

theorem Ring_of_chain {m : Mem} {a : Nat} {t : List Nat} (hc : List.Chain' (Lnk m) (a :: t))
    (hl : Lnk m ((a :: t).getLast (by simp)) a) : Ring m (a :: t) := by
  refine ⟨hc, ?_⟩
  intro x hx y hy
  rw [List.getLast?_eq_getLast _ (by simp)] at hx
  simp only [Option.mem_def, Option.some.injEq, List.head?_cons] at hx hy
  subst hx; subst hy; exact hl

theorem chain_lnk_congr {m m' : Mem} : ∀ (l : List Nat),
    (∀ u ∈ l.dropLast, (m' u).right = (m u).right) →
    (∀ v ∈ l.tail, (m' v).left = (m v).left) →
    List.Chain' (Lnk m) l → List.Chain' (Lnk m') l
  | [], _, _, _ => by simp
  | [_], _, _, _ => by simp
  | x :: y :: l, hR, hL, hc => by
    rw [List.chain'_cons] at hc ⊢
    refine ⟨⟨?_, ?_⟩, chain_lnk_congr (y :: l) ?_ ?_ hc.2⟩
    · rw [hR x (by simp)]; exact hc.1.1
    · rw [hL y (by simp)]; exact hc.1.2
    · intro u hu; apply hR; simp only [List.dropLast_cons₂, List.mem_cons]; exact Or.inr hu
    · intro v hv; apply hL; simp only [List.tail_cons, List.mem_cons] at hv ⊢; exact Or.inr hv

theorem getLast_not_mem_dropLast {l : List Nat} (hnd : l.Nodup) (h : l ≠ []) :
    l.getLast h ∉ l.dropLast := by
  have e := List.dropLast_append_getLast h
  rw [← e] at hnd
  have := List.nodup_append.1 hnd
  intro hm
  exact this.2.2 hm (by simp)

theorem mem_of_mem_dropLast {l : List Nat} {u : Nat} (h : u ∈ l.dropLast) : u ∈ l :=
  List.dropLast_subset l h

/-- Splicing a node `n` that is in no ring right after the member `a`. -/
theorem Ring_insert {m m' : Mem} {a n : Nat} {t : List Nat}
    (hnd : (a :: t).Nodup) (hn : n ∉ a :: t) (hr : Ring m (a :: t))
    (hR : ∀ u, (m' u).right = if u = a then n else if u = n then (m a).right else (m u).right)
    (hL : ∀ v, (m' v).left = if v = (m a).right then n else if v = n then a else (m v).left) :
    Ring m' (a :: n :: t) := by
  have hna : n ≠ a := fun e => hn (by simp [e])
  rcases t with _ | ⟨b, t⟩
  · have h0 := (Ring_singleton m a).1 hr
    rw [Ring_cons_cons]
    refine ⟨⟨?_, ?_⟩, by simp, ⟨?_, ?_⟩⟩
    · simp [hR]
    · simp [hL, h0.1, hna]
    · simp [hR, hna, h0.1]
    · simp [hL, h0.1]
  · have h0 := (Ring_cons_cons m a b t).1 hr
    have hab : (m a).right = b := h0.1.1
    have hnb : n ≠ b := fun e => hn (by simp [e])
    have hba : b ≠ a := fun e => by simp [e] at hnd
    rw [Ring_cons_cons]
    refine ⟨⟨?_, ?_⟩, ?_, ⟨?_, ?_⟩⟩
    · simp [hR]
    · simp [hL, hab, hnb]
    · rw [List.chain'_cons]
      refine ⟨⟨?_, ?_⟩, chain_lnk_congr (b :: t) ?_ ?_ h0.2.1⟩
      · simp [hR, hna, hab]
      · simp [hL, hab]
      · intro u hu
        have hu2 := mem_of_mem_dropLast hu
        have : u ≠ a := fun e => (List.nodup_cons.1 hnd).1 (e ▸ hu2)
        have : u ≠ n := fun e => by subst e; exact hn (List.mem_cons_of_mem _ hu2)
        simp [hR, *]
      · intro v hv
        simp only [List.tail_cons] at hv
        have : v ≠ b := fun e => (List.nodup_cons.1 (List.nodup_cons.1 hnd).2).1 (e ▸ hv)
        have : v ≠ n := fun e => by subst e; exact hn (by simp [hv])
        simp [hL, hab, *]
    · have hl := List.getLast_mem (l := b :: t) (by simp)
      have e : (n :: b :: t).getLast (by simp) = (b :: t).getLast (by simp) := by simp
      rw [e]
      have : (b :: t).getLast (by simp) ≠ a := fun e => (List.nodup_cons.1 hnd).1 (e ▸ hl)
      have : (b :: t).getLast (by simp) ≠ n := fun e => by
        rw [e] at hl; exact hn (List.mem_cons_of_mem _ hl)
      simp only [hR, if_neg, *, not_false_eq_true]
      exact h0.2.2.1
    · have : a ≠ b := fun e => hba e.symm
      have e : (n :: b :: t).getLast (by simp) = (b :: t).getLast (by simp) := by simp
      rw [e]
      simp only [hL, hab, if_neg, *, not_false_eq_true, hna.symm]
      exact h0.2.2.2


/-- Unlinking the member `x` from its ring. -/
theorem Ring_remove_head {m m' : Mem} {x : Nat} {t : List Nat}
    (hnd : (x :: t).Nodup) (hr : Ring m (x :: t))
    (hR : ∀ u, (m' u).right = if u = (m x).left then (m x).right else (m u).right)
    (hL : ∀ v, (m' v).left = if v = (m x).right then (m x).left else (m v).left) :
    Ring m' t := by
  rcases t with _ | ⟨b, t⟩
  · exact Ring_nil m'
  · have h0 := (Ring_cons_cons m x b t).1 hr
    have hxb : (m x).right = b := h0.1.1
    have hxl : (m x).left = (b :: t).getLast (by simp) := h0.2.2.2
    have hnd2 := (List.nodup_cons.1 hnd).2
    apply Ring_of_chain
    · apply chain_lnk_congr (b :: t) ?_ ?_ h0.2.1
      · intro u hu
        have : u ≠ (b :: t).getLast (by simp) := fun e =>
          getLast_not_mem_dropLast hnd2 (by simp) (e ▸ hu)
        simp [hR, hxl, this]
      · intro v hv
        simp only [List.tail_cons] at hv
        have : v ≠ b := fun e => (List.nodup_cons.1 hnd2).1 (e ▸ hv)
        simp [hL, hxb, this]
    · refine ⟨?_, ?_⟩
      · simp [hR, hxl, hxb]
      · simp [hL, hxl, hxb]

theorem Ring_remove {m m' : Mem} {x : Nat} {l1 l2 : List Nat}
    (hnd : (l1 ++ x :: l2).Nodup) (hr : Ring m (l1 ++ x :: l2))
    (hR : ∀ u, (m' u).right = if u = (m x).left then (m x).right else (m u).right)
    (hL : ∀ v, (m' v).left = if v = (m x).right then (m x).left else (m v).left) :
    Ring m' (l1 ++ l2) := by
  have h1 : Ring m (x :: (l2 ++ l1)) := by simpa using Ring_rotate hr
  have hn1 : (x :: (l2 ++ l1)).Nodup := by
    have : (x :: (l2 ++ l1)).Perm (l1 ++ x :: l2) := by
      have := (@List.perm_append_comm _ l1 (x :: l2)).symm
      simpa using this
    exact this.nodup_iff.2 hnd
  exact Ring_rotate (Ring_remove_head hn1 h1 hR hL)

/-- Head of the list right of `x` in a ring. -/
theorem Ring_right_eq {m : Mem} {l1 l2 : List Nat} {x : Nat} (hr : Ring m (l1 ++ x :: l2)) :
    some (m x).right = (l2 ++ l1 ++ [x]).head? := by
  have h1 : Ring m (x :: (l2 ++ l1)) := by simpa using Ring_rotate hr
  rcases hl : l2 ++ l1 with _ | ⟨b, t⟩
  · rw [hl] at h1
    simp [((Ring_singleton m x).1 h1).1]
  · rw [hl] at h1
    simp [((Ring_cons_cons m x b t).1 h1).1.1]

/-- Joining two disjoint rings at their heads. -/
theorem Ring_concat {m m' : Mem} {a b : Nat} {t1 t2 : List Nat}
    (hnd : ((a :: t1) ++ (b :: t2)).Nodup)
    (h1 : Ring m (a :: t1)) (h2 : Ring m (b :: t2))
    (hR : ∀ u, (m' u).right =
      if u = (m b).left then a else if u = (m a).left then b else (m u).right)
    (hL : ∀ v, (m' v).left =
      if v = a then (m b).left else if v = b then (m a).left else (m v).left) :
    Ring m' ((a :: t1) ++ (b :: t2)) := by
  have c1 := Ring_close h1
  have c2 := Ring_close h2
  have hal : (m a).left = (a :: t1).getLast (by simp) := c1.2
  have hbl : (m b).left = (b :: t2).getLast (by simp) := c2.2
  obtain ⟨n1, n2, dj⟩ := List.nodup_append.1 hnd
  have m1 := List.getLast_mem (l := a :: t1) (by simp)
  have m2 := List.getLast_mem (l := b :: t2) (by simp)
  have hne : (a :: t1).getLast (by simp) ≠ (b :: t2).getLast (by simp) := fun e =>
    dj m1 (e ▸ m2)
  have hab : a ≠ b := fun e => dj (List.mem_cons_self _ _) (e ▸ List.mem_cons_self _ _)
  refine ⟨?_, ?_⟩
  · rw [List.chain'_append]
    refine ⟨?_, ?_, ?_⟩
    · apply chain_lnk_congr (a :: t1) ?_ ?_ h1.1
      · intro u hu
        have : u ≠ (a :: t1).getLast (by simp) := fun e =>
          getLast_not_mem_dropLast n1 (by simp) (e ▸ hu)
        have : u ≠ (b :: t2).getLast (by simp) := fun e =>
          dj (mem_of_mem_dropLast hu) (e ▸ m2)
        simp [hR, hal, hbl, *]
      · intro v hv
        simp only [List.tail_cons] at hv
        have : v ≠ a := fun e => (List.nodup_cons.1 n1).1 (e ▸ hv)
        have : v ≠ b := fun e => dj (List.mem_cons_of_mem _ hv) (e ▸ List.mem_cons_self _ _)
        simp [hL, *]
    · apply chain_lnk_congr (b :: t2) ?_ ?_ h2.1
      · intro u hu
        have : u ≠ (b :: t2).getLast (by simp) := fun e =>
          getLast_not_mem_dropLast n2 (by simp) (e ▸ hu)
        have : u ≠ (a :: t1).getLast (by simp) := fun e =>
          dj m1 (e ▸ mem_of_mem_dropLast hu)
        simp [hR, hal, hbl, *]
      · intro v hv
        simp only [List.tail_cons] at hv
        have : v ≠ b := fun e => (List.nodup_cons.1 n2).1 (e ▸ hv)
        have : v ≠ a := fun e => dj (List.mem_cons_self _ _) (e ▸ List.mem_cons_of_mem _ hv)
        simp [hL, *]
    · intro x hx y hy
      rw [List.getLast?_eq_getLast _ (by simp)] at hx
      simp only [Option.mem_def, Option.some.injEq, List.head?_cons] at hx hy
      subst hx; subst hy
      refine ⟨?_, ?_⟩
      · simp [hR, hal, hbl, hne]
      · simp [hL, hal, hab.symm]
  · intro x hx y hy
    rw [List.getLast?_append_cons, List.getLast?_eq_getLast _ (by simp)] at hx
    simp only [Option.mem_def, Option.some.injEq, List.cons_append, List.head?_cons] at hx hy
    subst hx; subst hy
    refine ⟨?_, ?_⟩
    · simp [hR, hbl]
    · simp [hL, hbl]

end FibHeap


namespace FibHeap

/-! ## Basic facts about forests -/

theorem Forest.mem_S {m : Mem} {S K d} (F : Forest m S K d) {q x} (h : x ∈ K q) : x ∈ S :=
  ((F.K_mem q x).1 h).1

theorem Forest.parent_of_mem {m : Mem} {S K d} (F : Forest m S K d) {q x} (h : x ∈ K q) :
    (m x).parent = q :=
  ((F.K_mem q x).1 h).2

theorem Forest.mem_K {m : Mem} {S K d} (F : Forest m S K d) {x} (h : x ∈ S) :
    x ∈ K (m x).parent :=
  (F.K_mem _ x).2 ⟨h, rfl⟩

theorem Forest.K_disjoint {m : Mem} {S K d} (F : Forest m S K d) {q q' x}
    (h : x ∈ K q) (h' : x ∈ K q') : q = q' :=
  (F.parent_of_mem h).symm.trans (F.parent_of_mem h')

theorem Forest.right_mem {m : Mem} {S K d} (F : Forest m S K d) {q x} (h : x ∈ K q) :
    (m x).right ∈ K q :=
  Ring_right_mem (F.K_ring q) h

theorem Forest.left_mem {m : Mem} {S K d} (F : Forest m S K d) {q x} (h : x ∈ K q) :
    (m x).left ∈ K q :=
  Ring_left_mem (F.K_ring q) h

theorem Forest.K_some_nil {m : Mem} {S K d} (F : Forest m S K d) {p} (h : p ∉ S) :
    K (some p) = [] := by
  apply List.eq_nil_iff_forall_not_mem.2
  intro x hx
  exact h (F.parent_mem x (F.mem_S hx) p (F.parent_of_mem hx))

theorem dval_congr {m m' : Mem} {d : Option Nat} {x : Nat}
    (h1 : (m' x).degree = (m x).degree) (h2 : (m' x).marked = (m x).marked) :
    dval m' d x = dval m d x := by
  simp [dval, h1, h2]

theorem filter_dval_congr {m m' : Mem} {d d' : Option Nat} {l : List Nat} (t : Nat)
    (h : ∀ x ∈ l, dval m' d' x = dval m d x) :
    l.filter (fun x => decide (dval m' d' x < t)) = l.filter (fun x => decide (dval m d x < t)) := by
  apply List.filter_congr
  intro x hx
  rw [h x hx]

/-- A forest only depends on the memory of its own nodes. -/
theorem Forest.congr {m m' : Mem} {S K d} (F : Forest m S K d)
    (h : ∀ a ∈ S, m' a = m a) : Forest m' S K d where
  S_nodup := F.S_nodup
  K_nodup := F.K_nodup
  K_ring := fun q => Ring_congr (fun u hu => by rw [h u (F.mem_S hu)]; simp) (F.K_ring q)
  K_mem := fun q x => by
    constructor
    · intro hx
      have := (F.K_mem q x).1 hx
      exact ⟨this.1, by rw [h x this.1]; exact this.2⟩
    · rintro ⟨hx, hp⟩
      rw [h x hx] at hp
      exact (F.K_mem q x).2 ⟨hx, hp⟩
  parent_mem := fun x hx p hp => F.parent_mem x hx p (by rw [← h x hx]; exact hp)
  child_eq := fun p hp => by rw [h p hp]; exact F.child_eq p hp
  degree_eq := fun p hp => by rw [h p hp]; exact F.degree_eq p hp
  order := fun x hx p hp => by
    have hp' : (m x).parent = some p := by rw [← h x hx]; exact hp
    rw [h x hx, h p (F.parent_mem x hx p hp')]
    exact F.order x hx p hp'
  rank := by
    obtain ⟨rk, hrk⟩ := F.rank
    exact ⟨rk, fun x hx p hp => hrk x hx p (by rw [← h x hx]; exact hp)⟩
  hall := fun p hp t => by
    rw [filter_dval_congr t (m := m) (d := d)]
    · exact F.hall p hp t
    · intro x hx
      have := h x (F.mem_S hx)
      exact dval_congr (by rw [this]) (by rw [this])
  key_ge := fun x hx => by rw [h x hx]; exact F.key_ge x hx

theorem HeapInv.transport {m m' : Mem} {H S} (I : HeapInv m H S)
    (h : ∀ a ∈ S, m' a = m a) : HeapInv m' H S := by
  obtain ⟨K, F, h1, h2, h3⟩ := I
  refine ⟨K, F.congr h, h1, h2, ?_⟩
  intro z hz x hx
  have hzS : z ∈ S := by
    rw [h1] at hz
    exact F.mem_S (List.mem_of_mem_head? hz)
  rw [h z hzS, h x hx]
  exact h3 z hz x hx


/-- Every node lies below a root, and keys do not decrease on the way down. -/
theorem Forest.exists_root {m : Mem} {S K d} (F : Forest m S K d) {x : Nat} (hx : x ∈ S) :
    ∃ r ∈ K none, (m r).key ≤ (m x).key ∧
      Relation.ReflTransGen (fun a b => (m b).parent = some a) r x := by
  obtain ⟨rk, hrk⟩ := F.rank
  have hM : ∀ y ∈ S, rk y ≤ S.toFinset.sup rk := fun y hy =>
    Finset.le_sup (f := rk) (List.mem_toFinset.2 hy)
  have main : ∀ n : Nat, ∀ y ∈ S, S.toFinset.sup rk - rk y ≤ n →
      ∃ r ∈ K none, (m r).key ≤ (m y).key ∧
        Relation.ReflTransGen (fun a b => (m b).parent = some a) r y := by
    intro n
    induction n with
    | zero =>
      intro y hy hn
      cases hp : (m y).parent with
      | none => exact ⟨y, (F.K_mem none y).2 ⟨hy, hp⟩, le_refl _, Relation.ReflTransGen.refl⟩
      | some p =>
        have h1 := hrk y hy p hp
        have h2 := hM p (F.parent_mem y hy p hp)
        omega
    | succ n ih =>
      intro y hy hn
      cases hp : (m y).parent with
      | none => exact ⟨y, (F.K_mem none y).2 ⟨hy, hp⟩, le_refl _, Relation.ReflTransGen.refl⟩
      | some p =>
        have hpS := F.parent_mem y hy p hp
        have h1 := hrk y hy p hp
        have h2 := hM p hpS
        obtain ⟨r, hr, hk, ha⟩ := ih p hpS (by omega)
        exact ⟨r, hr, le_trans hk (F.order y hy p hp), ha.tail hp⟩
  exact main _ x hx (le_refl _)

theorem Forest.S_nil_of_roots_nil {m : Mem} {S K d} (F : Forest m S K d) (h : K none = []) :
    S = [] := by
  apply List.eq_nil_iff_forall_not_mem.2
  intro y hy
  obtain ⟨r, hr, _⟩ := F.exists_root hy
  rw [h] at hr
  simp at hr

end FibHeap


namespace FibHeap

/-! ## `fib_heap_insert` -/

theorem insert_result (w : World) (h : Nat) (key : Int) (data : Nat) :
    (fib_heap_insert w (some h) key data).2 = some w.next_node := by
  simp [fib_heap_insert]

theorem insert_next_node (w : World) (h : Nat) (key : Int) (data : Nat) :
    (fib_heap_insert w (some h) key data).1.next_node = w.next_node + 1 := by
  simp only [fib_heap_insert]
  split <;> [skip; split] <;> simp

theorem insert_next_heap (w : World) (h : Nat) (key : Int) (data : Nat) :
    (fib_heap_insert w (some h) key data).1.next_heap = w.next_heap := by
  simp only [fib_heap_insert]
  split <;> [skip; split] <;> simp

theorem insert_heaps_ne (w : World) (h g : Nat) (key : Int) (data : Nat) (hg : g ≠ h) :
    (fib_heap_insert w (some h) key data).1.heaps g = w.heaps g := by
  simp only [fib_heap_insert]
  split <;> [skip; split] <;> simp [set_node_count_ne, set_min_node_ne, hg]

theorem insert_node_count (w : World) (h : Nat) (key : Int) (data : Nat) :
    ((fib_heap_insert w (some h) key data).1.heaps h).node_count = (w.heaps h).node_count + 1 := by
  simp only [fib_heap_insert]
  split <;> [skip; split] <;> simp

theorem insert_min_node (w : World) (h : Nat) (key : Int) (data : Nat)
    (hf : (w.heaps h).min_node ≠ some w.next_node) :
    ((fib_heap_insert w (some h) key data).1.heaps h).min_node =
      match (w.heaps h).min_node with
      | none => some w.next_node
      | some a => if key < (w.nodes a).key then some w.next_node else some a := by
  simp only [fib_heap_insert]
  split
  · rename_i e; simp at e; simp [e]
  · rename_i a e; simp at e; simp [e]
    have ha : a ≠ w.next_node := fun c => hf (by rw [e, c])
    simp [ha]; split <;> simp [*]

/-- Fields of existing nodes that `fib_heap_insert` leaves alone. -/
theorem insert_frame (w : World) (h : Nat) (key : Int) (data : Nat) (u : Nat)
    (hu : u ≠ w.next_node) :
    let m' := (fib_heap_insert w (some h) key data).1.nodes
    (m' u).key = (w.nodes u).key ∧ (m' u).data = (w.nodes u).data ∧
    (m' u).parent = (w.nodes u).parent ∧ (m' u).child = (w.nodes u).child ∧
    (m' u).degree = (w.nodes u).degree ∧ (m' u).marked = (w.nodes u).marked := by
  simp only [fib_heap_insert]
  split <;> [skip; split] <;> simp [hu]

/-- Fields of the node created by `fib_heap_insert`. -/
theorem insert_new (w : World) (h : Nat) (key : Int) (data : Nat) :
    let m' := (fib_heap_insert w (some h) key data).1.nodes
    (m' w.next_node).key = key ∧ (m' w.next_node).data = data ∧
    (m' w.next_node).parent = none ∧ (m' w.next_node).child = none ∧
    (m' w.next_node).degree = 0 ∧ (m' w.next_node).marked = false := by
  simp only [fib_heap_insert]
  split <;> [skip; split] <;> simp

theorem insert_right_none (w : World) (h : Nat) (key : Int) (data : Nat)
    (e : (w.heaps h).min_node = none) (u : Nat) :
    ((fib_heap_insert w (some h) key data).1.nodes u).right =
      if u = w.next_node then w.next_node else (w.nodes u).right := by
  simp [fib_heap_insert, e]

theorem insert_left_none (w : World) (h : Nat) (key : Int) (data : Nat)
    (e : (w.heaps h).min_node = none) (u : Nat) :
    ((fib_heap_insert w (some h) key data).1.nodes u).left =
      if u = w.next_node then w.next_node else (w.nodes u).left := by
  simp [fib_heap_insert, e]

theorem insert_right_some (w : World) (h : Nat) (key : Int) (data : Nat) (a : Nat)
    (e : (w.heaps h).min_node = some a) (u : Nat) :
    ((fib_heap_insert w (some h) key data).1.nodes u).right =
      if u = a then w.next_node else if u = w.next_node then (w.nodes a).right
      else (w.nodes u).right := by
  by_cases hk : key < (w.nodes a).key <;> by_cases ha : a = w.next_node <;>
    simp [fib_heap_insert, e, hk, ha]

theorem insert_left_some (w : World) (h : Nat) (key : Int) (data : Nat) (a : Nat)
    (e : (w.heaps h).min_node = some a) (u : Nat) :
    ((fib_heap_insert w (some h) key data).1.nodes u).left =
      if u = (w.nodes a).right then w.next_node else if u = w.next_node then a
      else (w.nodes u).left := by
  by_cases hk : key < (w.nodes a).key <;> by_cases ha : a = w.next_node <;>
    simp [fib_heap_insert, e, hk, ha]


/-- Adding a fresh node as a new root. -/
theorem Forest.add_root {m m' : Mem} {S K d n} (F : Forest m S K d) (hn : n ∉ S)
    (R' : List Nat) (hnd : R'.Nodup) (hmem : ∀ x, x ∈ R' ↔ x = n ∨ x ∈ K none)
    (hring : Ring m' R')
    (hfr : ∀ u, u ≠ n → (m' u).key = (m u).key ∧ (m' u).parent = (m u).parent ∧
      (m' u).child = (m u).child ∧ (m' u).degree = (m u).degree ∧
      (m' u).marked = (m u).marked)
    (hlr : ∀ u, u ∉ K none → u ≠ n →
      (m' u).right = (m u).right ∧ (m' u).left = (m u).left)
    (hnp : (m' n).parent = none) (hnc : (m' n).child = none) (hndeg : (m' n).degree = 0)
    (hnk : INT_MIN ≤ (m' n).key) :
    Forest m' (n :: S) (Function.update K none R') d := by
  have hKn : K (some n) = [] := F.K_some_nil hn
  have hne : ∀ {q x}, x ∈ K q → x ≠ n := fun hx e => hn (e ▸ F.mem_S hx)
  have hneS : ∀ {x}, x ∈ S → x ≠ n := fun hx e => hn (e ▸ hx)
  refine
    { S_nodup := List.nodup_cons.2 ⟨hn, F.S_nodup⟩
      K_nodup := ?_, K_ring := ?_, K_mem := ?_, parent_mem := ?_, child_eq := ?_,
      degree_eq := ?_, order := ?_, rank := ?_, hall := ?_, key_ge := ?_ }
  · intro q
    by_cases hq : q = none
    · subst hq; simpa using hnd
    · simpa [Function.update_noteq hq] using F.K_nodup q
  · intro q
    by_cases hq : q = none
    · subst hq; simpa using hring
    · rw [Function.update_noteq hq]
      apply Ring_congr _ (F.K_ring q)
      intro u hu
      exact hlr u (fun h0 => hq (F.K_disjoint hu h0)) (hne hu)
  · intro q x
    by_cases hq : q = none
    · subst hq
      simp only [Function.update_same, hmem, List.mem_cons]
      constructor
      · rintro (rfl | hx)
        · exact ⟨Or.inl rfl, hnp⟩
        · have := (F.K_mem none x).1 hx
          exact ⟨Or.inr this.1, by rw [(hfr x (hneS this.1)).2.1]; exact this.2⟩
      · rintro ⟨rfl | hx, hp⟩
        · exact Or.inl rfl
        · right
          rw [(hfr x (hneS hx)).2.1] at hp
          exact (F.K_mem none x).2 ⟨hx, hp⟩
    · rw [Function.update_noteq hq]
      constructor
      · intro hx
        have := (F.K_mem q x).1 hx
        exact ⟨List.mem_cons_of_mem _ this.1, by rw [(hfr x (hneS this.1)).2.1]; exact this.2⟩
      · rintro ⟨hx, hp⟩
        rcases List.mem_cons.1 hx with rfl | hx
        · rw [hnp] at hp; exact absurd hp.symm hq
        · rw [(hfr x (hneS hx)).2.1] at hp
          exact (F.K_mem q x).2 ⟨hx, hp⟩
  · intro x hx p hp
    rcases List.mem_cons.1 hx with rfl | hx
    · rw [hnp] at hp; cases hp
    · rw [(hfr x (hneS hx)).2.1] at hp
      exact List.mem_cons_of_mem _ (F.parent_mem x hx p hp)
  · intro p hp
    rw [Function.update_noteq (by simp)]
    rcases List.mem_cons.1 hp with rfl | hp
    · rw [hnc, hKn]; rfl
    · rw [(hfr p (hneS hp)).2.2.1]; exact F.child_eq p hp
  · intro p hp
    rw [Function.update_noteq (by simp)]
    rcases List.mem_cons.1 hp with rfl | hp
    · rw [hndeg, hKn]; rfl
    · rw [(hfr p (hneS hp)).2.2.2.1]; exact F.degree_eq p hp
  · intro x hx p hp
    rcases List.mem_cons.1 hx with rfl | hx
    · rw [hnp] at hp; cases hp
    · rw [(hfr x (hneS hx)).2.1] at hp
      rw [(hfr x (hneS hx)).1, (hfr p (hneS (F.parent_mem x hx p hp))).1]
      exact F.order x hx p hp
  · obtain ⟨rk, hrk⟩ := F.rank
    refine ⟨rk, ?_⟩
    intro x hx p hp
    rcases List.mem_cons.1 hx with rfl | hx
    · rw [hnp] at hp; cases hp
    · rw [(hfr x (hneS hx)).2.1] at hp
      exact hrk x hx p hp
  · intro p hp t
    rw [Function.update_noteq (by simp)]
    rcases List.mem_cons.1 hp with rfl | hp
    · rw [hKn]; simp
    · rw [filter_dval_congr t (m := m) (d := d)]
      · exact F.hall p hp t
      · intro x hx
        have := hfr x (hne hx)
        exact dval_congr this.2.2.2.1 this.2.2.2.2
  · intro x hx
    rcases List.mem_cons.1 hx with rfl | hx
    · exact hnk
    · rw [(hfr x (hneS hx)).1]; exact F.key_ge x hx


theorem insert_HeapInv (w : World) (h : Nat) (key : Int) (data : Nat) (S : List Nat)
    (I : HeapInv w.nodes (w.heaps h) S) (hfresh : w.next_node ∉ S) (hk : INT_MIN ≤ key) :
    HeapInv (fib_heap_insert w (some h) key data).1.nodes
      ((fib_heap_insert w (some h) key data).1.heaps h) (w.next_node :: S) := by
  obtain ⟨K, F, hmin, hcnt, hglob⟩ := I
  have hfr := insert_frame w h key data
  have hnew := insert_new w h key data
  simp only at hfr hnew
  have hfr' : ∀ u, u ≠ w.next_node →
      ((fib_heap_insert w (some h) key data).1.nodes u).key = (w.nodes u).key ∧
      ((fib_heap_insert w (some h) key data).1.nodes u).parent = (w.nodes u).parent ∧
      ((fib_heap_insert w (some h) key data).1.nodes u).child = (w.nodes u).child ∧
      ((fib_heap_insert w (some h) key data).1.nodes u).degree = (w.nodes u).degree ∧
      ((fib_heap_insert w (some h) key data).1.nodes u).marked = (w.nodes u).marked :=
    fun u hu => ⟨(hfr u hu).1, (hfr u hu).2.2.1, (hfr u hu).2.2.2.1, (hfr u hu).2.2.2.2.1,
      (hfr u hu).2.2.2.2.2⟩
  have hneS : ∀ {x}, x ∈ S → x ≠ w.next_node := fun hx e => hfresh (e ▸ hx)
  have hf : (w.heaps h).min_node ≠ some w.next_node := by
    intro e
    rw [hmin] at e
    exact hfresh (F.mem_S (List.mem_of_mem_head? e))
  have hmn := insert_min_node w h key data hf
  rcases hK : K none with _ | ⟨a, t⟩
  · -- empty heap
    have e : (w.heaps h).min_node = none := by rw [hmin, hK]; rfl
    rw [e] at hmn
    refine ⟨Function.update K none [w.next_node], ?_, ?_, ?_, ?_⟩
    · apply F.add_root hfresh [w.next_node] (by simp) (by simp [hK]) _ hfr' _ hnew.2.2.1
        hnew.2.2.2.1 hnew.2.2.2.2.1 (by rw [hnew.1]; exact hk)
      · rw [Ring_singleton]
        simp [insert_right_none w h key data e, insert_left_none w h key data e]
      · intro u _ hu
        simp [insert_right_none w h key data e, insert_left_none w h key data e, hu]
    · simp [hmn]
    · rw [insert_node_count, hcnt]; simp
    · intro z hz x hx
      rw [hmn] at hz
      cases hz
      have hS : S = [] := F.S_nil_of_roots_nil hK
      subst hS
      simp at hx
      subst hx
      exact le_refl _
  · -- non-empty heap
    have e : (w.heaps h).min_node = some a := by rw [hmin, hK]; rfl
    rw [e] at hmn
    simp only at hmn
    have haK : a ∈ K none := by rw [hK]; simp
    have haS : a ∈ S := F.mem_S haK
    have hnd0 : (a :: t).Nodup := hK ▸ F.K_nodup none
    have hnin : w.next_node ∉ a :: t := fun hm => hfresh (F.mem_S (hK ▸ hm))
    have hr0 : Ring (fib_heap_insert w (some h) key data).1.nodes (a :: w.next_node :: t) :=
      Ring_insert hnd0 hnin (hK ▸ F.K_ring none) (insert_right_some w h key data a e)
        (insert_left_some w h key data a e)
    have hnd1 : (a :: w.next_node :: t).Nodup := by
      simp only [List.nodup_cons, List.mem_cons, not_or] at hnd0 hnin ⊢
      exact ⟨⟨fun c => hnin.1 c.symm, hnd0.1⟩, hnin.2, hnd0.2⟩
    have hlr : ∀ u, u ∉ K none → u ≠ w.next_node →
        ((fib_heap_insert w (some h) key data).1.nodes u).right = (w.nodes u).right ∧
        ((fib_heap_insert w (some h) key data).1.nodes u).left = (w.nodes u).left := by
      intro u hu hun
      have h1 : u ≠ a := fun c => hu (c ▸ haK)
      have h2 : u ≠ (w.nodes a).right := fun c => hu (c ▸ F.right_mem haK)
      simp [insert_right_some w h key data a e, insert_left_some w h key data a e, h1, h2, hun]
    have hka : ((fib_heap_insert w (some h) key data).1.nodes a).key = (w.nodes a).key :=
      (hfr a (hneS haS)).1
    by_cases hlt : key < (w.nodes a).key
    · rw [if_pos hlt] at hmn
      refine ⟨Function.update K none ((w.next_node :: t) ++ [a]), ?_, ?_, ?_, ?_⟩
      · apply F.add_root hfresh _ _ _ _ hfr' hlr hnew.2.2.1
          hnew.2.2.2.1 hnew.2.2.2.2.1 (by rw [hnew.1]; exact hk)
        · have : ((w.next_node :: t) ++ [a]).Perm (a :: w.next_node :: t) := by
            simpa using (@List.perm_append_comm _ (w.next_node :: t) [a])
          exact this.nodup_iff.2 hnd1
        · intro x; simp [hK]; tauto
        · exact @Ring_rotate _ [a] (w.next_node :: t) hr0
      · simp [hmn]
      · rw [insert_node_count, hcnt]; simp
      · intro z hz x hx
        rw [hmn] at hz
        cases hz
        rw [hnew.1]
        rcases List.mem_cons.1 hx with rfl | hx
        · rw [hnew.1]
        · rw [(hfr x (hneS hx)).1]
          exact le_trans (le_of_lt hlt) (hglob a e x hx)
    · rw [if_neg hlt] at hmn
      refine ⟨Function.update K none (a :: w.next_node :: t), ?_, ?_, ?_, ?_⟩
      · apply F.add_root hfresh _ hnd1 _ hr0 hfr' hlr hnew.2.2.1
          hnew.2.2.2.1 hnew.2.2.2.2.1 (by rw [hnew.1]; exact hk)
        intro x; simp [hK]; tauto
      · simp [hmn]
      · rw [insert_node_count, hcnt]; simp
      · intro z hz x hx
        rw [hmn] at hz
        cases hz
        rw [hka]
        rcases List.mem_cons.1 hx with rfl | hx
        · rw [hnew.1]; exact not_lt.1 hlt
        · rw [(hfr x (hneS hx)).1]
          exact hglob a e x hx

/-- Nodes other than the new one and the members of the heap are not written. -/
theorem insert_nodes_frame (w : World) (h : Nat) (key : Int) (data : Nat) (S : List Nat)
    (I : HeapInv w.nodes (w.heaps h) S) (hfresh : w.next_node ∉ S)
    (u : Nat) (hu : u ∉ S) (hn : u ≠ w.next_node) :
    (fib_heap_insert w (some h) key data).1.nodes u = w.nodes u := by
  obtain ⟨K, F, hmin, -, -⟩ := I
  cases e : (w.heaps h).min_node with
  | none => simp [fib_heap_insert, e, set_key_ne, set_data_ne, set_parent_ne, set_child_ne,
      set_degree_ne, set_marked_ne, set_left_ne, set_right_ne, hn]
  | some a =>
    have haK : a ∈ K none := by
      rw [hmin] at e; exact List.mem_of_mem_head? e
    have h1 : u ≠ a := fun c => hu (c ▸ F.mem_S haK)
    have h2 : u ≠ (w.nodes a).right := fun c => hu (c ▸ F.mem_S (F.right_mem haK))
    have ha : a ≠ w.next_node := fun c => hfresh (c ▸ F.mem_S haK)
    by_cases hk : key < (w.nodes a).key <;>
      simp [fib_heap_insert, e, set_key_ne, set_data_ne, set_parent_ne, set_child_ne,
        set_degree_ne, set_marked_ne, set_left_ne, set_right_ne, hn, h1, h2, hk, ha]

end FibHeap


namespace FibHeap

/-! ## The list primitives -/

theorem Ring_of_fields {m m' : Mem} {l : List Nat}
    (hR : ∀ u, (m' u).right = (m u).right) (hL : ∀ u, (m' u).left = (m u).left) :
    Ring m' l ↔ Ring m l :=
  ⟨Ring_congr (fun u _ => ⟨(hR u).symm, (hL u).symm⟩), Ring_congr (fun u _ => ⟨hR u, hL u⟩)⟩

@[simp] theorem Ring_set_key (w : World) (a : Nat) (v) (l : List Nat) :
    Ring (w.set_key a v).nodes l ↔ Ring w.nodes l :=
  Ring_of_fields (fun u => by simp) (fun u => by simp)

@[simp] theorem Ring_set_data (w : World) (a : Nat) (v) (l : List Nat) :
    Ring (w.set_data a v).nodes l ↔ Ring w.nodes l :=
  Ring_of_fields (fun u => by simp) (fun u => by simp)

@[simp] theorem Ring_set_parent (w : World) (a : Nat) (v) (l : List Nat) :
    Ring (w.set_parent a v).nodes l ↔ Ring w.nodes l :=
  Ring_of_fields (fun u => by simp) (fun u => by simp)

@[simp] theorem Ring_set_child (w : World) (a : Nat) (v) (l : List Nat) :
    Ring (w.set_child a v).nodes l ↔ Ring w.nodes l :=
  Ring_of_fields (fun u => by simp) (fun u => by simp)

@[simp] theorem Ring_set_degree (w : World) (a : Nat) (v) (l : List Nat) :
    Ring (w.set_degree a v).nodes l ↔ Ring w.nodes l :=
  Ring_of_fields (fun u => by simp) (fun u => by simp)

@[simp] theorem Ring_set_marked (w : World) (a : Nat) (v) (l : List Nat) :
    Ring (w.set_marked a v).nodes l ↔ Ring w.nodes l :=
  Ring_of_fields (fun u => by simp) (fun u => by simp)

/-! ### `fib_node_remove_from_list` -/

@[simp] theorem remove_key (w : World) (x u : Nat) :
    ((fib_node_remove_from_list w x).nodes u).key = (w.nodes u).key := by
  simp [fib_node_remove_from_list]

@[simp] theorem remove_data (w : World) (x u : Nat) :
    ((fib_node_remove_from_list w x).nodes u).data = (w.nodes u).data := by
  simp [fib_node_remove_from_list]

@[simp] theorem remove_parent (w : World) (x u : Nat) :
    ((fib_node_remove_from_list w x).nodes u).parent = (w.nodes u).parent := by
  simp [fib_node_remove_from_list]

@[simp] theorem remove_child (w : World) (x u : Nat) :
    ((fib_node_remove_from_list w x).nodes u).child = (w.nodes u).child := by
  simp [fib_node_remove_from_list]

@[simp] theorem remove_degree (w : World) (x u : Nat) :
    ((fib_node_remove_from_list w x).nodes u).degree = (w.nodes u).degree := by
  simp [fib_node_remove_from_list]

@[simp] theorem remove_marked (w : World) (x u : Nat) :
    ((fib_node_remove_from_list w x).nodes u).marked = (w.nodes u).marked := by
  simp [fib_node_remove_from_list]

@[simp] theorem remove_heaps (w : World) (x : Nat) :
    (fib_node_remove_from_list w x).heaps = w.heaps := by
  simp [fib_node_remove_from_list]

@[simp] theorem remove_next_node (w : World) (x : Nat) :
    (fib_node_remove_from_list w x).next_node = w.next_node := by
  simp [fib_node_remove_from_list]

@[simp] theorem remove_next_heap (w : World) (x : Nat) :
    (fib_node_remove_from_list w x).next_heap = w.next_heap := by
  simp [fib_node_remove_from_list]

theorem remove_nodes_ne (w : World) (x u : Nat) (h1 : u ≠ (w.nodes x).left)
    (h2 : u ≠ (w.nodes x).right) : (fib_node_remove_from_list w x).nodes u = w.nodes u := by
  simp [fib_node_remove_from_list, set_left_ne, set_right_ne, h1, h2]

theorem remove_ring_self (w : World) (x : Nat) (l1 l2 : List Nat)
    (hnd : (l1 ++ x :: l2).Nodup) (hr : Ring w.nodes (l1 ++ x :: l2)) :
    Ring (fib_node_remove_from_list w x).nodes (l1 ++ l2) :=
  Ring_remove hnd hr (remove_right w x) (remove_left w x)

theorem remove_ring_other (w : World) (x : Nat) (l : List Nat)
    (h1 : (w.nodes x).left ∉ l) (h2 : (w.nodes x).right ∉ l) (hr : Ring w.nodes l) :
    Ring (fib_node_remove_from_list w x).nodes l := by
  apply Ring_congr _ hr
  intro u hu
  have e1 : u ≠ (w.nodes x).left := fun c => h1 (c ▸ hu)
  have e2 : u ≠ (w.nodes x).right := fun c => h2 (c ▸ hu)
  simp [remove_right, remove_left, e1, e2]

/-! ### `fib_node_add_to_root_list` -/

@[simp] theorem add_root_key (w : World) (h x u : Nat) :
    ((fib_node_add_to_root_list w h x).nodes u).key = (w.nodes u).key := by
  unfold fib_node_add_to_root_list; split <;> simp

@[simp] theorem add_root_data (w : World) (h x u : Nat) :
    ((fib_node_add_to_root_list w h x).nodes u).data = (w.nodes u).data := by
  unfold fib_node_add_to_root_list; split <;> simp

@[simp] theorem add_root_parent (w : World) (h x u : Nat) :
    ((fib_node_add_to_root_list w h x).nodes u).parent = (w.nodes u).parent := by
  unfold fib_node_add_to_root_list; split <;> simp

@[simp] theorem add_root_child (w : World) (h x u : Nat) :
    ((fib_node_add_to_root_list w h x).nodes u).child = (w.nodes u).child := by
  unfold fib_node_add_to_root_list; split <;> simp

@[simp] theorem add_root_degree (w : World) (h x u : Nat) :
    ((fib_node_add_to_root_list w h x).nodes u).degree = (w.nodes u).degree := by
  unfold fib_node_add_to_root_list; split <;> simp

@[simp] theorem add_root_marked (w : World) (h x u : Nat) :
    ((fib_node_add_to_root_list w h x).nodes u).marked = (w.nodes u).marked := by
  unfold fib_node_add_to_root_list; split <;> simp

@[simp] theorem add_root_next_node (w : World) (h x : Nat) :
    (fib_node_add_to_root_list w h x).next_node = w.next_node := by
  unfold fib_node_add_to_root_list; split <;> simp

@[simp] theorem add_root_next_heap (w : World) (h x : Nat) :
    (fib_node_add_to_root_list w h x).next_heap = w.next_heap := by
  unfold fib_node_add_to_root_list; split <;> simp

theorem add_root_heaps (w : World) (h x a : Nat) (e : (w.heaps h).min_node = some a) :
    (fib_node_add_to_root_list w h x).heaps = w.heaps := by
  unfold fib_node_add_to_root_list; simp [e]

theorem add_root_heaps_ne (w : World) (h x g : Nat) (hg : g ≠ h) :
    (fib_node_add_to_root_list w h x).heaps g = w.heaps g := by
  unfold fib_node_add_to_root_list; split <;> simp [set_min_node_ne, hg]

theorem add_root_right (w : World) (h x a : Nat) (e : (w.heaps h).min_node = some a) (u : Nat) :
    ((fib_node_add_to_root_list w h x).nodes u).right =
      if u = a then x else if u = x then (w.nodes a).right else (w.nodes u).right := by
  unfold fib_node_add_to_root_list; simp [e]

theorem add_root_left (w : World) (h x a : Nat) (e : (w.heaps h).min_node = some a) (u : Nat) :
    ((fib_node_add_to_root_list w h x).nodes u).left =
      if u = (w.nodes a).right then x else if u = x then a else (w.nodes u).left := by
  unfold fib_node_add_to_root_list; simp [e]

theorem add_root_nodes_ne (w : World) (h x a : Nat) (e : (w.heaps h).min_node = some a) (u : Nat)
    (h1 : u ≠ a) (h2 : u ≠ x) (h3 : u ≠ (w.nodes a).right) :
    (fib_node_add_to_root_list w h x).nodes u = w.nodes u := by
  unfold fib_node_add_to_root_list
  have h4 : u ≠ (((w.set_right x (w.nodes a).right).set_left x a).nodes a).right := by
    simp only [set_left_right, set_right_right]
    split <;> exact h3
  simp only [e]
  rw [set_right_ne _ _ _ _ h1, set_left_ne _ _ _ _ h4, set_left_ne _ _ _ _ h2,
    set_right_ne _ _ _ _ h2]

theorem add_root_ring_self (w : World) (h x a : Nat) (t : List Nat)
    (e : (w.heaps h).min_node = some a) (hnd : (a :: t).Nodup) (hx : x ∉ a :: t)
    (hr : Ring w.nodes (a :: t)) :
    Ring (fib_node_add_to_root_list w h x).nodes (a :: x :: t) :=
  Ring_insert hnd hx hr (add_root_right w h x a e) (add_root_left w h x a e)

theorem add_root_ring_other (w : World) (h x a : Nat) (l : List Nat)
    (e : (w.heaps h).min_node = some a) (h1 : a ∉ l) (h2 : x ∉ l) (h3 : (w.nodes a).right ∉ l)
    (hr : Ring w.nodes l) :
    Ring (fib_node_add_to_root_list w h x).nodes l := by
  apply Ring_congr _ hr
  intro u hu
  have e1 : u ≠ a := fun c => h1 (c ▸ hu)
  have e2 : u ≠ x := fun c => h2 (c ▸ hu)
  have e3 : u ≠ (w.nodes a).right := fun c => h3 (c ▸ hu)
  simp [add_root_right w h x a e, add_root_left w h x a e, e1, e2, e3]

end FibHeap


namespace FibHeap

/-! ## `fib_heap_cut` -/

theorem Forest.ne_parent {m : Mem} {S K d} (F : Forest m S K d) {x y : Nat}
    (hx : x ∈ K (some y)) : x ≠ y := by
  obtain ⟨rk, hrk⟩ := F.rank
  intro e
  have := hrk x (F.mem_S hx) y (F.parent_of_mem hx)
  rw [e] at this
  exact lt_irrefl _ this

/-- Cutting `x` from its parent `y` and making it the second root; the key of `x` may drop
to `k` on the way. -/
theorem Forest.cut {m m' : Mem} {S K d} {x y a : Nat} {t : List Nat} {k : Int}
    (F : Forest m S K d) (hd : d = none ∨ d = some x)
    (hx : x ∈ K (some y)) (hK : K none = a :: t)
    (hpar : ∀ u, (m' u).parent = if u = x then none else (m u).parent)
    (hmk : ∀ u, (m' u).marked = if u = x then false else (m u).marked)
    (hdeg : ∀ u, (m' u).degree = if u = y then (m y).degree - 1 else (m u).degree)
    (hch : ∀ u, (m' u).child = if u = y then ((K (some y)).erase x).head? else (m u).child)
    (hkey : ∀ u, (m' u).key = if u = x then k else (m u).key)
    (hk : k ≤ (m x).key) (hk0 : INT_MIN ≤ k)
    (hr1 : Ring m' (a :: x :: t)) (hr2 : Ring m' ((K (some y)).erase x))
    (hlr : ∀ u, u ∉ K none → u ∉ K (some y) →
      (m' u).right = (m u).right ∧ (m' u).left = (m u).left) :
    Forest m' S
      (Function.update (Function.update K (some y) ((K (some y)).erase x)) none (a :: x :: t))
      (some y) := by
  have hxS : x ∈ S := F.mem_S hx
  have hxp : (m x).parent = some y := F.parent_of_mem hx
  have hyS : y ∈ S := F.parent_mem x hxS y hxp
  have hxy : x ≠ y := F.ne_parent hx
  have hxR : x ∉ K none := fun h0 => by cases F.K_disjoint hx h0
  have hyK : y ∉ K (some y) := fun h0 => F.ne_parent h0 rfl
  have hndy := F.K_nodup (some y)
  have hK1 : ∀ p, p ≠ y →
      Function.update (Function.update K (some y) ((K (some y)).erase x)) none (a :: x :: t)
        (some p) = K (some p) := by
    intro p hp
    rw [Function.update_noteq (by simp), Function.update_noteq (by simpa using hp)]
  have hK2 :
      Function.update (Function.update K (some y) ((K (some y)).erase x)) none (a :: x :: t)
        (some y) = (K (some y)).erase x := by
    rw [Function.update_noteq (by simp), Function.update_same]
  refine
    { S_nodup := F.S_nodup
      K_nodup := ?_, K_ring := ?_, K_mem := ?_, parent_mem := ?_, child_eq := ?_,
      degree_eq := ?_, order := ?_, rank := ?_, hall := ?_, key_ge := ?_ }
  · intro q
    rcases q with _ | p
    · rw [Function.update_same]
      have := F.K_nodup none
      rw [hK] at this hxR
      simp only [List.nodup_cons, List.mem_cons, not_or] at this hxR ⊢
      exact ⟨⟨fun c => hxR.1 c.symm, this.1⟩, hxR.2, this.2⟩
    · by_cases hp : p = y
      · subst hp; rw [hK2]; exact hndy.erase x
      · rw [hK1 p hp]; exact F.K_nodup _
  · intro q
    rcases q with _ | p
    · rw [Function.update_same]; exact hr1
    · by_cases hp : p = y
      · subst hp; rw [hK2]; exact hr2
      · rw [hK1 p hp]
        apply Ring_congr _ (F.K_ring _)
        intro u hu
        apply hlr u
        · intro h0; cases F.K_disjoint hu h0
        · intro h0; exact hp (Option.some.inj (F.K_disjoint hu h0))
  · intro q u
    rw [hpar]
    rcases q with _ | p
    · rw [Function.update_same]
      by_cases hu : u = x
      · subst hu; simp [hxS]
      · simp only [List.mem_cons, hu, if_false, false_or]
        rw [← F.K_mem none u, hK]; simp [hu]
    · by_cases hp : p = y
      · subst hp
        rw [hK2, hndy.mem_erase_iff]
        by_cases hu : u = x
        · subst hu; simp
        · simp only [hu, if_false, ne_eq, not_false_eq_true, true_and]
          exact F.K_mem _ u
      · rw [hK1 p hp]
        by_cases hu : u = x
        · subst hu
          simp only [if_true]
          constructor
          · intro h0; exact absurd (Option.some.inj (F.K_disjoint h0 hx)) hp
          · rintro ⟨_, h0⟩; cases h0
        · simp only [hu, if_false]
          exact F.K_mem _ u
  · intro u hu p hp
    rw [hpar] at hp
    by_cases hux : u = x
    · simp [hux] at hp
    · simp only [hux, if_false] at hp
      exact F.parent_mem u hu p hp
  · intro p hp
    by_cases hpy : p = y
    · subst hpy; rw [hK2, hch]; simp
    · rw [hK1 p hpy, hch]; simp only [hpy, if_false]; exact F.child_eq p hp
  · intro p hp
    by_cases hpy : p = y
    · subst hpy
      rw [hK2, hdeg, if_pos rfl, F.degree_eq p hp, List.length_erase_of_mem hx]
      have : 0 < (K (some p)).length := List.length_pos_of_mem hx
      omega
    · rw [hK1 p hpy, hdeg]; simp only [hpy, if_false]; exact F.degree_eq p hp
  · intro u hu p hp
    rw [hpar] at hp
    by_cases hux : u = x
    · simp [hux] at hp
    · simp only [hux, if_false] at hp
      rw [hkey u, hkey p]
      simp only [hux, if_false]
      have := F.order u hu p hp
      by_cases hpx : p = x
      · subst hpx; simp only [if_true]; exact le_trans hk this
      · simp only [hpx, if_false]; exact this
  · obtain ⟨rk, hrk⟩ := F.rank
    refine ⟨rk, ?_⟩
    intro u hu p hp
    rw [hpar] at hp
    by_cases hux : u = x
    · simp [hux] at hp
    · simp only [hux, if_false] at hp
      exact hrk u hu p hp
  · intro p hp t'
    have hdx : d ≠ some y := by
      rcases hd with rfl | rfl
      · simp
      · simpa using hxy
    by_cases hpy : p = y
    · subst hpy
      rw [hK2]
      have hsub : (K (some p)).erase x |>.Sublist (K (some p)) := List.erase_sublist _ _
      have e : ((K (some p)).erase x).filter (fun u => decide (dval m' (some p) u < t')) =
          ((K (some p)).erase x).filter (fun u => decide (dval m d u < t')) := by
        apply filter_dval_congr
        intro u hu
        have huK := hsub.subset hu
        have hux : u ≠ x := (hndy.mem_erase_iff.1 hu).1
        have hup : u ≠ p := fun c => hyK (c ▸ huK)
        have hdu : d ≠ some u := by
          rcases hd with rfl | rfl
          · simp
          · simpa using fun c : x = u => hux c.symm
        simp [dval, hdeg, hmk, hux, hup, hdu, Ne.symm hup]
      rw [e]
      exact le_trans (hsub.filter _).length_le (F.hall p hp t')
    · rw [hK1 p hpy]
      rw [filter_dval_congr t' (m := m) (d := d)]
      · exact F.hall p hp t'
      · intro u hu
        have hux : u ≠ x := fun c => hpy (Option.some.inj (F.K_disjoint (c ▸ hu) hx))
        have hdu : d ≠ some u := by
          rcases hd with rfl | rfl
          · simp
          · simpa using fun c : x = u => hux c.symm
        by_cases huy : u = y
        · subst huy
          have h1 := F.degree_eq u hyS
          have h2 : 0 < (K (some u)).length := List.length_pos_of_mem hx
          simp only [dval, hdeg, hmk, hux, if_true, if_false, hdu, h1]
          simp only [if_pos, add_zero]
          omega
        · simp [dval, hdeg, hmk, hux, huy, hdu, Ne.symm huy]
  · intro u hu
    rw [hkey]
    by_cases hux : u = x
    · simp only [hux, if_true]; exact hk0
    · simp only [hux, if_false]; exact F.key_ge u hu


theorem set_key_self (w : World) (x : Nat) : w.set_key x (w.nodes x).key = w := by
  unfold World.set_key
  cases w with
  | mk nodes heaps nn nh =>
    simp only [World.mk.injEq, and_true]
    funext b
    by_cases hb : b = x
    · subst hb; simp
    · simp [hb]

theorem cut_heaps (w : World) (h x y a : Nat) (e : (w.heaps h).min_node = some a) :
    (fib_heap_cut w h x y).heaps = w.heaps := by
  unfold fib_heap_cut
  split_ifs <;> simp [add_root_heaps _ h x a, e]

theorem cut_heaps_ne (w : World) (h x y g : Nat) (hg : g ≠ h) :
    (fib_heap_cut w h x y).heaps g = w.heaps g := by
  unfold fib_heap_cut
  split_ifs <;> simp [add_root_heaps_ne _ h x g hg]

@[simp] theorem cut_next_node (w : World) (h x y : Nat) :
    (fib_heap_cut w h x y).next_node = w.next_node := by
  unfold fib_heap_cut
  split_ifs <;> simp

@[simp] theorem cut_next_heap (w : World) (h x y : Nat) :
    (fib_heap_cut w h x y).next_heap = w.next_heap := by
  unfold fib_heap_cut
  split_ifs <;> simp

@[simp] theorem cut_key (w : World) (h x y u : Nat) :
    ((fib_heap_cut w h x y).nodes u).key = (w.nodes u).key := by
  unfold fib_heap_cut
  split_ifs <;> simp

@[simp] theorem cut_data (w : World) (h x y u : Nat) :
    ((fib_heap_cut w h x y).nodes u).data = (w.nodes u).data := by
  unfold fib_heap_cut
  split_ifs <;> simp

theorem cut_parent (w : World) (h x y u : Nat) :
    ((fib_heap_cut w h x y).nodes u).parent = if u = x then none else (w.nodes u).parent := by
  unfold fib_heap_cut
  split_ifs <;> simp_all

theorem cut_marked (w : World) (h x y u : Nat) :
    ((fib_heap_cut w h x y).nodes u).marked = if u = x then false else (w.nodes u).marked := by
  unfold fib_heap_cut
  split_ifs <;> simp_all

theorem cut_degree (w : World) (h x y u : Nat) :
    ((fib_heap_cut w h x y).nodes u).degree =
      if u = y then (w.nodes y).degree - 1 else (w.nodes u).degree := by
  unfold fib_heap_cut
  split_ifs <;> simp_all

theorem cut_child (w : World) (h x y u : Nat) :
    ((fib_heap_cut w h x y).nodes u).child =
      if u = y ∧ (w.nodes y).child = some x then
        (if (w.nodes x).right = x then none else some (w.nodes x).right)
      else (w.nodes u).child := by
  unfold fib_heap_cut
  split_ifs <;> simp_all

theorem cut_right (w : World) (h x y a : Nat) (e : (w.heaps h).min_node = some a) (u : Nat) :
    ((fib_heap_cut w h x y).nodes u).right =
      if u = a then x
      else if u = x then
        (if a = (w.nodes x).left then (w.nodes x).right else (w.nodes a).right)
      else (if u = (w.nodes x).left then (w.nodes x).right else (w.nodes u).right) := by
  unfold fib_heap_cut
  split_ifs <;> simp_all [add_root_right _ h x a, remove_right]

theorem cut_left (w : World) (h x y a : Nat) (e : (w.heaps h).min_node = some a) (u : Nat) :
    ((fib_heap_cut w h x y).nodes u).left =
      if u = (if a = (w.nodes x).left then (w.nodes x).right else (w.nodes a).right) then x
      else if u = x then a
      else (if u = (w.nodes x).right then (w.nodes x).left else (w.nodes u).left) := by
  unfold fib_heap_cut
  split_ifs <;> simp_all [add_root_right _ h x a, add_root_left _ h x a, remove_right, remove_left]


/-- Head of a child ring after one member is taken out, as `fib_heap_cut` computes it. -/
theorem cut_child_head {m : Mem} {l : List Nat} {x : Nat} (hnd : l.Nodup) (hr : Ring m l)
    (hx : x ∈ l) :
    (if l.head? = some x then (if (m x).right = x then none else some (m x).right)
      else l.head?) = (l.erase x).head? := by
  obtain ⟨l1, l2, rfl⟩ := List.append_of_mem hx
  have hxl1 : x ∉ l1 := by
    intro hm
    have := List.nodup_append.1 hnd
    exact this.2.2 hm (by simp)
  rw [List.erase_append_right _ hxl1, List.erase_cons_head]
  have hright := Ring_right_eq hr
  rcases l1 with _ | ⟨b, l1⟩
  · simp only [List.nil_append, List.head?_cons, if_true]
    rcases l2 with _ | ⟨c, l2⟩
    · simp at hright; simp [hright]
    · simp at hright
      have hcx : c ≠ x := by
        intro e; subst e; simp at hnd
      simp [hright, hcx]
  · have hbx : b ≠ x := by
      intro e; subst e; simp at hxl1
    simp [hbx]

theorem cut_Forest (w : World) (h x y a : Nat) (t : List Nat) (k : Int) (S : List Nat)
    (K : Option Nat → List Nat) (d : Option Nat)
    (F : Forest w.nodes S K d) (hd : d = none ∨ d = some x)
    (hx : x ∈ K (some y)) (hK : K none = a :: t) (e : (w.heaps h).min_node = some a)
    (hk : k ≤ (w.nodes x).key) (hk0 : INT_MIN ≤ k) :
    Forest (fib_heap_cut (w.set_key x k) h x y).nodes S
      (Function.update (Function.update K (some y) ((K (some y)).erase x)) none (a :: x :: t))
      (some y) := by
  have e0 : ((w.set_key x k).heaps h).min_node = some a := by simpa using e
  have hxS : x ∈ S := F.mem_S hx
  have hyS : y ∈ S := F.parent_mem x hxS y (F.parent_of_mem hx)
  have haK : a ∈ K none := by rw [hK]; simp
  have hxR : x ∉ K none := fun h0 => by cases F.K_disjoint hx h0
  have hdis : ∀ {u}, u ∈ K none → u ∉ K (some y) := fun h1 h2 => by cases F.K_disjoint h1 h2
  have hlx := F.left_mem hx
  have hrx := F.right_mem hx
  have hra := F.right_mem haK
  have hal : a ≠ (w.nodes x).left := fun c => hdis haK (c ▸ hlx)
  have hndy := F.K_nodup (some y)
  obtain ⟨l1, l2, hsplit⟩ := List.append_of_mem hx
  have hxl1 : x ∉ l1 := by
    intro hm
    have := List.nodup_append.1 (hsplit ▸ hndy)
    exact this.2.2 hm (by simp)
  have herase : (K (some y)).erase x = l1 ++ l2 := by
    rw [hsplit, List.erase_append_right _ hxl1, List.erase_cons_head]
  have hsub : ∀ {u}, u ∈ l1 ++ l2 → u ∈ K (some y) := by
    intro u hu; rw [hsplit]; simp only [List.mem_append, List.mem_cons] at hu ⊢; tauto
  -- the memory after unlinking `x`
  have r1 : Ring (fib_node_remove_from_list w x).nodes (l1 ++ l2) :=
    remove_ring_self w x l1 l2 (hsplit ▸ hndy) (hsplit ▸ F.K_ring (some y))
  have r2 : Ring (fib_node_remove_from_list w x).nodes (a :: t) :=
    remove_ring_other w x (a :: t) (fun c => hdis (hK ▸ c) hlx) (fun c => hdis (hK ▸ c) hrx)
      (hK ▸ F.K_ring none)
  have hxat : x ∉ a :: t := hK ▸ hxR
  apply F.cut hd hx hK (k := k)
  · intro u; simp [cut_parent]
  · intro u; simp [cut_marked]
  · intro u; simp [cut_degree]
  · intro u
    rw [cut_child]
    simp only [set_key_child, set_key_right]
    by_cases huy : u = y
    · subst huy
      simp only [true_and, if_true]
      rw [F.child_eq u hyS]
      exact cut_child_head hndy (F.K_ring _) hx
    · simp [huy]
  · intro u; simp
  · exact hk
  · exact hk0
  · apply Ring_insert (hK ▸ F.K_nodup none) hxat r2
    · intro u; simp [cut_right _ h x y a e0, remove_right]
    · intro u; simp [cut_left _ h x y a e0, remove_right, remove_left]
  · rw [herase]
    apply Ring_congr _ r1
    intro u hu
    have h1 : u ≠ a := fun c => hdis haK (c ▸ hsub hu)
    have h2 : u ≠ x := fun c => by
      subst c
      have := List.nodup_append.1 (hsplit ▸ hndy)
      simp only [List.mem_append] at hu
      rcases hu with hu | hu
      · exact hxl1 hu
      · exact (List.nodup_cons.1 this.2.1).1 hu
    have h3 : u ≠ (w.nodes a).right := fun c => hdis hra (c ▸ hsub hu)
    simp [cut_right _ h x y a e0, cut_left _ h x y a e0, remove_right, remove_left, h1, h2, h3,
      hal]
  · intro u hu1 hu2
    have h1 : u ≠ a := fun c => hu1 (c ▸ haK)
    have h2 : u ≠ x := fun c => hu2 (c ▸ hx)
    have h3 : u ≠ (w.nodes a).right := fun c => hu1 (c ▸ hra)
    have h4 : u ≠ (w.nodes x).left := fun c => hu2 (c ▸ hlx)
    have h5 : u ≠ (w.nodes x).right := fun c => hu2 (c ▸ hrx)
    simp [cut_right _ h x y a e0, cut_left _ h x y a e0, h1, h2, h3, h4, h5, hal]

end FibHeap


namespace FibHeap

/-! ## `fib_heap_cascading_cut` and `fib_heap_decrease_key` -/

theorem cut_nodes_ne (w : World) (h x y a : Nat) (e : (w.heaps h).min_node = some a) (u : Nat)
    (h1 : u ≠ x) (h2 : u ≠ y) (h3 : u ≠ a) (h4 : u ≠ (w.nodes x).left)
    (h5 : u ≠ (w.nodes x).right) (h6 : u ≠ (w.nodes a).right) :
    (fib_heap_cut w h x y).nodes u = w.nodes u := by
  unfold fib_heap_cut
  simp only []
  rw [set_marked_ne _ _ _ _ h1, set_parent_ne _ _ _ _ h1]
  rw [add_root_nodes_ne _ h x a (by split_ifs <;> simpa using e) u h3 h1
    (by split_ifs <;> simp [remove_right] <;> split_ifs <;> assumption)]
  rw [set_degree_ne _ _ _ _ h2]
  rw [remove_nodes_ne _ _ _ (by split_ifs <;> simpa using h4) (by split_ifs <;> simpa using h5)]
  split_ifs <;> simp [set_child_ne, h2]

/-- Changing marks (and the defect) without changing any value `dval` seen by a parent. -/
theorem Forest.hall_congr {m m' : Mem} {S K d d'} (F : Forest m S K d)
    (hf : ∀ u, (m' u).key = (m u).key ∧ (m' u).parent = (m u).parent ∧
      (m' u).child = (m u).child ∧ (m' u).degree = (m u).degree ∧
      (m' u).left = (m u).left ∧ (m' u).right = (m u).right)
    (hv : ∀ p ∈ S, ∀ u ∈ K (some p), dval m' d' u = dval m d u) :
    Forest m' S K d' where
  S_nodup := F.S_nodup
  K_nodup := F.K_nodup
  K_ring := fun q => Ring_congr (fun u _ => ⟨(hf u).2.2.2.2.2, (hf u).2.2.2.2.1⟩) (F.K_ring q)
  K_mem := fun q x => by rw [(hf x).2.1]; exact F.K_mem q x
  parent_mem := fun x hx p hp => F.parent_mem x hx p (by rw [← (hf x).2.1]; exact hp)
  child_eq := fun p hp => by rw [(hf p).2.2.1]; exact F.child_eq p hp
  degree_eq := fun p hp => by rw [(hf p).2.2.2.1]; exact F.degree_eq p hp
  order := fun x hx p hp => by
    rw [(hf x).1, (hf p).1]
    exact F.order x hx p (by rw [← (hf x).2.1]; exact hp)
  rank := by
    obtain ⟨rk, hrk⟩ := F.rank
    exact ⟨rk, fun x hx p hp => hrk x hx p (by rw [← (hf x).2.1]; exact hp)⟩
  hall := fun p hp t => by
    rw [filter_dval_congr t (m := m) (d := d) (hv p hp)]
    exact F.hall p hp t
  key_ge := fun x hx => by rw [(hf x).1]; exact F.key_ge x hx

theorem Forest.defect_root {m : Mem} {S K y} (F : Forest m S K (some y))
    (hy : (m y).parent = none) : Forest m S K none := by
  apply F.hall_congr (fun u => ⟨rfl, rfl, rfl, rfl, rfl, rfl⟩)
  intro p _ u hu
  have : u ≠ y := fun c => by
    have := F.parent_of_mem hu
    rw [c, hy] at this
    cases this
  simp [dval, Ne.symm this]

theorem Forest.defect_mark {w : World} {S K y} (F : Forest w.nodes S K (some y))
    (hy : (w.nodes y).marked = false) :
    Forest (w.set_marked y true).nodes S K none := by
  apply F.hall_congr (fun u => by simp)
  intro p _ u _
  by_cases hu : u = y
  · subst hu; simp [dval, hy]
  · simp [dval, hu, Ne.symm hu]


theorem cascading_spec (h : Nat) (S : List Nat) (a : Nat) (rk : Nat → Nat) :
    ∀ (fuel : Nat) (w : World) (K : Option Nat → List Nat) (y : Nat) (V : List Nat),
      Forest w.nodes S K (some y) →
      (∀ x ∈ S, ∀ p, (w.nodes x).parent = some p → rk x < rk p) →
      (w.heaps h).min_node = some a → (K none).head? = some a → y ∈ S →
      V.Nodup → (∀ v ∈ V, v ∈ S ∧ rk v < rk y) → S.length ≤ fuel + V.length →
      ∃ w', fib_heap_cascading_cut fuel w h y = some w' ∧ Restructured w w' S a := by
  intro fuel
  induction fuel with
  | zero =>
    intro w K y V F hrk hmin hhead hy hV hVS hlen
    exfalso
    have hsub : (y :: V).Subperm S := by
      apply List.subperm_of_subset
      · exact List.nodup_cons.2 ⟨fun c => lt_irrefl _ (hVS y c).2, hV⟩
      · intro v hv
        rcases List.mem_cons.1 hv with rfl | hv
        · exact hy
        · exact (hVS v hv).1
    have := hsub.length_le
    simp at this
    omega
  | succ fuel ih =>
    intro w K y V F hrk hmin hhead hy hV hVS hlen
    unfold fib_heap_cascading_cut
    cases hp : (w.nodes y).parent with
    | none =>
      exact ⟨w, rfl, ⟨K, F.defect_root hp, hhead⟩, rfl, rfl, rfl, fun u => ⟨rfl, rfl⟩,
        fun u _ => rfl, fun u hu => hu⟩
    | some z =>
      simp only
      by_cases hm : (w.nodes y).marked = false
      · rw [if_pos hm]
        refine ⟨_, rfl, ⟨K, F.defect_mark hm, hhead⟩, by simp, by simp, by simp,
          fun u => by simp, fun u hu => ?_, fun u hu => by simpa using hu⟩
        exact set_marked_ne _ _ _ _ (fun c => hu (c ▸ hy))
      · rw [if_neg hm]
        obtain ⟨t, hK⟩ : ∃ t, K none = a :: t := by
          rcases hKn : K none with _ | ⟨b, t⟩
          · rw [hKn] at hhead; simp at hhead
          · rw [hKn] at hhead; simp at hhead; exact ⟨t, by rw [hhead]⟩
        have hyz : y ∈ K (some z) := (F.K_mem _ y).2 ⟨hy, hp⟩
        have hzS : z ∈ S := F.parent_mem y hy z hp
        have Fc := cut_Forest w h y z a t (w.nodes y).key S K (some y) F (Or.inr rfl) hyz hK hmin
          (le_refl _) (F.key_ge y hy)
        rw [set_key_self] at Fc
        have hrk' : ∀ x ∈ S, ∀ p, ((fib_heap_cut w h y z).nodes x).parent = some p →
            rk x < rk p := by
          intro x hx p hpx
          rw [cut_parent] at hpx
          by_cases hxy : x = y
          · simp [hxy] at hpx
          · simp only [hxy, if_false] at hpx; exact hrk x hx p hpx
        have hmin' : ((fib_heap_cut w h y z).heaps h).min_node = some a := by
          rw [cut_heaps w h y z a hmin]; exact hmin
        have hyz_rk := hrk y hy z hp
        obtain ⟨w', hw', ⟨K', F', hh'⟩, e1, e2, e3, e4, e5, e6⟩ :=
          ih (fib_heap_cut w h y z) _ z (y :: V) Fc hrk' hmin' (by simp) hzS
            (List.nodup_cons.2 ⟨fun c => lt_irrefl _ (hVS y c).2, hV⟩)
            (by
              intro v hv
              rcases List.mem_cons.1 hv with rfl | hv
              · exact ⟨hy, hyz_rk⟩
              · exact ⟨(hVS v hv).1, lt_trans (hVS v hv).2 hyz_rk⟩)
            (by simp; omega)
        refine ⟨w', hw', ⟨K', F', hh'⟩, ?_, ?_, ?_, ?_, ?_, ?_⟩
        · rw [e1, cut_heaps w h y z a hmin]
        · rw [e2]; simp
        · rw [e3]; simp
        · intro u; rw [(e4 u).1, (e4 u).2]; simp
        · intro u hu
          rw [e5 u hu]
          have haK : a ∈ K none := by rw [hK]; simp
          apply cut_nodes_ne w h y z a hmin u
          · exact fun c => hu (c ▸ hy)
          · exact fun c => hu (c ▸ hzS)
          · exact fun c => hu (c ▸ F.mem_S haK)
          · exact fun c => hu (c ▸ F.mem_S (F.left_mem hyz))
          · exact fun c => hu (c ▸ F.mem_S (F.right_mem hyz))
          · exact fun c => hu (c ▸ F.mem_S (F.right_mem haK))
        · intro u hu
          apply e6
          rw [cut_parent]
          split
          · rfl
          · exact hu

/-- Lowering the key of `x` where that does not break the heap order. -/
theorem Forest.set_key {w : World} {S K d} {x : Nat} {k : Int} (F : Forest w.nodes S K d)
    (hk : k ≤ (w.nodes x).key) (hk0 : INT_MIN ≤ k)
    (hp : ∀ p, (w.nodes x).parent = some p → (w.nodes p).key ≤ k) :
    Forest (w.set_key x k).nodes S K d where
  S_nodup := F.S_nodup
  K_nodup := F.K_nodup
  K_ring := fun q => Ring_congr (fun u _ => by simp) (F.K_ring q)
  K_mem := fun q u => by simpa using F.K_mem q u
  parent_mem := fun u hu p hpu => F.parent_mem u hu p (by simpa using hpu)
  child_eq := fun p hp => by simpa using F.child_eq p hp
  degree_eq := fun p hp => by simpa using F.degree_eq p hp
  order := fun u hu p hpu => by
    have hpu' : (w.nodes u).parent = some p := by simpa using hpu
    have := F.order u hu p hpu'
    simp only [set_key_key]
    by_cases hux : u = x
    · subst hux
      have hpx : p ≠ u := by
        obtain ⟨rk, hrk⟩ := F.rank
        intro c
        have := hrk u hu p hpu'
        rw [c] at this
        exact lt_irrefl _ this
      simp only [hpx, if_false, if_true]
      exact hp p hpu'
    · simp only [hux, if_false]
      split
      · rename_i hpx; subst hpx; exact le_trans hk this
      · exact this
  rank := by
    obtain ⟨rk, hrk⟩ := F.rank
    exact ⟨rk, fun u hu p hpu => hrk u hu p (by simpa using hpu)⟩
  hall := fun p hp t => by
    rw [filter_dval_congr t (m := w.nodes) (d := d)]
    · exact F.hall p hp t
    · intro u _
      simp [dval]
  key_ge := fun u hu => by
    simp only [set_key_key]
    split
    · exact hk0
    · exact F.key_ge u hu

/-- The root ring may be listed from any of its members. -/
theorem Forest.rotate_roots {m : Mem} {S K d} (F : Forest m S K d) {l1 l2 : List Nat}
    (hK : K none = l1 ++ l2) : Forest m S (Function.update K none (l2 ++ l1)) d where
  S_nodup := F.S_nodup
  K_nodup := fun q => by
    rcases q with _ | p
    · rw [Function.update_same]
      exact (List.perm_append_comm.nodup_iff).1 (hK ▸ F.K_nodup none)
    · rw [Function.update_noteq (by simp)]; exact F.K_nodup _
  K_ring := fun q => by
    rcases q with _ | p
    · rw [Function.update_same]
      exact Ring_rotate (hK ▸ F.K_ring none)
    · rw [Function.update_noteq (by simp)]; exact F.K_ring _
  K_mem := fun q u => by
    rcases q with _ | p
    · rw [Function.update_same, ← F.K_mem none u, hK]
      simp only [List.mem_append]; tauto
    · rw [Function.update_noteq (by simp)]; exact F.K_mem _ u
  parent_mem := F.parent_mem
  child_eq := fun p hp => by rw [Function.update_noteq (by simp)]; exact F.child_eq p hp
  degree_eq := fun p hp => by rw [Function.update_noteq (by simp)]; exact F.degree_eq p hp
  order := F.order
  rank := F.rank
  hall := fun p hp t => by rw [Function.update_noteq (by simp)]; exact F.hall p hp t
  key_ge := F.key_ge


theorem HeapInv.min_of_mem {m : Mem} {H S} (I : HeapInv m H S) {x : Nat} (hx : x ∈ S) :
    ∃ a, H.min_node = some a ∧ a ∈ S ∧ (m a).parent = none := by
  obtain ⟨K, F, hmin, -, -⟩ := I
  obtain ⟨r, hr, -⟩ := F.exists_root hx
  rcases hK : K none with _ | ⟨a, t⟩
  · rw [hK] at hr; simp at hr
  · have haK : a ∈ K none := by rw [hK]; simp
    exact ⟨a, by rw [hmin, hK]; rfl, F.mem_S haK, F.parent_of_mem haK⟩

/-- The final comparison of `fib_heap_decrease_key` against the old minimum. -/
theorem decrease_tail (w w1 : World) (h x a : Nat) (k : Int) (S : List Nat)
    (I : HeapInv w.nodes (w.heaps h) S) (hx : x ∈ S) (hk : k ≤ (w.nodes x).key)
    (hmina : (w.heaps h).min_node = some a)
    (R : Restructured (w.set_key x k) w1 S a)
    (hroot : k < (w.nodes a).key → (w1.nodes x).parent = none) :
    DecreasePost w
      (if (w1.nodes x).key < (w1.nodes a).key then w1.set_min_node h (some x) else w1)
      h x k S := by
  obtain ⟨K, F, hmin, hcnt, hglob⟩ := I
  obtain ⟨⟨K1, F1, hh1⟩, e1, e2, e3, e4, e5, e6⟩ := R
  have hmin1 : (w1.heaps h).min_node = some a := by rw [e1]; simpa using hmina
  have hkeys : ∀ u, (w1.nodes u).key = if u = x then k else (w.nodes u).key := by
    intro u; rw [(e4 u).1]; simp
  have hxk : (w1.nodes x).key = k := by rw [hkeys]; simp
  have hak : (w1.nodes a).key = if a = x then k else (w.nodes a).key := hkeys a
  have hglob' : ∀ u ∈ S, (w.nodes a).key ≤ (w.nodes u).key := hglob a hmina
  have hdata : ∀ u, (w1.nodes u).data = (w.nodes u).data := by
    intro u; rw [(e4 u).2]; simp
  have hfr : ∀ u, u ∉ S → w1.nodes u = w.nodes u := by
    intro u hu
    rw [e5 u hu]
    exact set_key_ne _ _ _ _ (fun c => hu (c ▸ hx))
  by_cases hc : (w1.nodes x).key < (w1.nodes a).key
  · -- the decreased node becomes the minimum
    rw [if_pos hc]
    have hax : a ≠ x := by
      intro c; rw [c] at hc
      exact lt_irrefl _ hc
    have hlt : k < (w.nodes a).key := by
      rw [hxk, hak, if_neg hax] at hc; exact hc
    have hxroot : x ∈ K1 none := (F1.K_mem none x).2 ⟨hx, hroot hlt⟩
    obtain ⟨l1, l2, hsplit⟩ := List.append_of_mem hxroot
    refine ⟨⟨_, F1.rotate_roots hsplit, ?_, ?_, ?_⟩, ?_, by simpa using e2,
      by simpa using e3, by simpa using hkeys, by simpa using hdata,
      by simpa using hfr, ?_⟩
    · simp
    · simp [e1, hcnt]
    · intro z hz u hu
      simp at hz
      subst hz
      simp only [set_min_node_nodes, hkeys, if_true]
      split
      · exact le_refl _
      · exact le_trans (le_of_lt hlt) (hglob' u hu)
    · intro g hg
      rw [set_min_node_ne _ _ _ _ hg, e1]; simp
    · intro a' ha'
      rw [hmina] at ha'; cases ha'
      simp [hlt]
  · rw [if_neg hc]
    refine ⟨⟨K1, F1, ?_, ?_, ?_⟩, ?_, e2, e3, hkeys, hdata, hfr, ?_⟩
    · rw [hmin1, hh1]
    · rw [e1]; simpa using hcnt
    · intro z hz u hu
      rw [hmin1] at hz
      have hza : a = z := Option.some.inj hz
      subst hza
      rw [hkeys, hkeys]
      rw [hxk, hak] at hc
      by_cases hzx : a = x
      · rw [if_pos hzx]
        split
        · exact le_refl _
        · rw [hzx] at hglob'; exact le_trans hk (hglob' u hu)
      · rw [if_neg hzx] at hc ⊢
        split
        · exact not_lt.1 hc
        · exact hglob' u hu
    · intro g _; rw [e1]; simp
    · intro a' ha'
      rw [hmina] at ha'
      have hza : a = a' := Option.some.inj ha'
      subst hza
      rw [hmin1]
      rw [hxk, hak] at hc
      by_cases hax : a = x
      · rw [hax]; simp
      · rw [if_neg hax] at hc; rw [if_neg hc]

theorem decrease_key_spec (w : World) (h x : Nat) (k : Int) (S : List Nat) (fuel : Nat)
    (I : HeapInv w.nodes (w.heaps h) S) (hx : x ∈ S) (hk : k ≤ (w.nodes x).key)
    (hk0 : INT_MIN ≤ k) (hfuel : S.length ≤ fuel) :
    ∃ w', fib_heap_decrease_key fuel w (some h) (some x) k =
        some (w', fib_heap_error_t.FIB_HEAP_SUCCESS) ∧ DecreasePost w w' h x k S := by
  obtain ⟨a, hmina, haS, hap⟩ := I.min_of_mem hx
  have I0 := I
  obtain ⟨K, F, hmin, hcnt, hglob⟩ := I
  have hhead : (K none).head? = some a := by rw [← hmin]; exact hmina
  have hkle : ¬ k > (w.nodes x).key := not_lt.2 hk
  simp only [fib_heap_decrease_key, if_neg hkle]
  cases hp : (w.nodes x).parent with
  | none =>
    have hp' : ((w.set_key x k).nodes x).parent = none := by simpa using hp
    have R : Restructured (w.set_key x k) (w.set_key x k) S a :=
      ⟨⟨K, F.set_key hk hk0 (fun p c => by rw [hp] at c; cases c), hhead⟩, rfl,
        rfl, rfl, fun u => ⟨rfl, rfl⟩, fun u _ => rfl, fun u hu => hu⟩
    have hm : ((w.set_key x k).heaps h).min_node = some a := by simpa using hmina
    simp only [hp', hm]
    exact ⟨_, rfl, decrease_tail w _ h x a k S I0 hx hk hmina R (fun _ => hp')⟩
  | some y =>
    have hp' : ((w.set_key x k).nodes x).parent = some y := by simpa using hp
    have hxy : x ∈ K (some y) := (F.K_mem _ x).2 ⟨hx, hp⟩
    have hne : y ≠ x := fun c => F.ne_parent hxy c.symm
    have hyS : y ∈ S := F.parent_mem x hx y hp
    simp only [hp']
    by_cases hlt : k < (w.nodes y).key
    · have hc : ((w.set_key x k).nodes x).key < ((w.set_key x k).nodes y).key := by
        simpa [hne] using hlt
      rw [if_pos hc]
      obtain ⟨t, hK⟩ : ∃ t, K none = a :: t := by
        rcases hKn : K none with _ | ⟨b, t⟩
        · rw [hKn] at hhead; simp at hhead
        · rw [hKn] at hhead; simp at hhead; exact ⟨t, by rw [hhead]⟩
      have Fc := cut_Forest w h x y a t k S K none F (Or.inl rfl) hxy hK hmina hk hk0
      obtain ⟨rk, hrk⟩ := F.rank
      have hrk' : ∀ u ∈ S, ∀ p, ((fib_heap_cut (w.set_key x k) h x y).nodes u).parent = some p →
          rk u < rk p := by
        intro u hu p hpu
        rw [cut_parent] at hpu
        by_cases hux : u = x
        · simp [hux] at hpu
        · simp only [hux, if_false, set_key_parent] at hpu; exact hrk u hu p hpu
      have e0 : ((w.set_key x k).heaps h).min_node = some a := by simpa using hmina
      have hmin' : ((fib_heap_cut (w.set_key x k) h x y).heaps h).min_node = some a := by
        rw [cut_heaps _ h x y a e0]; exact e0
      obtain ⟨w1, hw1, ⟨K1, F1, hh1⟩, e1, e2, e3, e4, e5, e6⟩ :=
        cascading_spec h S a rk fuel (fib_heap_cut (w.set_key x k) h x y) _ y [] Fc hrk' hmin'
          (by simp) hyS List.nodup_nil (by simp) (by simpa using hfuel)
      have R : Restructured (w.set_key x k) w1 S a := by
        refine ⟨⟨K1, F1, hh1⟩, ?_, ?_, ?_, ?_, ?_, ?_⟩
        · rw [e1, cut_heaps _ h x y a e0]
        · rw [e2]; simp
        · rw [e3]; simp
        · intro u; rw [(e4 u).1, (e4 u).2]; simp
        · intro u hu
          rw [e5 u hu]
          have haK : a ∈ K none := by rw [hK]; simp
          apply cut_nodes_ne _ h x y a e0 u
          · exact fun c => hu (c ▸ hx)
          · exact fun c => hu (c ▸ hyS)
          · exact fun c => hu (c ▸ haS)
          · simp only [set_key_left]; exact fun c => hu (c ▸ F.mem_S (F.left_mem hxy))
          · simp only [set_key_right]; exact fun c => hu (c ▸ F.mem_S (F.right_mem hxy))
          · simp only [set_key_right]; exact fun c => hu (c ▸ F.mem_S (F.right_mem haK))
        · intro u hu
          apply e6
          rw [cut_parent]
          split
          · rfl
          · exact hu
      have hm : (w1.heaps h).min_node = some a := by
        rw [R.2.1]; simpa using hmina
      rw [hw1]
      simp only [hm]
      refine ⟨_, rfl, decrease_tail w _ h x a k S I0 hx hk hmina R (fun _ => ?_)⟩
      apply e6
      rw [cut_parent]; simp
    · have hc : ¬ ((w.set_key x k).nodes x).key < ((w.set_key x k).nodes y).key := by
        simpa [hne] using hlt
      rw [if_neg hc]
      have R : Restructured (w.set_key x k) (w.set_key x k) S a :=
        ⟨⟨K, F.set_key hk hk0 (fun p c => by rw [hp] at c; cases c; exact not_lt.1 hlt), hhead⟩,
          rfl, rfl, rfl, fun u => ⟨rfl, rfl⟩, fun u _ => rfl, fun u hu => hu⟩
      have hm : ((w.set_key x k).heaps h).min_node = some a := by simpa using hmina
      simp only [hm]
      refine ⟨_, rfl, decrease_tail w _ h x a k S I0 hx hk hmina R (fun hka => ?_)⟩
      exfalso
      have := hglob a hmina y hyS
      exact hlt (lt_of_lt_of_le hka this)

end FibHeap


namespace FibHeap

/-! ## `fib_heap_extract_min`: promoting the children and unlinking the minimum -/

theorem PromoteInv.init (w0 : World) (z : Nat) (t cs : List Nat)
    (hr : Ring w0.nodes (z :: t)) : PromoteInv w0 w0 z t cs [] where
  heaps := rfl
  next_node := rfl
  next_heap := rfl
  ring := by simpa using hr
  parent := fun u => by simp
  fields := fun u => ⟨rfl, rfl, rfl, rfl, rfl⟩
  right_todo := fun _ _ _ => rfl
  frame := fun _ _ _ => rfl

theorem PromoteInv.step {w0 w : World} {h z : Nat} {t cs done : List Nat} {c : Nat}
    {todo : List Nat} (P : PromoteInv w0 w z t cs done)
    (hcs : cs = done ++ c :: todo) (hnd : ((z :: t) ++ cs).Nodup)
    (hmin : (w0.heaps h).min_node = some z) :
    PromoteInv w0 (fib_node_add_to_root_list (w.set_parent c none) h c) z t cs (done ++ [c]) := by
  have hmin' : (((w.set_parent c none).heaps h)).min_node = some z := by
    simp [P.heaps, hmin]
  obtain ⟨n1, n2, dj⟩ := List.nodup_append.1 hnd
  have hccs : c ∈ cs := by rw [hcs]; simp
  have hdone_sub : ∀ {u}, u ∈ done → u ∈ cs := fun hu => by rw [hcs]; simp [hu]
  have hc_done : c ∉ done := by
    intro hm
    rw [hcs] at n2
    have := List.nodup_append.1 n2
    exact this.2.2 hm (by simp)
  have hczt : c ∉ z :: t := fun hm => dj hm hccs
  have hzcs : z ∉ cs := fun hm => dj (List.mem_cons_self _ _) hm
  have hnd1 : (z :: (done.reverse ++ t)).Nodup := by
    have h1 : (z :: (done.reverse ++ t)).Perm (done ++ (z :: t)) := by
      have : (done.reverse ++ t).Perm (done ++ t) :=
        List.Perm.append_right t (List.reverse_perm done)
      exact (List.Perm.cons z this).trans (List.perm_middle.symm)
    apply h1.nodup_iff.2
    apply List.nodup_append.2
    refine ⟨?_, n1, ?_⟩
    · rw [hcs] at n2; exact (List.nodup_append.1 n2).1
    · intro u hu1 hu2; exact dj hu2 (hdone_sub hu1)
  have hc1 : c ∉ z :: (done.reverse ++ t) := by
    simp only [List.mem_cons, List.mem_append, List.mem_reverse, not_or]
    simp only [List.mem_cons, not_or] at hczt
    exact ⟨hczt.1, hc_done, hczt.2⟩
  have hring0 : Ring (w.set_parent c none).nodes (z :: (done.reverse ++ t)) := by
    simpa using P.ring
  refine
    { heaps := ?_, next_node := by simp [P.next_node], next_heap := by simp [P.next_heap]
      ring := ?_, parent := ?_, fields := ?_, right_todo := ?_, frame := ?_ }
  · rw [add_root_heaps _ h c z hmin']; simpa using P.heaps
  · have := add_root_ring_self _ h c z _ hmin' hnd1 hc1 hring0
    simpa using this
  · intro u
    simp only [add_root_parent, set_parent_parent, P.parent, List.mem_append,
      List.mem_singleton]
    by_cases huc : u = c
    · simp [huc]
    · simp [huc]
  · intro u
    simp only [add_root_key, add_root_data, add_root_child, add_root_degree, add_root_marked,
      set_parent_key, set_parent_data, set_parent_child, set_parent_degree, set_parent_marked]
    exact P.fields u
  · intro u hu1 hu2
    simp only [List.mem_append, List.mem_singleton, not_or] at hu2
    rw [add_root_right _ h c z hmin']
    have : u ≠ z := fun e => hzcs (e ▸ hu1)
    simp only [this, hu2.2, if_false, set_parent_right]
    exact P.right_todo u hu1 hu2.1
  · intro u hu1 hu2
    have h1 : u ≠ z := fun e => hu1 (e ▸ List.mem_cons_self _ _)
    have h2 : u ≠ c := fun e => hu2 (e ▸ hccs)
    have h3 : u ≠ ((w.set_parent c none).nodes z).right := by
      intro e
      have hm := Ring_right_mem hring0 (List.mem_cons_self z _)
      rw [← e] at hm
      simp only [List.mem_cons, List.mem_append, List.mem_reverse] at hm
      rcases hm with hm | hm | hm
      · exact h1 hm
      · exact hu2 (hdone_sub hm)
      · exact hu1 (List.mem_cons_of_mem _ hm)
    rw [add_root_nodes_ne _ h c z hmin' u h1 h2 h3, set_parent_ne _ _ _ _ h2]
    exact P.frame u hu1 hu2


theorem promote_loop (w0 : World) (h z : Nat) (t cs : List Nat)
    (hnd : ((z :: t) ++ cs).Nodup) (hmin : (w0.heaps h).min_node = some z)
    (hring : Ring w0.nodes cs) (hchild : (w0.nodes z).child = cs.head?) :
    ∀ (todo done : List Nat) (c : Nat) (w : World) (fuel : Nat),
      cs = done ++ c :: todo → PromoteInv w0 w z t cs done → todo.length < fuel →
      ∃ w', extract_promote fuel w h z c = some w' ∧ PromoteInv w0 w' z t cs cs := by
  intro todo
  induction todo with
  | nil =>
    intro done c w fuel hcs P hf
    obtain ⟨f, rfl⟩ : ∃ f, fuel = f + 1 := ⟨fuel - 1, by omega⟩
    have P1 := P.step (h := h) hcs hnd hmin
    have hcn : c ∉ done := by
      intro hm
      have n2 := (List.nodup_append.1 hnd).2.1
      rw [hcs] at n2
      exact (List.nodup_append.1 n2).2.2 hm (by simp)
    have hr : (w.nodes c).right = (w0.nodes c).right :=
      P.right_todo c (by rw [hcs]; simp) hcn
    have hnext := Ring_right_eq (hcs ▸ hring)
    simp only [List.nil_append] at hnext
    unfold extract_promote
    simp only [(P1.fields z).2.2.1, hchild, hr, hnext]
    rw [if_neg]
    · refine ⟨_, rfl, ?_⟩
      rw [← hcs] at P1
      exact P1
    · rw [hcs]; simp
  | cons c' todo ih =>
    intro done c w fuel hcs P hf
    obtain ⟨f, rfl⟩ : ∃ f, fuel = f + 1 := ⟨fuel - 1, by simp at hf; omega⟩
    have P1 := P.step (h := h) hcs hnd hmin
    have n2 := (List.nodup_append.1 hnd).2.1
    have hcn : c ∉ done := by
      intro hm
      rw [hcs] at n2
      exact (List.nodup_append.1 n2).2.2 hm (by simp)
    have hr : (w.nodes c).right = (w0.nodes c).right :=
      P.right_todo c (by rw [hcs]; simp) hcn
    have hnext := Ring_right_eq (hcs ▸ hring)
    simp only [List.cons_append, List.head?_cons] at hnext
    have hne : some c' ≠ cs.head? := by
      rw [hcs] at n2 ⊢
      rcases done with _ | ⟨b, done⟩
      · simp only [List.nil_append, List.head?_cons, ne_eq, Option.some.injEq]
        simp only [List.nil_append, List.nodup_cons, List.mem_cons, not_or] at n2
        exact fun e => n2.1.1 e.symm
      · simp only [List.cons_append, List.head?_cons, ne_eq, Option.some.injEq]
        simp only [List.cons_append, List.nodup_cons, List.mem_append, List.mem_cons,
          not_or] at n2
        exact fun e => n2.1.2.2.1 e.symm
    have hnext' : (w0.nodes c).right = c' := Option.some.inj hnext
    unfold extract_promote
    simp only [(P1.fields z).2.2.1, hchild, hr, hnext']
    rw [if_pos hne]
    exact ih (done ++ [c]) c' _ f (by rw [hcs]; simp) P1 (by simp at hf; omega)


/-- Removing the root `z` after its children joined the root ring. -/
theorem Forest.remove_root {m m' : Mem} {S K} {z : Nat} {t : List Nat}
    (F : Forest m S K none) (hK : K none = z :: t)
    (R' : List Nat) (hnd : R'.Nodup) (hmem : ∀ x, x ∈ R' ↔ x ∈ t ∨ x ∈ K (some z))
    (hring : Ring m' R')
    (hpar : ∀ u, (m' u).parent = if u ∈ K (some z) then none else (m u).parent)
    (hf : ∀ u, (m' u).key = (m u).key ∧ (m' u).child = (m u).child ∧
      (m' u).degree = (m u).degree ∧ (m' u).marked = (m u).marked)
    (hlr : ∀ u, u ∉ K none → u ∉ K (some z) →
      (m' u).right = (m u).right ∧ (m' u).left = (m u).left) :
    Forest m' (S.erase z) (Function.update (Function.update K none R') (some z) []) none := by
  have hzK : z ∈ K none := by rw [hK]; simp
  have hzS : z ∈ S := F.mem_S hzK
  have hzp : (m z).parent = none := F.parent_of_mem hzK
  have hmemS : ∀ {x}, x ∈ S.erase z ↔ x ≠ z ∧ x ∈ S := fun {x} => F.S_nodup.mem_erase_iff
  have hzt : z ∉ t := by
    have := F.K_nodup none
    rw [hK] at this
    exact (List.nodup_cons.1 this).1
  have hK1 : ∀ p, p ≠ z →
      Function.update (Function.update K none R') (some z) [] (some p) = K (some p) := by
    intro p hp
    rw [Function.update_noteq (by simpa using hp), Function.update_noteq (by simp)]
  have hK0 : Function.update (Function.update K none R') (some z) [] none = R' := by
    rw [Function.update_noteq (by simp), Function.update_same]
  have hpar' : ∀ u p, (m' u).parent = some p → (m u).parent = some p ∧ u ∉ K (some z) := by
    intro u p hp
    rw [hpar] at hp
    by_cases hu : u ∈ K (some z)
    · simp [hu] at hp
    · simp only [hu, if_false] at hp; exact ⟨hp, hu⟩
  refine
    { S_nodup := F.S_nodup.erase z
      K_nodup := ?_, K_ring := ?_, K_mem := ?_, parent_mem := ?_, child_eq := ?_,
      degree_eq := ?_, order := ?_, rank := ?_, hall := ?_, key_ge := ?_ }
  · intro q
    rcases q with _ | p
    · rw [hK0]; exact hnd
    · by_cases hp : p = z
      · subst hp; simp
      · rw [hK1 p hp]; exact F.K_nodup _
  · intro q
    rcases q with _ | p
    · rw [hK0]; exact hring
    · by_cases hp : p = z
      · subst hp; simpa using Ring_nil m'
      · rw [hK1 p hp]
        apply Ring_congr _ (F.K_ring _)
        intro u hu
        apply hlr u
        · intro h0; cases F.K_disjoint hu h0
        · intro h0; exact hp (Option.some.inj (F.K_disjoint hu h0))
  · intro q u
    rcases q with _ | p
    · rw [hK0, hmem, hmemS, hpar]
      constructor
      · rintro (hu | hu)
        · have huK : u ∈ K none := by rw [hK]; exact List.mem_cons_of_mem _ hu
          have hnz : u ∉ K (some z) := fun c => by cases F.K_disjoint huK c
          refine ⟨⟨fun c => hzt (c ▸ hu), F.mem_S huK⟩, ?_⟩
          simp only [hnz, if_false]; exact F.parent_of_mem huK
        · refine ⟨⟨F.ne_parent hu, F.mem_S hu⟩, ?_⟩
          simp [hu]
      · rintro ⟨⟨hne, huS⟩, hp⟩
        by_cases hu : u ∈ K (some z)
        · exact Or.inr hu
        · simp only [hu, if_false] at hp
          have := (F.K_mem none u).2 ⟨huS, hp⟩
          rw [hK] at this
          rcases List.mem_cons.1 this with c | c
          · exact absurd c hne
          · exact Or.inl c
    · by_cases hp : p = z
      · subst hp
        simp only [Function.update_same, List.not_mem_nil, false_iff, not_and]
        intro _ hpu
        have := hpar' u p hpu
        exact this.2 ((F.K_mem _ u).2 ⟨(hmemS.1 ‹_›).2, this.1⟩)
      · rw [hK1 p hp, hmemS]
        constructor
        · intro hu
          have hnz : u ∉ K (some z) := fun c => hp (Option.some.inj (F.K_disjoint hu c))
          refine ⟨⟨?_, F.mem_S hu⟩, ?_⟩
          · intro c; subst c
            have := F.parent_of_mem hu
            rw [hzp] at this; cases this
          · rw [hpar]; simp only [hnz, if_false]; exact F.parent_of_mem hu
        · rintro ⟨⟨_, huS⟩, hpu⟩
          exact (F.K_mem _ u).2 ⟨huS, (hpar' u p hpu).1⟩
  · intro u hu p hp
    have hu' := hmemS.1 hu
    have := hpar' u p hp
    refine hmemS.2 ⟨?_, F.parent_mem u hu'.2 p this.1⟩
    intro c; subst c
    exact this.2 ((F.K_mem _ u).2 ⟨hu'.2, this.1⟩)
  · intro p hp
    have hp' := hmemS.1 hp
    rw [hK1 p hp'.1, (hf p).2.1]; exact F.child_eq p hp'.2
  · intro p hp
    have hp' := hmemS.1 hp
    rw [hK1 p hp'.1, (hf p).2.2.1]; exact F.degree_eq p hp'.2
  · intro u hu p hp
    have hu' := hmemS.1 hu
    rw [(hf u).1, (hf p).1]
    exact F.order u hu'.2 p (hpar' u p hp).1
  · obtain ⟨rk, hrk⟩ := F.rank
    exact ⟨rk, fun u hu p hp => hrk u (hmemS.1 hu).2 p (hpar' u p hp).1⟩
  · intro p hp t'
    have hp' := hmemS.1 hp
    rw [hK1 p hp'.1, filter_dval_congr t' (m := m) (d := none)]
    · exact F.hall p hp'.2 t'
    · intro u _
      exact dval_congr (hf u).2.2.1 (hf u).2.2.2
  · intro u hu
    rw [(hf u).1]; exact F.key_ge u (hmemS.1 hu).2


theorem promote_all (w : World) (h z : Nat) (t : List Nat) (S : List Nat)
    (K : Option Nat → List Nat) (fuel : Nat)
    (F : Forest w.nodes S K none) (hK : K none = z :: t)
    (hmin : (w.heaps h).min_node = some z) (hfuel : (K (some z)).length ≤ fuel) :
    ∃ w1, ((w.nodes z).child = none → w1 = w) ∧
      (∀ c, (w.nodes z).child = some c → extract_promote fuel w h z c = some w1) ∧
      PromoteInv w w1 z t (K (some z)) (K (some z)) := by
  have hzK : z ∈ K none := by rw [hK]; simp
  have hzS : z ∈ S := F.mem_S hzK
  have hch := F.child_eq z hzS
  have hr0 : Ring w.nodes (z :: t) := hK ▸ F.K_ring none
  rcases hcs : K (some z) with _ | ⟨c1, rest⟩
  · rw [hcs] at hch
    refine ⟨w, fun _ => rfl, fun c hc => ?_, PromoteInv.init w z t [] hr0⟩
    rw [hch] at hc; cases hc
  · rw [hcs] at hch
    have hnd : ((z :: t) ++ (c1 :: rest)).Nodup := by
      apply List.nodup_append.2
      refine ⟨hK ▸ F.K_nodup none, hcs ▸ F.K_nodup (some z), ?_⟩
      intro u hu1 hu2
      have := F.K_disjoint (hK ▸ hu1 : u ∈ K none) (hcs ▸ hu2 : u ∈ K (some z))
      cases this
    obtain ⟨w1, hw1, P⟩ := promote_loop w h z t (c1 :: rest) hnd hmin (hcs ▸ F.K_ring (some z))
      hch rest [] c1 w fuel rfl (PromoteInv.init w z t _ hr0)
      (by rw [hcs] at hfuel; simp at hfuel; omega)
    refine ⟨w1, fun hc => ?_, fun c hc => ?_, P⟩
    · rw [hch] at hc; cases hc
    · rw [hch] at hc
      simp only [List.head?_cons, Option.some.injEq] at hc
      subst hc; exact hw1

/-- The forest left when the minimum `z` has been unlinked, before consolidation. -/
theorem unlink_Forest (w w1 : World) (z : Nat) (t : List Nat) (S : List Nat)
    (K : Option Nat → List Nat)
    (F : Forest w.nodes S K none) (hK : K none = z :: t)
    (P : PromoteInv w w1 z t (K (some z)) (K (some z))) :
    Forest (fib_node_remove_from_list w1 z).nodes (S.erase z)
        (Function.update (Function.update K none ((K (some z)).reverse ++ t)) (some z) [])
        none ∧
      some ((fib_node_remove_from_list w1 z).nodes z).right =
        ((K (some z)).reverse ++ t ++ [z]).head? ∧
      (∀ u, u ∉ S → (fib_node_remove_from_list w1 z).nodes u = w.nodes u) := by
  have hzK : z ∈ K none := by rw [hK]; simp
  have hnd0 := F.K_nodup none
  rw [hK] at hnd0
  have hdj : ∀ u, u ∈ K (some z) → u ∉ z :: t := by
    intro u hu hu'
    have := F.K_disjoint (hK ▸ hu' : u ∈ K none) hu
    cases this
  have hnd1 : (z :: ((K (some z)).reverse ++ t)).Nodup := by
    rw [List.nodup_cons] at hnd0 ⊢
    refine ⟨?_, ?_⟩
    · simp only [List.mem_append, List.mem_reverse, not_or]
      exact ⟨fun c => hdj z c (List.mem_cons_self _ _), hnd0.1⟩
    · apply List.nodup_append.2
      refine ⟨List.nodup_reverse.2 (F.K_nodup _), hnd0.2, ?_⟩
      intro u hu1 hu2
      exact hdj u (List.mem_reverse.1 hu1) (List.mem_cons_of_mem _ hu2)
  have hring1 : Ring (fib_node_remove_from_list w1 z).nodes ((K (some z)).reverse ++ t) := by
    have := remove_ring_self w1 z [] _ hnd1 P.ring
    simpa using this
  have hmemring : ∀ {u}, u ∈ z :: ((K (some z)).reverse ++ t) → u ∈ S := by
    intro u hu
    simp only [List.mem_cons, List.mem_append, List.mem_reverse] at hu
    rcases hu with rfl | hu | hu
    · exact F.mem_S hzK
    · exact F.mem_S hu
    · exact F.mem_S (hK ▸ List.mem_cons_of_mem _ hu : u ∈ K none)
  have hl := Ring_left_mem P.ring (List.mem_cons_self z _)
  have hr := Ring_right_mem P.ring (List.mem_cons_self z _)
  refine ⟨?_, ?_, ?_⟩
  · apply F.remove_root hK _ hnd1.of_cons _ hring1
    · intro u; simp [P.parent]
    · intro u; simp [(P.fields u).1, (P.fields u).2.2]
    · intro u hu1 hu2
      have hu1' : u ∉ z :: t := hK ▸ hu1
      have hne : ∀ {v}, v ∈ z :: ((K (some z)).reverse ++ t) → u ≠ v := by
        intro v hv c
        subst c
        simp only [List.mem_cons, List.mem_append, List.mem_reverse] at hv
        simp only [List.mem_cons, not_or] at hu1'
        rcases hv with hv | hv | hv
        · exact hu1'.1 hv
        · exact hu2 hv
        · exact hu1'.2 hv
      rw [remove_nodes_ne _ _ _ (hne hl) (hne hr), P.frame u hu1' hu2]
      exact ⟨rfl, rfl⟩
    · intro x; simp only [List.mem_append, List.mem_reverse]; tauto
  · have h1 := @Ring_right_eq _ [] _ _ P.ring
    simp only [List.append_nil] at h1
    rw [← h1, remove_right]
    split
    · rfl
    · rfl
  · intro u hu
    have hne : ∀ {v}, v ∈ z :: ((K (some z)).reverse ++ t) → u ≠ v :=
      fun hv c => hu (c ▸ hmemring hv)
    rw [remove_nodes_ne _ _ _ (hne hl) (hne hr)]
    apply P.frame
    · exact fun c => hu (F.mem_S (hK ▸ c : u ∈ K none))
    · exact fun c => hu (F.mem_S c)

end FibHeap


namespace FibHeap

/-! ## `fib_node_link` -/

theorem link_ring_perm (l : List Nat) (y : Nat) : (link_ring l y).Perm (y :: l) := by
  rcases l with _ | ⟨c, rest⟩
  · exact List.Perm.refl _
  · exact List.Perm.swap y c rest

theorem link_ring_mem (l : List Nat) (y u : Nat) : u ∈ link_ring l y ↔ u = y ∨ u ∈ l := by
  rw [(link_ring_perm l y).mem_iff]; simp

theorem link_ring_length (l : List Nat) (y : Nat) : (link_ring l y).length = l.length + 1 := by
  rw [(link_ring_perm l y).length_eq]; simp

/-- Making the root `y` a child of the root `x`. -/
theorem Forest.link {m m' : Mem} {S K} {x y : Nat}
    (F : Forest m S K none) (hx : x ∈ K none) (hy : y ∈ K none) (hxy : x ≠ y)
    (hkey : (m x).key ≤ (m y).key) (hdeg : (m y).degree = (m x).degree)
    (hpar : ∀ u, (m' u).parent = if u = y then some x else (m u).parent)
    (hmk : ∀ u, (m' u).marked = if u = y then false else (m u).marked)
    (hdg : ∀ u, (m' u).degree = if u = x then (m x).degree + 1 else (m u).degree)
    (hch : ∀ u, (m' u).child = if u = x then (link_ring (K (some x)) y).head? else (m u).child)
    (hk : ∀ u, (m' u).key = (m u).key)
    (hr1 : Ring m' ((K none).erase y)) (hr2 : Ring m' (link_ring (K (some x)) y))
    (hlr : ∀ u, u ∉ K none → u ∉ K (some x) →
      (m' u).right = (m u).right ∧ (m' u).left = (m u).left) :
    Forest m' S
      (Function.update (Function.update K none ((K none).erase y)) (some x)
        (link_ring (K (some x)) y)) none := by
  have hxS : x ∈ S := F.mem_S hx
  have hyS : y ∈ S := F.mem_S hy
  have hxp : (m x).parent = none := F.parent_of_mem hx
  have hyp : (m y).parent = none := F.parent_of_mem hy
  have hroot : ∀ {u p}, u ∈ K (some p) → u ∉ K none := fun h1 h2 => by
    cases F.K_disjoint h1 h2
  have hK0 : Function.update (Function.update K none ((K none).erase y)) (some x)
      (link_ring (K (some x)) y) none = (K none).erase y := by
    rw [Function.update_noteq (by simp), Function.update_same]
  have hKx : Function.update (Function.update K none ((K none).erase y)) (some x)
      (link_ring (K (some x)) y) (some x) = link_ring (K (some x)) y := by
    rw [Function.update_same]
  have hK1 : ∀ p, p ≠ x → Function.update (Function.update K none ((K none).erase y)) (some x)
      (link_ring (K (some x)) y) (some p) = K (some p) := by
    intro p hp
    rw [Function.update_noteq (by simpa using hp), Function.update_noteq (by simp)]
  refine
    { S_nodup := F.S_nodup
      K_nodup := ?_, K_ring := ?_, K_mem := ?_, parent_mem := ?_, child_eq := ?_,
      degree_eq := ?_, order := ?_, rank := ?_, hall := ?_, key_ge := ?_ }
  · intro q
    rcases q with _ | p
    · rw [hK0]; exact (F.K_nodup none).erase y
    · by_cases hp : p = x
      · subst hp
        rw [hKx, (link_ring_perm _ _).nodup_iff, List.nodup_cons]
        exact ⟨fun c => hroot c hy, F.K_nodup _⟩
      · rw [hK1 p hp]; exact F.K_nodup _
  · intro q
    rcases q with _ | p
    · rw [hK0]; exact hr1
    · by_cases hp : p = x
      · subst hp; rw [hKx]; exact hr2
      · rw [hK1 p hp]
        apply Ring_congr _ (F.K_ring _)
        intro u hu
        apply hlr u (hroot hu)
        intro h0; exact hp (Option.some.inj (F.K_disjoint hu h0))
  · intro q u
    rw [hpar]
    rcases q with _ | p
    · rw [hK0, (F.K_nodup none).mem_erase_iff]
      by_cases hu : u = y
      · subst hu; simp
      · simp only [hu, if_false, ne_eq, not_false_eq_true, true_and]
        exact F.K_mem none u
    · by_cases hp : p = x
      · subst hp
        rw [hKx, link_ring_mem]
        by_cases hu : u = y
        · subst hu; simp [hyS]
        · simp only [hu, if_false, false_or]
          exact F.K_mem _ u
      · rw [hK1 p hp]
        by_cases hu : u = y
        · subst hu
          simp only [if_true, Option.some.injEq]
          constructor
          · intro h0; exact absurd hy (hroot h0)
          · rintro ⟨_, h0⟩; exact absurd h0.symm hp
        · simp only [hu, if_false]
          exact F.K_mem _ u
  · intro u hu p hp
    rw [hpar] at hp
    by_cases huy : u = y
    · simp only [huy, if_true, Option.some.injEq] at hp; subst hp; exact hxS
    · simp only [huy, if_false] at hp
      exact F.parent_mem u hu p hp
  · intro p hp
    by_cases hpx : p = x
    · subst hpx; rw [hKx, hch]; simp
    · rw [hK1 p hpx, hch]; simp only [hpx, if_false]; exact F.child_eq p hp
  · intro p hp
    by_cases hpx : p = x
    · subst hpx
      rw [hKx, hdg, if_pos rfl, F.degree_eq p hp, link_ring_length]
      push_cast; rfl
    · rw [hK1 p hpx, hdg]; simp only [hpx, if_false]; exact F.degree_eq p hp
  · intro u hu p hp
    rw [hpar] at hp
    rw [hk, hk]
    by_cases huy : u = y
    · simp only [huy, if_true, Option.some.injEq] at hp; subst hp; subst huy; exact hkey
    · simp only [huy, if_false] at hp
      exact F.order u hu p hp
  · obtain ⟨rk, hrk⟩ := F.rank
    refine ⟨fun u => if u = x then max (rk x) (rk y + 1) else rk u, ?_⟩
    intro u hu p hp
    rw [hpar] at hp
    by_cases huy : u = y
    · simp only [huy, if_true, Option.some.injEq] at hp
      subst hp; subst huy
      simp only [Ne.symm hxy, if_false, if_true]
      omega
    · simp only [huy, if_false] at hp
      have hux : u ≠ x := by
        intro c; subst c
        rw [hxp] at hp; cases hp
      have := hrk u hu p hp
      simp only [hux, if_false]
      split
      · rename_i hpx; subst hpx; omega
      · exact this
  · intro p hp t
    by_cases hpx : p = x
    · subst hpx
      rw [hKx]
      have hperm := (link_ring_perm (K (some p)) y).filter
        (fun u => decide (dval m' none u < t))
      rw [hperm.length_eq]
      have hold : (K (some p)).filter (fun u => decide (dval m' none u < t)) =
          (K (some p)).filter (fun u => decide (dval m none u < t)) := by
        apply filter_dval_congr
        intro u hu
        have h1 : u ≠ y := fun c => hroot hu (c ▸ hy)
        have h2 : u ≠ p := fun c => hroot hu (c ▸ hx)
        simp [dval, hdg, hmk, h1, h2]
      have hlen := F.degree_eq p hp
      have hdy : dval m' none y = (K (some p)).length := by
        simp [dval, hdg, hmk, Ne.symm hxy, hdeg, hlen]
      rw [List.filter_cons, hold]
      have h1 := F.hall p hp t
      have h2 := (List.filter_sublist (K (some p))
        (p := fun u => decide (dval m none u < t))).length_le
      split
      · rename_i hc
        simp only [decide_eq_true_eq, hdy] at hc
        simp only [List.length_cons]
        omega
      · exact h1
    · rw [hK1 p hpx, filter_dval_congr t (m := m) (d := none)]
      · exact F.hall p hp t
      · intro u hu
        have h1 : u ≠ y := fun c => hroot hu (c ▸ hy)
        have h2 : u ≠ x := fun c => hroot hu (c ▸ hx)
        simp [dval, hdg, hmk, h1, h2]
  · intro u hu
    rw [hk]; exact F.key_ge u hu


@[simp] theorem link_heaps (w : World) (y x : Nat) : (fib_node_link w y x).heaps = w.heaps := by
  unfold fib_node_link; simp only []; split <;> simp

@[simp] theorem link_next_node (w : World) (y x : Nat) :
    (fib_node_link w y x).next_node = w.next_node := by
  unfold fib_node_link; simp only []; split <;> simp

@[simp] theorem link_next_heap (w : World) (y x : Nat) :
    (fib_node_link w y x).next_heap = w.next_heap := by
  unfold fib_node_link; simp only []; split <;> simp

@[simp] theorem link_key (w : World) (y x u : Nat) :
    ((fib_node_link w y x).nodes u).key = (w.nodes u).key := by
  unfold fib_node_link; simp only []; split <;> simp

@[simp] theorem link_data (w : World) (y x u : Nat) :
    ((fib_node_link w y x).nodes u).data = (w.nodes u).data := by
  unfold fib_node_link; simp only []; split <;> simp

theorem link_parent (w : World) (y x u : Nat) :
    ((fib_node_link w y x).nodes u).parent = if u = y then some x else (w.nodes u).parent := by
  unfold fib_node_link; simp only []; split <;> simp

theorem link_marked (w : World) (y x u : Nat) :
    ((fib_node_link w y x).nodes u).marked = if u = y then false else (w.nodes u).marked := by
  unfold fib_node_link; simp only []; split <;> simp

theorem link_degree (w : World) (y x u : Nat) :
    ((fib_node_link w y x).nodes u).degree =
      if u = x then (w.nodes x).degree + 1 else (w.nodes u).degree := by
  unfold fib_node_link; simp only []; split <;> simp

theorem link_child (w : World) (y x u : Nat) :
    ((fib_node_link w y x).nodes u).child =
      if u = x ∧ (w.nodes x).child = none then some y else (w.nodes u).child := by
  unfold fib_node_link; simp only []
  split
  · rename_i e; simp at e; simp [e]
  · rename_i pc e; simp at e; simp [e]

theorem link_right_none (w : World) (y x : Nat) (e : (w.nodes x).child = none) (u : Nat) :
    ((fib_node_link w y x).nodes u).right =
      if u = y then y else ((fib_node_remove_from_list w y).nodes u).right := by
  unfold fib_node_link; simp [e]

theorem link_left_none (w : World) (y x : Nat) (e : (w.nodes x).child = none) (u : Nat) :
    ((fib_node_link w y x).nodes u).left =
      if u = y then y else ((fib_node_remove_from_list w y).nodes u).left := by
  unfold fib_node_link; simp [e]

theorem link_right_some (w : World) (y x pc : Nat) (e : (w.nodes x).child = some pc) (u : Nat) :
    ((fib_node_link w y x).nodes u).right =
      if u = pc then y
      else if u = y then ((fib_node_remove_from_list w y).nodes pc).right
      else ((fib_node_remove_from_list w y).nodes u).right := by
  unfold fib_node_link; simp [e]

theorem link_left_some (w : World) (y x pc : Nat) (e : (w.nodes x).child = some pc) (u : Nat) :
    ((fib_node_link w y x).nodes u).left =
      if u = ((fib_node_remove_from_list w y).nodes pc).right then y
      else if u = y then pc
      else ((fib_node_remove_from_list w y).nodes u).left := by
  unfold fib_node_link; simp [e]


theorem link_Forest (w : World) (y x : Nat) (S : List Nat) (K : Option Nat → List Nat)
    (F : Forest w.nodes S K none) (hx : x ∈ K none) (hy : y ∈ K none) (hxy : x ≠ y)
    (hkey : (w.nodes x).key ≤ (w.nodes y).key)
    (hdeg : (w.nodes y).degree = (w.nodes x).degree) :
    Forest (fib_node_link w y x).nodes S
      (Function.update (Function.update K none ((K none).erase y)) (some x)
        (link_ring (K (some x)) y)) none := by
  have hxS : x ∈ S := F.mem_S hx
  have hroot : ∀ {u p}, u ∈ K (some p) → u ∉ K none := fun h1 h2 => by
    cases F.K_disjoint h1 h2
  have hly := F.left_mem hy
  have hry := F.right_mem hy
  have hnd0 := F.K_nodup none
  obtain ⟨l1, l2, hsplit⟩ := List.append_of_mem hy
  have hyl1 : y ∉ l1 := by
    intro hm
    have := List.nodup_append.1 (hsplit ▸ hnd0)
    exact this.2.2 hm (by simp)
  have herase : (K none).erase y = l1 ++ l2 := by
    rw [hsplit, List.erase_append_right _ hyl1, List.erase_cons_head]
  have hsub : ∀ {u}, u ∈ l1 ++ l2 → u ∈ K none ∧ u ≠ y := by
    intro u hu
    rw [← herase] at hu
    have := hnd0.mem_erase_iff.1 hu
    exact ⟨this.2, this.1⟩
  have r1 : Ring (fib_node_remove_from_list w y).nodes (l1 ++ l2) :=
    remove_ring_self w y l1 l2 (hsplit ▸ hnd0) (hsplit ▸ F.K_ring none)
  have r2 : Ring (fib_node_remove_from_list w y).nodes (K (some x)) :=
    remove_ring_other w y _ (fun c => hroot c hly) (fun c => hroot c hry) (F.K_ring _)
  have hch := F.child_eq x hxS
  apply F.link hx hy hxy hkey hdeg
  · intro u; exact link_parent w y x u
  · intro u; exact link_marked w y x u
  · intro u; exact link_degree w y x u
  · intro u
    rw [link_child]
    by_cases hux : u = x
    · subst hux
      rcases hK : K (some u) with _ | ⟨pc, rest⟩
      · rw [hK] at hch; simp [hch, link_ring]
      · rw [hK] at hch; simp [hch, link_ring]
    · simp [hux]
  · intro u; exact link_key w y x u
  · -- the root ring without `y`
    rw [herase]
    apply Ring_congr _ r1
    intro u hu
    have huy := (hsub hu).2
    rcases hK : K (some x) with _ | ⟨pc, rest⟩
    · rw [hK] at hch
      simp [link_right_none w y x hch, link_left_none w y x hch, huy]
    · rw [hK] at hch
      simp only [List.head?_cons] at hch
      have hpc : pc ∈ K (some x) := by rw [hK]; simp
      have h1 : u ≠ pc := fun c => hroot hpc (c ▸ (hsub hu).1)
      have h2 : u ≠ ((fib_node_remove_from_list w y).nodes pc).right := fun c =>
        hroot (Ring_right_mem r2 hpc) (c ▸ (hsub hu).1)
      simp [link_right_some w y x pc hch, link_left_some w y x pc hch, huy, h1, h2]
  · -- the child ring of `x` with `y`
    rcases hK : K (some x) with _ | ⟨pc, rest⟩
    · rw [hK] at hch
      simp only [link_ring, Ring_singleton]
      simp [link_right_none w y x hch, link_left_none w y x hch]
    · rw [hK] at hch r2
      simp only [List.head?_cons] at hch
      simp only [link_ring]
      have hyn : y ∉ pc :: rest := fun c => hroot (hK ▸ c : y ∈ K (some x)) hy
      exact Ring_insert (hK ▸ F.K_nodup (some x)) hyn r2 (link_right_some w y x pc hch)
        (link_left_some w y x pc hch)
  · intro u hu1 hu2
    have huy : u ≠ y := fun c => hu1 (c ▸ hy)
    have h3 : u ≠ (w.nodes y).left := fun c => hu1 (c ▸ hly)
    have h4 : u ≠ (w.nodes y).right := fun c => hu1 (c ▸ hry)
    rcases hK : K (some x) with _ | ⟨pc, rest⟩
    · rw [hK] at hch
      simp [link_right_none w y x hch, link_left_none w y x hch, huy, remove_right,
        remove_left, h3, h4]
    · rw [hK] at hch
      simp only [List.head?_cons] at hch
      have hpc : pc ∈ K (some x) := by rw [hK]; simp
      have h1 : u ≠ pc := fun c => hu2 (c ▸ hpc)
      have h2 : u ≠ ((fib_node_remove_from_list w y).nodes pc).right := fun c =>
        hu2 (c ▸ Ring_right_mem r2 hpc)
      rw [link_right_some w y x pc hch, link_left_some w y x pc hch]
      simp only [h1, huy, h2, if_false]
      simp [remove_right, remove_left, h3, h4]

theorem link_nodes_ne (w : World) (y x : Nat) (S : List Nat) (K : Option Nat → List Nat)
    (F : Forest w.nodes S K none) (hx : x ∈ K none) (hy : y ∈ K none) (u : Nat) (hu : u ∉ S) :
    (fib_node_link w y x).nodes u = w.nodes u := by
  have hxS : x ∈ S := F.mem_S hx
  have hyS : y ∈ S := F.mem_S hy
  have h1 : u ≠ x := fun c => hu (c ▸ hxS)
  have h2 : u ≠ y := fun c => hu (c ▸ hyS)
  have h3 : u ≠ (w.nodes y).left := fun c => hu (c ▸ F.mem_S (F.left_mem hy))
  have h4 : u ≠ (w.nodes y).right := fun c => hu (c ▸ F.mem_S (F.right_mem hy))
  have hch := F.child_eq x hxS
  unfold fib_node_link
  simp only []
  rw [set_marked_ne _ _ _ _ h2, set_degree_ne _ _ _ _ h1]
  rcases hK : K (some x) with _ | ⟨pc, rest⟩
  · rw [hK] at hch
    simp only [List.head?_nil] at hch
    simp only [set_parent_child, remove_child, hch]
    rw [set_left_ne _ _ _ _ h2, set_right_ne _ _ _ _ h2, set_child_ne _ _ _ _ h1,
      set_parent_ne _ _ _ _ h2, remove_nodes_ne _ _ _ h3 h4]
  · rw [hK] at hch
    simp only [List.head?_cons] at hch
    have hpc : pc ∈ K (some x) := by rw [hK]; simp
    have h5 : u ≠ pc := fun c => hu (c ▸ F.mem_S hpc)
    have hroot : ∀ {u p}, u ∈ K (some p) → u ∉ K none := fun h1 h2 => by
      cases F.K_disjoint h1 h2
    have r2 : Ring (fib_node_remove_from_list w y).nodes (K (some x)) :=
      remove_ring_other w y _ (fun c => hroot c (F.left_mem hy))
        (fun c => hroot c (F.right_mem hy)) (F.K_ring _)
    have h6 : u ≠ ((fib_node_remove_from_list w y).nodes pc).right := fun c =>
      hu (c ▸ F.mem_S (Ring_right_mem r2 hpc))
    simp only [set_parent_child, remove_child, hch]
    rw [set_right_ne _ _ _ _ h5, set_left_ne _ _ _ _ (by simpa using h6),
      set_left_ne _ _ _ _ h2, set_right_ne _ _ _ _ h2,
      set_parent_ne _ _ _ _ h2, remove_nodes_ne _ _ _ h3 h4]

end FibHeap


namespace FibHeap

/-! ## The Fibonacci bound on degrees -/

/-- If for every `t` at most `t` of the values are below `t`, the values are large. -/
theorem fib_sum_of_hall : ∀ (n : Nat) (l : List Nat), l.length = n →
    (∀ t, (l.filter (fun v => decide (v < t))).length ≤ t) →
    Nat.fib (n + 2) ≤ (l.map (fun v => Nat.fib (v + 1))).sum + 1
  | 0, l, hl, _ => by
    have : l = [] := List.length_eq_zero.1 hl
    subst this; simp
  | k + 1, l, hl, hall => by
    -- some value is at least `k`
    have hex : ∃ v ∈ l, k ≤ v := by
      by_contra hne
      push_neg at hne
      have : l.filter (fun v => decide (v < k)) = l := by
        apply List.filter_eq_self.2
        intro v hv
        simpa using hne v hv
      have h1 := hall k
      rw [this, hl] at h1
      omega
    obtain ⟨v, hv, hkv⟩ := hex
    have hperm := List.perm_cons_erase hv
    have hlen : (l.erase v).length = k := by
      rw [List.length_erase_of_mem hv, hl]; rfl
    have ih := fib_sum_of_hall k (l.erase v) hlen (fun t =>
      le_trans ((List.erase_sublist v l).filter _).length_le (hall t))
    have hsum : (l.map (fun v => Nat.fib (v + 1))).sum =
        Nat.fib (v + 1) + ((l.erase v).map (fun v => Nat.fib (v + 1))).sum := by
      rw [(hperm.map _).sum_eq]; simp
    rw [hsum]
    have hmono : Nat.fib (k + 1) ≤ Nat.fib (v + 1) := Nat.fib_mono (by omega)
    have hrec : Nat.fib (k + 1 + 2) = Nat.fib (k + 1) + Nat.fib (k + 2) := Nat.fib_add_two
    omega

theorem Anc.mem_rank {m : Mem} {S K d} (F : Forest m S K d) {rk : Nat → Nat}
    (hrk : ∀ x ∈ S, ∀ p, (m x).parent = some p → rk x < rk p) {a b : Nat}
    (h : Anc m a b) (hb : b ∈ S) : a ∈ S ∧ rk b ≤ rk a := by
  induction h with
  | refl => exact ⟨hb, le_refl _⟩
  | @tail p c _ hp ih =>
    have := ih (F.parent_mem c hb p hp)
    exact ⟨this.1, le_trans (le_of_lt (hrk c hb p hp)) this.2⟩

theorem Anc.linear {m : Mem} {a b y : Nat} (h1 : Anc m a y) (h2 : Anc m b y) :
    Anc m a b ∨ Anc m b a := by
  induction h1 generalizing b with
  | refl => exact Or.inr h2
  | @tail p c h1' hp ih =>
    rcases Relation.ReflTransGen.cases_tail h2 with e | ⟨p', hbp', hp'⟩
    · subst e
      exact Or.inl (Relation.ReflTransGen.tail h1' hp)
    · rw [hp] at hp'
      cases hp'
      exact ih hbp'


theorem Anc.of_child {m : Mem} {x c y : Nat} (hc : (m c).parent = some x) (h : Anc m c y) :
    Anc m x y :=
  Relation.ReflTransGen.head hc h

open Classical in
/-- One level of the size bound: a node whose children satisfy it satisfies it. -/
theorem Forest.fib_step {m : Mem} {S K} (F : Forest m S K none) {rk : Nat → Nat}
    (hrk : ∀ x ∈ S, ∀ p, (m x).parent = some p → rk x < rk p) {x : Nat} (hx : x ∈ S)
    (ih : ∀ c ∈ K (some x), Nat.fib ((m c).degree.toNat + 2) ≤
      (S.toFinset.filter (fun y => Anc m c y)).card) :
    Nat.fib ((m x).degree.toNat + 2) ≤ (S.toFinset.filter (fun y => Anc m x y)).card := by
  have hdeg : (m x).degree.toNat = (K (some x)).length := by
    rw [F.degree_eq x hx]; simp
  rw [hdeg]
  -- the counting lemma on the values `dval`
  have h1 := fib_sum_of_hall (K (some x)).length ((K (some x)).map (dval m none)) (by simp)
    (fun t => by
      rw [List.filter_map, List.length_map]
      exact F.hall x hx t)
  rw [List.map_map] at h1
  have h2 : ((K (some x)).map ((fun v => Nat.fib (v + 1)) ∘ dval m none)).sum ≤
      ((K (some x)).map (fun c => (S.toFinset.filter (fun y => Anc m c y)).card)).sum := by
    apply List.sum_le_sum
    intro c hc
    refine le_trans (Nat.fib_mono ?_) (ih c hc)
    simp only [dval]
    split <;> simp
  -- the descendants of the children are disjoint and do not contain `x`
  have hsub : insert x ((K (some x)).toFinset.biUnion
      (fun c => S.toFinset.filter (fun y => Anc m c y))) ⊆
      S.toFinset.filter (fun y => Anc m x y) := by
    intro y hy
    rw [Finset.mem_insert] at hy
    rcases hy with rfl | hy
    · simp [hx, Anc, Relation.ReflTransGen.refl]
    · rw [Finset.mem_biUnion] at hy
      obtain ⟨c, hc, hy⟩ := hy
      rw [Finset.mem_filter] at hy ⊢
      exact ⟨hy.1, Anc.of_child (F.parent_of_mem (List.mem_toFinset.1 hc)) hy.2⟩
  have hnot : x ∉ (K (some x)).toFinset.biUnion
      (fun c => S.toFinset.filter (fun y => Anc m c y)) := by
    intro hm
    rw [Finset.mem_biUnion] at hm
    obtain ⟨c, hc, hy⟩ := hm
    rw [Finset.mem_filter] at hy
    have hcK := List.mem_toFinset.1 hc
    have := (Anc.mem_rank F hrk hy.2 hx).2
    have := hrk c (F.mem_S hcK) x (F.parent_of_mem hcK)
    omega
  have hdisj : Set.PairwiseDisjoint (↑(K (some x)).toFinset)
      (fun c => S.toFinset.filter (fun y => Anc m c y)) := by
    intro c1 hc1 c2 hc2 hne
    rw [Function.onFun, Finset.disjoint_left]
    intro y hy1 hy2
    rw [Finset.mem_filter] at hy1 hy2
    have hc1K : c1 ∈ K (some x) := List.mem_toFinset.1 hc1
    have hc2K : c2 ∈ K (some x) := List.mem_toFinset.1 hc2
    have key : ∀ {a b}, a ∈ K (some x) → b ∈ K (some x) → a ≠ b → Anc m a b → False := by
      intro a b ha hb hab h
      rcases Relation.ReflTransGen.cases_tail h with e | ⟨p, hap, hp⟩
      · exact hab e.symm
      · rw [F.parent_of_mem hb] at hp
        cases hp
        have := (Anc.mem_rank F hrk hap (F.parent_mem b (F.mem_S hb) _ (F.parent_of_mem hb))).2
        have := hrk a (F.mem_S ha) _ (F.parent_of_mem ha)
        omega
    rcases Anc.linear hy1.2 hy2.2 with h | h
    · exact key hc1K hc2K hne h
    · exact key hc2K hc1K (Ne.symm hne) h
  have hcard := Finset.card_le_card hsub
  rw [Finset.card_insert_of_not_mem hnot, Finset.card_biUnion hdisj,
    List.sum_toFinset _ (F.K_nodup _)] at hcard
  omega

open Classical in
/-- A node of degree `d` has at least `fib (d + 2)` descendants, itself included. -/
theorem Forest.fib_le_desc {m : Mem} {S K} (F : Forest m S K none) {x : Nat} (hx : x ∈ S) :
    Nat.fib ((m x).degree.toNat + 2) ≤ (S.toFinset.filter (fun y => Anc m x y)).card := by
  obtain ⟨rk, hrk⟩ := F.rank
  have main : ∀ n x, x ∈ S → rk x ≤ n →
      Nat.fib ((m x).degree.toNat + 2) ≤ (S.toFinset.filter (fun y => Anc m x y)).card := by
    intro n
    induction n with
    | zero =>
      intro x hx h0
      apply F.fib_step hrk hx
      intro c hc
      have := hrk c (F.mem_S hc) x (F.parent_of_mem hc)
      omega
    | succ n ih =>
      intro x hx h0
      apply F.fib_step hrk hx
      intro c hc
      have := hrk c (F.mem_S hc) x (F.parent_of_mem hc)
      exact ih c (F.mem_S hc) (by omega)
  exact main (rk x) x hx (le_refl _)

/-- The Fibonacci bound: a node of degree `d` lives in a heap of at least `fib (d + 2)` nodes. -/
theorem Forest.fib_le_size {m : Mem} {S K} (F : Forest m S K none) {x : Nat} (hx : x ∈ S) :
    Nat.fib ((m x).degree.toNat + 2) ≤ S.length := by
  classical
  refine le_trans (F.fib_le_desc hx) ?_
  refine le_trans (Finset.card_filter_le _ _) ?_
  exact List.toFinset_card_le S


/-! ### The size of the degree table -/

theorem floor_log_phi_from_ge (fuel a b k n : Nat) : k ≤ floor_log_phi_from fuel a b k n := by
  induction fuel generalizing a b k with
  | zero => simp [floor_log_phi_from]
  | succ fuel ih =>
    simp only [floor_log_phi_from]
    split
    · exact le_trans (Nat.le_succ k) (ih _ _ _)
    · exact le_refl _

theorem phi_pow_le_of_fib (j n : Nat) (a b : Nat) (ha : a + Nat.fib j = 2 * Nat.fib (j + 1))
    (hb : b = Nat.fib j) (hn : Nat.fib (j + 2) ≤ n) : phi_pow_le a b n = true := by
  have hrec : Nat.fib (j + 2) = Nat.fib j + Nat.fib (j + 1) := Nat.fib_add_two
  have h1 : a ≤ 2 * n := by omega
  have h2 : 3 * b ≤ 2 * n - a := by omega
  have h3 : 5 * b * b ≤ (2 * n - a) * (2 * n - a) := by
    calc 5 * b * b ≤ (3 * b) * (3 * b) := by nlinarith
      _ ≤ (2 * n - a) * (2 * n - a) := Nat.mul_le_mul h2 h2
  simp [phi_pow_le, h1, h3]

theorem le_floor_log_phi_from (d n : Nat) (hn : Nat.fib (d + 2) ≤ n) :
    ∀ (fuel k a b : Nat), a + Nat.fib k = 2 * Nat.fib (k + 1) → b = Nat.fib k →
      k ≤ d → d - k ≤ fuel → d ≤ floor_log_phi_from fuel a b k n := by
  intro fuel
  induction fuel with
  | zero =>
    intro k a b _ _ hk hf
    simp only [floor_log_phi_from]
    omega
  | succ fuel ih =>
    intro k a b ha hb hk hf
    rcases Nat.eq_or_lt_of_le hk with e | hlt
    · rw [← e]; exact floor_log_phi_from_ge _ _ _ _ _
    · simp only [floor_log_phi_from]
      have hrec : Nat.fib (k + 2) = Nat.fib k + Nat.fib (k + 1) := Nat.fib_add_two
      have ha1 : (a + 5 * b) / 2 + Nat.fib (k + 1) = 2 * Nat.fib (k + 1 + 1) := by
        show (a + 5 * b) / 2 + Nat.fib (k + 1) = 2 * Nat.fib (k + 2)
        subst hb; omega
      have hb1 : (a + b) / 2 = Nat.fib (k + 1) := by
        subst hb; omega
      have htest : phi_pow_le ((a + 5 * b) / 2) ((a + b) / 2) n = true :=
        phi_pow_le_of_fib (k + 1) n _ _ ha1 hb1
          (le_trans (Nat.fib_mono (by omega)) hn)
      rw [if_pos htest]
      exact ih (k + 1) _ _ ha1 hb1 hlt (by omega)

theorem fib_add_two_ge (d : Nat) : d + 1 ≤ Nat.fib (d + 2) := by
  induction d with
  | zero => simp
  | succ d ih =>
    have hrec : Nat.fib (d + 1 + 2) = Nat.fib (d + 1) + Nat.fib (d + 2) := Nat.fib_add_two
    have : 1 ≤ Nat.fib (d + 1) := Nat.fib_pos.2 (by omega)
    omega

/-- A degree that fits the Fibonacci bound fits the degree table. -/
theorem degree_lt_table (d n : Nat) (hn : Nat.fib (d + 2) ≤ n) :
    d + 1 ≤ fib_heap_calculate_max_degree n := by
  have hpos : n ≠ 0 := by
    have := fib_add_two_ge d
    omega
  simp only [fib_heap_calculate_max_degree, if_neg hpos, floor_log_phi]
  have := le_floor_log_phi_from d n hn n 0 2 0 (by simp) (by simp) (Nat.zero_le _)
    (by have := fib_add_two_ge d; omega)
  omega

end FibHeap


namespace FibHeap

/-! ## `fib_heap_consolidate`: the snapshot of the root ring -/

theorem collect_spec (w : World) (h : Nat) :
    ∀ (post pre : List Nat) (c : Nat) (acc : List Nat) (slots : Nat),
      Ring w.nodes (pre ++ c :: post) → (pre ++ c :: post).Nodup →
      (w.heaps h).min_node = (pre ++ [c]).head? → post.length < slots →
      consolidate_collect slots w h c acc = some (acc ++ c :: post) := by
  intro post
  induction post with
  | nil =>
    intro pre c acc slots hr hnd hmin hs
    obtain ⟨s, rfl⟩ : ∃ s, slots = s + 1 := ⟨slots - 1, by omega⟩
    have hnext := Ring_right_eq hr
    simp only [List.nil_append] at hnext
    unfold consolidate_collect
    simp only [hmin, hnext]
    simp
  | cons c' post ih =>
    intro pre c acc slots hr hnd hmin hs
    obtain ⟨s, rfl⟩ : ∃ s, slots = s + 1 := ⟨slots - 1, by simp at hs; omega⟩
    have hnext := Ring_right_eq hr
    simp only [List.cons_append, List.head?_cons] at hnext
    have hnext' : (w.nodes c).right = c' := Option.some.inj hnext
    have hne : some c' ≠ (pre ++ [c]).head? := by
      intro e
      have hm : c' ∈ pre ++ [c] := List.mem_of_mem_head? e.symm
      have := List.nodup_append.1 (by simpa using hnd : (pre ++ [c] ++ c' :: post).Nodup)
      exact this.2.2 hm (by simp)
    unfold consolidate_collect
    simp only [hmin, hnext']
    rw [if_pos hne]
    have := ih (pre ++ [c]) c' (acc ++ [c]) s (by simpa using hr) (by simpa using hnd)
      (by
        rw [hmin]
        rcases pre with _ | ⟨b, pre⟩ <;> simp)
      (by simp at hs; omega)
    simpa using this


/-! ### Linking roots of equal degree -/

theorem Reshaped.refl (w : World) (S : List Nat) : Reshaped w w S :=
  ⟨rfl, rfl, rfl, fun _ => ⟨rfl, rfl⟩, fun _ _ => rfl⟩

theorem Reshaped.trans {w1 w2 w3 : World} {S : List Nat} (h1 : Reshaped w1 w2 S)
    (h2 : Reshaped w2 w3 S) : Reshaped w1 w3 S := by
  obtain ⟨a1, a2, a3, a4, a5⟩ := h1
  obtain ⟨b1, b2, b3, b4, b5⟩ := h2
  exact ⟨b1.trans a1, b2.trans a2, b3.trans a3,
    fun u => ⟨(b4 u).1.trans (a4 u).1, (b4 u).2.trans (a4 u).2⟩,
    fun u hu => (b5 u hu).trans (a5 u hu)⟩

theorem link_Reshaped (w : World) (y x : Nat) (S : List Nat) (K : Option Nat → List Nat)
    (F : Forest w.nodes S K none) (hx : x ∈ K none) (hy : y ∈ K none) :
    Reshaped w (fib_node_link w y x) S :=
  ⟨by simp, by simp, by simp, fun u => by simp, fun u hu => link_nodes_ne w y x S K F hx hy u hu⟩

/-- One round of the inner loop: the root `y'` is linked below the root `x'`, where
`{x', y'}` is the root in hand together with the table entry of its degree. -/
theorem TableInv.link_step {w : World} {S : List Nat} {K : Option Nat → List Nat}
    {T : List (Option Nat)} {x y a b : Nat} {rest : List Nat} {d : Nat}
    (F : Forest w.nodes S K none) (I : TableInv w.nodes K T (x :: rest))
    (hd : (w.nodes x).degree = (d : Int)) (hT : T[d]? = some (some y))
    (hsw : (a = x ∧ b = y) ∨ (a = y ∧ b = x))
    (hkey : (w.nodes a).key ≤ (w.nodes b).key) :
    Forest (fib_node_link w b a).nodes S
        (Function.update (Function.update K none ((K none).erase b)) (some a)
          (link_ring (K (some a)) b)) none ∧
      TableInv (fib_node_link w b a).nodes
        (Function.update (Function.update K none ((K none).erase b)) (some a)
          (link_ring (K (some a)) b)) (T.set d none) (a :: rest) ∧
      ((fib_node_link w b a).nodes a).degree = ((d + 1 : Nat) : Int) ∧
      Reshaped w (fib_node_link w b a) S := by
  obtain ⟨hyK, hyd, hyp⟩ := I.entry d y hT
  have hxK : x ∈ K none := I.pending_root x (List.mem_cons_self _ _)
  have hxy : x ≠ y := fun c => hyp (c ▸ List.mem_cons_self _ _)
  have hxK2 : a ∈ K none := by rcases hsw with ⟨rfl, rfl⟩ | ⟨rfl, rfl⟩ <;> assumption
  have hyK2 : b ∈ K none := by rcases hsw with ⟨rfl, rfl⟩ | ⟨rfl, rfl⟩ <;> assumption
  have hxy2 : a ≠ b := by
    rcases hsw with ⟨rfl, rfl⟩ | ⟨rfl, rfl⟩
    · exact hxy
    · exact Ne.symm hxy
  have hdeg' : (w.nodes b).degree = (w.nodes a).degree := by
    rcases hsw with ⟨rfl, rfl⟩ | ⟨rfl, rfl⟩
    · rw [hyd, hd]
    · rw [hyd, hd]
  have hdx' : (w.nodes a).degree = (d : Int) := by
    rcases hsw with ⟨rfl, rfl⟩ | ⟨rfl, rfl⟩ <;> assumption
  have hK0 : Function.update (Function.update K none ((K none).erase b)) (some a)
      (link_ring (K (some a)) b) none = (K none).erase b := by
    rw [Function.update_noteq (by simp), Function.update_same]
  have hnd := F.K_nodup none
  have hTd : (T.set d none)[d]? ≠ some (some y) := by
    intro c
    rw [List.getElem?_set] at c
    split at c
    · split at c <;> simp at c
    · rw [hT] at c; rename_i hne; exact hne rfl
  have hset : ∀ i v, (T.set d none)[i]? = some (some v) → i ≠ d ∧ T[i]? = some (some v) := by
    intro i v hv
    rw [List.getElem?_set] at hv
    by_cases hid : d = i
    · rw [if_pos hid] at hv
      split at hv <;> simp at hv
    · rw [if_neg hid] at hv
      exact ⟨fun c => hid c.symm, hv⟩
  refine ⟨link_Forest w b a S K F hxK2 hyK2 hxy2 hkey hdeg', ?_, ?_,
    link_Reshaped w b a S K F hxK2 hyK2⟩
  · refine { entry := ?_, cover := ?_, pending_nodup := ?_, pending_root := ?_ }
    · intro i v hv
      obtain ⟨hid, hv'⟩ := hset i v hv
      obtain ⟨hvK, hvd, hvp⟩ := I.entry i v hv'
      have hvy : v ≠ y := by
        intro c
        rw [c, hyd] at hvd
        exact hid (by exact_mod_cast hvd.symm)
      have hvx : v ≠ x := fun c => hvp (c ▸ List.mem_cons_self _ _)
      have hvx' : v ≠ a := by rcases hsw with ⟨rfl, rfl⟩ | ⟨rfl, rfl⟩ <;> assumption
      have hvy' : v ≠ b := by rcases hsw with ⟨rfl, rfl⟩ | ⟨rfl, rfl⟩ <;> assumption
      refine ⟨?_, ?_, ?_⟩
      · rw [hK0]; exact hnd.mem_erase_iff.2 ⟨hvy', hvK⟩
      · rw [link_degree, if_neg hvx']; exact hvd
      · simp only [List.mem_cons, not_or] at hvp ⊢
        exact ⟨hvx', hvp.2⟩
    · intro v hv
      rw [hK0] at hv
      obtain ⟨hvy', hvK⟩ := hnd.mem_erase_iff.1 hv
      rcases I.cover v hvK with hp | ⟨i, hi⟩
      · rcases List.mem_cons.1 hp with e | hr
        · -- `v = x` is in hand, so `a = x`
          left
          rcases hsw with ⟨rfl, rfl⟩ | ⟨rfl, rfl⟩
          · rw [e]; exact List.mem_cons_self _ _
          · exact absurd e hvy'
        · exact Or.inl (List.mem_cons_of_mem _ hr)
      · by_cases hid : i = d
        · subst hid
          rw [hT] at hi
          have e : y = v := by simpa using hi
          left
          rcases hsw with ⟨rfl, rfl⟩ | ⟨rfl, rfl⟩
          · exact absurd e.symm hvy'
          · rw [← e]; exact List.mem_cons_self _ _
        · right
          refine ⟨i, ?_⟩
          rw [List.getElem?_set, if_neg (fun c => hid c.symm)]
          exact hi
    · have := I.pending_nodup
      rw [List.nodup_cons] at this ⊢
      refine ⟨?_, this.2⟩
      rcases hsw with ⟨rfl, rfl⟩ | ⟨rfl, rfl⟩
      · exact this.1
      · exact fun c => hyp (List.mem_cons_of_mem _ c)
    · intro v hv
      rw [hK0]
      apply hnd.mem_erase_iff.2
      rcases List.mem_cons.1 hv with e | hr
      · rw [e]; exact ⟨hxy2, hxK2⟩
      · refine ⟨?_, I.pending_root v (List.mem_cons_of_mem _ hr)⟩
        rcases hsw with ⟨rfl, rfl⟩ | ⟨rfl, rfl⟩
        · exact fun c => hyp (c ▸ List.mem_cons_of_mem _ hr)
        · intro c
          have := I.pending_nodup
          rw [List.nodup_cons] at this
          exact this.1 (c ▸ hr)
  · rw [link_degree, if_pos rfl, hdx']
    push_cast; rfl


/-- Every root fits the degree table, with one slot to spare. -/
theorem Forest.degree_in_table {m : Mem} {S K} (F : Forest m S K none) {x d n : Nat}
    (hx : x ∈ S) (hd : (m x).degree = (d : Int)) (hn : S.length ≤ n) :
    d + 1 ≤ fib_heap_calculate_max_degree n := by
  apply degree_lt_table
  have := F.fib_le_size hx
  rw [hd] at this
  simp only [Int.toNat_ofNat] at this
  omega

theorem link_while_spec (S : List Nat) (n : Nat) (hSn : S.length ≤ n) :
    ∀ (slots : Nat) (w : World) (K : Option Nat → List Nat) (T : List (Option Nat))
      (x d : Nat) (rest : List Nat),
      Forest w.nodes S K none → TableInv w.nodes K T (x :: rest) →
      (w.nodes x).degree = (d : Int) →
      T.length = fib_heap_calculate_max_degree n + 1 → slots = T.length - d →
      ∃ w' K' T' x' d', consolidate_link_while slots w T x d = some (w', T', x', d') ∧
        Forest w'.nodes S K' none ∧ TableInv w'.nodes K' T' (x' :: rest) ∧
        (w'.nodes x').degree = (d' : Int) ∧ T'[d']? = some none ∧ T'.length = T.length ∧
        Reshaped w w' S := by
  intro slots
  induction slots with
  | zero =>
    intro w K T x d rest F I hd hT hs
    exfalso
    have hxS : x ∈ S := F.mem_S (I.pending_root x (List.mem_cons_self _ _))
    have := F.degree_in_table hxS hd hSn
    omega
  | succ s ih =>
    intro w K T x d rest F I hd hT hs
    have hxS : x ∈ S := F.mem_S (I.pending_root x (List.mem_cons_self _ _))
    have hb := F.degree_in_table hxS hd hSn
    have hlt : d < T.length := by omega
    unfold consolidate_link_while
    rcases hTd : T[d]? with _ | e
    · rw [List.getElem?_eq_none_iff] at hTd; omega
    · rcases e with _ | y
      · exact ⟨w, K, T, x, d, rfl, F, I, hd, hTd, rfl, Reshaped.refl w S⟩
      · simp only
        by_cases hgt : (w.nodes x).key > (w.nodes y).key
        · rw [if_pos hgt]
          simp only
          obtain ⟨F', I', hd', R⟩ := TableInv.link_step (a := y) (b := x) F I hd hTd
            (Or.inr ⟨rfl, rfl⟩) (le_of_lt hgt)
          obtain ⟨w2, K2, T2, x2, d2, hres, F2, I2, hd2, hT2, hlen2, R2⟩ :=
            ih _ _ _ y (d + 1) rest F' I' hd' (by simpa using hT) (by simp; omega)
          exact ⟨w2, K2, T2, x2, d2, hres, F2, I2, hd2, hT2, by simpa using hlen2, R.trans R2⟩
        · rw [if_neg hgt]
          simp only
          obtain ⟨F', I', hd', R⟩ := TableInv.link_step (a := x) (b := y) F I hd hTd
            (Or.inl ⟨rfl, rfl⟩) (not_lt.1 hgt)
          obtain ⟨w2, K2, T2, x2, d2, hres, F2, I2, hd2, hT2, hlen2, R2⟩ :=
            ih _ _ _ x (d + 1) rest F' I' hd' (by simpa using hT) (by simp; omega)
          exact ⟨w2, K2, T2, x2, d2, hres, F2, I2, hd2, hT2, by simpa using hlen2, R.trans R2⟩

/-- Storing the root in hand into its free slot of the table. -/
theorem TableInv.store {m : Mem} {K : Option Nat → List Nat} {T : List (Option Nat)}
    {x d : Nat} {rest : List Nat} (I : TableInv m K T (x :: rest))
    (hd : (m x).degree = (d : Int)) (hT : T[d]? = some none) :
    TableInv m K (T.set d (some x)) rest := by
  have hlt : d < T.length := by
    by_contra hc
    rw [List.getElem?_eq_none_iff.2 (by omega)] at hT
    cases hT
  have hnd := I.pending_nodup
  rw [List.nodup_cons] at hnd
  refine { entry := ?_, cover := ?_, pending_nodup := hnd.2, pending_root := ?_ }
  · intro i v hv
    rw [List.getElem?_set] at hv
    by_cases hid : d = i
    · rw [if_pos hid, if_pos (hid ▸ hlt)] at hv
      have e : x = v := by simpa using hv
      subst e; subst hid
      exact ⟨I.pending_root x (List.mem_cons_self _ _), hd, hnd.1⟩
    · rw [if_neg hid] at hv
      obtain ⟨h1, h2, h3⟩ := I.entry i v hv
      exact ⟨h1, h2, fun c => h3 (List.mem_cons_of_mem _ c)⟩
  · intro v hv
    rcases I.cover v hv with hp | ⟨i, hi⟩
    · rcases List.mem_cons.1 hp with e | hr
      · right
        refine ⟨d, ?_⟩
        rw [List.getElem?_set, if_pos rfl, if_pos hlt, e]
      · exact Or.inl hr
    · right
      refine ⟨i, ?_⟩
      have hid : d ≠ i := by
        intro c; subst c
        rw [hT] at hi; cases hi
      rw [List.getElem?_set, if_neg hid]
      exact hi
  · intro v hv
    exact I.pending_root v (List.mem_cons_of_mem _ hv)

theorem process_spec (S : List Nat) (n : Nat) (hSn : S.length ≤ n) :
    ∀ (pending : List Nat) (w : World) (K : Option Nat → List Nat) (T : List (Option Nat)),
      Forest w.nodes S K none → TableInv w.nodes K T pending →
      T.length = fib_heap_calculate_max_degree n + 1 →
      ∃ w' K' T', consolidate_process w T pending = some (w', T') ∧
        Forest w'.nodes S K' none ∧ TableInv w'.nodes K' T' [] ∧ T'.length = T.length ∧
        Reshaped w w' S := by
  intro pending
  induction pending with
  | nil =>
    intro w K T F I hT
    exact ⟨w, K, T, rfl, F, I, rfl, Reshaped.refl w S⟩
  | cons x rest ih =>
    intro w K T F I hT
    have hxS : x ∈ S := F.mem_S (I.pending_root x (List.mem_cons_self _ _))
    have hdeg := F.degree_eq x hxS
    have hnn : ¬ (w.nodes x).degree < 0 := by rw [hdeg]; simp
    have hd : (w.nodes x).degree = (((w.nodes x).degree.toNat : Nat) : Int) := by
      rw [hdeg]; simp
    obtain ⟨w1, K1, T1, x1, d1, hres, F1, I1, hd1, hT1, hlen1, R1⟩ :=
      link_while_spec S n hSn (T.length - (w.nodes x).degree.toNat) w K T x
        (w.nodes x).degree.toNat rest F I hd hT rfl
    obtain ⟨w2, K2, T2, hres2, F2, I2, hlen2, R2⟩ :=
      ih w1 K1 (T1.set d1 (some x1)) F1 (I1.store hd1 hT1) (by simp [hlen1, hT])
    unfold consolidate_process
    simp only [hnn, if_false, hres]
    exact ⟨w2, K2, T2, hres2, F2, I2, by simpa [hlen1] using hlen2, R1.trans R2⟩


/-! ### Rebuilding the root ring -/

theorem RebInv.advance {w0 w : World} {h : Nat} {P : List Nat} {t : Nat}
    (I : RebInv w0 w h P) (hnd : (t :: P).Nodup) :
    RebInv w0
      (match (w.heaps h).min_node with
        | none => ((w.set_min_node h (some t)).set_right t t).set_left t t
        | some min_node =>
          if ((fib_node_add_to_root_list w h t).nodes t).key <
              ((fib_node_add_to_root_list w h t).nodes min_node).key then
            (fib_node_add_to_root_list w h t).set_min_node h (some t)
          else fib_node_add_to_root_list w h t)
      h (t :: P) := by
  obtain ⟨Rg, hperm, hring, hmin, hkeys⟩ := I.ring
  have htP : t ∉ P := (List.nodup_cons.1 hnd).1
  have htR : t ∉ Rg := fun c => htP (hperm.mem_iff.1 c)
  have hRnd : Rg.Nodup := hperm.nodup_iff.2 (List.nodup_cons.1 hnd).2
  rcases hm : (w.heaps h).min_node with _ | mn
  · -- first entry
    have hRg : Rg = [] := by
      rw [hm] at hmin
      rcases Rg with _ | ⟨a, Rg⟩
      · rfl
      · simp at hmin
    subst hRg
    have hP : P = [] := (List.Perm.nil_eq hperm).symm
    subst hP
    simp only
    refine
      { heaps_ne := fun g hg => by simpa [set_min_node_ne _ _ _ _ hg] using I.heaps_ne g hg
        count := by simpa using I.count
        next_node := by simpa using I.next_node
        next_heap := by simpa using I.next_heap
        fields := fun u => by simpa using I.fields u
        frame := fun u hu => ?_
        ring := ⟨[t], List.Perm.refl _, ?_, by simp, ?_⟩ }
    · have : u ≠ t := fun c => hu (by simp [c])
      rw [set_left_ne _ _ _ _ this, set_right_ne _ _ _ _ this]
      exact I.frame u (by simp)
    · rw [Ring_singleton]; simp
    · intro mn hmn p hp
      simp at hmn hp
      subst hmn; subst hp
      exact le_refl _
  · simp only
    obtain ⟨tl, hRg⟩ : ∃ tl, Rg = mn :: tl := by
      rw [hm] at hmin
      rcases Rg with _ | ⟨a, Rg⟩
      · simp at hmin
      · simp at hmin; exact ⟨Rg, by rw [hmin]⟩
    subst hRg
    have hr1 : Ring (fib_node_add_to_root_list w h t).nodes (mn :: t :: tl) :=
      add_root_ring_self w h t mn tl hm hRnd htR hring
    have hperm1 : (mn :: t :: tl).Perm (t :: P) :=
      (List.Perm.swap t mn tl).trans (List.Perm.cons t hperm)
    have hframe : ∀ u, u ∉ t :: P → (fib_node_add_to_root_list w h t).nodes u = w0.nodes u := by
      intro u hu
      simp only [List.mem_cons, not_or] at hu
      have h1 : u ≠ mn := fun c => hu.2 (hperm.mem_iff.1 (by simp [c]))
      have h3 : u ≠ (w.nodes mn).right := fun c =>
        hu.2 (hperm.mem_iff.1 (c ▸ Ring_right_mem hring (List.mem_cons_self _ _)))
      rw [add_root_nodes_ne w h t mn hm u h1 hu.1 h3]
      exact I.frame u hu.2
    have hkmn := hkeys mn hm
    by_cases hlt : ((fib_node_add_to_root_list w h t).nodes t).key <
        ((fib_node_add_to_root_list w h t).nodes mn).key
    · rw [if_pos hlt]
      simp only [add_root_key] at hlt
      refine
        { heaps_ne := fun g hg => by
            rw [set_min_node_ne _ _ _ _ hg, add_root_heaps_ne _ _ _ _ hg]; exact I.heaps_ne g hg
          count := by simpa [add_root_heaps w h t mn hm] using I.count
          next_node := by simpa using I.next_node
          next_heap := by simpa using I.next_heap
          fields := fun u => by simpa using I.fields u
          frame := fun u hu => by simpa using hframe u hu
          ring := ⟨(t :: tl) ++ [mn], ?_, ?_, by simp, ?_⟩ }
      · exact (@List.perm_append_comm _ (t :: tl) [mn]).trans hperm1
      · exact @Ring_rotate _ [mn] (t :: tl) (by simpa using hr1)
      · intro mn' hmn' p hp
        simp at hmn'
        subst hmn'
        simp only [set_min_node_nodes, add_root_key]
        rcases List.mem_cons.1 hp with e | hp
        · rw [e]
        · exact le_trans (le_of_lt hlt) (hkmn p hp)
    · rw [if_neg hlt]
      simp only [add_root_key] at hlt
      refine
        { heaps_ne := fun g hg => by
            rw [add_root_heaps_ne _ _ _ _ hg]; exact I.heaps_ne g hg
          count := by simpa [add_root_heaps w h t mn hm] using I.count
          next_node := by simpa using I.next_node
          next_heap := by simpa using I.next_heap
          fields := fun u => by simpa using I.fields u
          frame := hframe
          ring := ⟨mn :: t :: tl, hperm1, hr1, by simp [add_root_heaps w h t mn hm, hm], ?_⟩ }
      intro mn' hmn' p hp
      rw [add_root_heaps w h t mn hm, hm] at hmn'
      have e : mn = mn' := Option.some.inj hmn'
      subst e
      simp only [add_root_key]
      rcases List.mem_cons.1 hp with e | hp
      · rw [e]; exact not_lt.1 hlt
      · exact hkmn p hp

theorem rebuild_spec (w0 : World) (h : Nat) :
    ∀ (T : List (Option Nat)) (w : World) (P : List Nat),
      RebInv w0 w h P → (T.reduceOption.reverse ++ P).Nodup →
      RebInv w0 (consolidate_rebuild w h T) h (T.reduceOption.reverse ++ P) := by
  intro T
  induction T with
  | nil => intro w P I _; simpa [consolidate_rebuild] using I
  | cons e T ih =>
    intro w P I hnd
    rcases e with _ | t
    · simp only [consolidate_rebuild, List.reduceOption_cons_of_none] at hnd ⊢
      exact ih w P I hnd
    · simp only [List.reduceOption_cons_of_some, List.reverse_cons, List.append_assoc,
        List.singleton_append] at hnd ⊢
      have htP : (t :: P).Nodup := (List.nodup_append.1 hnd).2.1
      have := ih _ (t :: P) (I.advance htP) hnd
      unfold consolidate_rebuild
      convert this using 2


theorem reduceOption_nodup : ∀ (T : List (Option Nat)),
    (∀ (i j : Nat) (y : Nat), T[i]? = some (some y) → T[j]? = some (some y) → i = j) →
    T.reduceOption.Nodup
  | [], _ => by simp
  | none :: T, h => by
    rw [List.reduceOption_cons_of_none]
    apply reduceOption_nodup T
    intro i j y hi hj
    have := h (i + 1) (j + 1) y (by simpa using hi) (by simpa using hj)
    omega
  | some t :: T, h => by
    rw [List.reduceOption_cons_of_some, List.nodup_cons]
    refine ⟨?_, ?_⟩
    · intro hm
      rw [List.reduceOption_mem_iff] at hm
      obtain ⟨j, hj⟩ := List.mem_iff_getElem?.1 hm
      have := h 0 (j + 1) t (by simp) (by simpa using hj)
      omega
    · apply reduceOption_nodup T
      intro i j y hi hj
      have := h (i + 1) (j + 1) y (by simpa using hi) (by simpa using hj)
      omega

/-- After the processing loop the table lists the roots, each once. -/
theorem TableInv.entries {m : Mem} {K : Option Nat → List Nat} {T : List (Option Nat)}
    (I : TableInv m K T []) :
    T.reduceOption.Nodup ∧ ∀ y, y ∈ T.reduceOption ↔ y ∈ K none := by
  refine ⟨?_, ?_⟩
  · apply reduceOption_nodup
    intro i j y hi hj
    have h1 := (I.entry i y hi).2.1
    have h2 := (I.entry j y hj).2.1
    rw [h1] at h2
    exact_mod_cast h2
  · intro y
    rw [List.reduceOption_mem_iff, List.mem_iff_getElem?]
    constructor
    · rintro ⟨i, hi⟩
      exact (I.entry i y hi).1
    · intro hy
      rcases I.cover y hy with hp | ⟨i, hi⟩
      · simp at hp
      · exact ⟨i, hi⟩

/-- Re-threading the root ring in another order. -/
theorem Forest.reroot {m m' : Mem} {S K} (F : Forest m S K none) {Rg : List Nat}
    (hperm : Rg.Perm (K none)) (hring : Ring m' Rg)
    (hf : ∀ u, (m' u).key = (m u).key ∧ (m' u).parent = (m u).parent ∧
      (m' u).child = (m u).child ∧ (m' u).degree = (m u).degree ∧
      (m' u).marked = (m u).marked)
    (hlr : ∀ u, u ∉ K none → (m' u).right = (m u).right ∧ (m' u).left = (m u).left) :
    Forest m' S (Function.update K none Rg) none where
  S_nodup := F.S_nodup
  K_nodup := fun q => by
    rcases q with _ | p
    · rw [Function.update_same]; exact hperm.nodup_iff.2 (F.K_nodup none)
    · rw [Function.update_noteq (by simp)]; exact F.K_nodup _
  K_ring := fun q => by
    rcases q with _ | p
    · rw [Function.update_same]; exact hring
    · rw [Function.update_noteq (by simp)]
      apply Ring_congr _ (F.K_ring _)
      intro u hu
      exact hlr u (fun c => by cases F.K_disjoint hu c)
  K_mem := fun q u => by
    rw [(hf u).2.1]
    rcases q with _ | p
    · rw [Function.update_same, hperm.mem_iff]; exact F.K_mem none u
    · rw [Function.update_noteq (by simp)]; exact F.K_mem _ u
  parent_mem := fun u hu p hp => F.parent_mem u hu p (by rw [← (hf u).2.1]; exact hp)
  child_eq := fun p hp => by
    rw [Function.update_noteq (by simp), (hf p).2.2.1]; exact F.child_eq p hp
  degree_eq := fun p hp => by
    rw [Function.update_noteq (by simp), (hf p).2.2.2.1]; exact F.degree_eq p hp
  order := fun u hu p hp => by
    rw [(hf u).1, (hf p).1]
    exact F.order u hu p (by rw [← (hf u).2.1]; exact hp)
  rank := by
    obtain ⟨rk, hrk⟩ := F.rank
    exact ⟨rk, fun u hu p hp => hrk u hu p (by rw [← (hf u).2.1]; exact hp)⟩
  hall := fun p hp t => by
    rw [Function.update_noteq (by simp), filter_dval_congr t (m := m) (d := none)]
    · exact F.hall p hp t
    · intro u _
      exact dval_congr (hf u).2.2.2.1 (hf u).2.2.2.2
  key_ge := fun u hu => by rw [(hf u).1]; exact F.key_ge u hu

/-- Specification of `fib_heap_consolidate` on a non-empty forest, with the snapshot of the
roots, the outcome of the processing loop and the degrees of the roots at the end. -/
theorem consolidate_roots_spec (w : World) (h : Nat) (S : List Nat)
    (K : Option Nat → List Nat)
    (r : Nat) (rt : List Nat) (F : Forest w.nodes S K none) (hK : K none = r :: rt)
    (hmin : (w.heaps h).min_node = some r) (hcnt : S.length < (w.heaps h).node_count) :
    ∃ w1 T1 w', consolidate_collect (w.heaps h).node_count w h r [] = some (r :: rt) ∧
      consolidate_process w
        (List.replicate (fib_heap_calculate_max_degree (w.heaps h).node_count + 1) none)
        (r :: rt) = some (w1, T1) ∧
      fib_heap_consolidate w h = some w' ∧
      (∃ K', Forest w'.nodes S K' none ∧ (w'.heaps h).min_node = (K' none).head? ∧
        (∀ z, (w'.heaps h).min_node = some z → ∀ x ∈ S, (w'.nodes z).key ≤ (w'.nodes x).key) ∧
        ∀ a ∈ K' none, ∀ b ∈ K' none, (w'.nodes a).degree = (w'.nodes b).degree → a = b) ∧
      (w'.heaps h).node_count = (w.heaps h).node_count ∧
      (∀ g, g ≠ h → w'.heaps g = w.heaps g) ∧
      w'.next_node = w.next_node ∧ w'.next_heap = w.next_heap ∧
      (∀ u, (w'.nodes u).key = (w.nodes u).key ∧ (w'.nodes u).data = (w.nodes u).data) ∧
      (∀ u, u ∉ S → w'.nodes u = w.nodes u) := by
  have hnd0 : (r :: rt).Nodup := hK ▸ F.K_nodup none
  have hlenK : (r :: rt).length ≤ S.length := by
    apply (List.subperm_of_subset hnd0 _).length_le
    intro u hu
    exact F.mem_S (hK ▸ hu : u ∈ K none)
  -- the snapshot
  have hcol := collect_spec w h rt [] r [] (w.heaps h).node_count (by simpa [hK] using F.K_ring none)
    (by simpa using hnd0) (by simpa using hmin) (by simp at hlenK; omega)
  simp only [List.nil_append] at hcol
  -- the processing loop
  have I0 : TableInv w.nodes K
      (List.replicate (fib_heap_calculate_max_degree (w.heaps h).node_count + 1) none)
      (r :: rt) :=
    { entry := fun i y hy => by
        rw [List.getElem?_replicate] at hy
        split at hy <;> simp at hy
      cover := fun y hy => Or.inl (hK ▸ hy)
      pending_nodup := hnd0
      pending_root := fun y hy => hK ▸ hy }
  obtain ⟨w1, K1, T1, hres1, F1, I1, hlen1, R1⟩ :=
    process_spec S (w.heaps h).node_count (le_of_lt hcnt) (r :: rt) w K _ F I0 (by simp)
  obtain ⟨hnd1, hmem1⟩ := I1.entries
  -- the rebuilding loop
  have Rb0 : RebInv (w1.set_min_node h none) (w1.set_min_node h none) h [] :=
    { heaps_ne := fun _ _ => rfl, count := rfl, next_node := rfl, next_heap := rfl
      fields := fun _ => ⟨rfl, rfl, rfl, rfl, rfl, rfl⟩
      frame := fun _ _ => rfl
      ring := ⟨[], List.Perm.refl _, Ring_nil _, by simp, fun _ _ p hp => by simp at hp⟩ }
  have Rb := rebuild_spec (w1.set_min_node h none) h T1 _ [] Rb0
    (by simpa using hnd1)
  simp only [List.append_nil] at Rb
  obtain ⟨Rg, hperm, hring, hminR, hkeys⟩ := Rb.ring
  have hpermK : Rg.Perm (K1 none) := by
    apply hperm.trans
    apply (List.perm_ext_iff_of_nodup (List.nodup_reverse.2 hnd1) (F1.K_nodup none)).2
    intro u
    rw [List.mem_reverse]; exact hmem1 u
  have F2 : Forest (consolidate_rebuild (w1.set_min_node h none) h T1).nodes S
      (Function.update K1 none Rg) none := by
    apply F1.reroot hpermK hring
    · intro u
      have := Rb.fields u
      simp only [set_min_node_nodes] at this
      exact ⟨this.1, this.2.2.1, this.2.2.2.1, this.2.2.2.2.1, this.2.2.2.2.2⟩
    · intro u hu
      have := Rb.frame u (by rw [List.mem_reverse, hmem1]; exact hu)
      simp only [set_min_node_nodes] at this
      rw [this]; exact ⟨rfl, rfl⟩
  obtain ⟨e1, e2, e3, e4, e5⟩ := R1
  refine ⟨w1, T1, consolidate_rebuild (w1.set_min_node h none) h T1, hcol, hres1, ?_,
    ⟨_, F2, ?_, ?_, ?_⟩, ?_, ?_, ?_, ?_, ?_, ?_⟩
  · unfold fib_heap_consolidate
    simp only [hmin, hcol, hres1]
  · rw [Function.update_same]; exact hminR
  · intro z hz x hx
    obtain ⟨rr, hrr, hk, _⟩ := F2.exists_root hx
    rw [Function.update_same] at hrr
    have := hkeys z hz rr (hperm.mem_iff.1 hrr)
    exact le_trans this hk
  · intro a ha b hb hab
    rw [Function.update_same] at ha hb
    have hdeg : ∀ u, ((consolidate_rebuild (w1.set_min_node h none) h T1).nodes u).degree =
        (w1.nodes u).degree := fun u => by
      have := Rb.fields u
      simp only [set_min_node_nodes] at this
      exact this.2.2.2.2.1
    rw [hdeg a, hdeg b] at hab
    rcases I1.cover a (hpermK.mem_iff.1 ha) with hp | ⟨i, hi⟩
    · simp at hp
    rcases I1.cover b (hpermK.mem_iff.1 hb) with hp | ⟨j, hj⟩
    · simp at hp
    have h1 := (I1.entry i a hi).2.1
    have h2 := (I1.entry j b hj).2.1
    rw [hab, h2] at h1
    have hij : j = i := by exact_mod_cast h1
    rw [hij, hi] at hj
    exact Option.some.inj (Option.some.inj hj)
  · rw [Rb.count]; simp [e1]
  · intro g hg
    rw [Rb.heaps_ne g hg, set_min_node_ne _ _ _ _ hg, e1]
  · rw [Rb.next_node]; simpa using e2
  · rw [Rb.next_heap]; simpa using e3
  · intro u
    have := Rb.fields u
    simp only [set_min_node_nodes] at this
    rw [this.1, this.2.1]; exact e4 u
  · intro u hu
    have := Rb.frame u (by
      rw [List.mem_reverse, hmem1]
      exact fun c => hu (F1.mem_S c))
    simp only [set_min_node_nodes] at this
    rw [this]; exact e5 u hu

/-- Specification of `fib_heap_consolidate` on a non-empty forest. -/
theorem consolidate_spec (w : World) (h : Nat) (S : List Nat) (K : Option Nat → List Nat)
    (r : Nat) (rt : List Nat) (F : Forest w.nodes S K none) (hK : K none = r :: rt)
    (hmin : (w.heaps h).min_node = some r) (hcnt : S.length < (w.heaps h).node_count) :
    ∃ w', fib_heap_consolidate w h = some w' ∧
      (∃ K', Forest w'.nodes S K' none ∧ (w'.heaps h).min_node = (K' none).head? ∧
        ∀ z, (w'.heaps h).min_node = some z → ∀ x ∈ S, (w'.nodes z).key ≤ (w'.nodes x).key) ∧
      (w'.heaps h).node_count = (w.heaps h).node_count ∧
      (∀ g, g ≠ h → w'.heaps g = w.heaps g) ∧
      w'.next_node = w.next_node ∧ w'.next_heap = w.next_heap ∧
      (∀ u, (w'.nodes u).key = (w.nodes u).key ∧ (w'.nodes u).data = (w.nodes u).data) ∧
      (∀ u, u ∉ S → w'.nodes u = w.nodes u) := by
  obtain ⟨-, -, w', -, -, hw', ⟨K', F', hm', hg', -⟩, rest⟩ :=
    consolidate_roots_spec w h S K r rt F hK hmin hcnt
  exact ⟨w', hw', ⟨K', F', hm', hg'⟩, rest⟩

end FibHeap


namespace FibHeap

/-! ## `fib_heap_extract_min` -/

theorem extract_min_empty (fuel : Nat) (w : World) (h : Nat)
    (hmin : (w.heaps h).min_node = none) :
    fib_heap_extract_min fuel w (some h) = some (w, none) := by
  simp [fib_heap_extract_min, hmin]

theorem extract_min_spec (w : World) (h : Nat) (S : List Nat) (fuel : Nat) (z : Nat)
    (I : HeapInv w.nodes (w.heaps h) S) (hmin : (w.heaps h).min_node = some z)
    (hfuel : S.length ≤ fuel) :
    ∃ w', fib_heap_extract_min fuel w (some h) = some (w', some z) ∧
      HeapInv w'.nodes (w'.heaps h) (S.erase z) ∧ z ∈ S ∧
      (∀ g, g ≠ h → w'.heaps g = w.heaps g) ∧
      w'.next_node = w.next_node ∧ w'.next_heap = w.next_heap ∧
      (∀ u, (w'.nodes u).key = (w.nodes u).key ∧ (w'.nodes u).data = (w.nodes u).data) ∧
      (∀ u, u ∉ S → w'.nodes u = w.nodes u) := by
  obtain ⟨K, F, hminK, hcnt, hglob⟩ := I
  obtain ⟨t, hK⟩ : ∃ t, K none = z :: t := by
    rw [hmin] at hminK
    rcases hKn : K none with _ | ⟨b, t⟩
    · rw [hKn] at hminK; simp at hminK
    · rw [hKn] at hminK; simp at hminK; exact ⟨t, by rw [hminK]⟩
  have hzK : z ∈ K none := by rw [hK]; simp
  have hzS : z ∈ S := F.mem_S hzK
  have hlenS : 0 < S.length := List.length_pos_of_mem hzS
  have hcs_len : (K (some z)).length ≤ fuel := by
    refine le_trans ?_ hfuel
    apply (List.subperm_of_subset (F.K_nodup _) _).length_le
    intro u hu; exact F.mem_S hu
  obtain ⟨w1, hw1a, hw1b, P⟩ := promote_all w h z t S K fuel F hK hmin hcs_len
  obtain ⟨F2, hright, hframe2⟩ := unlink_Forest w w1 z t S K F hK P
  obtain ⟨K2, hK2⟩ : ∃ K2, K2 =
      Function.update (Function.update K none ((K (some z)).reverse ++ t)) (some z) [] :=
    ⟨_, rfl⟩
  rw [← hK2] at F2
  have hheaps2 : (fib_node_remove_from_list w1 z).heaps = w.heaps := by
    rw [remove_heaps]; exact P.heaps
  have hkd2 : ∀ u, ((fib_node_remove_from_list w1 z).nodes u).key = (w.nodes u).key ∧
      ((fib_node_remove_from_list w1 z).nodes u).data = (w.nodes u).data := by
    intro u
    rw [remove_key, remove_data]
    exact ⟨(P.fields u).1, (P.fields u).2.1⟩
  have hlen_erase : (S.erase z).length = S.length - 1 := List.length_erase_of_mem hzS
  have hK2none : K2 none = (K (some z)).reverse ++ t := by
    rw [hK2, Function.update_noteq (by simp), Function.update_same]
  unfold fib_heap_extract_min
  simp only [hmin]
  split
  · rename_i heq
    exfalso
    rcases hc : (w.nodes z).child with _ | c
    · simp [hc] at heq
    · simp [hc, hw1b c hc] at heq
  rename_i w1' heq
  have hw1' : w1 = w1' := by
    symm
    rcases hc : (w.nodes z).child with _ | c
    · simp only [hc, Option.some.injEq] at heq
      rw [← heq, hw1a hc]
    · simp only [hc, hw1b c hc, Option.some.injEq] at heq
      exact heq.symm
  subst hw1'
  rcases hR : (K (some z)).reverse ++ t with _ | ⟨r, rt⟩
  · -- `z` was the only node
    rw [hR] at hright
    simp only [List.nil_append, List.head?_cons, Option.some.injEq] at hright
    rw [if_pos hright.symm]
    simp only
    refine ⟨_, rfl, ⟨K2, ?_, ?_, ?_, ?_⟩, hzS, ?_, ?_, ?_, ?_, ?_⟩
    · simpa using F2
    · rw [hK2none, hR]; simp
    · have hne : S.length ≠ 0 := by omega
      simp [P.heaps, hcnt, hlen_erase, hne]
    · intro z' hz'; simp at hz'
    · intro g hg
      rw [set_node_count_ne _ _ _ _ hg, set_min_node_ne _ _ _ _ hg, hheaps2]
    · simpa using P.next_node
    · simpa using P.next_heap
    · simpa using hkd2
    · simpa using hframe2
  · rw [hR] at hright
    simp only [List.cons_append, List.head?_cons, Option.some.injEq] at hright
    have hrz : z ≠ ((fib_node_remove_from_list w1 z).nodes z).right := by
      rw [hright]
      intro c
      have hm : r ∈ (K (some z)).reverse ++ t := by rw [hR]; simp
      simp only [List.mem_append, List.mem_reverse] at hm
      rcases hm with hm | hm
      · exact F.ne_parent hm c.symm
      · have := F.K_nodup none
        rw [hK, List.nodup_cons] at this
        exact this.1 (c ▸ hm)
    rw [if_neg hrz, hright]
    have F2' : Forest ((fib_node_remove_from_list w1 z).set_min_node h (some r)).nodes
        (S.erase z) K2 none := by simpa using F2
    obtain ⟨w3, hw3, ⟨K3, F3, hmin3, hglob3⟩, hc3, hg3, hn3, hh3, hkd3, hfr3⟩ :=
      consolidate_spec ((fib_node_remove_from_list w1 z).set_min_node h (some r)) h (S.erase z)
        K2 r rt F2' (by rw [hK2none, hR]) (by simp)
        (by simp [P.heaps, hcnt, hlen_erase]; omega)
    rw [hw3]
    simp only
    refine ⟨_, rfl, ⟨K3, ?_, ?_, ?_, ?_⟩, hzS, ?_, ?_, ?_, ?_, ?_⟩
    · simpa using F3
    · simpa using hmin3
    · have hne : S.length ≠ 0 := by omega
      simp [hc3, P.heaps, hcnt, hlen_erase, hne]
    · intro z' hz' x hx
      simp only [set_node_count_nodes]
      exact hglob3 z' (by simpa using hz') x hx
    · intro g hg
      rw [set_node_count_ne _ _ _ _ hg, hg3 g hg, set_min_node_ne _ _ _ _ hg, hheaps2]
    · simpa [hn3] using P.next_node
    · simpa [hh3] using P.next_heap
    · intro u
      simp only [set_node_count_nodes]
      rw [(hkd3 u).1, (hkd3 u).2]
      simpa using hkd2 u
    · intro u hu
      simp only [set_node_count_nodes]
      rw [hfr3 u (fun c => hu (List.mem_of_mem_erase c))]
      simpa using hframe2 u hu

end FibHeap


namespace FibHeap

/-! ## `fib_heap_union` -/

theorem Forest.nil (m : Mem) : Forest m [] (fun _ => []) none where
  S_nodup := List.nodup_nil
  K_nodup := fun _ => List.nodup_nil
  K_ring := fun _ => Ring_nil m
  K_mem := fun _ _ => by simp
  parent_mem := fun _ hx => by simp at hx
  child_eq := fun _ hp => by simp at hp
  degree_eq := fun _ hp => by simp at hp
  order := fun _ hx => by simp at hx
  rank := ⟨fun _ => 0, fun _ hx => by simp at hx⟩
  hall := fun _ hp => by simp at hp
  key_ge := fun _ hx => by simp at hx

theorem HeapInv.empty (m : Mem) (H : fib_heap) (h1 : H.min_node = none) (h2 : H.node_count = 0) :
    HeapInv m H [] :=
  ⟨fun _ => [], Forest.nil m, by simp [h1], by simp [h2], fun z hz => by rw [h1] at hz; cases hz⟩

theorem HeapInv.nil_iff {m : Mem} {H : fib_heap} {S : List Nat} (I : HeapInv m H S) :
    H.min_node = none ↔ S = [] := by
  obtain ⟨K, F, hmin, hcnt, -⟩ := I
  constructor
  · intro h0
    rw [hmin] at h0
    apply F.S_nil_of_roots_nil
    rcases hK : K none with _ | ⟨a, t⟩
    · rfl
    · rw [hK] at h0; simp at h0
  · intro h0
    subst h0
    rw [hmin]
    rcases hK : K none with _ | ⟨a, t⟩
    · rfl
    · have := F.mem_S (hK ▸ List.mem_cons_self a t : a ∈ K none)
      simp at this

/-- Two disjoint forests with their root rings joined into `Rg`. -/
theorem Forest.union {m m' : Mem} {S1 S2 : List Nat} {K1 K2 : Option Nat → List Nat}
    (F1 : Forest m S1 K1 none) (F2 : Forest m S2 K2 none)
    (hdj : ∀ u, u ∈ S1 → u ∉ S2) (Rg : List Nat)
    (hperm : Rg.Perm (K1 none ++ K2 none)) (hring : Ring m' Rg)
    (hf : ∀ u, (m' u).key = (m u).key ∧ (m' u).parent = (m u).parent ∧
      (m' u).child = (m u).child ∧ (m' u).degree = (m u).degree ∧
      (m' u).marked = (m u).marked)
    (hlr : ∀ u, u ∉ K1 none → u ∉ K2 none →
      (m' u).right = (m u).right ∧ (m' u).left = (m u).left) :
    Forest m' (S1 ++ S2)
      (fun q => match q with
        | none => Rg
        | some p => K1 (some p) ++ K2 (some p)) none := by
  have hnil2 : ∀ {p}, p ∈ S1 → K2 (some p) = [] := fun hp => F2.K_some_nil (hdj _ hp)
  have hnil1 : ∀ {p}, p ∈ S2 → K1 (some p) = [] := fun hp =>
    F1.K_some_nil (fun c => hdj _ c hp)
  have hcases : ∀ p, K2 (some p) = [] ∨ K1 (some p) = [] := by
    intro p
    by_cases hp : p ∈ S1
    · exact Or.inl (hnil2 hp)
    · exact Or.inr (F1.K_some_nil hp)
  have hdjK : ∀ q u, u ∈ K1 q → u ∉ K2 q := fun q u h1 h2 =>
    hdj u (F1.mem_S h1) (F2.mem_S h2)
  refine
    { S_nodup := List.nodup_append.2 ⟨F1.S_nodup, F2.S_nodup, fun u h1 h2 => hdj u h1 h2⟩
      K_nodup := ?_, K_ring := ?_, K_mem := ?_, parent_mem := ?_, child_eq := ?_,
      degree_eq := ?_, order := ?_, rank := ?_, hall := ?_, key_ge := ?_ }
  · intro q
    rcases q with _ | p
    · exact hperm.nodup_iff.2
        (List.nodup_append.2 ⟨F1.K_nodup _, F2.K_nodup _, fun u h1 h2 => hdjK _ u h1 h2⟩)
    · exact List.nodup_append.2 ⟨F1.K_nodup _, F2.K_nodup _, fun u h1 h2 => hdjK _ u h1 h2⟩
  · intro q
    rcases q with _ | p
    · exact hring
    · simp only
      rcases hcases p with e | e
      · rw [e, List.append_nil]
        apply Ring_congr _ (F1.K_ring _)
        intro u hu
        apply hlr u (fun c => by cases F1.K_disjoint hu c)
        intro c
        exact hdj u (F1.mem_S hu) (F2.mem_S c)
      · rw [e, List.nil_append]
        apply Ring_congr _ (F2.K_ring _)
        intro u hu
        apply hlr u _ (fun c => by cases F2.K_disjoint hu c)
        intro c
        exact hdj u (F1.mem_S c) (F2.mem_S hu)
  · intro q u
    rw [(hf u).2.1]
    rcases q with _ | p
    · simp only [hperm.mem_iff, List.mem_append, F1.K_mem, F2.K_mem]; tauto
    · simp only [List.mem_append, F1.K_mem, F2.K_mem]; tauto
  · intro u hu p hp
    rw [(hf u).2.1] at hp
    rcases List.mem_append.1 hu with hu | hu
    · exact List.mem_append_left _ (F1.parent_mem u hu p hp)
    · exact List.mem_append_right _ (F2.parent_mem u hu p hp)
  · intro p hp
    rw [(hf p).2.2.1]
    simp only
    rcases List.mem_append.1 hp with hp | hp
    · rw [hnil2 hp, List.append_nil]; exact F1.child_eq p hp
    · rw [hnil1 hp, List.nil_append]; exact F2.child_eq p hp
  · intro p hp
    rw [(hf p).2.2.2.1]
    simp only
    rcases List.mem_append.1 hp with hp | hp
    · rw [hnil2 hp, List.append_nil]; exact F1.degree_eq p hp
    · rw [hnil1 hp, List.nil_append]; exact F2.degree_eq p hp
  · intro u hu p hp
    rw [(hf u).2.1] at hp
    rw [(hf u).1, (hf p).1]
    rcases List.mem_append.1 hu with hu | hu
    · exact F1.order u hu p hp
    · exact F2.order u hu p hp
  · obtain ⟨rk1, hrk1⟩ := F1.rank
    obtain ⟨rk2, hrk2⟩ := F2.rank
    refine ⟨fun u => if u ∈ S1 then rk1 u else rk2 u, ?_⟩
    intro u hu p hp
    rw [(hf u).2.1] at hp
    rcases List.mem_append.1 hu with hu | hu
    · have hpS := F1.parent_mem u hu p hp
      simp only [hu, hpS, if_true]
      exact hrk1 u hu p hp
    · have hpS := F2.parent_mem u hu p hp
      have h1 : u ∉ S1 := fun c => hdj u c hu
      have h2 : p ∉ S1 := fun c => hdj p c hpS
      simp only [h1, h2, if_false]
      exact hrk2 u hu p hp
  · intro p hp t
    simp only
    have hcong : ∀ l : List Nat, l.filter (fun x => decide (dval m' none x < t)) =
        l.filter (fun x => decide (dval m none x < t)) := fun l =>
      filter_dval_congr t (fun u _ => dval_congr (hf u).2.2.2.1 (hf u).2.2.2.2)
    rw [hcong]
    rcases List.mem_append.1 hp with hp | hp
    · rw [hnil2 hp, List.append_nil]; exact F1.hall p hp t
    · rw [hnil1 hp, List.nil_append]; exact F2.hall p hp t
  · intro u hu
    rw [(hf u).1]
    rcases List.mem_append.1 hu with hu | hu
    · exact F1.key_ge u hu
    · exact F2.key_ge u hu


theorem head_cons_of_min {H : fib_heap} {K : Option Nat → List Nat}
    (hmin : H.min_node = (K none).head?) {a : Nat} (ha : H.min_node = some a) :
    ∃ t, K none = a :: t := by
  rw [ha] at hmin
  rcases hKn : K none with _ | ⟨b, t⟩
  · rw [hKn] at hmin; simp at hmin
  · rw [hKn] at hmin; simp at hmin; exact ⟨t, by rw [hmin]⟩

theorem union_spec (w : World) (h1 h2 : Nat) (S1 S2 : List Nat) (hne : h1 ≠ h2)
    (I1 : HeapInv w.nodes (w.heaps h1) S1) (I2 : HeapInv w.nodes (w.heaps h2) S2)
    (hdj : ∀ u, u ∈ S1 → u ∉ S2) :
    (fib_heap_union w (some h1) (some h2)).2 = fib_heap_error_t.FIB_HEAP_SUCCESS ∧
    HeapInv (fib_heap_union w (some h1) (some h2)).1.nodes
      ((fib_heap_union w (some h1) (some h2)).1.heaps h1) (S1 ++ S2) ∧
    HeapInv (fib_heap_union w (some h1) (some h2)).1.nodes
      ((fib_heap_union w (some h1) (some h2)).1.heaps h2) [] ∧
    (∀ g, g ≠ h1 → g ≠ h2 → (fib_heap_union w (some h1) (some h2)).1.heaps g = w.heaps g) ∧
    (fib_heap_union w (some h1) (some h2)).1.next_node = w.next_node ∧
    (fib_heap_union w (some h1) (some h2)).1.next_heap = w.next_heap ∧
    (∀ u, ((fib_heap_union w (some h1) (some h2)).1.nodes u).key = (w.nodes u).key ∧
      ((fib_heap_union w (some h1) (some h2)).1.nodes u).data = (w.nodes u).data) ∧
    (∀ u, u ∉ S1 ++ S2 → (fib_heap_union w (some h1) (some h2)).1.nodes u = w.nodes u) := by
  have hne' : h2 ≠ h1 := Ne.symm hne
  rcases hm2 : (w.heaps h2).min_node with _ | b
  · -- nothing to merge
    have hS2 : S2 = [] := I2.nil_iff.1 hm2
    subst hS2
    have hres : fib_heap_union w (some h1) (some h2) =
        (w, fib_heap_error_t.FIB_HEAP_SUCCESS) := by
      simp only [fib_heap_union, hm2]
    rw [hres, List.append_nil]
    exact ⟨rfl, I1, I2, fun _ _ _ => rfl, rfl, rfl, fun _ => ⟨rfl, rfl⟩, fun _ _ => rfl⟩
  rcases hm1 : (w.heaps h1).min_node with _ | a
  · -- the destination is empty
    have hS1 : S1 = [] := I1.nil_iff.1 hm1
    subst hS1
    obtain ⟨K2, F2, hmin2, hcnt2, hglob2⟩ := I2
    have hres : fib_heap_union w (some h1) (some h2) =
        ((((w.set_min_node h1 (some b)).set_node_count h1 (w.heaps h2).node_count).set_min_node
          h2 none).set_node_count h2 0, fib_heap_error_t.FIB_HEAP_SUCCESS) := by
      simp only [fib_heap_union, hm2, hm1, set_min_node_node_count]
    rw [hres, List.nil_append]
    refine ⟨rfl, ⟨K2, by simpa using F2, ?_, ?_, ?_⟩, ?_, ?_, by simp, by simp, fun u => by simp,
      fun u _ => by simp⟩
    · simp [hne, hm2, ← hmin2]
    · simp [hne, hcnt2]
    · intro z hz x hx
      simp [hne, hm2] at hz
      simp only [set_node_count_nodes, set_min_node_nodes]
      exact hglob2 z (by rw [hm2, hz]) x hx
    · exact HeapInv.empty _ _ (by simp) (by simp)
    · intro g hg1 hg2
      simp [set_node_count_ne, set_min_node_ne, hg1, hg2]
  · -- both heaps have nodes
    obtain ⟨K1, F1, hmin1, hcnt1, hglob1⟩ := I1
    obtain ⟨K2, F2, hmin2, hcnt2, hglob2⟩ := I2
    obtain ⟨t1, hK1⟩ := head_cons_of_min hmin1 hm1
    obtain ⟨t2, hK2⟩ := head_cons_of_min hmin2 hm2
    have hdjK : ∀ u, u ∈ K1 none → u ∉ K2 none := fun u c1 c2 =>
      hdj u (F1.mem_S c1) (F2.mem_S c2)
    have hnd : ((a :: t1) ++ (b :: t2)).Nodup := by
      rw [← hK1, ← hK2]
      exact List.nodup_append.2 ⟨F1.K_nodup _, F2.K_nodup _, fun u c1 c2 => hdjK u c1 c2⟩
    have haK : a ∈ K1 none := by rw [hK1]; simp
    have hbK : b ∈ K2 none := by rw [hK2]; simp
    have hla := F1.left_mem haK
    have hlb := F2.left_mem hbK
    have hab : a ≠ b := fun c => hdjK a haK (c ▸ hbK)
    -- the nodes after the four stores
    obtain ⟨w1, hw1⟩ : ∃ w1, w1 = (((w.set_right (w.nodes a).left b).set_left b
        (w.nodes a).left).set_right (w.nodes b).left a).set_left a (w.nodes b).left := ⟨_, rfl⟩
    have hR : ∀ u, (w1.nodes u).right =
        if u = (w.nodes b).left then a else if u = (w.nodes a).left then b
        else (w.nodes u).right := by
      intro u; rw [hw1]; simp
    have hL : ∀ v, (w1.nodes v).left =
        if v = a then (w.nodes b).left else if v = b then (w.nodes a).left
        else (w.nodes v).left := by
      intro v; rw [hw1]; simp
    have hring : Ring w1.nodes ((a :: t1) ++ (b :: t2)) :=
      Ring_concat hnd (hK1 ▸ F1.K_ring none) (hK2 ▸ F2.K_ring none) hR hL
    have hf : ∀ u, (w1.nodes u).key = (w.nodes u).key ∧ (w1.nodes u).parent = (w.nodes u).parent ∧
        (w1.nodes u).child = (w.nodes u).child ∧ (w1.nodes u).degree = (w.nodes u).degree ∧
        (w1.nodes u).marked = (w.nodes u).marked := by
      intro u; rw [hw1]; simp
    have hdata : ∀ u, (w1.nodes u).data = (w.nodes u).data := by
      intro u; rw [hw1]; simp
    have hlr : ∀ u, u ∉ K1 none → u ∉ K2 none →
        (w1.nodes u).right = (w.nodes u).right ∧ (w1.nodes u).left = (w.nodes u).left := by
      intro u c1 c2
      have e1 : u ≠ a := fun c => c1 (c ▸ haK)
      have e2 : u ≠ b := fun c => c2 (c ▸ hbK)
      have e3 : u ≠ (w.nodes a).left := fun c => c1 (c ▸ hla)
      have e4 : u ≠ (w.nodes b).left := fun c => c2 (c ▸ hlb)
      simp [hR, hL, e1, e2, e3, e4]
    have hframe : ∀ u, u ∉ S1 ++ S2 → w1.nodes u = w.nodes u := by
      intro u hu
      simp only [List.mem_append, not_or] at hu
      have e1 : u ≠ a := fun c => hu.1 (c ▸ F1.mem_S haK)
      have e2 : u ≠ b := fun c => hu.2 (c ▸ F2.mem_S hbK)
      have e3 : u ≠ (w.nodes a).left := fun c => hu.1 (c ▸ F1.mem_S hla)
      have e4 : u ≠ (w.nodes b).left := fun c => hu.2 (c ▸ F2.mem_S hlb)
      rw [hw1, set_left_ne _ _ _ _ e1, set_right_ne _ _ _ _ e4, set_left_ne _ _ _ _ e2,
        set_right_ne _ _ _ _ e3]
    have hw1h : w1.heaps = w.heaps := by rw [hw1]; simp
    have hw1n : w1.next_node = w.next_node := by rw [hw1]; simp
    have hw1nh : w1.next_heap = w.next_heap := by rw [hw1]; simp
    have hres : fib_heap_union w (some h1) (some h2) =
        ((((if (w.nodes b).key < (w.nodes a).key then w1.set_min_node h1 (some b)
            else w1).set_node_count h1
            ((w.heaps h1).node_count + (w.heaps h2).node_count)).set_min_node h2 none).set_node_count
              h2 0, fib_heap_error_t.FIB_HEAP_SUCCESS) := by
      simp only [fib_heap_union, hm2, hm1]
      rw [← hw1]
      have e1 : (w1.nodes b).key = (w.nodes b).key := (hf b).1
      have e2 : (w1.nodes a).key = (w.nodes a).key := (hf a).1
      rw [e1, e2]
      by_cases hlt : (w.nodes b).key < (w.nodes a).key
      · simp [hlt, hw1h, hne', hm2]
      · simp [hlt, hw1h]
    rw [hres]
    refine ⟨rfl, ?_⟩
    simp only
    have ga := hglob1 a hm1
    have gb := hglob2 b hm2
    by_cases hlt : (w.nodes b).key < (w.nodes a).key
    · rw [if_pos hlt]
      have F' := F1.union F2 hdj
        ((b :: t2) ++ (a :: t1)) (by rw [hK1, hK2]; exact List.perm_append_comm)
        (Ring_rotate hring) hf hlr
      refine ⟨⟨_, by simpa using F', ?_, ?_, ?_⟩, ?_, ?_, by simpa using hw1n,
        by simpa using hw1nh, fun u => by simpa using ⟨(hf u).1, hdata u⟩,
        fun u hu => by simpa using hframe u hu⟩
      · simp [hne]
      · simp [hne, hcnt1, hcnt2]
      · intro z hz x hx
        simp [hne] at hz
        subst hz
        simp only [set_node_count_nodes, set_min_node_nodes, (hf _).1]
        rcases List.mem_append.1 hx with hx | hx
        · exact le_trans (le_of_lt hlt) (ga x hx)
        · exact gb x hx
      · exact HeapInv.empty _ _ (by simp) (by simp)
      · intro g hg1 hg2
        simp [set_node_count_ne, set_min_node_ne, hg1, hg2, hw1h]
    · rw [if_neg hlt]
      have F' := F1.union F2 hdj
        ((a :: t1) ++ (b :: t2)) (by rw [hK1, hK2]) hring hf hlr
      refine ⟨⟨_, by simpa using F', ?_, ?_, ?_⟩, ?_, ?_, by simpa using hw1n,
        by simpa using hw1nh, fun u => by simpa using ⟨(hf u).1, hdata u⟩,
        fun u hu => by simpa using hframe u hu⟩
      · simp [hne, hw1h, hm1]
      · simp [hne, hcnt1, hcnt2]
      · intro z hz x hx
        simp [hne, hw1h, hm1] at hz
        subst hz
        simp only [set_node_count_nodes, set_min_node_nodes, (hf _).1]
        rcases List.mem_append.1 hx with hx | hx
        · exact ga x hx
        · exact le_trans (not_lt.1 hlt) (gb x hx)
      · exact HeapInv.empty _ _ (by simp) (by simp)
      · intro g hg1 hg2
        simp [set_node_count_ne, set_min_node_ne, hg1, hg2, hw1h]

end FibHeap


namespace FibHeap

/-! ## `fib_heap_delete_node` -/

theorem HeapInv.min_le {m : Mem} {H S} (I : HeapInv m H S) {a x : Nat}
    (ha : H.min_node = some a) (hx : x ∈ S) : (m a).key ≤ (m x).key := by
  obtain ⟨K, F, hmin, hcnt, hglob⟩ := I
  exact hglob a ha x hx

theorem HeapInv.key_ge {m : Mem} {H S} (I : HeapInv m H S) {x : Nat} (hx : x ∈ S) :
    INT_MIN ≤ (m x).key := by
  obtain ⟨K, F, -, -, -⟩ := I
  exact F.key_ge x hx

theorem HeapInv.count {m : Mem} {H S} (I : HeapInv m H S) : H.node_count = S.length := by
  obtain ⟨K, F, -, hcnt, -⟩ := I
  exact hcnt

theorem HeapInv.nodup {m : Mem} {H S} (I : HeapInv m H S) : S.Nodup := by
  obtain ⟨K, F, -, -, -⟩ := I
  exact F.S_nodup

theorem HeapInv.min_mem {m : Mem} {H S} (I : HeapInv m H S) {a : Nat}
    (ha : H.min_node = some a) : a ∈ S := by
  obtain ⟨K, F, hmin, -, -⟩ := I
  rw [hmin] at ha
  exact F.mem_S (List.mem_of_mem_head? ha)

theorem HeapInv.min_root {m : Mem} {H S} (I : HeapInv m H S) {a : Nat}
    (ha : H.min_node = some a) : (m a).parent = none := by
  obtain ⟨K, F, hmin, -, -⟩ := I
  rw [hmin] at ha
  exact F.parent_of_mem (List.mem_of_mem_head? ha)

theorem delete_spec (w : World) (h x : Nat) (S : List Nat) (fuel : Nat)
    (I : HeapInv w.nodes (w.heaps h) S) (hx : x ∈ S) (hfuel : S.length ≤ fuel) :
    ∃ w' a, (w.heaps h).min_node = some a ∧
      fib_heap_delete_node fuel w (some h) (some x) =
        some (w', if some (delete_victim w x a) ≠ some x then
          fib_heap_error_t.FIB_HEAP_ERROR_HEAP_CORRUPTION
          else fib_heap_error_t.FIB_HEAP_SUCCESS) ∧
      HeapInv w'.nodes (w'.heaps h) (S.erase (delete_victim w x a)) ∧
      delete_victim w x a ∈ S ∧
      (∀ g, g ≠ h → w'.heaps g = w.heaps g) ∧
      w'.next_node = w.next_node ∧ w'.next_heap = w.next_heap ∧
      (∀ u, (w'.nodes u).key = if u = x then INT_MIN else (w.nodes u).key) ∧
      (∀ u, (w'.nodes u).data = (w.nodes u).data) ∧
      (∀ u, u ∉ S → w'.nodes u = w.nodes u) := by
  obtain ⟨a, hmina, haS, -⟩ := I.min_of_mem hx
  have hk := I.key_ge hx
  obtain ⟨w1, hw1, I1, hg1, hn1, hh1, hk1, hd1, hf1, hm1⟩ :=
    decrease_key_spec w h x INT_MIN S fuel I hx hk (le_refl _) hfuel
  have hmin1 : (w1.heaps h).min_node = some (delete_victim w x a) := by
    rw [hm1 a hmina]
    unfold delete_victim
    split <;> rfl
  obtain ⟨w2, hw2, I2, hzS, hg2, hn2, hh2, hkd2, hf2⟩ :=
    extract_min_spec w1 h S fuel _ I1 hmin1 hfuel
  refine ⟨w2, a, hmina, ?_, I2, hzS, ?_, ?_, ?_, ?_, ?_, ?_⟩
  · simp only [fib_heap_delete_node, hw1, hw2]
    simp
    split <;> rfl
  · intro g hg; rw [hg2 g hg, hg1 g hg]
  · rw [hn2, hn1]
  · rw [hh2, hh1]
  · intro u; rw [(hkd2 u).1, hk1]
  · intro u; rw [(hkd2 u).2, hd1]
  · intro u hu; rw [hf2 u hu, hf1 u hu]

end FibHeap


namespace FibHeap

/-! ## The invariant of reachable states -/

theorem bump_same {α : Type} (f : Nat → α) (h : Nat) (v : α) : bump f h v h = v := by
  simp [bump]

theorem bump_ne {α : Type} (f : Nat → α) (h g : Nat) (v : α) (hg : g ≠ h) :
    bump f h v g = f g := by
  simp [bump, hg]

theorem WInv.at_start : WInv World.init Ghost.init.live where
  heap := fun _ => HeapInv.empty _ _ rfl rfl
  disj := fun _ _ _ u hu => by simp [Ghost.init] at hu
  bound := fun _ u hu => by simp [Ghost.init] at hu
  unborn := fun _ _ => rfl

theorem WInv.create {w : World} {L : Nat → List Nat} (I : WInv w L) :
    WInv (fib_heap_create w).1 L where
  heap := fun h => by
    by_cases hh : h = w.next_heap
    · subst hh
      rw [I.unborn _ (le_refl _)]
      exact HeapInv.empty _ _ (by simp [fib_heap_create]) (by simp [fib_heap_create])
    · have : (fib_heap_create w).1.heaps h = w.heaps h := by
        simp only [fib_heap_create]
        rw [set_node_count_ne _ _ _ _ hh, set_min_node_ne _ _ _ _ hh]
      rw [this]
      exact I.heap h
  disj := I.disj
  bound := fun h u hu => by simpa [fib_heap_create] using I.bound h u hu
  unborn := fun h hh => I.unborn h (by
    simp [fib_heap_create] at hh; omega)

theorem WInv.insert {w : World} {L : Nat → List Nat} (I : WInv w L) (h : Nat) (key : Int)
    (data : Nat) (hh : h < w.next_heap) (hk : INT_MIN ≤ key) :
    WInv (fib_heap_insert w (some h) key data).1 (bump L h (w.next_node :: L h)) where
  heap := fun g => by
    have hfresh : ∀ g, w.next_node ∉ L g := fun g c => lt_irrefl _ (I.bound g _ c)
    by_cases hg : g = h
    · subst hg
      rw [bump_same]
      exact insert_HeapInv w g key data (L g) (I.heap g) (hfresh g) hk
    · rw [bump_ne _ _ _ _ hg, insert_heaps_ne _ _ _ _ _ hg]
      apply (I.heap g).transport
      intro u hu
      apply insert_nodes_frame w h key data (L h) (I.heap h) (hfresh h) u
      · exact I.disj g h hg u hu
      · exact fun c => hfresh g (c ▸ hu)
  disj := fun h1 h2 hne u hu1 hu2 => by
    have hfresh : ∀ g, w.next_node ∉ L g := fun g c => lt_irrefl _ (I.bound g _ c)
    by_cases e1 : h1 = h
    · subst e1
      rw [bump_same] at hu1
      rw [bump_ne _ _ _ _ (Ne.symm hne)] at hu2
      rcases List.mem_cons.1 hu1 with c | c
      · exact hfresh h2 (c ▸ hu2)
      · exact I.disj h1 h2 hne u c hu2
    · rw [bump_ne _ _ _ _ e1] at hu1
      by_cases e2 : h2 = h
      · subst e2
        rw [bump_same] at hu2
        rcases List.mem_cons.1 hu2 with c | c
        · exact hfresh h1 (c ▸ hu1)
        · exact I.disj h1 h2 hne u hu1 c
      · rw [bump_ne _ _ _ _ e2] at hu2
        exact I.disj h1 h2 hne u hu1 hu2
  bound := fun g u hu => by
    rw [insert_next_node]
    by_cases hg : g = h
    · subst hg
      rw [bump_same] at hu
      rcases List.mem_cons.1 hu with c | c
      · omega
      · have := I.bound g u c; omega
    · rw [bump_ne _ _ _ _ hg] at hu
      have := I.bound g u hu; omega
  unborn := fun g hg => by
    rw [insert_next_heap] at hg
    rw [bump_ne _ _ _ _ (by omega)]
    exact I.unborn g hg

/-- An operation on heap `h` that only touches nodes of `h` keeps the invariant. -/
theorem WInv.local_step {w w' : World} {L : Nat → List Nat} (I : WInv w L) (h : Nat)
    (S' : List Nat) (hI : HeapInv w'.nodes (w'.heaps h) S') (hsub : ∀ u, u ∈ S' → u ∈ L h)
    (hheaps : ∀ g, g ≠ h → w'.heaps g = w.heaps g)
    (hnn : w'.next_node = w.next_node) (hnh : w'.next_heap = w.next_heap)
    (hframe : ∀ u, u ∉ L h → w'.nodes u = w.nodes u) (hh : h < w.next_heap) :
    WInv w' (bump L h S') where
  heap := fun g => by
    by_cases hg : g = h
    · subst hg; rw [bump_same]; exact hI
    · rw [bump_ne _ _ _ _ hg, hheaps g hg]
      apply (I.heap g).transport
      intro u hu
      exact hframe u (I.disj g h hg u hu)
  disj := fun h1 h2 hne u hu1 hu2 => by
    by_cases e1 : h1 = h
    · subst e1
      rw [bump_same] at hu1
      rw [bump_ne _ _ _ _ (Ne.symm hne)] at hu2
      exact I.disj h1 h2 hne u (hsub u hu1) hu2
    · rw [bump_ne _ _ _ _ e1] at hu1
      by_cases e2 : h2 = h
      · subst e2
        rw [bump_same] at hu2
        exact I.disj h1 h2 hne u hu1 (hsub u hu2)
      · rw [bump_ne _ _ _ _ e2] at hu2
        exact I.disj h1 h2 hne u hu1 hu2
  bound := fun g u hu => by
    rw [hnn]
    by_cases hg : g = h
    · subst hg
      rw [bump_same] at hu
      exact I.bound g u (hsub u hu)
    · rw [bump_ne _ _ _ _ hg] at hu
      exact I.bound g u hu
  unborn := fun g hg => by
    rw [hnh] at hg
    rw [bump_ne _ _ _ _ (by omega)]
    exact I.unborn g hg

theorem bump_self {α : Type} (f : Nat → α) (h : Nat) : bump f h (f h) = f := by
  funext g
  by_cases hg : g = h
  · subst hg; simp [bump]
  · simp [bump, hg]

theorem RInv.initial : RInv (World.init, Ghost.init) where
  winv := WInv.at_start
  count := fun _ _ => rfl
  fields := fun _ u hu => by simp [Ghost.init] at hu

theorem size_eq_length {w : World} {L : Nat → List Nat} (I : WInv w L) (h : Nat) :
    fib_heap_size w (some h) = (L h).length := by
  simp [fib_heap_size, (I.heap h).count]

theorem create_nodes (w : World) : (fib_heap_create w).1.nodes = w.nodes := by
  simp [fib_heap_create]

theorem RInv.after_create {s : World × Ghost} (I : RInv s) : RInv ((fib_heap_create s.1).1, s.2) where
  winv := I.winv.create
  count := I.count
  fields := fun h u hu => by
    simp only [create_nodes]
    exact I.fields h u hu

theorem RInv.after_insert {s : World × Ghost} (I : RInv s) (h : Nat) (key : Int) (data : Nat)
    (hh : h < s.1.next_heap) (hk : INT_MIN ≤ key) :
    RInv ((fib_heap_insert s.1 (some h) key data).1,
      { s.2 with
        live := bump s.2.live h (s.1.next_node :: s.2.live h)
        inserts := bump s.2.inserts h (s.2.inserts h + 1)
        payload := bump s.2.payload s.1.next_node data
        given_key := bump s.2.given_key s.1.next_node key }) where
  winv := I.winv.insert h key data hh hk
  count := fun g hg => by
    by_cases e : g = h
    · subst e
      have := I.count g hg
      simp only [bump_same, List.length_cons]
      omega
    · simp only [bump_ne _ _ _ _ e]
      exact I.count g hg
  fields := fun g u hu => by
    have hnew := insert_new s.1 h key data
    simp only at hnew
    have hold : u ∈ s.2.live g → ((fib_heap_insert s.1 (some h) key data).1.nodes u).data =
        bump s.2.payload s.1.next_node data u ∧
        ((fib_heap_insert s.1 (some h) key data).1.nodes u).key =
        bump s.2.given_key s.1.next_node key u := by
      intro hu'
      have hne : u ≠ s.1.next_node := Nat.ne_of_lt (I.winv.bound g u hu')
      have hfr := insert_frame s.1 h key data u hne
      simp only at hfr
      rw [bump_ne _ _ _ _ hne, bump_ne _ _ _ _ hne, hfr.1, hfr.2.1]
      exact I.fields g u hu'
    by_cases e : g = h
    · subst e
      simp only [bump_same] at hu
      rcases List.mem_cons.1 hu with c | c
      · subst c
        simp only [bump_same]
        exact ⟨hnew.2.1, hnew.1⟩
      · exact hold c
    · simp only [bump_ne _ _ _ _ e] at hu
      exact hold hu

theorem length_erase_add_one {l : List Nat} {z : Nat} (hz : z ∈ l) :
    (l.erase z).length + 1 = l.length := by
  have := List.length_pos_of_mem hz
  rw [List.length_erase_of_mem hz]
  omega

/-- The state after a call that takes the node `z` out of heap `h`. -/
theorem RInv.remove {s : World × Ghost} (I : RInv s) (h z : Nat) (w' : World) (g' : Ghost)
    (hh : h < s.1.next_heap) (hz : z ∈ s.2.live h)
    (hI : HeapInv w'.nodes (w'.heaps h) ((s.2.live h).erase z))
    (hheaps : ∀ g, g ≠ h → w'.heaps g = s.1.heaps g)
    (hnn : w'.next_node = s.1.next_node) (hnh : w'.next_heap = s.1.next_heap)
    (hframe : ∀ u, u ∉ s.2.live h → w'.nodes u = s.1.nodes u)
    (hlive : g'.live = bump s.2.live h ((s.2.live h).erase z))
    (hins : g'.inserts = s.2.inserts) (hun : g'.unions = s.2.unions)
    (hcnt : g'.extracts h + g'.deletes h = s.2.extracts h + s.2.deletes h + 1)
    (hcnt' : ∀ g, g ≠ h → g'.extracts g = s.2.extracts g ∧ g'.deletes g = s.2.deletes g)
    (hpay : g'.payload = s.2.payload)
    (hdata : ∀ u, (w'.nodes u).data = (s.1.nodes u).data)
    (hkey : ∀ u, u ≠ z → (s.1.nodes u).key = s.2.given_key u →
      (w'.nodes u).key = g'.given_key u) :
    RInv (w', g') where
  winv := by
    rw [hlive]
    exact I.winv.local_step h _ hI (fun u hu => List.mem_of_mem_erase hu) hheaps hnn hnh
      hframe hh
  count := fun g hg => by
    rw [hun] at hg
    rw [hlive, hins]
    by_cases e : g = h
    · subst e
      have := I.count g hg
      have := length_erase_add_one hz
      simp only [bump_same]
      omega
    · simp only [bump_ne _ _ _ _ e, (hcnt' g e).1, (hcnt' g e).2]
      exact I.count g hg
  fields := fun g u hu => by
    rw [hlive] at hu
    have hnd := (I.winv.heap h).nodup
    have key : u ∈ s.2.live g ∧ u ≠ z := by
      by_cases e : g = h
      · subst e
        simp only [bump_same] at hu
        exact ⟨List.mem_of_mem_erase hu, fun c => (List.Nodup.mem_erase_iff hnd).1 hu |>.1 c⟩
      · simp only [bump_ne _ _ _ _ e] at hu
        exact ⟨hu, fun c => I.winv.disj g h e u hu (c ▸ hz)⟩
    have h1 := I.fields g u key.1
    exact ⟨by rw [hpay, hdata u]; exact h1.1, hkey u key.2 h1.2⟩

end FibHeap


namespace FibHeap

/-! ## The traversal of `fib_heap_destroy` -/

theorem destroy_ring_spec (w : World) (D : Nat → List Nat) (M : Nat) (first : Nat) :
    ∀ (post pre : List Nat) (c : Nat),
      Ring w.nodes (pre ++ c :: post) → (pre ++ c :: post).Nodup →
      some first = (pre ++ [c]).head? →
      (∀ u ∈ c :: post, ∀ fuel, M ≤ fuel →
        fib_node_destroy_recursive fuel w (some u) = some (D u)) →
      ∀ fuel, M + post.length + 1 ≤ fuel →
        destroy_ring fuel w first c = some (((c :: post).map D).flatten) := by
  intro post
  induction post with
  | nil =>
    intro pre c hr hnd hfirst hD fuel hf
    obtain ⟨s, rfl⟩ : ∃ s, fuel = s + 1 := ⟨fuel - 1, by omega⟩
    have hnext := Ring_right_eq hr
    simp only [List.nil_append] at hnext
    have hnext' : (w.nodes c).right = first := Option.some.inj (hnext.trans hfirst.symm)
    unfold destroy_ring
    simp only [hD c (by simp) s (by simp at hf; omega), hnext']
    simp
  | cons c' post ih =>
    intro pre c hr hnd hfirst hD fuel hf
    obtain ⟨s, rfl⟩ : ∃ s, fuel = s + 1 := ⟨fuel - 1, by omega⟩
    have hnext := Ring_right_eq hr
    simp only [List.cons_append, List.head?_cons] at hnext
    have hnext' : (w.nodes c).right = c' := Option.some.inj hnext
    have hne : c' ≠ first := by
      intro e
      have hm : c' ∈ pre ++ [c] := List.mem_of_mem_head? (e ▸ hfirst.symm)
      have := List.nodup_append.1 (by simpa using hnd : (pre ++ [c] ++ c' :: post).Nodup)
      exact this.2.2 hm (by simp)
    have h2 := ih (pre ++ [c]) c' (by simpa using hr) (by simpa using hnd)
      (by
        rw [hfirst]
        rcases pre with _ | ⟨b, pre⟩ <;> simp)
      (fun u hu => hD u (List.mem_cons_of_mem _ hu)) s (by simp at hf; omega)
    unfold destroy_ring
    simp only [hD c (by simp) s (by simp at hf; omega), hnext', if_neg hne, h2]
    simp

theorem Forest.sibling_not_anc {m : Mem} {S K d} (F : Forest m S K d) {rk : Nat → Nat}
    (hrk : ∀ x ∈ S, ∀ p, (m x).parent = some p → rk x < rk p) {q : Option Nat} {a b : Nat}
    (ha : a ∈ K q) (hb : b ∈ K q) (hab : Anc m a b) : a = b := by
  rcases Relation.ReflTransGen.cases_tail hab with e | ⟨p, hap, hp⟩
  · exact e.symm
  · exfalso
    have hb' := (F.K_mem q b).1 hb
    have ha' := (F.K_mem q a).1 ha
    rw [hb'.2] at hp
    subst hp
    have h1 := hrk a ha'.1 p ha'.2
    have h2 := (Anc.mem_rank F hrk hap (F.parent_mem b hb'.1 p hb'.2)).2
    omega

theorem Forest.children_length_le {m : Mem} {S K d} (F : Forest m S K d) (q : Option Nat) :
    (K q).length ≤ S.length :=
  ((F.K_nodup q).subperm (fun _ hx => F.mem_S hx)).length_le

/-- The nodes enumerated below a ring are the members of the forest under its members. -/
theorem Forest.ring_desc {m : Mem} {S K d} (F : Forest m S K d) {rk : Nat → Nat}
    (hrk : ∀ x ∈ S, ∀ p, (m x).parent = some p → rk x < rk p) (q : Option Nat)
    (D : Nat → List Nat)
    (hD : ∀ c ∈ K q, (D c).Nodup ∧ ∀ u, u ∈ D c ↔ u ∈ S ∧ Anc m c u) :
    (((K q).map D).flatten).Nodup ∧
      ∀ u, u ∈ ((K q).map D).flatten ↔ ∃ c ∈ K q, u ∈ S ∧ Anc m c u := by
  constructor
  · rw [List.nodup_flatten]
    constructor
    · intro l hl
      obtain ⟨c, hc, rfl⟩ := List.mem_map.1 hl
      exact (hD c hc).1
    · rw [List.pairwise_map]
      apply List.Pairwise.imp_of_mem _ (F.K_nodup q)
      intro a b ha hb hab
      intro u hua hub
      have h1 := ((hD a ha).2 u).1 hua
      have h2 := ((hD b hb).2 u).1 hub
      rcases Anc.linear h1.2 h2.2 with h | h
      · exact hab (F.sibling_not_anc hrk ha hb h)
      · exact hab (F.sibling_not_anc hrk hb ha h).symm
  · intro u
    simp only [List.mem_flatten, List.mem_map]
    constructor
    · rintro ⟨l, ⟨c, hc, rfl⟩, hu⟩
      exact ⟨c, hc, ((hD c hc).2 u).1 hu⟩
    · rintro ⟨c, hc, hu⟩
      exact ⟨D c, ⟨c, hc, rfl⟩, ((hD c hc).2 u).2 hu⟩

theorem destroy_node_spec {w : World} {S K} (F : Forest w.nodes S K none) {rk : Nat → Nat}
    (hrk : ∀ x ∈ S, ∀ p, (w.nodes x).parent = some p → rk x < rk p) :
    ∀ r : Nat, ∀ x ∈ S, rk x ≤ r → ∃ l : List Nat,
      (∀ fuel, (r + 1) * (S.length + 2) ≤ fuel →
        fib_node_destroy_recursive fuel w (some x) = some l) ∧
      l.Nodup ∧ ∀ u, u ∈ l ↔ u ∈ S ∧ Anc w.nodes x u := by
  have leaf : ∀ x ∈ S, K (some x) = [] → ∀ u, u ∈ [x] ↔ u ∈ S ∧ Anc w.nodes x u := by
    intro x hx hK u
    constructor
    · intro hu
      rw [List.mem_singleton.1 hu]
      exact ⟨hx, Relation.ReflTransGen.refl⟩
    · rintro ⟨hu, ha⟩
      rcases Relation.ReflTransGen.cases_head ha with e | ⟨c, hc, hcu⟩
      · simp [e]
      · exfalso
        have hcS := (Anc.mem_rank F hrk hcu hu).1
        have := (F.K_mem (some x) c).2 ⟨hcS, hc⟩
        rw [hK] at this
        simp at this
  intro r
  induction r with
  | zero =>
    intro x hx hr
    have hK : K (some x) = [] := by
      rcases hl : K (some x) with _ | ⟨c, t⟩
      · rfl
      · exfalso
        have hc := (F.K_mem (some x) c).1 (by rw [hl]; simp)
        have := hrk c hc.1 x hc.2
        omega
    refine ⟨[x], ?_, by simp, leaf x hx hK⟩
    intro fuel hf
    obtain ⟨s, rfl⟩ : ∃ s, fuel = s + 1 := ⟨fuel - 1, by omega⟩
    unfold fib_node_destroy_recursive
    simp [F.child_eq x hx, hK]
  | succ r ih =>
    intro x hx hr
    have hmul : (r + 1 + 1) * (S.length + 2) = (r + 1) * (S.length + 2) + (S.length + 2) := by
      ring
    choose! D hD using ih
    rcases hl : K (some x) with _ | ⟨c, t⟩
    · refine ⟨[x], ?_, by simp, leaf x hx hl⟩
      intro fuel hf
      obtain ⟨s, rfl⟩ : ∃ s, fuel = s + 1 := ⟨fuel - 1, by omega⟩
      unfold fib_node_destroy_recursive
      simp [F.child_eq x hx, hl]
    · have hch : ∀ u ∈ K (some x), u ∈ S ∧ rk u ≤ r := by
        intro u hu
        have h1 := (F.K_mem (some x) u).1 hu
        have := hrk u h1.1 x h1.2
        exact ⟨h1.1, by omega⟩
      have hlen := F.children_length_le (some x)
      rw [hl] at hlen
      simp only [List.length_cons] at hlen
      have hring : ∀ fuel, (r + 1) * (S.length + 2) + t.length + 1 ≤ fuel →
          destroy_ring fuel w c c = some (((c :: t).map D).flatten) := by
        apply destroy_ring_spec w D ((r + 1) * (S.length + 2)) c t [] c
        · simpa [hl] using F.K_ring (some x)
        · simpa [hl] using F.K_nodup (some x)
        · simp
        · intro u hu fuel hf
          have h1 := hch u (by rw [hl]; exact hu)
          exact (hD u h1.1 h1.2).1 fuel hf
      have hdesc := F.ring_desc hrk (some x) D (fun u hu =>
        (hD u (hch u hu).1 (hch u hu).2).2)
      rw [hl] at hdesc
      refine ⟨((c :: t).map D).flatten ++ [x], ?_, ?_, ?_⟩
      · intro fuel hf
        obtain ⟨s, rfl⟩ : ∃ s, fuel = s + 1 := ⟨fuel - 1, by omega⟩
        have hs : (r + 1) * (S.length + 2) + t.length + 1 ≤ s := by omega
        unfold fib_node_destroy_recursive
        simp only [F.child_eq x hx, hl, List.head?_cons, hring s hs]
      · rw [List.nodup_append]
        refine ⟨hdesc.1, by simp, ?_⟩
        intro u hu hux
        rw [List.mem_singleton.1 hux] at hu
        obtain ⟨c', hc', _, hanc⟩ := (hdesc.2 x).1 hu
        have h1 := (F.K_mem (some x) c').1 (by rw [hl]; exact hc')
        have h2 := hrk c' h1.1 x h1.2
        have h3 := (Anc.mem_rank F hrk hanc hx).2
        omega
      · intro u
        rw [List.mem_append, hdesc.2 u]
        constructor
        · rintro (⟨c', hc', huS, hanc⟩ | hu)
          · have h1 := (F.K_mem (some x) c').1 (by rw [hl]; exact hc')
            exact ⟨huS, Anc.of_child h1.2 hanc⟩
          · rw [List.mem_singleton.1 hu]
            exact ⟨hx, Relation.ReflTransGen.refl⟩
        · rintro ⟨hu, ha⟩
          rcases Relation.ReflTransGen.cases_head ha with e | ⟨c', hc', hcu⟩
          · right; simp [e]
          · left
            have hcS := (Anc.mem_rank F hrk hcu hu).1
            have hm := (F.K_mem (some x) c').2 ⟨hcS, hc'⟩
            rw [hl] at hm
            exact ⟨c', hm, hu, hcu⟩

/-- With enough fuel the traversal returns, and it enumerates exactly the nodes of the
heap, each once. -/
theorem destroy_spec {w : World} {h : Nat} {S : List Nat}
    (I : HeapInv w.nodes (w.heaps h) S) :
    ∃ (N : Nat) (l : List Nat),
      (∀ fuel, N ≤ fuel → fib_heap_destroy fuel w (some h) = some l) ∧ l.Perm S := by
  obtain ⟨K, F, hmin, -, -⟩ := I
  obtain ⟨rk, hrk⟩ := F.rank
  have hM : ∀ y ∈ S, rk y ≤ S.toFinset.sup rk := fun y hy =>
    Finset.le_sup (List.mem_toFinset.2 hy)
  have hnode := destroy_node_spec F hrk (S.toFinset.sup rk)
  choose! D hD using hnode
  rcases hl : K none with _ | ⟨c, t⟩
  · refine ⟨0, [], ?_, ?_⟩
    · intro fuel _
      simp [fib_heap_destroy, hmin, hl]
    · rw [F.S_nil_of_roots_nil hl]
  · have hch : ∀ u ∈ K none, u ∈ S := fun u hu => F.mem_S hu
    have hring := destroy_ring_spec w D ((S.toFinset.sup rk + 1) * (S.length + 2)) c t [] c
      (by simpa [hl] using F.K_ring none) (by simpa [hl] using F.K_nodup none) (by simp)
      (fun u hu fuel hf => (hD u (hch u (by rw [hl]; exact hu)) (hM u (hch u
        (by rw [hl]; exact hu)))).1 fuel hf)
    have hdesc := F.ring_desc hrk none D (fun u hu =>
      (hD u (hch u hu) (hM u (hch u hu))).2)
    rw [hl] at hdesc
    refine ⟨(S.toFinset.sup rk + 1) * (S.length + 2) + t.length + 1,
      ((c :: t).map D).flatten, ?_, ?_⟩
    · intro fuel hf
      simp only [fib_heap_destroy, hmin, hl, List.head?_cons]
      exact hring fuel hf
    · rw [List.perm_ext_iff_of_nodup hdesc.1 F.S_nodup]
      intro u
      rw [hdesc.2 u]
      constructor
      · rintro ⟨_, _, hu, _⟩
        exact hu
      · intro hu
        obtain ⟨r, hr, _, hanc⟩ := F.exists_root hu
        exact ⟨r, by rw [← hl]; exact hr, hu, hanc⟩

end FibHeap


namespace FibHeap

/-! ## Every call keeps the invariant of reachable states -/

theorem decrease_key_invalid (fuel : Nat) (w : World) (h x : Nat) (k : Int)
    (hk : (w.nodes x).key < k) :
    fib_heap_decrease_key fuel w (some h) (some x) k =
      some (w, fib_heap_error_t.FIB_HEAP_ERROR_INVALID_KEY) := by
  simp [fib_heap_decrease_key, hk]

theorem WInv.merge {w : World} {L : Nat → List Nat} (I : WInv w L) (h1 h2 : Nat)
    (hne : h1 ≠ h2) (hh1 : h1 < w.next_heap) (hh2 : h2 < w.next_heap) :
    WInv (fib_heap_union w (some h1) (some h2)).1 (bump (bump L h1 (L h1 ++ L h2)) h2 []) := by
  obtain ⟨-, I1, I2, hg, hnn, hnh, -, hfr⟩ :=
    union_spec w h1 h2 (L h1) (L h2) hne (I.heap h1) (I.heap h2) (I.disj h1 h2 hne)
  have hL : ∀ g u, u ∈ bump (bump L h1 (L h1 ++ L h2)) h2 [] g →
      (g = h1 ∧ (u ∈ L h1 ∨ u ∈ L h2)) ∨ (g ≠ h1 ∧ g ≠ h2 ∧ u ∈ L g) := by
    intro g u hu
    by_cases e2 : g = h2
    · subst e2; simp [bump] at hu
    · rw [bump_ne _ _ _ _ e2] at hu
      by_cases e1 : g = h1
      · subst e1
        rw [bump_same] at hu
        exact Or.inl ⟨rfl, List.mem_append.1 hu⟩
      · rw [bump_ne _ _ _ _ e1] at hu
        exact Or.inr ⟨e1, e2, hu⟩
  refine ⟨?_, ?_, ?_, ?_⟩
  · intro g
    by_cases e2 : g = h2
    · subst e2; rw [bump_same]; exact I2
    · rw [bump_ne _ _ _ _ e2]
      by_cases e1 : g = h1
      · subst e1; rw [bump_same]; exact I1
      · rw [bump_ne _ _ _ _ e1, hg g e1 e2]
        apply (I.heap g).transport
        intro u hu
        apply hfr
        intro hm
        rcases List.mem_append.1 hm with c | c
        · exact I.disj g h1 e1 u hu c
        · exact I.disj g h2 e2 u hu c
  · intro g1 g2 hg12 u hu1 hu2
    rcases hL g1 u hu1 with ⟨e1, c1⟩ | ⟨a1, b1, c1⟩ <;>
      rcases hL g2 u hu2 with ⟨e2, c2⟩ | ⟨a2, b2, c2⟩
    · exact hg12 (e1.trans e2.symm)
    · rcases c1 with c1 | c1
      · exact I.disj g2 h1 a2 u c2 c1
      · exact I.disj g2 h2 b2 u c2 c1
    · rcases c2 with c2 | c2
      · exact I.disj g1 h1 a1 u c1 c2
      · exact I.disj g1 h2 b1 u c1 c2
    · exact I.disj g1 g2 hg12 u c1 c2
  · intro g u hu
    rw [hnn]
    rcases hL g u hu with ⟨-, c | c⟩ | ⟨-, -, c⟩
    · exact I.bound h1 u c
    · exact I.bound h2 u c
    · exact I.bound g u c
  · intro g hge
    rw [hnh] at hge
    rw [bump_ne _ _ _ _ (by omega), bump_ne _ _ _ _ (by omega)]
    exact I.unborn g hge

theorem RInv.after_union {s : World × Ghost} (I : RInv s) (h1 h2 : Nat)
    (hne : h1 ≠ h2) (hh1 : h1 < s.1.next_heap) (hh2 : h2 < s.1.next_heap) :
    RInv ((fib_heap_union s.1 (some h1) (some h2)).1,
      { s.2 with
        live := bump (bump s.2.live h1 (s.2.live h1 ++ s.2.live h2)) h2 []
        unions := bump (bump s.2.unions h1 (s.2.unions h1 + 1)) h2 (s.2.unions h2 + 1) }) where
  winv := I.winv.merge h1 h2 hne hh1 hh2
  count := fun g hg => by
    simp only at hg ⊢
    by_cases e2 : g = h2
    · subst e2; simp [bump] at hg
    · rw [bump_ne _ _ _ _ e2] at hg ⊢
      by_cases e1 : g = h1
      · subst e1; simp [bump] at hg
      · rw [bump_ne _ _ _ _ e1] at hg ⊢
        exact I.count g hg
  fields := fun g u hu => by
    obtain ⟨-, -, -, -, -, -, hkd, -⟩ :=
      union_spec s.1 h1 h2 (s.2.live h1) (s.2.live h2) hne (I.winv.heap h1) (I.winv.heap h2)
        (I.winv.disj h1 h2 hne)
    simp only at hu ⊢
    rw [(hkd u).1, (hkd u).2]
    by_cases e2 : g = h2
    · subst e2; simp [bump] at hu
    · rw [bump_ne _ _ _ _ e2] at hu
      by_cases e1 : g = h1
      · subst e1
        rw [bump_same] at hu
        rcases List.mem_append.1 hu with c | c
        · exact I.fields g u c
        · exact I.fields h2 u c
      · rw [bump_ne _ _ _ _ e1] at hu
        exact I.fields g u hu

/-- A successful `fib_heap_decrease_key` keeps the invariant. -/
theorem RInv.decrease {s : World × Ghost} (I : RInv s) (h x : Nat) (k : Int) (w' : World)
    (hh : h < s.1.next_heap) (hP : DecreasePost s.1 w' h x k (s.2.live h)) :
    RInv (w', { s.2 with given_key := bump s.2.given_key x k }) where
  winv := by
    obtain ⟨hI, hg, hnn, hnh, -, -, hfr, -⟩ := hP
    have := I.winv.local_step h _ hI (fun u hu => hu) hg hnn hnh hfr hh
    rw [bump_self] at this
    exact this
  count := I.count
  fields := fun g u hu => by
    obtain ⟨-, -, -, -, hkey, hdata, -, -⟩ := hP
    have h1 := I.fields g u hu
    simp only at hu ⊢
    rw [hkey u, hdata u]
    refine ⟨h1.1, ?_⟩
    by_cases e : u = x
    · subst e; simp [bump]
    · rw [if_neg e, bump_ne _ _ _ _ e]; exact h1.2

/-- A call of `fib_heap_extract_min` on a non-empty heap keeps the invariant. -/
theorem RInv.extract {s : World × Ghost} (I : RInv s) (h z : Nat) (fuel : Nat)
    (hh : h < s.1.next_heap) (hm : (s.1.heaps h).min_node = some z)
    (hf : fib_heap_size s.1 (some h) ≤ fuel) :
    ∃ w', fib_heap_extract_min fuel s.1 (some h) = some (w', some z) ∧
      RInv (w', { s.2 with
        live := bump s.2.live h ((s.2.live h).erase z)
        extracts := bump s.2.extracts h (s.2.extracts h + 1) }) := by
  rw [size_eq_length I.winv] at hf
  obtain ⟨w', hw', I', hz, hg, hnn, hnh, hkd, hfr⟩ :=
    extract_min_spec s.1 h (s.2.live h) fuel z (I.winv.heap h) hm hf
  refine ⟨w', hw', ?_⟩
  refine RInv.remove I h z w' _ hh hz I' hg hnn hnh hfr rfl rfl rfl ?_ ?_ ?_ ?_ ?_
  · simp only [bump_same]; omega
  · intro g hg'
    simp [bump_ne _ _ _ _ hg']
  · rfl
  · exact fun u => (hkd u).2
  · intro u _ hu
    rw [(hkd u).1]; exact hu

/-- A call of `fib_heap_delete_node` on a live handle keeps the invariant. -/
theorem RInv.delete {s : World × Ghost} (I : RInv s) (h x : Nat) (fuel : Nat)
    (hh : h < s.1.next_heap) (hx : x ∈ s.2.live h)
    (hf : fib_heap_size s.1 (some h) ≤ fuel) :
    ∃ w' e, fib_heap_delete_node fuel s.1 (some h) (some x) = some (w', e) ∧
      RInv (w', { s.2 with
        live := bump s.2.live h
          ((s.2.live h).erase
            (if e = fib_heap_error_t.FIB_HEAP_SUCCESS then x
              else (fib_heap_minimum s.1 (some h)).getD x))
        deletes := bump s.2.deletes h (s.2.deletes h + 1)
        given_key := bump s.2.given_key x INT_MIN }) := by
  rw [size_eq_length I.winv] at hf
  obtain ⟨w', a, hmin, hw', I', hz, hg, hnn, hnh, hkey, hdata, hfr⟩ :=
    delete_spec s.1 h x (s.2.live h) fuel (I.winv.heap h) hx hf
  refine ⟨w', _, hw', ?_⟩
  have hv : (if (if some (delete_victim s.1 x a) ≠ some x then
        fib_heap_error_t.FIB_HEAP_ERROR_HEAP_CORRUPTION
        else fib_heap_error_t.FIB_HEAP_SUCCESS) = fib_heap_error_t.FIB_HEAP_SUCCESS then x
      else (fib_heap_minimum s.1 (some h)).getD x) = delete_victim s.1 x a := by
    by_cases c : INT_MIN < (s.1.nodes a).key
    · simp [delete_victim, c]
    · by_cases c2 : a = x
      · simp [delete_victim, c, c2]
      · simp [delete_victim, c, c2, fib_heap_minimum, hmin]
  rw [hv]
  refine RInv.remove I h (delete_victim s.1 x a) w' _ hh hz I' hg hnn hnh hfr rfl rfl rfl
    ?_ ?_ ?_ ?_ ?_
  · simp only [bump_same]; omega
  · intro g hg'
    simp [bump_ne _ _ _ _ hg']
  · rfl
  · exact hdata
  · intro u _ hu
    simp only
    rw [hkey u]
    by_cases e : u = x
    · subst e; simp [bump]
    · rw [if_neg e, bump_ne _ _ _ _ e]; exact hu

theorem RInv.of_step {s s' : World × Ghost} {op : Op} (I : RInv s) (hs : step s op = some s') :
    RInv s' := by
  cases op with
  | create =>
    simp only [FibHeap.step, Option.some.injEq] at hs
    subst hs
    exact I.after_create
  | insert h key data =>
    simp only [FibHeap.step] at hs
    split at hs
    · rename_i hc
      simp only [Option.some.injEq] at hs
      subst hs
      exact I.after_insert h key data hc.1 hc.2.1
    · cases hs
  | extract_min h =>
    simp only [FibHeap.step] at hs
    split at hs
    · rename_i hc
      rcases hm : (s.1.heaps h).min_node with _ | z
      · rw [extract_min_empty _ _ _ hm] at hs
        simp only [Option.some.injEq] at hs
        subst hs
        exact I
      · obtain ⟨w', hw', I'⟩ := I.extract h z _ hc hm (le_refl _)
        rw [hw'] at hs
        simp only [Option.some.injEq] at hs
        subst hs
        exact I'
    · cases hs
  | decrease_key h x k =>
    simp only [FibHeap.step] at hs
    split at hs
    · rename_i hc
      by_cases hk : (s.1.nodes x).key < k
      · rw [decrease_key_invalid _ _ _ _ _ hk] at hs
        simp only [Option.some.injEq] at hs
        subst hs
        simpa using I
      · obtain ⟨w', hw', hP⟩ := decrease_key_spec s.1 h x k (s.2.live h)
          (fib_heap_size s.1 (some h)) (I.winv.heap h) hc.2.1 (not_lt.1 hk) hc.2.2.1
          (by rw [size_eq_length I.winv])
        rw [hw'] at hs
        simp only [Option.some.injEq] at hs
        subst hs
        simpa using I.decrease h x k w' hc.1 hP
    · cases hs
  | delete_node h x =>
    simp only [FibHeap.step] at hs
    split at hs
    · rename_i hc
      obtain ⟨w', e, hw', I'⟩ := I.delete h x _ hc.1 hc.2 (le_refl _)
      rw [hw'] at hs
      simp only [Option.some.injEq] at hs
      subst hs
      exact I'
    · cases hs
  | union h1 h2 =>
    simp only [FibHeap.step] at hs
    split at hs
    · rename_i hc
      simp only [Option.some.injEq] at hs
      subst hs
      exact I.after_union h1 h2 hc.2.2 hc.1 hc.2.1
    · cases hs

/-- Every reachable state satisfies the invariant. -/
theorem RInv.of_run : ∀ (ops : List Op) (s s' : World × Ghost), RInv s → run ops s = some s' →
    RInv s'
  | [], s, s', I, hs => by
    simp only [FibHeap.run, Option.some.injEq] at hs
    subst hs
    exact I
  | op :: ops, s, s', I, hs => by
    simp only [FibHeap.run] at hs
    cases h1 : FibHeap.step s op with
    | none => rw [h1] at hs; cases hs
    | some s1 =>
      rw [h1] at hs
      exact RInv.of_run ops s1 s' (I.of_step h1) hs

theorem RInv.reachable {s : World × Ghost} {ops : List Op}
    (hs : run ops (World.init, Ghost.init) = some s) : RInv s :=
  RInv.of_run ops _ s RInv.initial hs

end FibHeap


namespace FibHeap

/-! ## Repeated extraction -/

/-- The first `n` extractions from a heap of at least `n` nodes: they return `n` distinct
nodes of the heap in non-decreasing key order, none above the keys that stay. -/
theorem extract_times_spec (h fuel : Nat) : ∀ (n : Nat) (w : World) (S : List Nat),
    HeapInv w.nodes (w.heaps h) S → n ≤ S.length → S.length ≤ fuel →
    ∃ (w' : World) (E S' : List Nat),
      extract_times fuel n w h =
        some (w', E.map (fun z => ((w.nodes z).key, (w.nodes z).data))) ∧
      E.length = n ∧ (E ++ S').Perm S ∧ HeapInv w'.nodes (w'.heaps h) S' ∧
      (E.map (fun z => (w.nodes z).key)).Sorted (· ≤ ·) ∧
      (∀ z ∈ E, ∀ x ∈ S', (w.nodes z).key ≤ (w.nodes x).key) ∧
      (∀ u, (w'.nodes u).key = (w.nodes u).key ∧ (w'.nodes u).data = (w.nodes u).data)
  | 0, w, S, I, _, _ =>
    ⟨w, [], S, by simp [extract_times], rfl, by simp, I, by simp, by simp, fun _ => ⟨rfl, rfl⟩⟩
  | n + 1, w, S, I, hn, hf => by
    rcases hm : (w.heaps h).min_node with _ | z
    · have := I.nil_iff.1 hm
      subst this
      simp at hn
    obtain ⟨w1, hw1, I1, hz, -, -, -, hkd, -⟩ := extract_min_spec w h S fuel z I hm hf
    have hlen := length_erase_add_one hz
    obtain ⟨w2, E, S', hE, hEl, hperm, I2, hsort, hle, hkd2⟩ :=
      extract_times_spec h fuel n w1 (S.erase z) I1 (by omega) (by omega)
    have hmap : ∀ l : List Nat,
        l.map (fun u => ((w1.nodes u).key, (w1.nodes u).data)) =
          l.map (fun u => ((w.nodes u).key, (w.nodes u).data)) := by
      intro l
      apply List.map_congr_left
      intro u _
      rw [(hkd u).1, (hkd u).2]
    have hmapk : ∀ l : List Nat,
        l.map (fun u => (w1.nodes u).key) = l.map (fun u => (w.nodes u).key) := by
      intro l
      apply List.map_congr_left
      intro u _
      rw [(hkd u).1]
    have hsub : ∀ u, u ∈ E ++ S' → u ∈ S := fun u hu =>
      List.mem_of_mem_erase (hperm.subset hu)
    refine ⟨w2, z :: E, S', ?_, by simp [hEl], ?_, I2, ?_, ?_, ?_⟩
    · simp only [extract_times, hw1, hE, hmap, List.map_cons, (hkd z).1, (hkd z).2]
    · exact (List.Perm.cons z hperm).trans (List.perm_cons_erase hz).symm
    · simp only [List.map_cons, List.sorted_cons]
      refine ⟨?_, by rw [← hmapk]; exact hsort⟩
      intro k hk
      obtain ⟨u, hu, rfl⟩ := List.mem_map.1 hk
      exact I.min_le hm (hsub u (List.mem_append_left _ hu))
    · intro u hu x hx
      rcases List.mem_cons.1 hu with e | e
      · subst e
        exact I.min_le hm (hsub x (List.mem_append_right _ hx))
      · have := hle u e x hx
        rwa [(hkd u).1, (hkd x).1] at this
    · intro u
      rw [(hkd2 u).1, (hkd2 u).2]
      exact hkd u

theorem empty_iff_nil {w : World} {h : Nat} {S : List Nat}
    (I : HeapInv w.nodes (w.heaps h) S) : fib_heap_empty w (some h) = true ↔ S = [] := by
  simp [fib_heap_empty, I.count]

/-- Extracting as many times as the heap has nodes: the keys come out sorted, the pairs
read are those of the nodes of the heap, and the heap is empty after the last extraction
and not earlier. -/
theorem extract_all_spec (h fuel : Nat) (w : World) (S : List Nat)
    (I : HeapInv w.nodes (w.heaps h) S) (hf : S.length ≤ fuel) :
    ∃ (w' : World) (out : List (Int × Nat)),
      extract_times fuel S.length w h = some (w', out) ∧
      out.map Prod.fst = (S.map (fun z => (w.nodes z).key)).insertionSort (· ≤ ·) ∧
      out.Perm (S.map (fun z => ((w.nodes z).key, (w.nodes z).data))) ∧
      fib_heap_empty w' (some h) = true ∧
      ∀ i, i < S.length → ∃ wi oi, extract_times fuel i w h = some (wi, oi) ∧
        fib_heap_empty wi (some h) = false := by
  obtain ⟨w', E, S', hE, hEl, hperm, I', hsort, -, -⟩ :=
    extract_times_spec h fuel S.length w S I (le_refl _) hf
  have hS' : S' = [] := by
    have := hperm.length_eq
    simp only [List.length_append] at this
    exact List.eq_nil_of_length_eq_zero (by omega)
  subst hS'
  simp only [List.append_nil] at hperm
  refine ⟨w', _, hE, ?_, hperm.map _, (empty_iff_nil I').2 rfl, ?_⟩
  · rw [List.map_map]
    apply List.eq_of_perm_of_sorted _ hsort (List.sorted_insertionSort _ _)
    exact (hperm.map _).trans (List.perm_insertionSort _ _).symm
  · intro i hi
    obtain ⟨wi, Ei, Si, hEi, hEil, hpi, Ii, -, -, -⟩ :=
      extract_times_spec h fuel i w S I (le_of_lt hi) hf
    refine ⟨wi, _, hEi, ?_⟩
    have hne : Si ≠ [] := by
      intro e
      have := hpi.length_eq
      simp only [List.length_append, e, List.length_nil] at this
      omega
    cases hb : fib_heap_empty wi (some h) with
    | false => rfl
    | true => exact absurd ((empty_iff_nil Ii).1 hb) hne

end FibHeap


namespace FibHeap

/-! ## The insertion loop -/

theorem step_insert (s : World × Ghost) (h : Nat) (key : Int) (data : Nat)
    (hh : h < s.1.next_heap) (hk : INT_MIN ≤ key ∧ key ≤ INT_MAX) :
    step s (Op.insert h key data) =
      some ((fib_heap_insert s.1 (some h) key data).1,
        { s.2 with
          live := bump s.2.live h (s.1.next_node :: s.2.live h)
          inserts := bump s.2.inserts h (s.2.inserts h + 1)
          payload := bump s.2.payload s.1.next_node data
          given_key := bump s.2.given_key s.1.next_node key }) := by
  simp [step, hh, hk.1, hk.2]

/-- The insertion loop is a run of well-formed calls; it puts one new node per pair in
front of the live handles and leaves the keys and payloads of the others alone. -/
theorem insert_all_spec (h : Nat) : ∀ (kvs : List (Int × Nat)) (s : World × Ghost), RInv s →
    h < s.1.next_heap → (∀ kv ∈ kvs, INT_MIN ≤ kv.1 ∧ kv.1 ≤ INT_MAX) →
    ∃ (g' : Ghost) (E : List Nat),
      run (kvs.map (fun kv => Op.insert h kv.1 kv.2)) s = some (insert_all s.1 h kvs, g') ∧
      g'.live h = E ++ s.2.live h ∧
      E.map (fun u => (((insert_all s.1 h kvs).nodes u).key,
        ((insert_all s.1 h kvs).nodes u).data)) = kvs.reverse ∧
      (∀ g, ∀ u ∈ s.2.live g,
        ((insert_all s.1 h kvs).nodes u).key = (s.1.nodes u).key ∧
        ((insert_all s.1 h kvs).nodes u).data = (s.1.nodes u).data) ∧
      (insert_all s.1 h kvs).next_heap = s.1.next_heap
  | [], s, _, _, _ => ⟨s.2, [], rfl, rfl, rfl, fun _ _ _ => ⟨rfl, rfl⟩, rfl⟩
  | kv :: rest, s, I, hh, hk => by
    have hkv := hk kv (by simp)
    have hstep := step_insert s h kv.1 kv.2 hh hkv
    have I1 := I.of_step hstep
    obtain ⟨g', E, hrun, hlive, hmap, hfr, hnh⟩ :=
      insert_all_spec h rest _ I1 (by simpa [insert_next_heap] using hh)
        (fun kv' hkv' => hk kv' (List.mem_cons_of_mem _ hkv'))
    have hnew := insert_new s.1 h kv.1 kv.2
    simp only at hnew
    have hn1 := hfr h s.1.next_node (by simp [bump])
    refine ⟨g', E ++ [s.1.next_node], ?_, ?_, ?_, ?_, ?_⟩
    · simp only [List.map_cons, run, hstep, insert_all]
      exact hrun
    · rw [hlive]
      simp [bump]
    · simp only [insert_all, List.map_append, hmap, List.map_cons, List.map_nil,
        List.reverse_cons, hn1.1, hn1.2, hnew.1, hnew.2.1]
    · intro g u hu
      have hne : u ≠ s.1.next_node := Nat.ne_of_lt (I.winv.bound g u hu)
      have h1 := hfr g u (by
        by_cases e : g = h
        · subst e; simp [bump, hu]
        · simp [bump, e, hu])
      have h2 := insert_frame s.1 h kv.1 kv.2 u hne
      simp only at h2
      simp only [insert_all]
      exact ⟨h1.1.trans h2.1, h1.2.trans h2.2.1⟩
    · simp only [insert_all]
      rw [hnh, insert_next_heap]

/-- A fresh heap filled by the insertion loop: the state is reachable, and the heap holds
one node per pair. -/
theorem fresh_insert_all {s : World × Ghost} (I : RInv s) (kvs : List (Int × Nat))
    (hk : ∀ kv ∈ kvs, INT_MIN ≤ kv.1 ∧ kv.1 ≤ INT_MAX) :
    ∃ (g' : Ghost),
      RInv (insert_all (fib_heap_create s.1).1 s.1.next_heap kvs, g') ∧
      ((g'.live s.1.next_heap).map (fun u =>
        (((insert_all (fib_heap_create s.1).1 s.1.next_heap kvs).nodes u).key,
          ((insert_all (fib_heap_create s.1).1 s.1.next_heap kvs).nodes u).data))) =
        kvs.reverse := by
  have I1 := I.after_create
  obtain ⟨g', E, hrun, hlive, hmap, -, -⟩ :=
    insert_all_spec s.1.next_heap kvs _ I1 (by simp [fib_heap_create]) hk
  refine ⟨g', RInv.of_run _ _ _ I1 hrun, ?_⟩
  rw [hlive]
  have : s.2.live s.1.next_heap = [] := I.winv.unborn _ (le_refl _)
  simp only [this, List.append_nil]
  exact hmap

end FibHeap


namespace FibHeap

/-! ## The laws of the interface -/

theorem insertionSort_perm_eq {l1 l2 : List Int} (hp : l1.Perm l2) :
    l1.insertionSort (· ≤ ·) = l2.insertionSort (· ≤ ·) :=
  List.eq_of_perm_of_sorted
    (((List.perm_insertionSort _ l1).trans hp).trans (List.perm_insertionSort _ l2).symm)
    (List.sorted_insertionSort _ _) (List.sorted_insertionSort _ _)

theorem born_of_nonempty {s : World × Ghost} (I : RInv s) {h : Nat}
    (hne : fib_heap_empty s.1 (some h) = false) : h < s.1.next_heap := by
  by_contra hc
  have hL := I.winv.unborn h (not_lt.1 hc)
  have := (empty_iff_nil (I.winv.heap h)).2 hL
  rw [this] at hne
  cases hne

theorem min_of_nonempty {s : World × Ghost} (I : RInv s) {h : Nat}
    (hne : fib_heap_empty s.1 (some h) = false) :
    ∃ z, (s.1.heaps h).min_node = some z ∧ z ∈ s.2.live h := by
  rcases hm : (s.1.heaps h).min_node with _ | z
  · have hL := (I.winv.heap h).nil_iff.1 hm
    have := (empty_iff_nil (I.winv.heap h)).2 hL
    rw [this] at hne
    cases hne
  · exact ⟨z, rfl, (I.winv.heap h).min_mem hm⟩

/-- C1 (sort law).  In any reachable state, create a heap, insert the pairs `kvs` one by one
and call `fib_heap_extract_min` as many times as there are pairs: every call returns a node,
the keys read from the returned nodes are the inserted keys in non-decreasing order
(the sorted list of the inserted keys, duplicates included), the heap is empty after the
last extraction, and it is not empty before any of the extractions. -/
theorem sort_law (ops : List Op) (s : World × Ghost)
    (hs : run ops (World.init, Ghost.init) = some s)
    (kvs : List (Int × Nat)) (hk : ∀ kv ∈ kvs, INT_MIN ≤ kv.1 ∧ kv.1 ≤ INT_MAX)
    (fuel : Nat) (hf : kvs.length ≤ fuel) :
    ∃ h, (fib_heap_create s.1).2 = some h ∧
      ∃ (w' : World) (out : List (Int × Nat)),
        extract_times fuel kvs.length (insert_all (fib_heap_create s.1).1 h kvs) h =
          some (w', out) ∧
        out.map Prod.fst = (kvs.map Prod.fst).insertionSort (· ≤ ·) ∧
        fib_heap_empty w' (some h) = true ∧
        ∀ i, i < kvs.length →
          ∃ wi oi, extract_times fuel i (insert_all (fib_heap_create s.1).1 h kvs) h =
              some (wi, oi) ∧
            fib_heap_empty wi (some h) = false := by
  refine ⟨s.1.next_heap, rfl, ?_⟩
  obtain ⟨g', I', hmap⟩ := fresh_insert_all (RInv.reachable hs) kvs hk
  have hlen : (g'.live s.1.next_heap).length = kvs.length := by
    have := congrArg List.length hmap
    simpa using this
  obtain ⟨w', out, hE, hkeys, -, hemp, hbefore⟩ :=
    extract_all_spec s.1.next_heap fuel _ (g'.live s.1.next_heap)
      (I'.winv.heap s.1.next_heap) (by omega)
  rw [hlen] at hE hbefore
  refine ⟨w', out, hE, ?_, hemp, hbefore⟩
  rw [hkeys]
  apply insertionSort_perm_eq
  have h2 := congrArg (List.map Prod.fst) hmap
  simp only [List.map_map] at h2
  have h3 : (g'.live s.1.next_heap).map (fun z =>
      ((insert_all (fib_heap_create s.1).1 s.1.next_heap kvs).nodes z).key) =
      (kvs.reverse).map Prod.fst := by
    rw [← h2]; rfl
  rw [h3]
  exact (List.reverse_perm kvs).map _

/-- Example for C1: the keys 10, 5, 15, 3, 8, 12 come out as 3, 5, 8, 10, 12, 15. -/
theorem sort_law_witness :
    ∃ (w' : World) (out : List (Int × Nat)),
      extract_times 6 6 (insert_all (fib_heap_create World.init).1 0
        [(10, 0), (5, 0), (15, 0), (3, 0), (8, 0), (12, 0)]) 0 = some (w', out) ∧
      out.map Prod.fst = [3, 5, 8, 10, 12, 15] ∧ fib_heap_empty w' (some 0) = true := by
  obtain ⟨h, hh, w', out, h1, h2, h3, -⟩ :=
    sort_law [] (World.init, Ghost.init) rfl
      [(10, 0), (5, 0), (15, 0), (3, 0), (8, 0), (12, 0)] (by decide) 6 (by decide)
  have e : 0 = h := Option.some.inj hh
  subst e
  exact ⟨w', out, h1, h2.trans (by decide), h3⟩

/-- C2 (min consistency).  In every state reached by well-formed calls of create, insert,
extract_min, decrease_key, delete_node and union, a non-empty heap has a minimum node,
that node is one of the nodes of the heap, and its key is at most the key of every node
that the traversal of the heap enumerates; the enumerated nodes are the live handles. -/
theorem min_consistency (ops : List Op) (s : World × Ghost)
    (hs : run ops (World.init, Ghost.init) = some s) (h : Nat)
    (hne : fib_heap_empty s.1 (some h) = false) :
    ∃ z, fib_heap_minimum s.1 (some h) = some z ∧
      ∃ (N : Nat) (l : List Nat),
        (∀ fuel, N ≤ fuel → fib_heap_destroy fuel s.1 (some h) = some l) ∧
        l.Perm (s.2.live h) ∧ z ∈ l ∧
        ∀ u ∈ l, fib_node_get_key s.1 (some z) ≤ fib_node_get_key s.1 (some u) := by
  have I := RInv.reachable hs
  obtain ⟨z, hz, hzl⟩ := min_of_nonempty I hne
  obtain ⟨N, l, hl, hperm⟩ := destroy_spec (I.winv.heap h)
  refine ⟨z, hz, N, l, hl, hperm, hperm.symm.subset hzl, ?_⟩
  intro u hu
  exact (I.winv.heap h).min_le hz (hperm.subset hu)

/-- Example for C2: a heap holding the keys 5 and 3. -/
theorem min_consistency_witness :
    ∃ s, run [Op.create, Op.insert 0 5 7, Op.insert 0 3 1] (World.init, Ghost.init) = some s ∧
      fib_heap_empty s.1 (some 0) = false ∧
      ∃ z, fib_heap_minimum s.1 (some 0) = some z ∧
        ∃ (N : Nat) (l : List Nat),
          (∀ fuel, N ≤ fuel → fib_heap_destroy fuel s.1 (some 0) = some l) ∧
          l.Perm (s.2.live 0) ∧ z ∈ l ∧
          ∀ u ∈ l, fib_node_get_key s.1 (some z) ≤ fib_node_get_key s.1 (some u) :=
  ⟨_, rfl, rfl, min_consistency [Op.create, Op.insert 0 5 7, Op.insert 0 3 1] _ rfl 0 rfl⟩

/-- C3 (extract_min).  On a non-empty heap of a reachable state, with enough fuel,
`fib_heap_extract_min` returns the node that `fib_heap_minimum` returned before the call;
afterwards the traversal of the heap no longer enumerates that node and enumerates every
other node it enumerated before, and `fib_heap_size` is smaller by exactly one.  A heap of
one node is empty afterwards. -/
theorem extract_min_law (ops : List Op) (s : World × Ghost)
    (hs : run ops (World.init, Ghost.init) = some s) (h : Nat)
    (hne : fib_heap_empty s.1 (some h) = false)
    (fuel : Nat) (hf : fib_heap_size s.1 (some h) ≤ fuel) :
    ∃ (z : Nat) (w' : World),
      fib_heap_minimum s.1 (some h) = some z ∧
      fib_heap_extract_min fuel s.1 (some h) = some (w', some z) ∧
      fib_heap_size w' (some h) + 1 = fib_heap_size s.1 (some h) ∧
      (∃ (N : Nat) (l l' : List Nat),
        (∀ f, N ≤ f → fib_heap_destroy f s.1 (some h) = some l) ∧
        (∀ f, N ≤ f → fib_heap_destroy f w' (some h) = some l') ∧
        z ∈ l ∧ z ∉ l' ∧ l'.Nodup ∧ ∀ u, u ≠ z → (u ∈ l' ↔ u ∈ l)) ∧
      (fib_heap_size s.1 (some h) = 1 → fib_heap_empty w' (some h) = true) := by
  have I := RInv.reachable hs
  obtain ⟨z, hz, hzl⟩ := min_of_nonempty I hne
  obtain ⟨w', hw', I'⟩ := I.extract h z fuel (born_of_nonempty I hne) hz hf
  have H' := I'.winv.heap h
  simp only [bump_same] at H'
  have hnd := (I.winv.heap h).nodup
  have hlen := length_erase_add_one hzl
  obtain ⟨N1, l, hl, hp⟩ := destroy_spec (I.winv.heap h)
  obtain ⟨N2, l', hl', hp'⟩ := destroy_spec H'
  refine ⟨z, w', hz, hw', ?_, ⟨max N1 N2, l, l', ?_, ?_, ?_, ?_, ?_, ?_⟩, ?_⟩
  · simp only [fib_heap_size, H'.count, (I.winv.heap h).count]
    exact hlen
  · exact fun f hf => hl f (le_trans (le_max_left _ _) hf)
  · exact fun f hf => hl' f (le_trans (le_max_right _ _) hf)
  · exact hp.symm.subset hzl
  · intro hc
    exact ((List.Nodup.mem_erase_iff hnd).1 (hp'.subset hc)).1 rfl
  · exact hp'.symm.nodup_iff.1 H'.nodup
  · intro u hu
    rw [hp'.mem_iff, hp.mem_iff, List.Nodup.mem_erase_iff hnd]
    simp [hu]
  · intro h1
    apply (empty_iff_nil H').2
    apply List.eq_nil_of_length_eq_zero
    simp only [fib_heap_size, (I.winv.heap h).count] at h1
    omega

/-- Example for C3: a heap of one node returns it and is empty afterwards. -/
theorem extract_min_law_witness :
    ∃ s, run [Op.create, Op.insert 0 5 7] (World.init, Ghost.init) = some s ∧
      ∃ (z : Nat) (w' : World),
        fib_heap_minimum s.1 (some 0) = some z ∧
        fib_heap_extract_min 1 s.1 (some 0) = some (w', some z) ∧
        fib_heap_size w' (some 0) + 1 = fib_heap_size s.1 (some 0) ∧
        (∃ (N : Nat) (l l' : List Nat),
          (∀ f, N ≤ f → fib_heap_destroy f s.1 (some 0) = some l) ∧
          (∀ f, N ≤ f → fib_heap_destroy f w' (some 0) = some l') ∧
          z ∈ l ∧ z ∉ l' ∧ l'.Nodup ∧ ∀ u, u ≠ z → (u ∈ l' ↔ u ∈ l)) ∧
        (fib_heap_size s.1 (some 0) = 1 → fib_heap_empty w' (some 0) = true) :=
  ⟨_, rfl, extract_min_law [Op.create, Op.insert 0 5 7] _ rfl 0 rfl 1 (by decide)⟩

end FibHeap


namespace FibHeap

/-- C4 (insert).  In a reachable state, `fib_heap_insert` with an `int` key `k` and a
payload `p` returns a handle `n` that was not live before, with key `k` and payload `p`,
no parent, no child, degree 0 and no mark; the traversal of the heap enumerates `n` and the
nodes it enumerated before; `fib_heap_size` grows by exactly one; the minimum is `n` exactly
when the heap was empty or `k` is strictly less than the key of the previous minimum, and
otherwise the minimum is the previous one; and no other node changes its key, payload,
parent, child, degree or mark. -/
theorem insert_law (ops : List Op) (s : World × Ghost)
    (hs : run ops (World.init, Ghost.init) = some s) (h : Nat) (hh : h < s.1.next_heap)
    (k : Int) (p : Nat) (hk : INT_MIN ≤ k ∧ k ≤ INT_MAX) :
    ∃ n, (fib_heap_insert s.1 (some h) k p).2 = some n ∧
      (∀ g, n ∉ s.2.live g) ∧
      fib_node_get_key (fib_heap_insert s.1 (some h) k p).1 (some n) = k ∧
      fib_node_get_data (fib_heap_insert s.1 (some h) k p).1 (some n) = some p ∧
      fib_node_is_root (fib_heap_insert s.1 (some h) k p).1 (some n) = true ∧
      ((fib_heap_insert s.1 (some h) k p).1.nodes n).child = none ∧
      ((fib_heap_insert s.1 (some h) k p).1.nodes n).degree = 0 ∧
      ((fib_heap_insert s.1 (some h) k p).1.nodes n).marked = false ∧
      (∃ (N : Nat) (l l' : List Nat),
        (∀ f, N ≤ f → fib_heap_destroy f s.1 (some h) = some l) ∧
        (∀ f, N ≤ f → fib_heap_destroy f (fib_heap_insert s.1 (some h) k p).1 (some h) =
          some l') ∧
        l'.Perm (n :: l)) ∧
      fib_heap_size (fib_heap_insert s.1 (some h) k p).1 (some h) =
        fib_heap_size s.1 (some h) + 1 ∧
      (fib_heap_minimum (fib_heap_insert s.1 (some h) k p).1 (some h) = some n ↔
        (fib_heap_empty s.1 (some h) = true ∨
          ∃ z, fib_heap_minimum s.1 (some h) = some z ∧ k < fib_node_get_key s.1 (some z))) ∧
      (fib_heap_minimum (fib_heap_insert s.1 (some h) k p).1 (some h) ≠ some n →
        fib_heap_minimum (fib_heap_insert s.1 (some h) k p).1 (some h) =
          fib_heap_minimum s.1 (some h)) ∧
      ∀ u, u ≠ n →
        ((fib_heap_insert s.1 (some h) k p).1.nodes u).key = (s.1.nodes u).key ∧
        ((fib_heap_insert s.1 (some h) k p).1.nodes u).data = (s.1.nodes u).data ∧
        ((fib_heap_insert s.1 (some h) k p).1.nodes u).parent = (s.1.nodes u).parent ∧
        ((fib_heap_insert s.1 (some h) k p).1.nodes u).child = (s.1.nodes u).child ∧
        ((fib_heap_insert s.1 (some h) k p).1.nodes u).degree = (s.1.nodes u).degree ∧
        ((fib_heap_insert s.1 (some h) k p).1.nodes u).marked = (s.1.nodes u).marked := by
  have I := RInv.reachable hs
  have H := I.winv.heap h
  have hnew := insert_new s.1 h k p
  simp only at hnew
  have hfresh : ∀ g, s.1.next_node ∉ s.2.live g := fun g c => lt_irrefl _ (I.winv.bound g _ c)
  have H' := (I.winv.insert h k p hh hk.1).heap h
  rw [bump_same] at H'
  obtain ⟨N1, l, hl, hp⟩ := destroy_spec H
  obtain ⟨N2, l', hl', hp'⟩ := destroy_spec H'
  have hmin := insert_min_node s.1 h k p (fun c => hfresh h (H.min_mem c))
  refine ⟨s.1.next_node, insert_result _ _ _ _, hfresh, ?_, ?_, ?_, hnew.2.2.2.1,
    hnew.2.2.2.2.1, hnew.2.2.2.2.2, ⟨max N1 N2, l, l', ?_, ?_, ?_⟩, ?_, ?_, ?_, ?_⟩
  · simp [fib_node_get_key, hnew.1]
  · simp [fib_node_get_data, hnew.2.1]
  · simp [fib_node_is_root, hnew.2.2.1]
  · exact fun f hf => hl f (le_trans (le_max_left _ _) hf)
  · exact fun f hf => hl' f (le_trans (le_max_right _ _) hf)
  · exact hp'.trans (List.Perm.cons _ hp.symm)
  · simp only [fib_heap_size]
    exact insert_node_count _ _ _ _
  · simp only [fib_heap_minimum, hmin, fib_node_get_key]
    rcases hm : (s.1.heaps h).min_node with _ | a
    · have := (empty_iff_nil H).2 (H.nil_iff.1 hm)
      simp [this]
    · have hne : fib_heap_empty s.1 (some h) ≠ true := by
        intro c
        have := H.nil_iff.2 ((empty_iff_nil H).1 c)
        rw [hm] at this
        cases this
      have han : a ≠ s.1.next_node := fun c => hfresh h (c ▸ H.min_mem hm)
      by_cases hka : k < (s.1.nodes a).key
      · simp [hka]
      · simp [hka, han, hne]
  · simp only [fib_heap_minimum, hmin]
    rcases hm : (s.1.heaps h).min_node with _ | a
    · simp
    · by_cases hka : k < (s.1.nodes a).key
      · simp [hka]
      · simp [hka]
  · intro u hu
    exact insert_frame s.1 h k p u hu

/-- Example for C4: inserting the key 3 into a heap that holds the key 5. -/
theorem insert_law_witness :
    ∃ s, run [Op.create, Op.insert 0 5 7] (World.init, Ghost.init) = some s ∧
      ∃ n, (fib_heap_insert s.1 (some 0) 3 9).2 = some n ∧
        fib_node_get_key (fib_heap_insert s.1 (some 0) 3 9).1 (some n) = 3 ∧
        fib_heap_size (fib_heap_insert s.1 (some 0) 3 9).1 (some 0) =
          fib_heap_size s.1 (some 0) + 1 := by
  refine ⟨_, rfl, ?_⟩
  obtain ⟨n, h1, -, h2, -, -, -, -, -, -, h3, -⟩ :=
    insert_law [Op.create, Op.insert 0 5 7] _ rfl 0 (by decide) 3 9 (by decide)
  exact ⟨n, h1, h2, h3⟩

/-- C5 (decrease_key, invalid key).  In a reachable state, for a live handle `x` of heap
`h` and an `int` key `k`, `fib_heap_decrease_key` returns with enough fuel; it returns
`FIB_HEAP_ERROR_INVALID_KEY` exactly when `k` is greater than the key of `x`, and then the
whole state is unchanged; when `k` is at most the key of `x` it returns
`FIB_HEAP_SUCCESS`. -/
theorem decrease_key_invalid_law (ops : List Op) (s : World × Ghost)
    (hs : run ops (World.init, Ghost.init) = some s) (h x : Nat) (hx : x ∈ s.2.live h)
    (k : Int) (hk : INT_MIN ≤ k ∧ k ≤ INT_MAX)
    (fuel : Nat) (hf : fib_heap_size s.1 (some h) ≤ fuel) :
    ∃ (w' : World) (e : fib_heap_error_t),
      fib_heap_decrease_key fuel s.1 (some h) (some x) k = some (w', e) ∧
      (e = fib_heap_error_t.FIB_HEAP_ERROR_INVALID_KEY ↔ fib_node_get_key s.1 (some x) < k) ∧
      (fib_node_get_key s.1 (some x) < k → w' = s.1) ∧
      (k ≤ fib_node_get_key s.1 (some x) → e = fib_heap_error_t.FIB_HEAP_SUCCESS) := by
  have I := RInv.reachable hs
  simp only [fib_node_get_key]
  by_cases hlt : (s.1.nodes x).key < k
  · refine ⟨s.1, _, decrease_key_invalid fuel s.1 h x k hlt, ?_, fun _ => rfl, ?_⟩
    · simp [hlt]
    · intro c
      exact absurd hlt (not_lt.2 c)
  · rw [size_eq_length I.winv] at hf
    obtain ⟨w', hw', -⟩ := decrease_key_spec s.1 h x k (s.2.live h) fuel (I.winv.heap h) hx
      (not_lt.1 hlt) hk.1 hf
    refine ⟨w', _, hw', ?_, fun c => absurd c hlt, fun _ => rfl⟩
    simp [hlt]

/-- Example for C5: raising the key 5 to 8 is refused. -/
theorem decrease_key_invalid_law_witness :
    ∃ s, run [Op.create, Op.insert 0 5 7] (World.init, Ghost.init) = some s ∧
      ∃ (w' : World) (e : fib_heap_error_t),
        fib_heap_decrease_key 1 s.1 (some 0) (some 0) 8 = some (w', e) ∧
        (e = fib_heap_error_t.FIB_HEAP_ERROR_INVALID_KEY ↔
          fib_node_get_key s.1 (some 0) < 8) ∧
        (fib_node_get_key s.1 (some 0) < 8 → w' = s.1) ∧
        (8 ≤ fib_node_get_key s.1 (some 0) → e = fib_heap_error_t.FIB_HEAP_SUCCESS) :=
  ⟨_, rfl, decrease_key_invalid_law [Op.create, Op.insert 0 5 7] _ rfl 0 0 (by decide) 8
    (by decide) 1 (by decide)⟩

end FibHeap


namespace FibHeap

/-- C6 (decrease-key law).  In a reachable state, for a live handle `x` of heap `h` and an
`int` key `k` that is at most the key of `x`, `fib_heap_decrease_key` returns
`FIB_HEAP_SUCCESS`; afterwards `fib_node_get_key` of `x` is `k`, every other key and every
payload is unchanged, `fib_heap_size` is unchanged, and extracting the minimum as many
times as the heap has nodes yields, in non-decreasing order, the keys of the live handles
with the key of `x` replaced by `k`, and leaves the heap empty. -/
theorem decrease_key_law (ops : List Op) (s : World × Ghost)
    (hs : run ops (World.init, Ghost.init) = some s) (h x : Nat) (hx : x ∈ s.2.live h)
    (k : Int) (hk0 : INT_MIN ≤ k) (hk : k ≤ fib_node_get_key s.1 (some x))
    (fuel : Nat) (hf : fib_heap_size s.1 (some h) ≤ fuel) :
    ∃ w', fib_heap_decrease_key fuel s.1 (some h) (some x) k =
        some (w', fib_heap_error_t.FIB_HEAP_SUCCESS) ∧
      fib_node_get_key w' (some x) = k ∧
      (∀ u, u ≠ x → fib_node_get_key w' (some u) = fib_node_get_key s.1 (some u)) ∧
      (∀ u, fib_node_get_data w' (some u) = fib_node_get_data s.1 (some u)) ∧
      fib_heap_size w' (some h) = fib_heap_size s.1 (some h) ∧
      ∃ (w'' : World) (out : List (Int × Nat)),
        extract_times fuel (fib_heap_size w' (some h)) w' h = some (w'', out) ∧
        out.map Prod.fst =
          ((s.2.live h).map (fun u => if u = x then k else fib_node_get_key s.1 (some u))
            ).insertionSort (· ≤ ·) ∧
        fib_heap_empty w'' (some h) = true := by
  have I := RInv.reachable hs
  have hf' := hf
  rw [size_eq_length I.winv] at hf'
  obtain ⟨w', hw', H', -, -, -, hkey, hdata, -, -⟩ :=
    decrease_key_spec s.1 h x k (s.2.live h) fuel (I.winv.heap h) hx hk hk0 hf'
  obtain ⟨w'', out, hE, hkeys, -, hemp, -⟩ := extract_all_spec h fuel w' _ H' hf'
  have hsz : fib_heap_size w' (some h) = (s.2.live h).length := by
    simp [fib_heap_size, H'.count]
  refine ⟨w', hw', ?_, ?_, ?_, ?_, w'', out, ?_, ?_, hemp⟩
  · simp [fib_node_get_key, hkey]
  · intro u hu
    simp [fib_node_get_key, hkey, hu]
  · intro u
    simp [fib_node_get_data, hdata]
  · rw [hsz, size_eq_length I.winv]
  · rw [hsz]; exact hE
  · rw [hkeys]
    congr 1
    apply List.map_congr_left
    intro u _
    simp only [fib_node_get_key]
    exact hkey u

/-- Example for C6: keys 10, 5, 15; the key 15 is decreased to 2; the keys come out as
2, 5, 10. -/
theorem decrease_key_law_witness :
    ∃ s, run [Op.create, Op.insert 0 10 0, Op.insert 0 5 0, Op.insert 0 15 0]
        (World.init, Ghost.init) = some s ∧
      ∃ w', fib_heap_decrease_key 3 s.1 (some 0) (some 2) 2 =
          some (w', fib_heap_error_t.FIB_HEAP_SUCCESS) ∧
        fib_node_get_key w' (some 2) = 2 ∧
        ∃ (w'' : World) (out : List (Int × Nat)),
          extract_times 3 (fib_heap_size w' (some 0)) w' 0 = some (w'', out) ∧
          out.map Prod.fst = [2, 5, 10] := by
  refine ⟨_, rfl, ?_⟩
  obtain ⟨w', h1, h2, -, -, -, w'', out, h3, h4, -⟩ :=
    decrease_key_law [Op.create, Op.insert 0 10 0, Op.insert 0 5 0, Op.insert 0 15 0] _ rfl
      0 2 (by decide) 2 (by decide) (by decide) 3 (by decide)
  exact ⟨w', h1, h2, w'', out, h3, h4.trans (by decide)⟩

/-- C7 (delete law).  In a reachable state in which every key of heap `h` is strictly
greater than `INT_MIN`, for a live handle `x` of `h`, `fib_heap_delete_node` returns
`FIB_HEAP_SUCCESS`; afterwards `fib_heap_size` is smaller by exactly one, the traversal of
the heap enumerates exactly the former live handles other than `x`, and extracting the
minimum as many times as the heap has nodes yields the keys of the remaining handles in
non-decreasing order and leaves the heap empty. -/
theorem delete_law (ops : List Op) (s : World × Ghost)
    (hs : run ops (World.init, Ghost.init) = some s) (h x : Nat) (hx : x ∈ s.2.live h)
    (hadm : ∀ u ∈ s.2.live h, INT_MIN < fib_node_get_key s.1 (some u))
    (fuel : Nat) (hf : fib_heap_size s.1 (some h) ≤ fuel) :
    ∃ w', fib_heap_delete_node fuel s.1 (some h) (some x) =
        some (w', fib_heap_error_t.FIB_HEAP_SUCCESS) ∧
      fib_heap_size w' (some h) + 1 = fib_heap_size s.1 (some h) ∧
      (∃ (N : Nat) (l' : List Nat),
        (∀ f, N ≤ f → fib_heap_destroy f w' (some h) = some l') ∧
        l'.Perm ((s.2.live h).erase x)) ∧
      ∃ (w'' : World) (out : List (Int × Nat)),
        extract_times fuel (fib_heap_size w' (some h)) w' h = some (w'', out) ∧
        out.map Prod.fst =
          (((s.2.live h).erase x).map (fun u => fib_node_get_key s.1 (some u))
            ).insertionSort (· ≤ ·) ∧
        fib_heap_empty w'' (some h) = true := by
  have I := RInv.reachable hs
  have hf' := hf
  rw [size_eq_length I.winv] at hf'
  obtain ⟨w', a, hmin, hw', H', -, -, -, -, hkey, -, -⟩ :=
    delete_spec s.1 h x (s.2.live h) fuel (I.winv.heap h) hx hf'
  have hv : delete_victim s.1 x a = x := by
    have := hadm a ((I.winv.heap h).min_mem hmin)
    simp only [fib_node_get_key] at this
    simp [delete_victim, this]
  rw [hv] at hw' H'
  simp only [ne_eq, not_true_eq_false, if_false] at hw'
  have hlen := length_erase_add_one hx
  have hsz : fib_heap_size w' (some h) = ((s.2.live h).erase x).length := by
    simp [fib_heap_size, H'.count]
  obtain ⟨N, l', hl', hp'⟩ := destroy_spec H'
  obtain ⟨w'', out, hE, hkeys, -, hemp, -⟩ :=
    extract_all_spec h fuel w' _ H' (by omega)
  refine ⟨w', hw', ?_, ⟨N, l', hl', hp'⟩, w'', out, ?_, ?_, hemp⟩
  · rw [hsz, size_eq_length I.winv]; exact hlen
  · rw [hsz]; exact hE
  · rw [hkeys]
    congr 1
    apply List.map_congr_left
    intro u hu
    have hne : u ≠ x := fun c =>
      ((List.Nodup.mem_erase_iff (I.winv.heap h).nodup).1 hu).1 c
    simp only [fib_node_get_key]
    rw [hkey u, if_neg hne]

/-- Example for C7: keys 5, 3, 7, 2, 8; the handle of 7 is deleted; the keys come out as
2, 3, 5, 8. -/
theorem delete_law_witness :
    ∃ s, run [Op.create, Op.insert 0 5 0, Op.insert 0 3 0, Op.insert 0 7 0, Op.insert 0 2 0,
        Op.insert 0 8 0] (World.init, Ghost.init) = some s ∧
      ∃ w', fib_heap_delete_node 5 s.1 (some 0) (some 2) =
          some (w', fib_heap_error_t.FIB_HEAP_SUCCESS) ∧
        fib_heap_size w' (some 0) + 1 = fib_heap_size s.1 (some 0) ∧
        ∃ (w'' : World) (out : List (Int × Nat)),
          extract_times 5 (fib_heap_size w' (some 0)) w' 0 = some (w'', out) ∧
          out.map Prod.fst = [2, 3, 5, 8] := by
  refine ⟨_, rfl, ?_⟩
  obtain ⟨w', h1, h2, -, w'', out, h3, h4, -⟩ :=
    delete_law [Op.create, Op.insert 0 5 0, Op.insert 0 3 0, Op.insert 0 7 0, Op.insert 0 2 0,
      Op.insert 0 8 0] _ rfl 0 2 (by decide) (by decide) 5 (by decide)
  exact ⟨w', h1, h2, w'', out, h3, h4.trans (by decide)⟩

end FibHeap


namespace FibHeap

/-- No call changes the payload of a node that exists. -/
theorem step_data {s s' : World × Ghost} {op : Op} (I : RInv s) (hs : step s op = some s') :
    ∀ u, u < s.1.next_node → (s'.1.nodes u).data = (s.1.nodes u).data := by
  intro u hu
  cases op with
  | create =>
    simp only [step, Option.some.injEq] at hs
    subst hs
    simp only [create_nodes]
  | insert h key data =>
    simp only [step] at hs
    split at hs
    · simp only [Option.some.injEq] at hs
      subst hs
      exact (insert_frame s.1 h key data u (Nat.ne_of_lt hu)).2.1
    · cases hs
  | extract_min h =>
    simp only [step] at hs
    split at hs
    · rcases hm : (s.1.heaps h).min_node with _ | z
      · rw [extract_min_empty _ _ _ hm] at hs
        simp only [Option.some.injEq] at hs
        subst hs
        rfl
      · obtain ⟨w', hw', -, -, -, -, -, hkd, -⟩ := extract_min_spec s.1 h (s.2.live h)
          (fib_heap_size s.1 (some h)) z (I.winv.heap h) hm (by rw [size_eq_length I.winv])
        rw [hw'] at hs
        simp only [Option.some.injEq] at hs
        subst hs
        exact (hkd u).2
    · cases hs
  | decrease_key h x k =>
    simp only [step] at hs
    split at hs
    · rename_i hc
      by_cases hk : (s.1.nodes x).key < k
      · rw [decrease_key_invalid _ _ _ _ _ hk] at hs
        simp only [Option.some.injEq] at hs
        subst hs
        rfl
      · obtain ⟨w', hw', -, -, -, -, -, hdata, -, -⟩ := decrease_key_spec s.1 h x k (s.2.live h)
          (fib_heap_size s.1 (some h)) (I.winv.heap h) hc.2.1 (not_lt.1 hk) hc.2.2.1
          (by rw [size_eq_length I.winv])
        rw [hw'] at hs
        simp only [Option.some.injEq] at hs
        subst hs
        exact hdata u
    · cases hs
  | delete_node h x =>
    simp only [step] at hs
    split at hs
    · rename_i hc
      obtain ⟨w', a, -, hw', -, -, -, -, -, -, hdata, -⟩ := delete_spec s.1 h x (s.2.live h)
        (fib_heap_size s.1 (some h)) (I.winv.heap h) hc.2 (by rw [size_eq_length I.winv])
      rw [hw'] at hs
      simp only [Option.some.injEq] at hs
      subst hs
      exact hdata u
    · cases hs
  | union h1 h2 =>
    simp only [step] at hs
    split at hs
    · rename_i hc
      obtain ⟨-, -, -, -, -, -, hkd, -⟩ :=
        union_spec s.1 h1 h2 (s.2.live h1) (s.2.live h2) hc.2.2 (I.winv.heap h1)
          (I.winv.heap h2) (I.winv.disj h1 h2 hc.2.2)
      simp only [Option.some.injEq] at hs
      subst hs
      exact (hkd u).2
    · cases hs

/-- C8 (merge law).  In a reachable state, for two distinct heaps `h1` and `h2`,
`fib_heap_union` returns `FIB_HEAP_SUCCESS`; afterwards the size of `h1` is the sum of the
two previous sizes, `h2` has no minimum and size 0, the key of the minimum of `h1` is the
smaller of the two previous minimum keys (the previous minimum key of the other heap when
one of them was empty), and extracting the minimum of `h1` as many times as it has nodes
yields the keys of both heaps in non-decreasing order and leaves `h1` empty. -/
theorem merge_law (ops : List Op) (s : World × Ghost)
    (hs : run ops (World.init, Ghost.init) = some s) (h1 h2 : Nat) (hne : h1 ≠ h2)
    (fuel : Nat) (hf : fib_heap_size s.1 (some h1) + fib_heap_size s.1 (some h2) ≤ fuel) :
    (fib_heap_union s.1 (some h1) (some h2)).2 = fib_heap_error_t.FIB_HEAP_SUCCESS ∧
    fib_heap_size (fib_heap_union s.1 (some h1) (some h2)).1 (some h1) =
      fib_heap_size s.1 (some h1) + fib_heap_size s.1 (some h2) ∧
    fib_heap_minimum (fib_heap_union s.1 (some h1) (some h2)).1 (some h2) = none ∧
    fib_heap_size (fib_heap_union s.1 (some h1) (some h2)).1 (some h2) = 0 ∧
    (∀ z1 z2, fib_heap_minimum s.1 (some h1) = some z1 →
      fib_heap_minimum s.1 (some h2) = some z2 →
      ∃ z, fib_heap_minimum (fib_heap_union s.1 (some h1) (some h2)).1 (some h1) = some z ∧
        fib_node_get_key (fib_heap_union s.1 (some h1) (some h2)).1 (some z) =
          min (fib_node_get_key s.1 (some z1)) (fib_node_get_key s.1 (some z2))) ∧
    (∀ z1, fib_heap_minimum s.1 (some h1) = some z1 →
      fib_heap_minimum s.1 (some h2) = none →
      ∃ z, fib_heap_minimum (fib_heap_union s.1 (some h1) (some h2)).1 (some h1) = some z ∧
        fib_node_get_key (fib_heap_union s.1 (some h1) (some h2)).1 (some z) =
          fib_node_get_key s.1 (some z1)) ∧
    (∀ z2, fib_heap_minimum s.1 (some h1) = none →
      fib_heap_minimum s.1 (some h2) = some z2 →
      ∃ z, fib_heap_minimum (fib_heap_union s.1 (some h1) (some h2)).1 (some h1) = some z ∧
        fib_node_get_key (fib_heap_union s.1 (some h1) (some h2)).1 (some z) =
          fib_node_get_key s.1 (some z2)) ∧
    ∃ (w'' : World) (out : List (Int × Nat)),
      extract_times fuel (fib_heap_size (fib_heap_union s.1 (some h1) (some h2)).1 (some h1))
        (fib_heap_union s.1 (some h1) (some h2)).1 h1 = some (w'', out) ∧
      out.map Prod.fst =
        ((s.2.live h1 ++ s.2.live h2).map (fun u => fib_node_get_key s.1 (some u))
          ).insertionSort (· ≤ ·) ∧
      fib_heap_empty w'' (some h1) = true := by
  have I := RInv.reachable hs
  have H1 := I.winv.heap h1
  have H2 := I.winv.heap h2
  obtain ⟨hres, H1', H2', -, -, -, hkd, -⟩ :=
    union_spec s.1 h1 h2 (s.2.live h1) (s.2.live h2) hne H1 H2 (I.winv.disj h1 h2 hne)
  rw [size_eq_length I.winv, size_eq_length I.winv] at hf
  have hsz : fib_heap_size (fib_heap_union s.1 (some h1) (some h2)).1 (some h1) =
      (s.2.live h1 ++ s.2.live h2).length := by
    simp [fib_heap_size, H1'.count]
  have hminkey : ∀ a, a ∈ s.2.live h1 ++ s.2.live h2 →
      ∃ z, fib_heap_minimum (fib_heap_union s.1 (some h1) (some h2)).1 (some h1) = some z ∧
        z ∈ s.2.live h1 ++ s.2.live h2 ∧
        ∀ x ∈ s.2.live h1 ++ s.2.live h2, (s.1.nodes z).key ≤ (s.1.nodes x).key := by
    intro a ha
    obtain ⟨z, hz, hzS, -⟩ := H1'.min_of_mem ha
    refine ⟨z, hz, hzS, ?_⟩
    intro x hx
    have := H1'.min_le hz hx
    rwa [(hkd z).1, (hkd x).1] at this
  obtain ⟨w'', out, hE, hkeys, -, hemp, -⟩ :=
    extract_all_spec h1 fuel _ _ H1' (by simpa using hf)
  refine ⟨hres, ?_, ?_, ?_, ?_, ?_, ?_, w'', out, ?_, ?_, hemp⟩
  · rw [hsz, size_eq_length I.winv, size_eq_length I.winv, List.length_append]
  · exact H2'.nil_iff.2 rfl
  · simp [fib_heap_size, H2'.count]
  · intro z1 z2 hz1 hz2
    have m1 := H1.min_mem hz1
    have m2 := H2.min_mem hz2
    obtain ⟨z, hz, hzS, hle⟩ := hminkey z1 (List.mem_append_left _ m1)
    refine ⟨z, hz, ?_⟩
    simp only [fib_node_get_key, (hkd z).1]
    have a1 := hle z1 (List.mem_append_left _ m1)
    have a2 := hle z2 (List.mem_append_right _ m2)
    rcases List.mem_append.1 hzS with c | c
    · have := H1.min_le hz1 c
      rw [min_def]; split <;> omega
    · have := H2.min_le hz2 c
      rw [min_def]; split <;> omega
  · intro z1 hz1 hz2
    have m1 := H1.min_mem hz1
    have e2 : s.2.live h2 = [] := H2.nil_iff.1 hz2
    obtain ⟨z, hz, hzS, hle⟩ := hminkey z1 (List.mem_append_left _ m1)
    refine ⟨z, hz, ?_⟩
    simp only [fib_node_get_key, (hkd z).1]
    have a1 := hle z1 (List.mem_append_left _ m1)
    rw [e2, List.append_nil] at hzS
    have := H1.min_le hz1 hzS
    omega
  · intro z2 hz1 hz2
    have m2 := H2.min_mem hz2
    have e1 : s.2.live h1 = [] := H1.nil_iff.1 hz1
    obtain ⟨z, hz, hzS, hle⟩ := hminkey z2 (List.mem_append_right _ m2)
    refine ⟨z, hz, ?_⟩
    simp only [fib_node_get_key, (hkd z).1]
    have a2 := hle z2 (List.mem_append_right _ m2)
    rw [e1, List.nil_append] at hzS
    have := H2.min_le hz2 hzS
    omega
  · rw [hsz]; exact hE
  · rw [hkeys]
    congr 1
    apply List.map_congr_left
    intro u _
    simp only [fib_node_get_key]
    exact (hkd u).1

/-- Example for C8: heaps with keys 10, 5 and 15, 3; after the union the keys come out as
3, 5, 10, 15. -/
theorem merge_law_witness :
    ∃ s, run [Op.create, Op.create, Op.insert 0 10 0, Op.insert 0 5 0, Op.insert 1 15 0,
        Op.insert 1 3 0] (World.init, Ghost.init) = some s ∧
      (fib_heap_union s.1 (some 0) (some 1)).2 = fib_heap_error_t.FIB_HEAP_SUCCESS ∧
      fib_heap_size (fib_heap_union s.1 (some 0) (some 1)).1 (some 0) = 4 ∧
      fib_heap_size (fib_heap_union s.1 (some 0) (some 1)).1 (some 1) = 0 ∧
      ∃ (w'' : World) (out : List (Int × Nat)),
        extract_times 4 (fib_heap_size (fib_heap_union s.1 (some 0) (some 1)).1 (some 0))
          (fib_heap_union s.1 (some 0) (some 1)).1 0 = some (w'', out) ∧
        out.map Prod.fst = [3, 5, 10, 15] := by
  refine ⟨_, rfl, ?_⟩
  obtain ⟨h1, h2, -, h3, -, -, -, w'', out, h4, h5, -⟩ :=
    merge_law [Op.create, Op.create, Op.insert 0 10 0, Op.insert 0 5 0, Op.insert 1 15 0,
      Op.insert 1 3 0] _ rfl 0 1 (by decide) 4 (by decide)
  exact ⟨h1, h2.trans (by decide), h3, w'', out, h4, h5.trans (by decide)⟩

/-- C9 (payloads and keys).  In a reachable state: no call changes the payload of a node
that exists; the node that `fib_heap_extract_min` returns carries the payload given to the
insert that created it and the key given by that insert or by the last successful
decrease_key on it; and when a fresh heap is filled with the pairs `kvs` and emptied by
repeated extraction, the multiset of (key, payload) pairs read from the returned nodes is
the multiset of the inserted pairs. -/
theorem payload_law (ops : List Op) (s : World × Ghost)
    (hs : run ops (World.init, Ghost.init) = some s) :
    (∀ (op : Op) (s' : World × Ghost), step s op = some s' →
      ∀ u, u < s.1.next_node →
        fib_node_get_data s'.1 (some u) = fib_node_get_data s.1 (some u)) ∧
    (∀ (h z : Nat), fib_heap_minimum s.1 (some h) = some z →
      ∀ fuel, fib_heap_size s.1 (some h) ≤ fuel →
        ∃ w', fib_heap_extract_min fuel s.1 (some h) = some (w', some z) ∧
          fib_node_get_data w' (some z) = some (s.2.payload z) ∧
          fib_node_get_key w' (some z) = s.2.given_key z) ∧
    (∀ (kvs : List (Int × Nat)), (∀ kv ∈ kvs, INT_MIN ≤ kv.1 ∧ kv.1 ≤ INT_MAX) →
      ∀ fuel, kvs.length ≤ fuel →
        ∃ h, (fib_heap_create s.1).2 = some h ∧
          ∃ (w' : World) (out : List (Int × Nat)),
            extract_times fuel kvs.length (insert_all (fib_heap_create s.1).1 h kvs) h =
              some (w', out) ∧
            (Multiset.ofList out) = Multiset.ofList kvs) := by
  have I := RInv.reachable hs
  refine ⟨?_, ?_, ?_⟩
  · intro op s' hst u hu
    simp only [fib_node_get_data, step_data I hst u hu]
  · intro h z hz fuel hf
    simp only [fib_heap_minimum] at hz
    rw [size_eq_length I.winv] at hf
    obtain ⟨w', hw', -, hzS, -, -, -, hkd, -⟩ :=
      extract_min_spec s.1 h (s.2.live h) fuel z (I.winv.heap h) hz hf
    have hfld := I.fields h z hzS
    refine ⟨w', hw', ?_, ?_⟩
    · simp only [fib_node_get_data, (hkd z).2, hfld.1]
    · simp only [fib_node_get_key, (hkd z).1, hfld.2]
  · intro kvs hk fuel hf
    refine ⟨s.1.next_heap, rfl, ?_⟩
    obtain ⟨g', I', hmap⟩ := fresh_insert_all I kvs hk
    have hlen : (g'.live s.1.next_heap).length = kvs.length := by
      have := congrArg List.length hmap
      simpa using this
    obtain ⟨w', out, hE, -, hperm, -, -⟩ :=
      extract_all_spec s.1.next_heap fuel _ (g'.live s.1.next_heap)
        (I'.winv.heap s.1.next_heap) (by omega)
    rw [hlen] at hE
    refine ⟨w', out, hE, ?_⟩
    rw [Multiset.coe_eq_coe]
    rw [hmap] at hperm
    exact hperm.trans (List.reverse_perm kvs)

/-- Example for C9: a state in which heap 0 holds the pair (5, 7). -/
theorem payload_law_witness :
    ∃ s, run [Op.create, Op.insert 0 5 7] (World.init, Ghost.init) = some s ∧
      ∃ w', fib_heap_extract_min 1 s.1 (some 0) = some (w', some 0) ∧
        fib_node_get_data w' (some 0) = some 7 ∧ fib_node_get_key w' (some 0) = 5 := by
  refine ⟨_, rfl, ?_⟩
  exact (payload_law [Op.create, Op.insert 0 5 7] _ rfl).2.1 0 0 rfl 1 (by decide)

/-- C10 (size law).  In a reachable state, for a heap that took part in no union,
`fib_heap_size` equals the number of inserts minus the number of `fib_heap_extract_min`
calls that returned a node minus the number of `fib_heap_delete_node` calls (each of them
takes one node out of the heap, whatever it returns), and it equals the number of nodes
that the traversal of the root ring and, recursively, of every child ring enumerates. -/
theorem size_law (ops : List Op) (s : World × Ghost)
    (hs : run ops (World.init, Ghost.init) = some s) (h : Nat) (hu : s.2.unions h = 0) :
    (fib_heap_size s.1 (some h) : Int) =
      (s.2.inserts h : Int) - (s.2.extracts h : Int) - (s.2.deletes h : Int) ∧
    ∃ (N : Nat) (l : List Nat),
      (∀ fuel, N ≤ fuel → fib_heap_destroy fuel s.1 (some h) = some l) ∧
      l.length = fib_heap_size s.1 (some h) := by
  have I := RInv.reachable hs
  have hc := I.count h hu
  obtain ⟨N, l, hl, hp⟩ := destroy_spec (I.winv.heap h)
  rw [size_eq_length I.winv]
  refine ⟨by omega, N, l, hl, hp.length_eq⟩

/-- Example for C10: three inserts, one extraction, one delete. -/
theorem size_law_witness :
    ∃ s, run [Op.create, Op.insert 0 5 7, Op.insert 0 3 1, Op.insert 0 9 2, Op.extract_min 0,
        Op.decrease_key 0 2 4, Op.delete_node 0 0] (World.init, Ghost.init) = some s ∧
      s.2.unions 0 = 0 ∧
      ((fib_heap_size s.1 (some 0) : Int) =
        (s.2.inserts 0 : Int) - (s.2.extracts 0 : Int) - (s.2.deletes 0 : Int) ∧
      ∃ (N : Nat) (l : List Nat),
        (∀ fuel, N ≤ fuel → fib_heap_destroy fuel s.1 (some 0) = some l) ∧
        l.length = fib_heap_size s.1 (some 0)) :=
  ⟨_, rfl, rfl, size_law [Op.create, Op.insert 0 5 7, Op.insert 0 3 1, Op.insert 0 9 2,
    Op.extract_min 0, Op.decrease_key 0 2 4, Op.delete_node 0 0] _ rfl 0 rfl⟩

end FibHeap


namespace FibHeap

/-! ## Boundary cases and structural invariants -/

theorem HeapInv.parent_le {m : Mem} {H S} (I : HeapInv m H S) {x p : Nat} (hx : x ∈ S)
    (hp : (m x).parent = some p) : p ∈ S ∧ (m p).key ≤ (m x).key := by
  obtain ⟨K, F, -, -, -⟩ := I
  exact ⟨F.parent_mem x hx p hp, F.order x hx p hp⟩

theorem min_none_iff_empty {s : World × Ghost} (I : RInv s) (h : Nat) :
    (s.1.heaps h).min_node = none ↔ fib_heap_empty s.1 (some h) = true := by
  rw [empty_iff_nil (I.winv.heap h)]
  exact (I.winv.heap h).nil_iff

/-- C11 (emptiness).  In a reachable state, for a heap pointer that is `NULL` or a heap,
`fib_heap_empty` is true exactly when `fib_heap_size` is 0, and `fib_heap_size` is 0
exactly when `fib_heap_minimum` is `NULL`. -/
theorem emptiness_notions (ops : List Op) (s : World × Ghost)
    (hs : run ops (World.init, Ghost.init) = some s) (heap : Option Nat) :
    (fib_heap_empty s.1 heap = true ↔ fib_heap_size s.1 heap = 0) ∧
    (fib_heap_size s.1 heap = 0 ↔ fib_heap_minimum s.1 heap = none) := by
  have I := RInv.reachable hs
  cases heap with
  | none => simp [fib_heap_empty, fib_heap_size, fib_heap_minimum]
  | some h =>
    have H := I.winv.heap h
    refine ⟨by simp [fib_heap_empty, fib_heap_size], ?_⟩
    simp only [fib_heap_size, fib_heap_minimum, H.count, H.nil_iff, List.length_eq_zero]

/-- Example for C11: a heap that holds one node is not empty in any of the three senses. -/
theorem emptiness_notions_witness :
    ∃ s, run [Op.create, Op.insert 0 5 7] (World.init, Ghost.init) = some s ∧
      (fib_heap_empty s.1 (some 0) = true ↔ fib_heap_size s.1 (some 0) = 0) ∧
      (fib_heap_size s.1 (some 0) = 0 ↔ fib_heap_minimum s.1 (some 0) = none) :=
  ⟨_, rfl, emptiness_notions [Op.create, Op.insert 0 5 7] _ rfl (some 0)⟩

/-- C12 (absent and empty heaps).  In a reachable state, on a heap pointer that is `NULL`
or an empty heap, `fib_heap_minimum` returns `NULL`, `fib_heap_extract_min` returns `NULL`
and leaves the whole state as it is, `fib_heap_size` returns 0 and `fib_heap_empty` returns
true; a freshly created heap is empty; and `fib_heap_insert` on a `NULL` heap returns `NULL`
and changes nothing. -/
theorem empty_heap_law (ops : List Op) (s : World × Ghost)
    (hs : run ops (World.init, Ghost.init) = some s) (heap : Option Nat)
    (he : fib_heap_empty s.1 heap = true) (fuel : Nat) :
    fib_heap_minimum s.1 heap = none ∧
    fib_heap_extract_min fuel s.1 heap = some (s.1, none) ∧
    fib_heap_size s.1 heap = 0 ∧
    fib_heap_empty (fib_heap_create s.1).1 (fib_heap_create s.1).2 = true ∧
    fib_heap_minimum (fib_heap_create s.1).1 (fib_heap_create s.1).2 = none ∧
    fib_heap_size (fib_heap_create s.1).1 (fib_heap_create s.1).2 = 0 ∧
    fib_heap_extract_min fuel (fib_heap_create s.1).1 (fib_heap_create s.1).2 =
      some ((fib_heap_create s.1).1, none) ∧
    ∀ (k : Int) (p : Nat), fib_heap_insert s.1 none k p = (s.1, none) := by
  have I := RInv.reachable hs
  have hfresh : ((fib_heap_create s.1).1.heaps s.1.next_heap).min_node = none := by
    simp [fib_heap_create]
  refine ⟨?_, ?_, ?_, by simp [fib_heap_create, fib_heap_empty],
    by simp [fib_heap_create, fib_heap_minimum], by simp [fib_heap_create, fib_heap_size],
    extract_min_empty fuel _ _ hfresh, fun _ _ => rfl⟩
  · cases heap with
    | none => rfl
    | some h => exact (min_none_iff_empty I h).2 he
  · cases heap with
    | none => rfl
    | some h => exact extract_min_empty fuel s.1 h ((min_none_iff_empty I h).2 he)
  · cases heap with
    | none => rfl
    | some h => simpa [fib_heap_empty, fib_heap_size] using he

/-- Example for C12: the heap made by the first `fib_heap_create`. -/
theorem empty_heap_law_witness :
    ∃ s, run [Op.create] (World.init, Ghost.init) = some s ∧
      fib_heap_minimum s.1 (some 0) = none ∧
      fib_heap_extract_min 0 s.1 (some 0) = some (s.1, none) ∧
      fib_heap_size s.1 (some 0) = 0 := by
  refine ⟨_, rfl, ?_⟩
  obtain ⟨h1, h2, h3, -⟩ := empty_heap_law [Op.create] _ rfl (some 0) rfl 0
  exact ⟨h1, h2, h3⟩

/-- C13, as amended.  `fib_heap_decrease_key` and `fib_heap_delete_node` called with a
`NULL` heap or a `NULL` handle, and `fib_heap_union` called with a `NULL` heap, leave the
whole state as it is and return `FIB_HEAP_ERROR_NULL_POINTER`. -/
theorem null_pointer_law (w : World) (fuel : Nat) (heap node : Option Nat) (k : Int) :
    fib_heap_decrease_key fuel w none node k =
      some (w, fib_heap_error_t.FIB_HEAP_ERROR_NULL_POINTER) ∧
    fib_heap_decrease_key fuel w heap none k =
      some (w, fib_heap_error_t.FIB_HEAP_ERROR_NULL_POINTER) ∧
    fib_heap_delete_node fuel w none node =
      some (w, fib_heap_error_t.FIB_HEAP_ERROR_NULL_POINTER) ∧
    fib_heap_delete_node fuel w heap none =
      some (w, fib_heap_error_t.FIB_HEAP_ERROR_NULL_POINTER) ∧
    fib_heap_union w none heap = (w, fib_heap_error_t.FIB_HEAP_ERROR_NULL_POINTER) ∧
    fib_heap_union w heap none = (w, fib_heap_error_t.FIB_HEAP_ERROR_NULL_POINTER) := by
  refine ⟨rfl, ?_, rfl, ?_, rfl, ?_⟩
  · cases heap <;> rfl
  · cases heap <;> rfl
  · cases heap <;> rfl

/-- C13 fails as stated: on a heap that holds one node, `fib_heap_decrease_key` with a
`NULL` handle, `fib_heap_delete_node` with a `NULL` handle and `fib_heap_union` with a
`NULL` second heap return `FIB_HEAP_ERROR_NULL_POINTER`, which is not `FIB_HEAP_SUCCESS`. -/
theorem null_pointer_not_success :
    ∃ s, run [Op.create, Op.insert 0 5 7] (World.init, Ghost.init) = some s ∧
      fib_heap_decrease_key 1 s.1 (some 0) none 3 =
        some (s.1, fib_heap_error_t.FIB_HEAP_ERROR_NULL_POINTER) ∧
      fib_heap_delete_node 1 s.1 (some 0) none =
        some (s.1, fib_heap_error_t.FIB_HEAP_ERROR_NULL_POINTER) ∧
      fib_heap_union s.1 (some 0) none =
        (s.1, fib_heap_error_t.FIB_HEAP_ERROR_NULL_POINTER) ∧
      fib_heap_error_t.FIB_HEAP_ERROR_NULL_POINTER ≠ fib_heap_error_t.FIB_HEAP_SUCCESS :=
  ⟨_, rfl, rfl, rfl, rfl, by decide⟩

/-- C14 (decrease-key to the same value).  In a reachable state, for a live handle `x` of
heap `h`, `fib_heap_decrease_key` with the key that `x` already has returns
`FIB_HEAP_SUCCESS`, whatever the fuel, and the state it returns is the state it was given:
every key, link, degree, mark, minimum pointer and size is as before. -/
theorem decrease_key_same_law (ops : List Op) (s : World × Ghost)
    (hs : run ops (World.init, Ghost.init) = some s) (h x : Nat) (hx : x ∈ s.2.live h)
    (fuel : Nat) :
    fib_heap_decrease_key fuel s.1 (some h) (some x) (fib_node_get_key s.1 (some x)) =
      some (s.1, fib_heap_error_t.FIB_HEAP_SUCCESS) := by
  have I := RInv.reachable hs
  have H := I.winv.heap h
  obtain ⟨a, ha, -, -⟩ := H.min_of_mem hx
  have hle := H.min_le ha hx
  simp only [fib_node_get_key, fib_heap_decrease_key, gt_iff_lt, lt_irrefl, if_false,
    set_key_self]
  cases hp : (s.1.nodes x).parent with
  | none =>
    simp only [ha, if_neg (not_lt.2 hle)]
  | some y =>
    have := (H.parent_le hx hp).2
    simp only [if_neg (not_lt.2 this), ha, if_neg (not_lt.2 hle)]

/-- Example for C14: the key 5 of the only node is decreased to 5. -/
theorem decrease_key_same_law_witness :
    ∃ s, run [Op.create, Op.insert 0 5 7] (World.init, Ghost.init) = some s ∧
      fib_heap_decrease_key 0 s.1 (some 0) (some 0) (fib_node_get_key s.1 (some 0)) =
        some (s.1, fib_heap_error_t.FIB_HEAP_SUCCESS) :=
  ⟨_, rfl, decrease_key_same_law [Op.create, Op.insert 0 5 7] _ rfl 0 0 (by decide) 0⟩

/-- C16 (merge boundary cases).  In a reachable state, for distinct heaps `a` and `b`: when
`b` is empty, `fib_heap_union` returns the state it was given; when `a` is empty and `b` is
not, afterwards no node has changed, `a` has the former minimum and size of `b`, `b` has no
minimum and size 0, and every other heap is as before.  Both calls return
`FIB_HEAP_SUCCESS`. -/
theorem merge_boundary_law (ops : List Op) (s : World × Ghost)
    (hs : run ops (World.init, Ghost.init) = some s) (a b : Nat) (hne : a ≠ b) :
    (fib_heap_empty s.1 (some b) = true →
      fib_heap_union s.1 (some a) (some b) = (s.1, fib_heap_error_t.FIB_HEAP_SUCCESS)) ∧
    (fib_heap_empty s.1 (some a) = true → fib_heap_empty s.1 (some b) = false →
      (fib_heap_union s.1 (some a) (some b)).2 = fib_heap_error_t.FIB_HEAP_SUCCESS ∧
      (fib_heap_union s.1 (some a) (some b)).1.nodes = s.1.nodes ∧
      fib_heap_minimum (fib_heap_union s.1 (some a) (some b)).1 (some a) =
        fib_heap_minimum s.1 (some b) ∧
      fib_heap_size (fib_heap_union s.1 (some a) (some b)).1 (some a) =
        fib_heap_size s.1 (some b) ∧
      fib_heap_minimum (fib_heap_union s.1 (some a) (some b)).1 (some b) = none ∧
      fib_heap_size (fib_heap_union s.1 (some a) (some b)).1 (some b) = 0 ∧
      fib_heap_empty (fib_heap_union s.1 (some a) (some b)).1 (some b) = true ∧
      ∀ g, g ≠ a → g ≠ b →
        (fib_heap_union s.1 (some a) (some b)).1.heaps g = s.1.heaps g) := by
  have I := RInv.reachable hs
  constructor
  · intro hb
    have := (min_none_iff_empty I b).2 hb
    simp [fib_heap_union, this]
  · intro ha hb
    have hma := (min_none_iff_empty I a).2 ha
    rcases hmb : (s.1.heaps b).min_node with _ | mb
    · rw [(min_none_iff_empty I b).1 hmb] at hb
      cases hb
    · have hba : b ≠ a := Ne.symm hne
      simp only [fib_heap_union, hmb, hma, fib_heap_minimum, fib_heap_size, fib_heap_empty]
      refine ⟨trivial, ?_, ?_, ?_, ?_, ?_, ?_, ?_⟩
      · simp
      · simp [hne]
      · simp [hne, set_node_count_ne, set_min_node_ne]
      · simp
      · simp
      · simp
      · intro g hga hgb
        simp [set_node_count_ne, set_min_node_ne, hga, hgb]

/-- Example for C16: heap 0 is empty and heap 1 holds the keys 15 and 3. -/
theorem merge_boundary_law_witness :
    ∃ s, run [Op.create, Op.create, Op.insert 1 15 0, Op.insert 1 3 0]
        (World.init, Ghost.init) = some s ∧
      fib_heap_empty s.1 (some 0) = true ∧ fib_heap_empty s.1 (some 1) = false ∧
      fib_heap_union s.1 (some 1) (some 0) = (s.1, fib_heap_error_t.FIB_HEAP_SUCCESS) ∧
      fib_heap_minimum (fib_heap_union s.1 (some 0) (some 1)).1 (some 0) =
        fib_heap_minimum s.1 (some 1) ∧
      fib_heap_size (fib_heap_union s.1 (some 0) (some 1)).1 (some 0) = 2 := by
  refine ⟨_, rfl, rfl, rfl, ?_, ?_⟩
  · exact (merge_boundary_law [Op.create, Op.create, Op.insert 1 15 0, Op.insert 1 3 0] _ rfl
      1 0 (by decide)).1 rfl
  · obtain ⟨-, -, h3, h4, -⟩ :=
      (merge_boundary_law [Op.create, Op.create, Op.insert 1 15 0, Op.insert 1 3 0] _ rfl
        0 1 (by decide)).2 rfl rfl
    exact ⟨h3, h4.trans rfl⟩

/-- C17 (min-heap order).  In a reachable state, every node that the traversal of a heap
enumerates and that is not a root has a parent among the enumerated nodes, and its key is
greater than or equal to the key of its parent. -/
theorem heap_order_law (ops : List Op) (s : World × Ghost)
    (hs : run ops (World.init, Ghost.init) = some s) (h : Nat) :
    ∃ (N : Nat) (l : List Nat),
      (∀ fuel, N ≤ fuel → fib_heap_destroy fuel s.1 (some h) = some l) ∧
      l.Perm (s.2.live h) ∧
      ∀ x ∈ l, fib_node_is_root s.1 (some x) = false →
        ∃ p ∈ l, (s.1.nodes x).parent = some p ∧
          fib_node_get_key s.1 (some p) ≤ fib_node_get_key s.1 (some x) := by
  have I := RInv.reachable hs
  have H := I.winv.heap h
  obtain ⟨N, l, hl, hp⟩ := destroy_spec H
  refine ⟨N, l, hl, hp, ?_⟩
  intro x hx hroot
  simp only [fib_node_is_root, decide_eq_false_iff_not] at hroot
  rcases hpar : (s.1.nodes x).parent with _ | p
  · exact absurd hpar hroot
  · have := H.parent_le (hp.subset hx) hpar
    exact ⟨p, hp.symm.subset this.1, rfl, this.2⟩

/-- Example for C17: a heap of three nodes after one extraction, which links two roots. -/
theorem heap_order_law_witness :
    ∃ s, run [Op.create, Op.insert 0 5 7, Op.insert 0 3 1, Op.insert 0 9 2, Op.insert 0 1 0,
        Op.extract_min 0] (World.init, Ghost.init) = some s ∧
      ∃ (N : Nat) (l : List Nat),
        (∀ fuel, N ≤ fuel → fib_heap_destroy fuel s.1 (some 0) = some l) ∧
        l.Perm (s.2.live 0) ∧
        ∀ x ∈ l, fib_node_is_root s.1 (some x) = false →
          ∃ p ∈ l, (s.1.nodes x).parent = some p ∧
            fib_node_get_key s.1 (some p) ≤ fib_node_get_key s.1 (some x) :=
  ⟨_, rfl, heap_order_law [Op.create, Op.insert 0 5 7, Op.insert 0 3 1, Op.insert 0 9 2,
    Op.insert 0 1 0, Op.extract_min 0] _ rfl 0⟩

end FibHeap


namespace FibHeap

/-! ## Walking a sibling ring -/

theorem sibling_ring_spec (w : World) (first : Nat) :
    ∀ (post pre : List Nat) (c : Nat) (fuel : Nat),
      Ring w.nodes (pre ++ c :: post) → (pre ++ c :: post).Nodup →
      some first = (pre ++ [c]).head? → post.length < fuel →
      sibling_ring fuel w first c = some (c :: post) := by
  intro post
  induction post with
  | nil =>
    intro pre c fuel hr hnd hfirst hf
    obtain ⟨s, rfl⟩ : ∃ s, fuel = s + 1 := ⟨fuel - 1, by omega⟩
    have hnext := Ring_right_eq hr
    simp only [List.nil_append] at hnext
    have hnext' : (w.nodes c).right = first := Option.some.inj (hnext.trans hfirst.symm)
    unfold sibling_ring
    simp only [hnext', if_true]
  | cons c' post ih =>
    intro pre c fuel hr hnd hfirst hf
    obtain ⟨s, rfl⟩ : ∃ s, fuel = s + 1 := ⟨fuel - 1, by omega⟩
    have hnext := Ring_right_eq hr
    simp only [List.cons_append, List.head?_cons] at hnext
    have hnext' : (w.nodes c).right = c' := Option.some.inj hnext
    have hne : c' ≠ first := by
      intro e
      have hm : c' ∈ pre ++ [c] := List.mem_of_mem_head? (e ▸ hfirst.symm)
      have := List.nodup_append.1 (by simpa using hnd : (pre ++ [c] ++ c' :: post).Nodup)
      exact this.2.2 hm (by simp)
    have h2 := ih (pre ++ [c]) c' s (by simpa using hr) (by simpa using hnd)
      (by
        rw [hfirst]
        rcases pre with _ | ⟨b, pre⟩ <;> simp)
      (by simp at hf; omega)
    unfold sibling_ring
    simp only [hnext', if_neg hne, h2]

/-- In a ring every member is linked with its right neighbour. -/
theorem Ring_lnk_right {m : Mem} {l : List Nat} (hr : Ring m l) {x : Nat} (hx : x ∈ l) :
    Lnk m x (m x).right := by
  obtain ⟨l1, l2, rfl⟩ := List.append_of_mem hx
  have h2 : Ring m (x :: (l2 ++ l1)) := by simpa using Ring_rotate hr
  rcases hl : l2 ++ l1 with _ | ⟨b, t⟩
  · rw [hl] at h2
    have := (Ring_singleton m x).1 h2
    exact ⟨by rw [this.1], by rw [this.1]; exact this.2⟩
  · rw [hl] at h2
    have h3 := ((Ring_cons_cons m x b t).1 h2).1
    rw [h3.1]
    exact h3

/-- In a ring every member is linked with its left neighbour. -/
theorem Ring_lnk_left {m : Mem} {l : List Nat} (hr : Ring m l) {x : Nat} (hx : x ∈ l) :
    Lnk m (m x).left x := by
  obtain ⟨l1, l2, rfl⟩ := List.append_of_mem hx
  have h2 : Ring m (x :: (l2 ++ l1)) := by simpa using Ring_rotate hr
  have h3 := Ring_close h2
  have e : (m x).left = (x :: (l2 ++ l1)).getLast (by simp) := h3.2
  rw [e]
  exact h3

/-- The sibling ring of a node of a forest: the walk from the node returns, visits each
node once, and visits exactly the nodes with the same parent. -/
theorem Forest.walk {w : World} {S K d} (F : Forest w.nodes S K d) {n : Nat} (hn : n ∈ S) :
    ∃ ring : List Nat,
      (∀ fuel, S.length ≤ fuel → sibling_ring fuel w n n = some ring) ∧
      ring.Perm (K (w.nodes n).parent) ∧ ring.head? = some n := by
  have hK := (F.K_mem (w.nodes n).parent n).2 ⟨hn, rfl⟩
  obtain ⟨l1, l2, hl⟩ := List.append_of_mem hK
  have hr : Ring w.nodes (n :: (l2 ++ l1)) := by
    have := F.K_ring (w.nodes n).parent
    rw [hl] at this
    simpa using Ring_rotate this
  have hperm : (n :: (l2 ++ l1)).Perm (K (w.nodes n).parent) := by
    rw [hl]
    have := @List.perm_append_comm _ (n :: l2) l1
    simpa using this
  have hnd : (n :: (l2 ++ l1)).Nodup := hperm.symm.nodup_iff.1 (F.K_nodup _)
  have hlen : (n :: (l2 ++ l1)).length ≤ S.length := by
    rw [hperm.length_eq]
    exact F.children_length_le _
  refine ⟨n :: (l2 ++ l1), ?_, hperm, rfl⟩
  intro fuel hf
  exact sibling_ring_spec w n (l2 ++ l1) [] n fuel (by simpa using hr) (by simpa using hnd)
    (by simp) (by simp only [List.length_cons] at hlen; omega)

end FibHeap


namespace FibHeap

/-- The structural facts about a node of a heap that satisfies the representation
invariant. -/
theorem HeapInv.ring_facts {w : World} {H S} (I : HeapInv w.nodes H S) {n : Nat}
    (hn : n ∈ S) :
    (w.nodes (w.nodes n).left).right = n ∧ (w.nodes (w.nodes n).right).left = n ∧
    ∃ ring : List Nat,
      (∀ fuel, S.length ≤ fuel → sibling_ring fuel w n n = some ring) ∧
      ring.Nodup ∧ n ∈ ring ∧
      ∀ u ∈ ring, u ∈ S ∧ (w.nodes u).parent = (w.nodes n).parent := by
  obtain ⟨K, F, -, -, -⟩ := I
  have hK := (F.K_mem (w.nodes n).parent n).2 ⟨hn, rfl⟩
  obtain ⟨ring, hw, hperm, hhead⟩ := F.walk hn
  refine ⟨(Ring_lnk_left (F.K_ring _) hK).1, (Ring_lnk_right (F.K_ring _) hK).2, ring, hw,
    hperm.symm.nodup_iff.1 (F.K_nodup _), List.mem_of_mem_head? hhead, ?_⟩
  intro u hu
  exact (F.K_mem _ u).1 (hperm.subset hu)

theorem HeapInv.child_facts {w : World} {H S} (I : HeapInv w.nodes H S) {p c : Nat}
    (hp : p ∈ S) (hc : (w.nodes p).child = some c) :
    c ∈ S ∧ (w.nodes c).parent = some p ∧
    ∃ ring : List Nat,
      (∀ fuel, S.length ≤ fuel → sibling_ring fuel w c c = some ring) ∧
      (w.nodes p).degree = (ring.length : Int) := by
  obtain ⟨K, F, -, -, -⟩ := I
  have hch := F.child_eq p hp
  rw [hc] at hch
  have hcK : c ∈ K (some p) := List.mem_of_mem_head? hch.symm
  have hcS := (F.K_mem _ c).1 hcK
  obtain ⟨ring, hw, hperm, -⟩ := F.walk hcS.1
  rw [hcS.2] at hperm
  refine ⟨hcS.1, hcS.2, ring, hw, ?_⟩
  rw [F.degree_eq p hp, hperm.length_eq]

theorem HeapInv.degree_zero_iff {w : World} {H S} (I : HeapInv w.nodes H S) {p : Nat}
    (hp : p ∈ S) : (w.nodes p).degree = 0 ↔ (w.nodes p).child = none := by
  obtain ⟨K, F, -, -, -⟩ := I
  rw [F.degree_eq p hp, F.child_eq p hp]
  rcases K (some p) with _ | ⟨c, t⟩
  · simp
  · simp only [List.length_cons, List.head?_cons]
    constructor
    · intro h0; exfalso; omega
    · intro h0; cases h0

/-- C19 (sibling rings, parents and children).  In a reachable state, for every node `n`
that the traversal of a heap enumerates: `n->left->right` and `n->right->left` are `n`; the
walk along `right` from `n` returns to `n`, visits each node once, and visits only nodes of
the heap with the same parent as `n`.  Every node that the walk from the minimum visits (the
root ring) has no parent, and for a node `p` with child pointer `c` every node that the walk
from `c` visits has the parent `p`. -/
theorem sibling_ring_law (ops : List Op) (s : World × Ghost)
    (hs : run ops (World.init, Ghost.init) = some s) (h : Nat) :
    ∃ (N : Nat) (l : List Nat),
      (∀ fuel, N ≤ fuel → fib_heap_destroy fuel s.1 (some h) = some l) ∧
      l.Perm (s.2.live h) ∧
      (∀ n ∈ l,
        (s.1.nodes (s.1.nodes n).left).right = n ∧
        (s.1.nodes (s.1.nodes n).right).left = n ∧
        ∃ ring : List Nat,
          (∀ fuel, fib_heap_size s.1 (some h) ≤ fuel →
            sibling_ring fuel s.1 n n = some ring) ∧
          ring.Nodup ∧ n ∈ ring ∧
          ∀ u ∈ ring, u ∈ l ∧ (s.1.nodes u).parent = (s.1.nodes n).parent) ∧
      (∀ z, fib_heap_minimum s.1 (some h) = some z →
        ∃ ring : List Nat,
          (∀ fuel, fib_heap_size s.1 (some h) ≤ fuel →
            sibling_ring fuel s.1 z z = some ring) ∧
          z ∈ ring ∧ ∀ u ∈ ring, u ∈ l ∧ fib_node_is_root s.1 (some u) = true) ∧
      (∀ p ∈ l, ∀ c, (s.1.nodes p).child = some c →
        ∃ ring : List Nat,
          (∀ fuel, fib_heap_size s.1 (some h) ≤ fuel →
            sibling_ring fuel s.1 c c = some ring) ∧
          c ∈ ring ∧ ∀ u ∈ ring, u ∈ l ∧ (s.1.nodes u).parent = some p) := by
  have I := RInv.reachable hs
  have H := I.winv.heap h
  obtain ⟨N, l, hl, hp⟩ := destroy_spec H
  refine ⟨N, l, hl, hp, ?_, ?_, ?_⟩
  · intro n hn
    obtain ⟨h1, h2, ring, hw, hnd, hmem, hall⟩ := H.ring_facts (hp.subset hn)
    refine ⟨h1, h2, ring, ?_, hnd, hmem, ?_⟩
    · intro fuel hf
      exact hw fuel (by rw [← size_eq_length I.winv]; exact hf)
    · intro u hu
      exact ⟨hp.symm.subset (hall u hu).1, (hall u hu).2⟩
  · intro z hz
    simp only [fib_heap_minimum] at hz
    obtain ⟨-, -, ring, hw, -, hmem, hall⟩ := H.ring_facts (H.min_mem hz)
    refine ⟨ring, ?_, hmem, ?_⟩
    · intro fuel hf
      exact hw fuel (by rw [← size_eq_length I.winv]; exact hf)
    · intro u hu
      refine ⟨hp.symm.subset (hall u hu).1, ?_⟩
      simp [fib_node_is_root, (hall u hu).2, H.min_root hz]
  · intro p hpl c hc
    obtain ⟨h1, h2, -⟩ := H.child_facts (hp.subset hpl) hc
    obtain ⟨-, -, ring, hw, -, hmem, hall⟩ := H.ring_facts h1
    refine ⟨ring, ?_, hmem, ?_⟩
    · intro fuel hf
      exact hw fuel (by rw [← size_eq_length I.winv]; exact hf)
    · intro u hu
      exact ⟨hp.symm.subset (hall u hu).1, (hall u hu).2.trans h2⟩

/-- Example for C19: a heap of three nodes after one extraction, which links two roots. -/
theorem sibling_ring_law_witness :
    ∃ s, run [Op.create, Op.insert 0 5 7, Op.insert 0 3 1, Op.insert 0 9 2, Op.insert 0 1 0,
        Op.extract_min 0] (World.init, Ghost.init) = some s ∧
      ∃ (N : Nat) (l : List Nat),
        (∀ fuel, N ≤ fuel → fib_heap_destroy fuel s.1 (some 0) = some l) ∧
        l.Perm (s.2.live 0) ∧
        (∀ n ∈ l,
          (s.1.nodes (s.1.nodes n).left).right = n ∧
          (s.1.nodes (s.1.nodes n).right).left = n ∧
          ∃ ring : List Nat,
            (∀ fuel, fib_heap_size s.1 (some 0) ≤ fuel →
              sibling_ring fuel s.1 n n = some ring) ∧
            ring.Nodup ∧ n ∈ ring ∧
            ∀ u ∈ ring, u ∈ l ∧ (s.1.nodes u).parent = (s.1.nodes n).parent) ∧
        (∀ z, fib_heap_minimum s.1 (some 0) = some z →
          ∃ ring : List Nat,
            (∀ fuel, fib_heap_size s.1 (some 0) ≤ fuel →
              sibling_ring fuel s.1 z z = some ring) ∧
            z ∈ ring ∧ ∀ u ∈ ring, u ∈ l ∧ fib_node_is_root s.1 (some u) = true) ∧
        (∀ p ∈ l, ∀ c, (s.1.nodes p).child = some c →
          ∃ ring : List Nat,
            (∀ fuel, fib_heap_size s.1 (some 0) ≤ fuel →
              sibling_ring fuel s.1 c c = some ring) ∧
            c ∈ ring ∧ ∀ u ∈ ring, u ∈ l ∧ (s.1.nodes u).parent = some p) :=
  ⟨_, rfl, sibling_ring_law [Op.create, Op.insert 0 5 7, Op.insert 0 3 1, Op.insert 0 9 2,
    Op.insert 0 1 0, Op.extract_min 0] _ rfl 0⟩

/-- C20 (degree).  In a reachable state, for every node `p` that the traversal of a heap
enumerates, `p->degree` is 0 exactly when `p->child` is `NULL`, and otherwise it is the
number of nodes that the walk along `right` from `p->child` visits before it is back.
`fib_node_link` adds exactly one to the degree of the parent and `fib_heap_cut` takes
exactly one from it, and they change no other degree. -/
theorem degree_law (ops : List Op) (s : World × Ghost)
    (hs : run ops (World.init, Ghost.init) = some s) (h : Nat) :
    (∃ (N : Nat) (l : List Nat),
      (∀ fuel, N ≤ fuel → fib_heap_destroy fuel s.1 (some h) = some l) ∧
      l.Perm (s.2.live h) ∧
      ∀ p ∈ l,
        ((s.1.nodes p).degree = 0 ↔ (s.1.nodes p).child = none) ∧
        ∀ c, (s.1.nodes p).child = some c →
          ∃ ring : List Nat,
            (∀ fuel, fib_heap_size s.1 (some h) ≤ fuel →
              sibling_ring fuel s.1 c c = some ring) ∧
            (s.1.nodes p).degree = (ring.length : Int)) ∧
    (∀ (w : World) (child parent u : Nat),
      ((fib_node_link w child parent).nodes u).degree =
        if u = parent then (w.nodes parent).degree + 1 else (w.nodes u).degree) ∧
    (∀ (w : World) (heap x y u : Nat),
      ((fib_heap_cut w heap x y).nodes u).degree =
        if u = y then (w.nodes y).degree - 1 else (w.nodes u).degree) := by
  have I := RInv.reachable hs
  have H := I.winv.heap h
  obtain ⟨N, l, hl, hp⟩ := destroy_spec H
  refine ⟨⟨N, l, hl, hp, ?_⟩, fun w c p u => link_degree w c p u,
    fun w hp x y u => cut_degree w hp x y u⟩
  intro p hpl
  refine ⟨H.degree_zero_iff (hp.subset hpl), ?_⟩
  intro c hc
  obtain ⟨-, -, ring, hw, hdeg⟩ := H.child_facts (hp.subset hpl) hc
  refine ⟨ring, ?_, hdeg⟩
  intro fuel hf
  exact hw fuel (by rw [← size_eq_length I.winv]; exact hf)

/-- Example for C20: a heap of three nodes after one extraction, which links two roots. -/
theorem degree_law_witness :
    ∃ s, run [Op.create, Op.insert 0 5 7, Op.insert 0 3 1, Op.insert 0 9 2, Op.insert 0 1 0,
        Op.extract_min 0] (World.init, Ghost.init) = some s ∧
      ((∃ (N : Nat) (l : List Nat),
        (∀ fuel, N ≤ fuel → fib_heap_destroy fuel s.1 (some 0) = some l) ∧
        l.Perm (s.2.live 0) ∧
        ∀ p ∈ l,
          ((s.1.nodes p).degree = 0 ↔ (s.1.nodes p).child = none) ∧
          ∀ c, (s.1.nodes p).child = some c →
            ∃ ring : List Nat,
              (∀ fuel, fib_heap_size s.1 (some 0) ≤ fuel →
                sibling_ring fuel s.1 c c = some ring) ∧
              (s.1.nodes p).degree = (ring.length : Int)) ∧
      (∀ (w : World) (child parent u : Nat),
        ((fib_node_link w child parent).nodes u).degree =
          if u = parent then (w.nodes parent).degree + 1 else (w.nodes u).degree) ∧
      (∀ (w : World) (heap x y u : Nat),
        ((fib_heap_cut w heap x y).nodes u).degree =
          if u = y then (w.nodes y).degree - 1 else (w.nodes u).degree)) :=
  ⟨_, rfl, degree_law [Op.create, Op.insert 0 5 7, Op.insert 0 3 1, Op.insert 0 9 2,
    Op.insert 0 1 0, Op.extract_min 0] _ rfl 0⟩

end FibHeap


namespace FibHeap

/-! ## Marks and parent links across the operations -/

theorem MarksCleared.same (w : World) : MarksCleared w w := fun _ => ⟨id, id⟩

theorem MarksCleared.chain {w1 w2 w3 : World} (h1 : MarksCleared w1 w2)
    (h2 : MarksCleared w2 w3) : MarksCleared w1 w3 :=
  fun u => ⟨fun h => (h1 u).1 ((h2 u).1 h), fun h => (h1 u).2 ((h2 u).2 h)⟩

theorem MarksCleared.of_fields {w w' : World}
    (h : ∀ u, (w'.nodes u).marked = (w.nodes u).marked ∧
      (w'.nodes u).parent = (w.nodes u).parent) : MarksCleared w w' :=
  fun u => ⟨fun hm => (h u).1 ▸ hm, fun hp => (h u).2 ▸ hp⟩

theorem link_MarksCleared (w : World) (y x : Nat) : MarksCleared w (fib_node_link w y x) := by
  intro u
  rw [link_marked, link_parent]
  by_cases e : u = y
  · simp [e]
  · simp [e]

theorem link_while_MarksCleared : ∀ (slots : Nat) (w : World) (T : List (Option Nat))
    (x d : Nat) (r : World × List (Option Nat) × Nat × Nat),
    consolidate_link_while slots w T x d = some r → MarksCleared w r.1
  | 0, _, _, _, _, _, h => by simp [consolidate_link_while] at h
  | slots + 1, w, T, x, d, r, h => by
    unfold consolidate_link_while at h
    rcases hT : T[d]? with _ | e
    · simp [hT] at h
    · rcases e with _ | y
      · simp only [hT, Option.some.injEq] at h
        subst h
        exact MarksCleared.same w
      · simp only [hT] at h
        exact (link_MarksCleared w _ _).chain (link_while_MarksCleared slots _ _ _ _ r h)

theorem process_MarksCleared : ∀ (rl : List Nat) (w : World) (T : List (Option Nat))
    (r : World × List (Option Nat)), consolidate_process w T rl = some r → MarksCleared w r.1
  | [], w, T, r, h => by
    simp only [consolidate_process, Option.some.injEq] at h
    subst h
    exact MarksCleared.same w
  | x :: rl, w, T, r, h => by
    unfold consolidate_process at h
    simp only at h
    split at h
    · cases h
    · split at h
      · cases h
      · rename_i w1 T1 x1 d1 heq
        exact (link_while_MarksCleared _ _ _ _ _ _ heq).chain
          (process_MarksCleared rl _ _ r h)

theorem rebuild_MarksCleared : ∀ (T : List (Option Nat)) (w : World) (h : Nat),
    MarksCleared w (consolidate_rebuild w h T)
  | [], w, h => by
    unfold consolidate_rebuild
    exact MarksCleared.same w
  | none :: T, w, h => by
    unfold consolidate_rebuild
    exact rebuild_MarksCleared T w h
  | some t :: T, w, h => by
    unfold consolidate_rebuild
    refine MarksCleared.chain ?_ (rebuild_MarksCleared T _ h)
    apply MarksCleared.of_fields
    intro u
    split
    · simp
    · simp only
      split <;> simp

theorem consolidate_MarksCleared (w w' : World) (h : Nat)
    (hc : fib_heap_consolidate w h = some w') : MarksCleared w w' := by
  unfold fib_heap_consolidate at hc
  simp only at hc
  split at hc
  · cases hc
  · rename_i rl hrl
    split at hc
    · cases hc
    · rename_i w1 T1 hproc
      simp only [Option.some.injEq] at hc
      subst hc
      have h1 := process_MarksCleared _ _ _ _ hproc
      refine h1.chain (MarksCleared.chain ?_ (rebuild_MarksCleared T1 _ h))
      exact MarksCleared.of_fields (fun u => by simp)

theorem RootMarksKept.unchanged (w : World) : RootMarksKept w w :=
  fun _ => ⟨fun h1 h2 => ⟨h1, h2⟩, fun _ h => h⟩

theorem RootMarksKept.compose {w1 w2 w3 : World} (h1 : RootMarksKept w1 w2)
    (h2 : RootMarksKept w2 w3) : RootMarksKept w1 w3 := by
  intro u
  refine ⟨fun hp hm => ?_, fun p hp => (h1 u).2 p ((h2 u).2 p hp)⟩
  obtain ⟨a, b⟩ := (h2 u).1 hp hm
  exact (h1 u).1 a b

theorem cut_RootMarksKept (w : World) (h x y : Nat) :
    RootMarksKept w (fib_heap_cut w h x y) := by
  intro u
  rw [cut_parent, cut_marked]
  by_cases e : u = x
  · simp [e]
  · simp only [if_neg e]
    exact ⟨fun a b => ⟨a, b⟩, fun _ a => a⟩

theorem cascading_RootMarksKept : ∀ (fuel : Nat) (w : World) (h y : Nat) (w' : World),
    fib_heap_cascading_cut fuel w h y = some w' → RootMarksKept w w'
  | 0, _, _, _, _, hc => by simp [fib_heap_cascading_cut] at hc
  | fuel + 1, w, h, y, w', hc => by
    unfold fib_heap_cascading_cut at hc
    cases hp : (w.nodes y).parent with
    | none =>
      simp only [hp, Option.some.injEq] at hc
      subst hc
      exact RootMarksKept.unchanged w
    | some z =>
      simp only [hp] at hc
      by_cases hm : (w.nodes y).marked = false
      · rw [if_pos hm] at hc
        simp only [Option.some.injEq] at hc
        subst hc
        intro u
        by_cases e : u = y
        · subst e
          simp [hp]
        · simp only [set_marked_ne _ _ _ _ e]
          exact ⟨fun a b => ⟨a, b⟩, fun _ a => a⟩
      · rw [if_neg hm] at hc
        exact (cut_RootMarksKept w h y z).compose
          (cascading_RootMarksKept fuel _ h z w' hc)

theorem set_key_RootMarksKept (w : World) (x : Nat) (k : Int) :
    RootMarksKept w (w.set_key x k) := by
  intro u
  simp only [set_key_parent, set_key_marked]
  exact ⟨fun a b => ⟨a, b⟩, fun _ a => a⟩

theorem set_min_node_RootMarksKept (w : World) (h : Nat) (v : Option Nat) :
    RootMarksKept w (w.set_min_node h v) := by
  intro u
  simp only [set_min_node_nodes]
  exact ⟨fun a b => ⟨a, b⟩, fun _ a => a⟩

/-- `fib_heap_decrease_key` marks no root and turns no marked node into a root. -/
theorem decrease_key_RootMarksKept (fuel : Nat) (w : World) (h x : Nat) (k : Int)
    (w' : World) (e : fib_heap_error_t)
    (hd : fib_heap_decrease_key fuel w (some h) (some x) k = some (w', e)) :
    RootMarksKept w w' := by
  unfold fib_heap_decrease_key at hd
  simp only at hd
  split at hd
  · simp only [Option.some.injEq, Prod.mk.injEq] at hd
    rw [← hd.1]
    exact RootMarksKept.unchanged w
  · split at hd
    · cases hd
    · rename_i w1 hw1
      have h1 : RootMarksKept w w1 := by
        refine (set_key_RootMarksKept w x k).compose ?_
        split at hw1
        · simp only [Option.some.injEq] at hw1
          rw [← hw1]
          exact RootMarksKept.unchanged _
        · split at hw1
          · exact (cut_RootMarksKept _ _ _ _).compose
              (cascading_RootMarksKept _ _ _ _ _ hw1)
          · simp only [Option.some.injEq] at hw1
            rw [← hw1]
            exact RootMarksKept.unchanged _
      split at hd
      · cases hd
      · simp only [Option.some.injEq, Prod.mk.injEq] at hd
        rw [← hd.1]
        refine h1.compose ?_
        split
        · exact set_min_node_RootMarksKept _ _ _
        · exact RootMarksKept.unchanged _

end FibHeap


namespace FibHeap

/-! ## The stages of `fib_heap_extract_min` -/

/-- The result of `fib_heap_extract_min` in terms of the state `w1` after the promotion of
the children of the minimum. -/
theorem extract_min_form (w : World) (h z : Nat) (t : List Nat) (S : List Nat)
    (K : Option Nat → List Nat) (fuel : Nat)
    (F : Forest w.nodes S K none) (hK : K none = z :: t)
    (hmin : (w.heaps h).min_node = some z) (hfuel : (K (some z)).length ≤ fuel) :
    ∃ w1, PromoteInv w w1 z t (K (some z)) (K (some z)) ∧
      ((w.nodes z).child = none → w1 = w) ∧
      (∀ c, (w.nodes z).child = some c → extract_promote fuel w h z c = some w1) ∧
      fib_heap_extract_min fuel w (some h) =
        Option.map
          (fun w3 : World =>
            (w3.set_node_count h
              (if (w3.heaps h).node_count = 0 then SIZE_MAX else (w3.heaps h).node_count - 1),
              some z))
          (if z = ((fib_node_remove_from_list w1 z).nodes z).right then
            some ((fib_node_remove_from_list w1 z).set_min_node h none)
          else
            fib_heap_consolidate
              ((fib_node_remove_from_list w1 z).set_min_node h
                (some ((fib_node_remove_from_list w1 z).nodes z).right)) h) := by
  obtain ⟨w1, hw1a, hw1b, P⟩ := promote_all w h z t S K fuel F hK hmin hfuel
  refine ⟨w1, P, hw1a, hw1b, ?_⟩
  unfold fib_heap_extract_min
  simp only [hmin]
  split
  · rename_i heq
    exfalso
    rcases hc : (w.nodes z).child with _ | c
    · simp [hc] at heq
    · simp [hc, hw1b c hc] at heq
  rename_i w1' heq
  have hw1' : w1 = w1' := by
    symm
    rcases hc : (w.nodes z).child with _ | c
    · simp only [hc, Option.some.injEq] at heq
      rw [← heq, hw1a hc]
    · simp only [hc, hw1b c hc, Option.some.injEq] at heq
      exact heq.symm
  subst hw1'
  by_cases hz : z = ((fib_node_remove_from_list w1 z).nodes z).right
  · rw [if_pos hz]
    rfl
  · rw [if_neg hz]
    cases fib_heap_consolidate
      ((fib_node_remove_from_list w1 z).set_min_node h
        (some ((fib_node_remove_from_list w1 z).nodes z).right)) h <;> rfl

/-- `fib_heap_extract_min` sets no mark, and a node without parent afterwards was a root or
a child of the removed minimum. -/
theorem extract_min_marks (w : World) (h : Nat) (S : List Nat) (fuel : Nat) (z : Nat)
    (I : HeapInv w.nodes (w.heaps h) S) (hmin : (w.heaps h).min_node = some z)
    (hfuel : S.length ≤ fuel) (w' : World)
    (hres : fib_heap_extract_min fuel w (some h) = some (w', some z)) :
    ∀ u, ((w'.nodes u).marked = true → (w.nodes u).marked = true) ∧
      ((w'.nodes u).parent = none →
        (w.nodes u).parent = none ∨ (w.nodes u).parent = some z) := by
  obtain ⟨K, F, hminK, -, -⟩ := I
  obtain ⟨t, hK⟩ : ∃ t, K none = z :: t := by
    rw [hmin] at hminK
    rcases hKn : K none with _ | ⟨b, t⟩
    · rw [hKn] at hminK; simp at hminK
    · rw [hKn] at hminK; simp at hminK; exact ⟨t, by rw [hminK]⟩
  have hcs_len : (K (some z)).length ≤ fuel :=
    le_trans (F.children_length_le _) hfuel
  obtain ⟨w1, P, -, -, hform⟩ := extract_min_form w h z t S K fuel F hK hmin hcs_len
  rw [hform] at hres
  have hpromote : ∀ u, ((fib_node_remove_from_list w1 z).nodes u).marked = (w.nodes u).marked ∧
      (((fib_node_remove_from_list w1 z).nodes u).parent = none →
        (w.nodes u).parent = none ∨ (w.nodes u).parent = some z) := by
    intro u
    rw [remove_marked, remove_parent, P.parent u]
    refine ⟨(P.fields u).2.2.2.2, ?_⟩
    by_cases hu : u ∈ K (some z)
    · intro _
      exact Or.inr ((F.K_mem _ u).1 hu).2
    · rw [if_neg hu]
      exact fun hp => Or.inl hp
  have key : ∀ w3, MarksCleared (fib_node_remove_from_list w1 z) w3 →
      ∀ u, ((w3.nodes u).marked = true → (w.nodes u).marked = true) ∧
        ((w3.nodes u).parent = none →
          (w.nodes u).parent = none ∨ (w.nodes u).parent = some z) := by
    intro w3 hM u
    refine ⟨fun hm => (hpromote u).1 ▸ (hM u).1 hm, fun hp => (hpromote u).2 ((hM u).2 hp)⟩
  by_cases hz : z = ((fib_node_remove_from_list w1 z).nodes z).right
  · rw [if_pos hz] at hres
    simp only [Option.map_some', Option.some.injEq, Prod.mk.injEq, and_true] at hres
    subst hres
    intro u
    simpa using key _ (MarksCleared.same _) u
  · rw [if_neg hz] at hres
    cases hc : fib_heap_consolidate
      ((fib_node_remove_from_list w1 z).set_min_node h
        (some ((fib_node_remove_from_list w1 z).nodes z).right)) h with
    | none => rw [hc] at hres; cases hres
    | some w3 =>
      rw [hc] at hres
      simp only [Option.map_some', Option.some.injEq, Prod.mk.injEq, and_true] at hres
      subst hres
      have hM := consolidate_MarksCleared _ _ _ hc
      have hM' : MarksCleared (fib_node_remove_from_list w1 z) w3 :=
        MarksCleared.chain (MarksCleared.of_fields (fun u => by simp)) hM
      intro u
      simpa using key _ hM' u

end FibHeap


namespace FibHeap

/-! ## Marked roots across one call -/

theorem union_marks (w : World) (h1 h2 u : Nat) :
    ((fib_heap_union w (some h1) (some h2)).1.nodes u).marked = (w.nodes u).marked ∧
    ((fib_heap_union w (some h1) (some h2)).1.nodes u).parent = (w.nodes u).parent := by
  simp only [fib_heap_union]
  split
  · exact ⟨rfl, rfl⟩
  · split
    · simp
    · simp only
      split <;> simp

theorem delete_victim_eq (w : World) (h x a : Nat) (hmin : (w.heaps h).min_node = some a) :
    (if (if some (delete_victim w x a) ≠ some x then
        fib_heap_error_t.FIB_HEAP_ERROR_HEAP_CORRUPTION
        else fib_heap_error_t.FIB_HEAP_SUCCESS) = fib_heap_error_t.FIB_HEAP_SUCCESS then x
      else (fib_heap_minimum w (some h)).getD x) = delete_victim w x a := by
  by_cases c : INT_MIN < (w.nodes a).key
  · simp [delete_victim, c]
  · by_cases c2 : a = x
    · simp [delete_victim, c, c2]
    · simp [delete_victim, c, c2, fib_heap_minimum, hmin]

/-- `fib_heap_delete_node`: a node that is without parent and marked afterwards was so
before, or it was a child of the node that was taken out. -/
theorem delete_marks (w : World) (h x : Nat) (S : List Nat) (fuel : Nat)
    (I : HeapInv w.nodes (w.heaps h) S) (hx : x ∈ S) (hfuel : S.length ≤ fuel) :
    ∃ w' a, (w.heaps h).min_node = some a ∧
      fib_heap_delete_node fuel w (some h) (some x) =
        some (w', if some (delete_victim w x a) ≠ some x then
          fib_heap_error_t.FIB_HEAP_ERROR_HEAP_CORRUPTION
          else fib_heap_error_t.FIB_HEAP_SUCCESS) ∧
      delete_victim w x a ∈ S ∧
      ∀ u, (w'.nodes u).parent = none → (w'.nodes u).marked = true →
        ((w.nodes u).parent = none ∧ (w.nodes u).marked = true) ∨
          (w.nodes u).parent = some (delete_victim w x a) := by
  obtain ⟨a, hmina, haS, -⟩ := I.min_of_mem hx
  have hk := I.key_ge hx
  obtain ⟨w1, hw1, I1, hg1, hn1, hh1, hk1, hd1, hf1, hm1⟩ :=
    decrease_key_spec w h x INT_MIN S fuel I hx hk (le_refl _) hfuel
  have hmin1 : (w1.heaps h).min_node = some (delete_victim w x a) := by
    rw [hm1 a hmina]
    unfold delete_victim
    split <;> rfl
  obtain ⟨w2, hw2, I2, hzS, -⟩ := extract_min_spec w1 h S fuel _ I1 hmin1 hfuel
  have hD := decrease_key_RootMarksKept fuel w h x INT_MIN w1 _ hw1
  have hE := extract_min_marks w1 h S fuel _ I1 hmin1 hfuel w2 hw2
  refine ⟨w2, a, hmina, ?_, hzS, ?_⟩
  · simp only [fib_heap_delete_node, hw1, hw2]
    simp
    split <;> rfl
  · intro u hp hm
    have hm1' := (hE u).1 hm
    rcases (hE u).2 hp with hp1 | hp1
    · exact Or.inl ((hD u).1 hp1 hm1')
    · exact Or.inr ((hD u).2 _ hp1)

end FibHeap


namespace FibHeap

theorem marked_root_after_spec (o : Option (World × Ghost)) (h a r : Nat)
    (hc : marked_root_after o h a r = true) :
    ∃ s, o = some s ∧ fib_heap_minimum s.1 (some h) = some a ∧ (s.1.nodes a).right = r ∧
      r ∈ s.2.live h ∧ fib_node_is_root s.1 (some r) = true ∧
      (s.1.nodes r).marked = true := by
  cases o with
  | none => simp [marked_root_after] at hc
  | some s =>
    simp only [marked_root_after, Bool.and_eq_true, decide_eq_true_eq] at hc
    exact ⟨s, rfl, hc.1.1.1.1, hc.1.1.1.2, hc.1.1.2, hc.1.2, hc.2⟩

theorem run_snoc : ∀ (ops : List Op) (op : Op) (s0 s' : World × Ghost),
    run (ops ++ [op]) s0 = some s' → ∃ s, run ops s0 = some s ∧ step s op = some s'
  | [], op, s0, s', hr => by
    simp only [List.nil_append, run] at hr
    cases hst : step s0 op with
    | none => rw [hst] at hr; cases hr
    | some s1 =>
      rw [hst] at hr
      simp only [Option.some.injEq] at hr
      subst hr
      exact ⟨s0, rfl, hst⟩
  | o :: ops, op, s0, s', hr => by
    simp only [List.cons_append, run] at hr ⊢
    cases hst : step s0 o with
    | none => rw [hst] at hr; cases hr
    | some s1 =>
      rw [hst] at hr
      simp only
      exact run_snoc ops op s1 s' hr

/-- The run of five inserts (keys 1, 2, 4, 3, 5), an extraction, a decrease of the key 5
to 2 and another extraction ends with the marked root 3 next to the minimum 4. -/
theorem marked_root_check :
    marked_root_after
      (run [Op.create, Op.insert 0 1 0, Op.insert 0 2 0, Op.insert 0 4 0, Op.insert 0 3 0,
        Op.insert 0 5 0, Op.extract_min 0, Op.decrease_key 0 4 2, Op.extract_min 0]
        (World.init, Ghost.init)) 0 4 3 = true := by
  decide!

/-- C18, as amended.  One well-formed call in a reachable state marks no root and moves a
marked node into a root ring only as a child of the node that the call takes out of the
heap: a live handle that has no parent and is marked after the call either had no parent
and was marked before the call, or was before the call a child of a node of its heap that
the call removed (`fib_heap_extract_min`, also inside `fib_heap_delete_node`, promotes the
children of the removed node without clearing their marks). -/
theorem mark_discipline_law (ops : List Op) (s : World × Ghost)
    (hs : run ops (World.init, Ghost.init) = some s) (op : Op) (s' : World × Ghost)
    (hst : step s op = some s') (h r : Nat) (hr : r ∈ s'.2.live h)
    (hroot : fib_node_is_root s'.1 (some r) = true) (hm : (s'.1.nodes r).marked = true) :
    (fib_node_is_root s.1 (some r) = true ∧ (s.1.nodes r).marked = true) ∨
    ∃ z, (s.1.nodes r).parent = some z ∧ z ∈ s.2.live h ∧ z ∉ s'.2.live h := by
  have I := RInv.reachable hs
  simp only [fib_node_is_root, decide_eq_true_eq] at hroot ⊢
  -- a child of a removed node `z` of heap `g` lies in `g`
  have removed : ∀ (g z : Nat), z ∈ s.2.live g → (s.1.nodes r).parent = some z →
      s'.2.live = bump s.2.live g ((s.2.live g).erase z) →
      ∃ z, (s.1.nodes r).parent = some z ∧ z ∈ s.2.live h ∧ z ∉ s'.2.live h := by
    intro g z hz hp hlive
    rw [hlive] at hr ⊢
    have hnd := (I.winv.heap g).nodup
    by_cases e : h = g
    · subst e
      refine ⟨z, hp, hz, ?_⟩
      rw [bump_same]
      exact fun c => ((List.Nodup.mem_erase_iff hnd).1 c).1 rfl
    · exfalso
      rw [bump_ne _ _ _ _ e] at hr
      have := ((I.winv.heap h).parent_le hr hp).1
      exact I.winv.disj h g e z this hz
  cases op with
  | create =>
    simp only [step, Option.some.injEq] at hst
    subst hst
    simp only [create_nodes] at hroot hm
    exact Or.inl ⟨hroot, hm⟩
  | insert g key data =>
    simp only [step] at hst
    split at hst
    · simp only [Option.some.injEq] at hst
      subst hst
      by_cases e : r = s.1.next_node
      · subst e
        have := (insert_new s.1 g key data).2.2.2.2.2
        simp only at this hm
        rw [this] at hm
        cases hm
      · have hfr := insert_frame s.1 g key data r e
        simp only at hfr hroot hm
        rw [hfr.2.2.1] at hroot
        rw [hfr.2.2.2.2.2] at hm
        exact Or.inl ⟨hroot, hm⟩
    · cases hst
  | extract_min g =>
    simp only [step] at hst
    split at hst
    · rcases hmin : (s.1.heaps g).min_node with _ | z
      · rw [extract_min_empty _ _ _ hmin] at hst
        simp only [Option.some.injEq] at hst
        subst hst
        exact Or.inl ⟨hroot, hm⟩
      · have hf : (s.2.live g).length ≤ fib_heap_size s.1 (some g) := by
          rw [size_eq_length I.winv]
        obtain ⟨w', hw', -⟩ := extract_min_spec s.1 g (s.2.live g) _ z (I.winv.heap g) hmin hf
        have hE := extract_min_marks s.1 g (s.2.live g) _ z (I.winv.heap g) hmin hf w' hw'
        rw [hw'] at hst
        simp only [Option.some.injEq] at hst
        subst hst
        simp only at hroot hm hr
        rcases (hE r).2 hroot with hp | hp
        · exact Or.inl ⟨hp, (hE r).1 hm⟩
        · exact Or.inr (removed g z ((I.winv.heap g).min_mem hmin) hp rfl)
    · cases hst
  | decrease_key g x k =>
    simp only [step] at hst
    split at hst
    · split at hst
      · cases hst
      · rename_i w' e heq
        simp only [Option.some.injEq] at hst
        have hD := decrease_key_RootMarksKept _ _ _ _ _ _ _ heq
        have hw : s'.1 = w' := by rw [← hst]
        rw [hw] at hroot hm
        exact Or.inl ((hD r).1 hroot hm)
    · cases hst
  | delete_node g x =>
    simp only [step] at hst
    split at hst
    · rename_i hc
      have hf : (s.2.live g).length ≤ fib_heap_size s.1 (some g) := by
        rw [size_eq_length I.winv]
      obtain ⟨w', a, hmin, hw', hz, hmarks⟩ :=
        delete_marks s.1 g x (s.2.live g) _ (I.winv.heap g) hc.2 hf
      rw [hw'] at hst
      simp only [Option.some.injEq] at hst
      rw [delete_victim_eq s.1 g x a hmin] at hst
      subst hst
      simp only at hroot hm hr
      rcases hmarks r hroot hm with hp | hp
      · exact Or.inl hp
      · exact Or.inr (removed g _ hz hp rfl)
    · cases hst
  | union h1 h2 =>
    simp only [step] at hst
    split at hst
    · simp only [Option.some.injEq] at hst
      subst hst
      have hu := union_marks s.1 h1 h2 r
      simp only at hroot hm
      rw [hu.2] at hroot
      rw [hu.1] at hm
      exact Or.inl ⟨hroot, hm⟩
    · cases hst

/-- C18 fails as stated: after five inserts (keys 1, 2, 4, 3, 5), an extraction, a
decrease of the key 5 to 2 and another extraction, the node with key 3 is in the root ring
(it is the right neighbour of the minimum and has no parent) and is marked. -/
theorem marked_root_reachable :
    ∃ s, run [Op.create, Op.insert 0 1 0, Op.insert 0 2 0, Op.insert 0 4 0, Op.insert 0 3 0,
        Op.insert 0 5 0, Op.extract_min 0, Op.decrease_key 0 4 2, Op.extract_min 0]
        (World.init, Ghost.init) = some s ∧
      fib_heap_minimum s.1 (some 0) = some 4 ∧ (s.1.nodes 4).right = 3 ∧
      3 ∈ s.2.live 0 ∧ fib_node_is_root s.1 (some 3) = true ∧
      (s.1.nodes 3).marked = true :=
  marked_root_after_spec _ 0 4 3 marked_root_check

/-- Example for C18: the last extraction of that run; the marked root 3 was a child of the
removed minimum. -/
theorem mark_discipline_law_witness :
    ∃ s s', run [Op.create, Op.insert 0 1 0, Op.insert 0 2 0, Op.insert 0 4 0,
        Op.insert 0 3 0, Op.insert 0 5 0, Op.extract_min 0, Op.decrease_key 0 4 2]
        (World.init, Ghost.init) = some s ∧
      step s (Op.extract_min 0) = some s' ∧ 3 ∈ s'.2.live 0 ∧
      fib_node_is_root s'.1 (some 3) = true ∧ (s'.1.nodes 3).marked = true ∧
      ((fib_node_is_root s.1 (some 3) = true ∧ (s.1.nodes 3).marked = true) ∨
        ∃ z, (s.1.nodes 3).parent = some z ∧ z ∈ s.2.live 0 ∧ z ∉ s'.2.live 0) := by
  obtain ⟨s', hrun, -, -, hlive, hroot, hm⟩ := marked_root_after_spec _ 0 4 3 marked_root_check
  obtain ⟨s, hs, hst⟩ := run_snoc [Op.create, Op.insert 0 1 0, Op.insert 0 2 0,
    Op.insert 0 4 0, Op.insert 0 3 0, Op.insert 0 5 0, Op.extract_min 0,
    Op.decrease_key 0 4 2] (Op.extract_min 0) _ s' hrun
  exact ⟨s, s', hs, hst, hlive, hroot, hm,
    mark_discipline_law _ s hs (Op.extract_min 0) s' hst 0 3 hlive hroot hm⟩

end FibHeap


namespace FibHeap

/-! ## Writing a key commutes with the steps that read no key -/

@[simp] theorem set_key_comm_data (w : World) (z : Nat) (k : Int) (a : Nat) (v) :
    (w.set_key z k).set_data a v = (w.set_data a v).set_key z k := by
  simp only [World.set_key, World.set_data]
  congr 1
  funext b
  by_cases hb : b = a <;> by_cases hz : b = z <;> by_cases haz : a = z <;>
    simp_all

@[simp] theorem set_key_comm_parent (w : World) (z : Nat) (k : Int) (a : Nat) (v) :
    (w.set_key z k).set_parent a v = (w.set_parent a v).set_key z k := by
  simp only [World.set_key, World.set_parent]
  congr 1
  funext b
  by_cases hb : b = a <;> by_cases hz : b = z <;> by_cases haz : a = z <;>
    simp_all

@[simp] theorem set_key_comm_child (w : World) (z : Nat) (k : Int) (a : Nat) (v) :
    (w.set_key z k).set_child a v = (w.set_child a v).set_key z k := by
  simp only [World.set_key, World.set_child]
  congr 1
  funext b
  by_cases hb : b = a <;> by_cases hz : b = z <;> by_cases haz : a = z <;>
    simp_all

@[simp] theorem set_key_comm_left (w : World) (z : Nat) (k : Int) (a : Nat) (v) :
    (w.set_key z k).set_left a v = (w.set_left a v).set_key z k := by
  simp only [World.set_key, World.set_left]
  congr 1
  funext b
  by_cases hb : b = a <;> by_cases hz : b = z <;> by_cases haz : a = z <;>
    simp_all

@[simp] theorem set_key_comm_right (w : World) (z : Nat) (k : Int) (a : Nat) (v) :
    (w.set_key z k).set_right a v = (w.set_right a v).set_key z k := by
  simp only [World.set_key, World.set_right]
  congr 1
  funext b
  by_cases hb : b = a <;> by_cases hz : b = z <;> by_cases haz : a = z <;>
    simp_all

@[simp] theorem set_key_comm_degree (w : World) (z : Nat) (k : Int) (a : Nat) (v) :
    (w.set_key z k).set_degree a v = (w.set_degree a v).set_key z k := by
  simp only [World.set_key, World.set_degree]
  congr 1
  funext b
  by_cases hb : b = a <;> by_cases hz : b = z <;> by_cases haz : a = z <;>
    simp_all

@[simp] theorem set_key_comm_marked (w : World) (z : Nat) (k : Int) (a : Nat) (v) :
    (w.set_key z k).set_marked a v = (w.set_marked a v).set_key z k := by
  simp only [World.set_key, World.set_marked]
  congr 1
  funext b
  by_cases hb : b = a <;> by_cases hz : b = z <;> by_cases haz : a = z <;>
    simp_all

@[simp] theorem set_key_comm_min_node (w : World) (z : Nat) (k : Int) (h : Nat) (v) :
    (w.set_key z k).set_min_node h v = (w.set_min_node h v).set_key z k := by
  simp only [World.set_key, World.set_min_node]

@[simp] theorem set_key_comm_node_count (w : World) (z : Nat) (k : Int) (h : Nat) (v) :
    (w.set_key z k).set_node_count h v = (w.set_node_count h v).set_key z k := by
  simp only [World.set_key, World.set_node_count]

theorem remove_comm (w : World) (z : Nat) (k : Int) (x : Nat) :
    fib_node_remove_from_list (w.set_key z k) x =
      (fib_node_remove_from_list w x).set_key z k := by
  simp [fib_node_remove_from_list]

theorem add_root_comm (w : World) (z : Nat) (k : Int) (h x : Nat) :
    fib_node_add_to_root_list (w.set_key z k) h x =
      (fib_node_add_to_root_list w h x).set_key z k := by
  simp only [fib_node_add_to_root_list, set_key_heaps]
  split <;> simp

theorem link_comm (w : World) (z : Nat) (k : Int) (y x : Nat) :
    fib_node_link (w.set_key z k) y x = (fib_node_link w y x).set_key z k := by
  simp only [fib_node_link, remove_comm, set_key_comm_parent, set_key_child]
  split <;> simp

theorem promote_comm (z0 : Nat) (k : Int) : ∀ (fuel : Nat) (w : World) (h z child : Nat),
    extract_promote fuel (w.set_key z0 k) h z child =
      (extract_promote fuel w h z child).map (fun w1 => w1.set_key z0 k)
  | 0, _, _, _, _ => rfl
  | fuel + 1, w, h, z, child => by
    unfold extract_promote
    simp only [set_key_right, set_key_comm_parent, add_root_comm, set_key_child]
    split
    · exact promote_comm z0 k fuel _ h z _
    · rfl

theorem collect_comm (z : Nat) (k : Int) : ∀ (slots : Nat) (w : World) (h cur : Nat)
    (acc : List Nat),
    consolidate_collect slots (w.set_key z k) h cur acc = consolidate_collect slots w h cur acc
  | 0, _, _, _, _ => rfl
  | slots + 1, w, h, cur, acc => by
    unfold consolidate_collect
    simp only [set_key_right, set_key_heaps]
    split
    · exact collect_comm z k slots w h _ _
    · rfl

theorem key_other (w : World) (z : Nat) (k : Int) {x : Nat} (hx : x ≠ z) :
    ((w.set_key z k).nodes x).key = (w.nodes x).key := by
  rw [set_key_key, if_neg hx]

theorem mem_of_getElem_some {T : List (Option Nat)} {d y : Nat}
    (h : T[d]? = some (some y)) : some y ∈ T := by
  obtain ⟨hd, he⟩ := List.getElem?_eq_some.1 h
  rw [← he]
  exact List.getElem_mem _

theorem avoid_set {T : List (Option Nat)} {z : Nat} (d : Nat) (v : Option Nat)
    (hT : ∀ y, some y ∈ T → y ≠ z) (hv : ∀ y, v = some y → y ≠ z) :
    ∀ y, some y ∈ T.set d v → y ≠ z := by
  intro y hy
  rcases List.mem_or_eq_of_mem_set hy with h | h
  · exact hT y h
  · exact hv y h.symm

/-- The linking loop does not read the key of a node that is neither in hand nor in the
table. -/
theorem link_while_comm (z : Nat) (k : Int) : ∀ (slots : Nat) (w : World)
    (T : List (Option Nat)) (x d : Nat), x ≠ z → (∀ y, some y ∈ T → y ≠ z) →
    consolidate_link_while slots (w.set_key z k) T x d =
      (consolidate_link_while slots w T x d).map (fun r => (r.1.set_key z k, r.2)) ∧
    ∀ r, consolidate_link_while slots w T x d = some r →
      r.2.2.1 ≠ z ∧ ∀ y, some y ∈ r.2.1 → y ≠ z
  | 0, _, _, _, _, _, _ => by
    constructor
    · rfl
    · intro r hr
      simp [consolidate_link_while] at hr
  | slots + 1, w, T, x, d, hx, hT => by
    unfold consolidate_link_while
    rcases hTd : T[d]? with _ | e
    · simp
    · rcases e with _ | y
      · simp only [Option.map_some', true_and]
        intro r hr
        simp only [Option.some.injEq] at hr
        subst hr
        exact ⟨hx, hT⟩
      · have hy : y ≠ z := hT y (mem_of_getElem_some hTd)
        simp only [key_other w z k hx, key_other w z k hy]
        by_cases hgt : (w.nodes x).key > (w.nodes y).key
        · simp only [if_pos hgt, link_comm]
          exact link_while_comm z k slots _ _ y (d + 1) hy
            (avoid_set d none hT (fun _ h => by cases h))
        · simp only [if_neg hgt, link_comm]
          exact link_while_comm z k slots _ _ x (d + 1) hx
            (avoid_set d none hT (fun _ h => by cases h))

theorem process_comm (z : Nat) (k : Int) : ∀ (rl : List Nat) (w : World)
    (T : List (Option Nat)), (∀ x ∈ rl, x ≠ z) → (∀ y, some y ∈ T → y ≠ z) →
    consolidate_process (w.set_key z k) T rl =
      (consolidate_process w T rl).map (fun r => (r.1.set_key z k, r.2)) ∧
    ∀ r, consolidate_process w T rl = some r → ∀ y, some y ∈ r.2 → y ≠ z
  | [], w, T, _, hT => by
    constructor
    · rfl
    · intro r hr
      simp only [consolidate_process, Option.some.injEq] at hr
      subst hr
      exact hT
  | x :: rl, w, T, hrl, hT => by
    have hx : x ≠ z := hrl x (by simp)
    unfold consolidate_process
    simp only [set_key_degree]
    by_cases hd : (w.nodes x).degree < 0
    · simp [hd]
    · simp only [if_neg hd]
      obtain ⟨h1, h2⟩ := link_while_comm z k (T.length - (w.nodes x).degree.toNat) w T x
        (w.nodes x).degree.toNat hx hT
      rw [h1]
      cases hlw : consolidate_link_while (T.length - (w.nodes x).degree.toNat) w T x
          (w.nodes x).degree.toNat with
      | none => simp
      | some r =>
        obtain ⟨w1, T1, x1, d1⟩ := r
        have hav := h2 _ hlw
        simp only [Option.map_some']
        exact process_comm z k rl w1 (T1.set d1 (some x1))
          (fun u hu => hrl u (List.mem_cons_of_mem _ hu))
          (avoid_set d1 (some x1) hav.2 (fun y hy => by
            simp only [Option.some.injEq] at hy
            rw [← hy]
            exact hav.1))

theorem rebuild_comm (z : Nat) (k : Int) : ∀ (T : List (Option Nat)) (w : World) (h : Nat),
    (∀ y, some y ∈ T → y ≠ z) → (∀ mn, (w.heaps h).min_node = some mn → mn ≠ z) →
    consolidate_rebuild (w.set_key z k) h T = (consolidate_rebuild w h T).set_key z k
  | [], w, h, _, _ => by
    simp [consolidate_rebuild]
  | none :: T, w, h, hT, hmin => by
    unfold consolidate_rebuild
    exact rebuild_comm z k T w h (fun y hy => hT y (List.mem_cons_of_mem _ hy)) hmin
  | some t :: T, w, h, hT, hmin => by
    have ht : t ≠ z := hT t (by simp)
    have hT' : ∀ y, some y ∈ T → y ≠ z := fun y hy => hT y (List.mem_cons_of_mem _ hy)
    unfold consolidate_rebuild
    simp only [set_key_heaps]
    rcases hm : (w.heaps h).min_node with _ | mn
    · simp only [set_key_comm_min_node, set_key_comm_right, set_key_comm_left]
      apply rebuild_comm z k T _ h hT'
      intro mn' hmn'
      simp at hmn'
      rw [← hmn']
      exact ht
    · have hmn : mn ≠ z := hmin mn hm
      simp only [add_root_comm, key_other _ z k ht, key_other _ z k hmn]
      by_cases hlt : ((fib_node_add_to_root_list w h t).nodes t).key <
          ((fib_node_add_to_root_list w h t).nodes mn).key
      · simp only [if_pos hlt, set_key_comm_min_node]
        apply rebuild_comm z k T _ h hT'
        intro mn' hmn'
        simp at hmn'
        rw [← hmn']
        exact ht
      · simp only [if_neg hlt]
        apply rebuild_comm z k T _ h hT'
        intro mn' hmn'
        rw [add_root_heaps w h t mn hm] at hmn'
        exact hmin mn' hmn'

theorem no_some_replicate (n : Nat) (z : Nat) :
    ∀ y, some y ∈ List.replicate n (none : Option Nat) → y ≠ z := by
  intro y hy
  have := (List.mem_replicate.1 hy).2
  cases this

/-- `fib_heap_consolidate` does not read the key of a node outside the root ring. -/
theorem consolidate_comm (w : World) (h z : Nat) (k : Int)
    (hcol : ∀ cur rl, (w.heaps h).min_node = some cur →
      consolidate_collect (w.heaps h).node_count w h cur [] = some rl → ∀ x ∈ rl, x ≠ z) :
    fib_heap_consolidate (w.set_key z k) h =
      (fib_heap_consolidate w h).map (fun w3 => w3.set_key z k) := by
  unfold fib_heap_consolidate
  simp only [set_key_heaps, collect_comm]
  have fin : ∀ rl : List Nat, (∀ x ∈ rl, x ≠ z) →
      (match consolidate_process (w.set_key z k)
          (List.replicate (fib_heap_calculate_max_degree (w.heaps h).node_count + 1) none)
          rl with
        | none => none
        | some (w, degree_table) =>
          some (consolidate_rebuild (w.set_min_node h none) h degree_table)) =
      Option.map (fun w3 => w3.set_key z k)
        (match consolidate_process w
          (List.replicate (fib_heap_calculate_max_degree (w.heaps h).node_count + 1) none)
          rl with
        | none => none
        | some (w, degree_table) =>
          some (consolidate_rebuild (w.set_min_node h none) h degree_table)) := by
    intro rl hrl
    obtain ⟨h1, h2⟩ := process_comm z k rl w
      (List.replicate (fib_heap_calculate_max_degree (w.heaps h).node_count + 1) none)
      hrl (no_some_replicate _ z)
    rw [h1]
    cases hp : consolidate_process w
        (List.replicate (fib_heap_calculate_max_degree (w.heaps h).node_count + 1) none)
        rl with
    | none => rfl
    | some r =>
      obtain ⟨w1, T1⟩ := r
      simp only [Option.map_some', set_key_comm_min_node, Option.some.injEq]
      apply rebuild_comm z k T1 _ h (h2 _ hp)
      intro mn hmn
      simp at hmn
  rcases hm : (w.heaps h).min_node with _ | cur
  · exact fin [] (fun _ hx => by cases hx)
  · simp only
    cases hc : consolidate_collect (w.heaps h).node_count w h cur [] with
    | none => rfl
    | some rl => exact fin rl (hcol cur rl hm hc)

end FibHeap


namespace FibHeap

/-! ## `fib_heap_delete_node` on the minimum -/

/-- `fib_heap_extract_min` does not read the key of the minimum it removes. -/
theorem extract_min_comm (w : World) (h : Nat) (S : List Nat) (fuel : Nat) (z : Nat) (k : Int)
    (I : HeapInv w.nodes (w.heaps h) S) (hmin : (w.heaps h).min_node = some z)
    (hfuel : S.length ≤ fuel) :
    fib_heap_extract_min fuel (w.set_key z k) (some h) =
      (fib_heap_extract_min fuel w (some h)).map (fun r => (r.1.set_key z k, r.2)) := by
  have hcount := I.count
  obtain ⟨K, F, hminK, -, -⟩ := I
  obtain ⟨t, hK⟩ : ∃ t, K none = z :: t := by
    rw [hmin] at hminK
    rcases hKn : K none with _ | ⟨b, t⟩
    · rw [hKn] at hminK; simp at hminK
    · rw [hKn] at hminK; simp at hminK; exact ⟨t, by rw [hminK]⟩
  have hzS : z ∈ S := F.mem_S (by rw [hK]; simp)
  have hcs_len : (K (some z)).length ≤ fuel := le_trans (F.children_length_le _) hfuel
  obtain ⟨w1, P, hw1a, hw1b, hform⟩ := extract_min_form w h z t S K fuel F hK hmin hcs_len
  obtain ⟨F2, hright, -⟩ := unlink_Forest w w1 z t S K F hK P
  rw [hform]
  unfold fib_heap_extract_min
  simp only [set_key_heaps, hmin]
  split
  · rename_i heq
    exfalso
    rcases hc : (w.nodes z).child with _ | c
    · simp [hc] at heq
    · simp [hc, promote_comm, hw1b c hc] at heq
  rename_i w1' heq
  have hw1' : w1' = w1.set_key z k := by
    rcases hc : (w.nodes z).child with _ | c
    · simp only [set_key_child, hc, Option.some.injEq] at heq
      rw [← heq, hw1a hc]
    · simp only [set_key_child, hc, promote_comm, hw1b c hc, Option.map_some',
        Option.some.injEq] at heq
      exact heq.symm
  subst hw1'
  simp only [remove_comm, set_key_right, set_key_comm_min_node]
  by_cases hz : z = ((fib_node_remove_from_list w1 z).nodes z).right
  · simp only [if_pos hz, Option.map_some', set_key_heaps, set_key_comm_node_count]
  · simp only [if_neg hz]
    -- the root ring handed to the consolidation does not hold `z`
    obtain ⟨r, rt, hR⟩ : ∃ r rt, (K (some z)).reverse ++ t = r :: rt := by
      rcases hR : (K (some z)).reverse ++ t with _ | ⟨r, rt⟩
      · exfalso
        rw [hR] at hright
        simp only [List.nil_append, List.head?_cons, Option.some.injEq] at hright
        exact hz hright.symm
      · exact ⟨r, rt, rfl⟩
    rw [hR] at hright
    simp only [List.cons_append, List.head?_cons, Option.some.injEq] at hright
    have hK2 : (Function.update (Function.update K none ((K (some z)).reverse ++ t))
        (some z) []) none = r :: rt := by
      rw [Function.update_noteq (by simp), Function.update_same, hR]
    have hring := F2.K_ring none
    have hnd := F2.K_nodup none
    rw [hK2] at hring hnd
    have hsub : ∀ x ∈ r :: rt, x ∈ S.erase z := by
      intro x hx
      exact F2.mem_S (by rw [hK2]; exact hx)
    have hlen : (r :: rt).length ≤ (S.erase z).length :=
      (List.subperm_of_subset hnd hsub).length_le
    have hlenS := length_erase_add_one hzS
    have hcol : ∀ cur rl,
        (((fib_node_remove_from_list w1 z).set_min_node h (some r)).heaps h).min_node =
          some cur →
        consolidate_collect
          (((fib_node_remove_from_list w1 z).set_min_node h (some r)).heaps h).node_count
          ((fib_node_remove_from_list w1 z).set_min_node h (some r)) h cur [] = some rl →
        ∀ x ∈ rl, x ≠ z := by
      intro cur rl hcur hrl x hx hxz
      simp only [set_min_node_min_node, if_true, Option.some.injEq] at hcur
      subst hcur
      have hspec := collect_spec ((fib_node_remove_from_list w1 z).set_min_node h (some r)) h
        rt [] r []
        (((fib_node_remove_from_list w1 z).set_min_node h (some r)).heaps h).node_count
        (by simpa using hring) (by simpa using hnd) (by simp)
        (by
          simp only [set_min_node_node_count, remove_heaps, P.heaps, hcount]
          simp only [List.length_cons] at hlen
          omega)
      rw [hspec] at hrl
      simp only [List.nil_append, Option.some.injEq] at hrl
      subst hrl
      have := hsub x hx
      rw [hxz] at this
      exact ((List.Nodup.mem_erase_iff F.S_nodup).1 this).1 rfl
    rw [hright]
    rw [consolidate_comm _ h z k hcol]
    cases fib_heap_consolidate
      ((fib_node_remove_from_list w1 z).set_min_node h (some r)) h with
    | none => rfl
    | some w3 => simp only [Option.map_some', set_key_heaps, set_key_comm_node_count]

/-- `fib_heap_decrease_key` to `INT_MIN` on the minimum only writes the key. -/
theorem decrease_key_min (fuel : Nat) (w : World) (h m : Nat) (S : List Nat)
    (I : HeapInv w.nodes (w.heaps h) S) (hmin : (w.heaps h).min_node = some m) :
    fib_heap_decrease_key fuel w (some h) (some m) INT_MIN =
      some (w.set_key m INT_MIN, fib_heap_error_t.FIB_HEAP_SUCCESS) := by
  have hk := I.key_ge (I.min_mem hmin)
  have hroot := I.min_root hmin
  simp only [fib_heap_decrease_key, gt_iff_lt, if_neg (not_lt.2 hk), set_key_parent, hroot,
    set_key_heaps, hmin, lt_irrefl, if_false]

/-- `fib_heap_delete_node` on the minimum: the result of `fib_heap_extract_min` with the
key of the removed node overwritten. -/
theorem delete_min_eq (w : World) (h m : Nat) (S : List Nat) (fuel : Nat)
    (I : HeapInv w.nodes (w.heaps h) S) (hmin : (w.heaps h).min_node = some m)
    (hfuel : S.length ≤ fuel) :
    ∃ w_e, fib_heap_extract_min fuel w (some h) = some (w_e, some m) ∧
      HeapInv w_e.nodes (w_e.heaps h) (S.erase m) ∧
      fib_heap_delete_node fuel w (some h) (some m) =
        some (w_e.set_key m INT_MIN, fib_heap_error_t.FIB_HEAP_SUCCESS) := by
  obtain ⟨w_e, hw_e, I_e, -⟩ := extract_min_spec w h S fuel m I hmin hfuel
  refine ⟨w_e, hw_e, I_e, ?_⟩
  have hc := extract_min_comm w h S fuel m INT_MIN I hmin hfuel
  rw [hw_e] at hc
  simp only [fib_heap_delete_node, decrease_key_min fuel w h m S I hmin, hc, Option.map_some']
  simp

end FibHeap


namespace FibHeap

/-- C15 (delete of the minimum).  In a reachable state, for a non-empty heap with minimum
`m`, and with enough fuel, `fib_heap_delete_node` on `m` returns `FIB_HEAP_SUCCESS`, and
the state it leaves is the state that `fib_heap_extract_min` leaves from the same start:
the same heap records (minimum pointer and size) and the same record for every node other
than `m`, hence the same forest, keys, degrees and marks.  The removed node `m` itself, which
the traversal of the heap no longer enumerates, differs only in its key, which is
`INT_MIN`. -/
theorem delete_min_law (ops : List Op) (s : World × Ghost)
    (hs : run ops (World.init, Ghost.init) = some s) (h m : Nat)
    (hm : fib_heap_minimum s.1 (some h) = some m)
    (fuel : Nat) (hf : fib_heap_size s.1 (some h) ≤ fuel) :
    ∃ (w_e w_d : World),
      fib_heap_extract_min fuel s.1 (some h) = some (w_e, some m) ∧
      fib_heap_delete_node fuel s.1 (some h) (some m) =
        some (w_d, fib_heap_error_t.FIB_HEAP_SUCCESS) ∧
      w_d.heaps = w_e.heaps ∧ w_d.next_node = w_e.next_node ∧
      w_d.next_heap = w_e.next_heap ∧
      (∀ u, u ≠ m → w_d.nodes u = w_e.nodes u) ∧
      w_d.nodes m = { w_e.nodes m with key := INT_MIN } ∧
      ∃ (N : Nat) (l : List Nat),
        (∀ f, N ≤ f → fib_heap_destroy f w_d (some h) = some l) ∧ m ∉ l := by
  have I := RInv.reachable hs
  simp only [fib_heap_minimum] at hm
  rw [size_eq_length I.winv] at hf
  obtain ⟨w_e, hw_e, I_e, hdel⟩ := delete_min_eq s.1 h m (s.2.live h) fuel (I.winv.heap h) hm hf
  have I_d : HeapInv (w_e.set_key m INT_MIN).nodes ((w_e.set_key m INT_MIN).heaps h)
      ((s.2.live h).erase m) := by
    apply I_e.transport
    intro u hu
    apply set_key_ne
    intro c
    rw [c] at hu
    exact ((List.Nodup.mem_erase_iff (I.winv.heap h).nodup).1 hu).1 rfl
  obtain ⟨N, l, hl, hp⟩ := destroy_spec I_d
  refine ⟨w_e, w_e.set_key m INT_MIN, hw_e, hdel, rfl, rfl, rfl, ?_, ?_, N, l, hl, ?_⟩
  · intro u hu
    exact set_key_ne _ _ _ _ hu
  · simp [World.set_key]
  · intro c
    exact ((List.Nodup.mem_erase_iff (I.winv.heap h).nodup).1 (hp.subset c)).1 rfl

/-- Example for C15: the heap holds the keys 5 and 3; the minimum is the handle of 3. -/
theorem delete_min_law_witness :
    ∃ s, run [Op.create, Op.insert 0 5 7, Op.insert 0 3 1] (World.init, Ghost.init) = some s ∧
      fib_heap_minimum s.1 (some 0) = some 1 ∧
      ∃ (w_e w_d : World),
        fib_heap_extract_min 2 s.1 (some 0) = some (w_e, some 1) ∧
        fib_heap_delete_node 2 s.1 (some 0) (some 1) =
          some (w_d, fib_heap_error_t.FIB_HEAP_SUCCESS) ∧
        w_d.heaps = w_e.heaps ∧ w_d.next_node = w_e.next_node ∧
        w_d.next_heap = w_e.next_heap ∧
        (∀ u, u ≠ 1 → w_d.nodes u = w_e.nodes u) ∧
        w_d.nodes 1 = { w_e.nodes 1 with key := INT_MIN } ∧
        ∃ (N : Nat) (l : List Nat),
          (∀ f, N ≤ f → fib_heap_destroy f w_d (some 0) = some l) ∧ 1 ∉ l :=
  ⟨_, rfl, rfl, delete_min_law [Op.create, Op.insert 0 5 7, Op.insert 0 3 1] _ rfl 0 1 rfl 2
    (by decide)⟩

end FibHeap


namespace FibHeap

theorem HeapInv.parent_ne {m : Mem} {H S} (I : HeapInv m H S) {x p : Nat} (hx : x ∈ S)
    (hp : (m x).parent = some p) : p ≠ x := by
  obtain ⟨K, F, -, -, -⟩ := I
  obtain ⟨rk, hrk⟩ := F.rank
  intro e
  have := hrk x hx p hp
  rw [e] at this
  exact lt_irrefl _ this

/-- A `fib_heap_decrease_key` that meets no heap-order violation writes the key and, at
most, moves the minimum pointer. -/
theorem decrease_key_plain (ops : List Op) (s : World × Ghost)
    (hs : run ops (World.init, Ghost.init) = some s) (h x : Nat) (hx : x ∈ s.2.live h)
    (k : Int) (hk : k ≤ fib_node_get_key s.1 (some x))
    (hord : fib_node_is_root s.1 (some x) = true ∨
      ∃ y, (s.1.nodes x).parent = some y ∧ fib_node_get_key s.1 (some y) ≤ k)
    (fuel : Nat) :
    ∃ w', fib_heap_decrease_key fuel s.1 (some h) (some x) k =
        some (w', fib_heap_error_t.FIB_HEAP_SUCCESS) ∧
      w'.nodes = (s.1.set_key x k).nodes ∧
      (∀ u, u ≠ x → w'.nodes u = s.1.nodes u) ∧
      w'.nodes x = { s.1.nodes x with key := k } ∧
      fib_heap_size w' (some h) = fib_heap_size s.1 (some h) ∧
      (∀ g, g ≠ h → w'.heaps g = s.1.heaps g) ∧
      ∃ a, fib_heap_minimum s.1 (some h) = some a ∧
        fib_heap_minimum w' (some h) =
          if fib_node_is_root s.1 (some x) = true ∧ k < fib_node_get_key s.1 (some a)
          then some x else some a := by
  have I := RInv.reachable hs
  have H := I.winv.heap h
  obtain ⟨a, ha, haS, -⟩ := H.min_of_mem hx
  simp only [fib_node_get_key, fib_node_is_root, decide_eq_true_eq] at hk hord ⊢
  have hnodes : ∀ u, u ≠ x → (s.1.set_key x k).nodes u = s.1.nodes u :=
    fun u hu => set_key_ne _ _ _ _ hu
  have hself : (s.1.set_key x k).nodes x = { s.1.nodes x with key := k } := by
    simp [World.set_key]
  -- the state after the key is written is not restructured
  have hdk : fib_heap_decrease_key fuel s.1 (some h) (some x) k =
      some (if ((s.1.set_key x k).nodes x).key < ((s.1.set_key x k).nodes a).key then
          (s.1.set_key x k).set_min_node h (some x) else s.1.set_key x k,
        fib_heap_error_t.FIB_HEAP_SUCCESS) := by
    rcases hp : (s.1.nodes x).parent with _ | y
    · simp only [fib_heap_decrease_key, gt_iff_lt, if_neg (not_lt.2 hk), set_key_parent, hp,
        set_key_heaps, ha]
    · rcases hord with hr | ⟨y', hy', hle⟩
      · rw [hp] at hr; cases hr
      · rw [hp] at hy'
        cases hy'
        have hyx : y ≠ x := H.parent_ne hx hp
        have hnl : ¬ ((s.1.set_key x k).nodes x).key < ((s.1.set_key x k).nodes y).key := by
          rw [set_key_key, if_pos rfl, set_key_key, if_neg hyx]
          exact not_lt.2 hle
        simp only [fib_heap_decrease_key, gt_iff_lt, if_neg (not_lt.2 hk), set_key_parent, hp,
          if_neg hnl, set_key_heaps, ha]
  have hmin_le := H.min_le ha hx
  by_cases hlt : ((s.1.set_key x k).nodes x).key < ((s.1.set_key x k).nodes a).key
  · -- the minimum pointer moves to `x`, which is then a root
    have hax : a ≠ x := by
      intro e
      rw [e] at hlt
      exact lt_irrefl _ hlt
    have hka : k < (s.1.nodes a).key := by
      rw [set_key_key, if_pos rfl, set_key_key, if_neg hax] at hlt
      exact hlt
    have hroot : (s.1.nodes x).parent = none := by
      rcases hord with hr | ⟨y, hy, hle⟩
      · exact hr
      · exfalso
        have h1 := (H.parent_le hx hy).1
        have h2 := H.min_le ha h1
        omega
    refine ⟨(s.1.set_key x k).set_min_node h (some x), ?_, rfl, hnodes, hself, ?_, ?_, a,
      by simp [fib_heap_minimum, ha], ?_⟩
    · rw [hdk, if_pos hlt]
    · simp [fib_heap_size, World.set_min_node, World.set_key]
    · intro g hg
      simp [World.set_min_node, World.set_key, hg]
    · simp [fib_heap_minimum, hroot, hka]
  · have hcond : (s.1.nodes x).parent = none ∧ k < (s.1.nodes a).key → a = x := by
      rintro ⟨-, hka⟩
      by_contra e
      apply hlt
      rw [set_key_key, set_key_key, if_pos rfl, if_neg e]
      exact hka
    refine ⟨s.1.set_key x k, ?_, rfl, hnodes, hself, by simp [fib_heap_size], fun _ _ => by
      simp, a, by simp [fib_heap_minimum, ha], ?_⟩
    · rw [hdk, if_neg hlt]
    · by_cases hc : (s.1.nodes x).parent = none ∧ k < (s.1.nodes a).key
      · rw [if_pos hc, ← hcond hc]
        simp [fib_heap_minimum, ha]
      · rw [if_neg hc]
        simp [fib_heap_minimum, ha]

/-- C27 (decrease-key without restructuring).  In a reachable state, for a live handle `x`
of heap `h` and a key `k`: when `x` is a root, or `x` has a parent `y` whose key is at most
`k` and `k` is at most the key of `x`, `fib_heap_decrease_key` returns for any fuel, the
record of every node other than `x` is as before, the record of `x` differs at most in its
key (no parent, child, sibling link, degree or mark changes), which is `k` when `k` is at
most the former key and the former key otherwise, the size and every other heap are as
before, and the minimum pointer is `x` when `x` is a root and `k` is strictly below the
key of the former minimum, and the former minimum otherwise. -/
theorem decrease_key_frame_law (ops : List Op) (s : World × Ghost)
    (hs : run ops (World.init, Ghost.init) = some s) (h x : Nat) (hx : x ∈ s.2.live h)
    (k : Int)
    (hord : fib_node_is_root s.1 (some x) = true ∨
      ∃ y, (s.1.nodes x).parent = some y ∧ fib_node_get_key s.1 (some y) ≤ k ∧
        k ≤ fib_node_get_key s.1 (some x))
    (fuel : Nat) :
    ∃ w' e, fib_heap_decrease_key fuel s.1 (some h) (some x) k = some (w', e) ∧
      (∀ u, u ≠ x → w'.nodes u = s.1.nodes u) ∧
      w'.nodes x = { s.1.nodes x with key := fib_node_get_key w' (some x) } ∧
      fib_node_get_key w' (some x) =
        (if k ≤ fib_node_get_key s.1 (some x) then k else fib_node_get_key s.1 (some x)) ∧
      fib_heap_size w' (some h) = fib_heap_size s.1 (some h) ∧
      (∀ g, g ≠ h → w'.heaps g = s.1.heaps g) ∧
      ∃ a, fib_heap_minimum s.1 (some h) = some a ∧
        fib_heap_minimum w' (some h) =
          if fib_node_is_root s.1 (some x) = true ∧ k < fib_node_get_key s.1 (some a)
          then some x else some a := by
  by_cases hk : k ≤ fib_node_get_key s.1 (some x)
  · obtain ⟨w', hw', -, hfr, hself, hsz, hne, hmin⟩ :=
      decrease_key_plain ops s hs h x hx k hk
        (hord.imp id (fun ⟨y, hy, hle, _⟩ => ⟨y, hy, hle⟩)) fuel
    refine ⟨w', _, hw', hfr, ?_, ?_, hsz, hne, hmin⟩
    · rw [hself]; simp [fib_node_get_key, hself]
    · rw [if_pos hk]; simp [fib_node_get_key, hself]
  · have I := RInv.reachable hs
    obtain ⟨a, ha, haS, -⟩ := (I.winv.heap h).min_of_mem hx
    have hle := (I.winv.heap h).min_le ha hx
    simp only [fib_node_get_key] at hk hle ⊢
    refine ⟨s.1, fib_heap_error_t.FIB_HEAP_ERROR_INVALID_KEY, ?_, fun _ _ => rfl, rfl, ?_, rfl,
      fun _ _ => rfl, a, by simp [fib_heap_minimum, ha], ?_⟩
    · simp only [fib_heap_decrease_key, gt_iff_lt, if_pos (not_le.1 hk)]
    · rw [if_neg hk]
    · have : ¬ k < (s.1.nodes a).key := by omega
      simp [fib_heap_minimum, ha, this]

/-- Example for C27: the key 15 of a root is decreased to 2, below the minimum 5. -/
theorem decrease_key_frame_law_witness :
    ∃ s, run [Op.create, Op.insert 0 10 0, Op.insert 0 5 0, Op.insert 0 15 0]
        (World.init, Ghost.init) = some s ∧
      ∃ w' e, fib_heap_decrease_key 0 s.1 (some 0) (some 2) 2 = some (w', e) ∧
        (∀ u, u ≠ 2 → w'.nodes u = s.1.nodes u) ∧
        w'.nodes 2 = { s.1.nodes 2 with key := fib_node_get_key w' (some 2) } ∧
        fib_node_get_key w' (some 2) =
          (if (2 : Int) ≤ fib_node_get_key s.1 (some 2) then 2
            else fib_node_get_key s.1 (some 2)) ∧
        fib_heap_size w' (some 0) = fib_heap_size s.1 (some 0) ∧
        (∀ g, g ≠ 0 → w'.heaps g = s.1.heaps g) ∧
        ∃ a, fib_heap_minimum s.1 (some 0) = some a ∧
          fib_heap_minimum w' (some 0) =
            if fib_node_is_root s.1 (some 2) = true ∧ 2 < fib_node_get_key s.1 (some a)
            then some 2 else some a :=
  ⟨_, rfl, decrease_key_frame_law [Op.create, Op.insert 0 10 0, Op.insert 0 5 0,
    Op.insert 0 15 0] _ rfl 0 2 (by decide) 2 (Or.inl rfl) 0⟩

/-- C28 (delete and the sentinel key).  In a reachable state in which the minimum `m` of heap
`h` has key `INT_MIN`, for a live handle `x` of `h` other than `m` and enough fuel,
`fib_heap_delete_node` on `x` returns `FIB_HEAP_ERROR_HEAP_CORRUPTION`; afterwards
`fib_heap_size` is smaller by exactly one, the traversal of the heap enumerates exactly the
former live handles other than `m`, so that `m` is gone and `x` is still in the heap, and
the key of `x` is `INT_MIN` while every other key is as before. -/
theorem delete_sentinel_law (ops : List Op) (s : World × Ghost)
    (hs : run ops (World.init, Ghost.init) = some s) (h m x : Nat)
    (hm : fib_heap_minimum s.1 (some h) = some m)
    (hkm : fib_node_get_key s.1 (some m) = INT_MIN)
    (hx : x ∈ s.2.live h) (hxm : x ≠ m)
    (fuel : Nat) (hf : fib_heap_size s.1 (some h) ≤ fuel) :
    ∃ w', fib_heap_delete_node fuel s.1 (some h) (some x) =
        some (w', fib_heap_error_t.FIB_HEAP_ERROR_HEAP_CORRUPTION) ∧
      fib_heap_size w' (some h) + 1 = fib_heap_size s.1 (some h) ∧
      (∃ (N : Nat) (l' : List Nat),
        (∀ f, N ≤ f → fib_heap_destroy f w' (some h) = some l') ∧
        l'.Perm ((s.2.live h).erase m) ∧ x ∈ l' ∧ m ∉ l') ∧
      fib_node_get_key w' (some x) = INT_MIN ∧
      ∀ u, u ≠ x → fib_node_get_key w' (some u) = fib_node_get_key s.1 (some u) := by
  have I := RInv.reachable hs
  have hf' := hf
  rw [size_eq_length I.winv] at hf'
  obtain ⟨w', a, hmin, hw', H', hvS, -, -, -, hkey, -, -⟩ :=
    delete_spec s.1 h x (s.2.live h) fuel (I.winv.heap h) hx hf'
  have ham : a = m := by
    simp only [fib_heap_minimum, hmin] at hm
    exact Option.some.inj hm
  subst ham
  have hv : delete_victim s.1 x a = a := by
    simp only [fib_node_get_key] at hkm
    simp [delete_victim, hkm]
  rw [hv] at hw' H' hvS
  have hne : some a ≠ some x := fun e => hxm (Option.some.inj e).symm
  rw [if_pos hne] at hw'
  have hlen := length_erase_add_one hvS
  have hsz : fib_heap_size w' (some h) = ((s.2.live h).erase a).length := by
    simp [fib_heap_size, H'.count]
  obtain ⟨N, l', hl', hp'⟩ := destroy_spec H'
  have hnd := (I.winv.heap h).nodup
  refine ⟨w', hw', ?_, ⟨N, l', hl', hp', ?_, ?_⟩, ?_, ?_⟩
  · rw [hsz, size_eq_length I.winv]; exact hlen
  · exact hp'.mem_iff.2 ((List.Nodup.mem_erase_iff hnd).2 ⟨hxm, hx⟩)
  · intro hc
    exact ((List.Nodup.mem_erase_iff hnd).1 (hp'.mem_iff.1 hc)).1 rfl
  · simp only [fib_node_get_key]
    rw [hkey x, if_pos rfl]
  · intro u hu
    simp only [fib_node_get_key]
    rw [hkey u, if_neg hu]

/-- Example for C28: the keys `INT_MIN` and 5 are inserted and the handle of 5 is deleted. -/
theorem delete_sentinel_law_witness :
    ∃ s, run [Op.create, Op.insert 0 INT_MIN 0, Op.insert 0 5 0]
        (World.init, Ghost.init) = some s ∧
      ∃ w', fib_heap_delete_node 2 s.1 (some 0) (some 1) =
          some (w', fib_heap_error_t.FIB_HEAP_ERROR_HEAP_CORRUPTION) ∧
        fib_heap_size w' (some 0) + 1 = fib_heap_size s.1 (some 0) ∧
        (∃ (N : Nat) (l' : List Nat),
          (∀ f, N ≤ f → fib_heap_destroy f w' (some 0) = some l') ∧
          l'.Perm ((s.2.live 0).erase 0) ∧ 1 ∈ l' ∧ 0 ∉ l') ∧
        fib_node_get_key w' (some 1) = INT_MIN ∧
        ∀ u, u ≠ 1 → fib_node_get_key w' (some u) = fib_node_get_key s.1 (some u) :=
  ⟨_, rfl, delete_sentinel_law [Op.create, Op.insert 0 INT_MIN 0, Op.insert 0 5 0] _ rfl
    0 0 1 rfl rfl (by decide) (by decide) 2 (by decide)⟩

/-- C22 (Fibonacci size bound).  In a reachable state, for every live handle `x` of heap `h`
with degree `d`: the degree is not negative; the walk of `fib_node_destroy_recursive` from
`x` returns, with enough fuel, the nodes of the subtree rooted at `x`, each once and all of
them handles of `h`, and they are at least `F (d + 2)` many; hence `F (d + 2)` is at most
`fib_heap_size`, and `d` is at most `floor (log_phi (fib_heap_size))`. -/
theorem fib_size_bound_law (ops : List Op) (s : World × Ghost)
    (hs : run ops (World.init, Ghost.init) = some s) (h x : Nat) (hx : x ∈ s.2.live h) :
    0 ≤ (s.1.nodes x).degree ∧
    (∃ (N : Nat) (sub : List Nat),
      (∀ fuel, N ≤ fuel → fib_node_destroy_recursive fuel s.1 (some x) = some sub) ∧
      sub.Nodup ∧ x ∈ sub ∧ (∀ u ∈ sub, u ∈ s.2.live h) ∧
      Nat.fib ((s.1.nodes x).degree.toNat + 2) ≤ sub.length) ∧
    Nat.fib ((s.1.nodes x).degree.toNat + 2) ≤ fib_heap_size s.1 (some h) ∧
    (s.1.nodes x).degree.toNat ≤ floor_log_phi (fib_heap_size s.1 (some h)) := by
  classical
  have I := RInv.reachable hs
  obtain ⟨K, F, -, -, -⟩ := I.winv.heap h
  obtain ⟨rk, hrk⟩ := F.rank
  obtain ⟨sub, hsub, hnd, hmem⟩ := destroy_node_spec F hrk (rk x) x hx (le_refl _)
  have hsize := F.fib_le_size hx
  rw [← size_eq_length I.winv] at hsize
  have hdesc := F.fib_le_desc hx
  have hcard : ((s.2.live h).toFinset.filter (fun y => Anc s.1.nodes x y)).card ≤
      sub.length := by
    rw [← List.toFinset_card_of_nodup hnd]
    apply Finset.card_le_card
    intro u hu
    rw [Finset.mem_filter, List.mem_toFinset] at hu
    exact List.mem_toFinset.2 ((hmem u).2 hu)
  refine ⟨?_, ⟨_, sub, hsub, hnd, (hmem x).2 ⟨hx, Relation.ReflTransGen.refl⟩,
    fun u hu => ((hmem u).1 hu).1, hdesc.trans hcard⟩, hsize, ?_⟩
  · rw [F.degree_eq x hx]
    exact Int.natCast_nonneg _
  · have := degree_lt_table _ _ hsize
    have hpos : fib_heap_size s.1 (some h) ≠ 0 := by
      have := fib_add_two_ge (s.1.nodes x).degree.toNat
      omega
    simp only [fib_heap_calculate_max_degree, if_neg hpos] at this
    omega

/-- Example for C22: five keys are inserted and the minimum is extracted; the bound is read
at the handle of the key 2. -/
theorem fib_size_bound_law_witness :
    ∃ s, run [Op.create, Op.insert 0 1 0, Op.insert 0 2 0, Op.insert 0 3 0, Op.insert 0 4 0,
        Op.insert 0 5 0, Op.extract_min 0] (World.init, Ghost.init) = some s ∧
      (0 ≤ (s.1.nodes 1).degree ∧
      (∃ (N : Nat) (sub : List Nat),
        (∀ fuel, N ≤ fuel → fib_node_destroy_recursive fuel s.1 (some 1) = some sub) ∧
        sub.Nodup ∧ 1 ∈ sub ∧ (∀ u ∈ sub, u ∈ s.2.live 0) ∧
        Nat.fib ((s.1.nodes 1).degree.toNat + 2) ≤ sub.length) ∧
      Nat.fib ((s.1.nodes 1).degree.toNat + 2) ≤ fib_heap_size s.1 (some 0) ∧
      (s.1.nodes 1).degree.toNat ≤ floor_log_phi (fib_heap_size s.1 (some 0))) :=
  ⟨_, rfl, fib_size_bound_law [Op.create, Op.insert 0 1 0, Op.insert 0 2 0, Op.insert 0 3 0,
    Op.insert 0 4 0, Op.insert 0 5 0, Op.extract_min 0] _ rfl 0 1 (by decide)⟩

end FibHeap


namespace FibHeap

/-! ## The call of `fib_heap_consolidate` inside `fib_heap_extract_min` -/

/-- When `fib_heap_extract_min` leaves a node in the heap, it calls `fib_heap_consolidate`:
the state `w1` after the promotion of the children, the snapshot `r :: rt` of the roots, the
outcome `(w2, T2)` of the processing loop, the state `w3` after the call and the root rings
`K3` of the result. -/
theorem extract_min_call (w : World) (h : Nat) (S : List Nat) (fuel : Nat) (z : Nat)
    (I : HeapInv w.nodes (w.heaps h) S) (hmin : (w.heaps h).min_node = some z)
    (hfuel : S.length ≤ fuel) (hne : S.erase z ≠ []) :
    ∃ (w1 : World) (r : Nat) (rt : List Nat) (w2 : World) (T2 : List (Option Nat))
      (w3 : World) (K3 K2 : Option Nat → List Nat),
      ((w.nodes z).child = none → w1 = w) ∧
      (∀ c, (w.nodes z).child = some c → extract_promote fuel w h z c = some w1) ∧
      ((fib_node_remove_from_list w1 z).nodes z).right = r ∧ z ≠ r ∧
      (((fib_node_remove_from_list w1 z).set_min_node h (some r)).heaps h).node_count =
        S.length ∧
      (r :: rt).length + 1 ≤ S.length ∧
      consolidate_collect S.length ((fib_node_remove_from_list w1 z).set_min_node h (some r))
        h r [] = some (r :: rt) ∧
      consolidate_process ((fib_node_remove_from_list w1 z).set_min_node h (some r))
        (List.replicate (fib_heap_calculate_max_degree S.length + 1) none) (r :: rt) =
          some (w2, T2) ∧
      fib_heap_consolidate ((fib_node_remove_from_list w1 z).set_min_node h (some r)) h =
        some w3 ∧
      fib_heap_extract_min fuel w (some h) =
        some (w3.set_node_count h (S.length - 1), some z) ∧
      Forest w3.nodes (S.erase z) K3 none ∧ (w3.heaps h).min_node = (K3 none).head? ∧
      (∀ a ∈ K3 none, ∀ b ∈ K3 none, (w3.nodes a).degree = (w3.nodes b).degree → a = b) ∧
      Forest ((fib_node_remove_from_list w1 z).set_min_node h (some r)).nodes (S.erase z) K2
        none ∧
      K2 none = r :: rt := by
  obtain ⟨K, F, hminK, hcnt, hglob⟩ := I
  obtain ⟨t, hK⟩ : ∃ t, K none = z :: t := by
    rw [hmin] at hminK
    rcases hKn : K none with _ | ⟨b, t⟩
    · rw [hKn] at hminK; simp at hminK
    · rw [hKn] at hminK; simp at hminK; exact ⟨t, by rw [hminK]⟩
  have hzK : z ∈ K none := by rw [hK]; simp
  have hzS : z ∈ S := F.mem_S hzK
  have hlenS : 0 < S.length := List.length_pos_of_mem hzS
  have hcs_len : (K (some z)).length ≤ fuel := by
    refine le_trans ?_ hfuel
    apply (List.subperm_of_subset (F.K_nodup _) _).length_le
    intro u hu; exact F.mem_S hu
  obtain ⟨w1, P, hw1a, hw1b, hform⟩ := extract_min_form w h z t S K fuel F hK hmin hcs_len
  obtain ⟨F2, hright, -⟩ := unlink_Forest w w1 z t S K F hK P
  obtain ⟨K2, hK2⟩ : ∃ K2, K2 =
      Function.update (Function.update K none ((K (some z)).reverse ++ t)) (some z) [] :=
    ⟨_, rfl⟩
  rw [← hK2] at F2
  have hlen_erase : (S.erase z).length = S.length - 1 := List.length_erase_of_mem hzS
  have hK2none : K2 none = (K (some z)).reverse ++ t := by
    rw [hK2, Function.update_noteq (by simp), Function.update_same]
  rcases hR : (K (some z)).reverse ++ t with _ | ⟨r, rt⟩
  · exfalso
    apply hne
    apply F2.S_nil_of_roots_nil
    rw [hK2none, hR]
  rw [hR] at hright
  simp only [List.cons_append, List.head?_cons, Option.some.injEq] at hright
  have hrz : z ≠ ((fib_node_remove_from_list w1 z).nodes z).right := by
    rw [hright]
    intro c
    have hm : r ∈ (K (some z)).reverse ++ t := by rw [hR]; simp
    simp only [List.mem_append, List.mem_reverse] at hm
    rcases hm with hm | hm
    · exact F.ne_parent hm c.symm
    · have := F.K_nodup none
      rw [hK, List.nodup_cons] at this
      exact this.1 (c ▸ hm)
  rw [if_neg hrz, hright] at hform
  have F2' : Forest ((fib_node_remove_from_list w1 z).set_min_node h (some r)).nodes
      (S.erase z) K2 none := by simpa using F2
  have hcount : (((fib_node_remove_from_list w1 z).set_min_node h (some r)).heaps h).node_count
      = S.length := by
    simp [P.heaps, hcnt]
  obtain ⟨w2, T2, w3, hcol, hproc, hw3, ⟨K3, F3, hmin3, -, hdist⟩, hc3, -⟩ :=
    consolidate_roots_spec ((fib_node_remove_from_list w1 z).set_min_node h (some r)) h
      (S.erase z) K2 r rt F2' (by rw [hK2none, hR]) (by simp)
      (by rw [hcount, hlen_erase]; omega)
  rw [hcount] at hcol hproc
  have hlen_rt : (r :: rt).length + 1 ≤ S.length := by
    have : (r :: rt).length ≤ (S.erase z).length := by
      apply (List.subperm_of_subset (by rw [← hR, ← hK2none]; exact F2.K_nodup none) _).length_le
      intro u hu
      exact F2.mem_S (by rw [hK2none, hR]; exact hu)
    omega
  refine ⟨w1, r, rt, w2, T2, w3, K3, K2, hw1a, hw1b, hright, hright ▸ hrz, hcount, hlen_rt,
    hcol, hproc, hw3, ?_, F3, hmin3, hdist, F2', by rw [hK2none, hR]⟩
  rw [hform, hw3]
  have hne0 : S.length ≠ 0 := by omega
  simp only [Option.map_some', hc3, hcount, if_neg hne0]

/-- The root ring after a `fib_heap_extract_min` that leaves a node: the walk from the new
minimum returns the parentless nodes of the heap, each once, with pairwise distinct
degrees. -/
theorem extract_min_roots (w : World) (h : Nat) (S : List Nat) (fuel : Nat) (z : Nat)
    (I : HeapInv w.nodes (w.heaps h) S) (hmin : (w.heaps h).min_node = some z)
    (hfuel : S.length ≤ fuel) (hne : S.erase z ≠ []) :
    ∃ (w' : World) (m : Nat) (ring : List Nat),
      fib_heap_extract_min fuel w (some h) = some (w', some z) ∧
      HeapInv w'.nodes (w'.heaps h) (S.erase z) ∧
      (w'.heaps h).min_node = some m ∧
      (∀ f, (S.erase z).length ≤ f → sibling_ring f w' m m = some ring) ∧
      ring.Nodup ∧ m ∈ ring ∧
      (∀ u, u ∈ ring ↔ u ∈ S.erase z ∧ (w'.nodes u).parent = none) ∧
      (∀ a ∈ ring, ∀ b ∈ ring, (w'.nodes a).degree = (w'.nodes b).degree → a = b) := by
  obtain ⟨w', hw', H', -⟩ := extract_min_spec w h S fuel z I hmin hfuel
  obtain ⟨w1, r, rt, w2, T2, w3, K3, K2, -, -, -, -, -, -, -, -, -, hext, F3, hmin3, hdist,
    -, -⟩ := extract_min_call w h S fuel z I hmin hfuel hne
  rw [hw'] at hext
  have hw3 : w' = w3.set_node_count h (S.length - 1) := by
    simpa using hext
  subst hw3
  have F3' : Forest (w3.set_node_count h (S.length - 1)).nodes (S.erase z) K3 none := by
    simpa using F3
  obtain ⟨m, hm⟩ : ∃ m, (K3 none).head? = some m := by
    rcases hK : K3 none with _ | ⟨m, t⟩
    · exact absurd (F3.S_nil_of_roots_nil hK) hne
    · exact ⟨m, rfl⟩
  have hmK : m ∈ K3 none := List.mem_of_mem_head? hm
  have hmS : m ∈ S.erase z := F3.mem_S hmK
  have hpar : ((w3.set_node_count h (S.length - 1)).nodes m).parent = none := by
    simpa using ((F3.K_mem none m).1 hmK).2
  obtain ⟨ring, hwalk, hperm, hhead⟩ := F3'.walk hmS
  rw [hpar] at hperm
  refine ⟨_, m, ring, hw', H', ?_, hwalk, hperm.nodup_iff.2 (F3.K_nodup none),
    List.mem_of_mem_head? hhead, ?_, ?_⟩
  · simp only [set_node_count_min_node]
    rw [hmin3, hm]
  · intro u
    rw [hperm.mem_iff]
    simpa using F3.K_mem none u
  · intro a ha b hb hab
    simp only [set_node_count_nodes] at hab
    exact hdist a (hperm.mem_iff.1 ha) b (hperm.mem_iff.1 hb) hab

/-- Distinct natural numbers: one of them is at least their number less one. -/
theorem exists_large_of_nodup (l : List Nat) (hnd : l.Nodup) (hne : l ≠ []) :
    ∃ x ∈ l, l.length ≤ x + 1 := by
  by_contra hcon
  push_neg at hcon
  have hsub : l.toFinset ⊆ Finset.range (l.length - 1) := by
    intro x hx
    have := hcon x (List.mem_toFinset.1 hx)
    exact Finset.mem_range.2 (by omega)
  have hcard := Finset.card_le_card hsub
  rw [List.toFinset_card_of_nodup hnd, Finset.card_range] at hcard
  have : 0 < l.length := List.length_pos.2 hne
  omega

end FibHeap


namespace FibHeap

/-- C26 (root-count bound after consolidation).  In a reachable state in which heap `h` has
the minimum `z`, `fib_heap_extract_min` with enough fuel returns `z`, a node of least key,
and the size drops by one; when at least one node is left, the walk from the new minimum
`m` returns the root list, and its length `r` satisfies `F (r + 1) ≤ n` and
`r ≤ floor (log_phi n) + 1` for the new size `n`. -/
theorem root_count_law (ops : List Op) (s : World × Ghost)
    (hs : run ops (World.init, Ghost.init) = some s) (h z : Nat)
    (hm : fib_heap_minimum s.1 (some h) = some z)
    (fuel : Nat) (hf : fib_heap_size s.1 (some h) ≤ fuel) :
    ∃ w', fib_heap_extract_min fuel s.1 (some h) = some (w', some z) ∧
      (∀ u ∈ s.2.live h, fib_node_get_key s.1 (some z) ≤ fib_node_get_key s.1 (some u)) ∧
      fib_heap_size w' (some h) + 1 = fib_heap_size s.1 (some h) ∧
      (1 ≤ fib_heap_size w' (some h) →
        ∃ (m : Nat) (ring : List Nat), fib_heap_minimum w' (some h) = some m ∧
          (∀ f, fib_heap_size w' (some h) ≤ f → sibling_ring f w' m m = some ring) ∧
          Nat.fib (ring.length + 1) ≤ fib_heap_size w' (some h) ∧
          ring.length ≤ floor_log_phi (fib_heap_size w' (some h)) + 1) := by
  have I := RInv.reachable hs
  have H := I.winv.heap h
  have hf' := hf
  rw [size_eq_length I.winv] at hf'
  simp only [fib_heap_minimum] at hm
  obtain ⟨w0, hw0, H0, hzS, -⟩ := extract_min_spec s.1 h (s.2.live h) fuel z H hm hf'
  have hsz0 : fib_heap_size w0 (some h) = ((s.2.live h).erase z).length := by
    simp [fib_heap_size, H0.count]
  refine ⟨w0, hw0, fun u hu => H.min_le hm hu, ?_, fun hpos => ?_⟩
  · rw [hsz0, size_eq_length I.winv]
    exact length_erase_add_one hzS
  have hne : (s.2.live h).erase z ≠ [] := by
    intro e
    rw [hsz0, e] at hpos
    simp at hpos
  obtain ⟨w', m, ring, hw', H', hmin', hwalk, hnd, hmr, hmem, hdist⟩ :=
    extract_min_roots s.1 h (s.2.live h) fuel z H hm hf' hne
  rw [hw0] at hw'
  have e : w0 = w' := by simpa using hw'
  subst e
  obtain ⟨K, F, -, -, -⟩ := H'
  -- the degrees of the roots are distinct natural numbers
  have hdeg : ∀ u ∈ ring, (w0.nodes u).degree = (((w0.nodes u).degree.toNat : Nat) : Int) := by
    intro u hu
    rw [F.degree_eq u ((hmem u).1 hu).1]
    simp
  have hnd2 : (ring.map (fun u => (w0.nodes u).degree.toNat)).Nodup := by
    apply List.Nodup.map_on _ hnd
    intro a ha b hb hab
    apply hdist a ha b hb
    rw [hdeg a ha, hdeg b hb, hab]
  obtain ⟨x, hx, hlen⟩ := exists_large_of_nodup _ hnd2 (by
    intro e
    rw [List.map_eq_nil_iff] at e
    rw [e] at hmr
    simp at hmr)
  rw [List.length_map] at hlen
  obtain ⟨u, hu, rfl⟩ := List.mem_map.1 hx
  have hfib := F.fib_le_size ((hmem u).1 hu).1
  rw [← hsz0] at hfib
  have hmono : Nat.fib (ring.length + 1) ≤ Nat.fib ((w0.nodes u).degree.toNat + 2) :=
    Nat.fib_mono (by omega)
  refine ⟨m, ring, by simpa [fib_heap_minimum] using hmin', ?_, hmono.trans hfib, ?_⟩
  · intro f hf2
    apply hwalk
    rw [← hsz0]; exact hf2
  · have := degree_lt_table _ _ hfib
    have hn0 : fib_heap_size w0 (some h) ≠ 0 := by omega
    simp only [fib_heap_calculate_max_degree, if_neg hn0] at this
    omega

theorem minimum_after_spec (o : Option (World × Ghost)) (h z : Nat) (k : Int) (n : Nat)
    (hc : minimum_after o h z k n = true) :
    ∃ s, o = some s ∧ fib_heap_minimum s.1 (some h) = some z ∧
      fib_node_get_key s.1 (some z) = k ∧ fib_heap_size s.1 (some h) = n := by
  rcases o with _ | s
  · simp [minimum_after] at hc
  · simp only [minimum_after, Bool.and_eq_true, decide_eq_true_eq] at hc
    exact ⟨s, rfl, hc.1.1, hc.1.2, hc.2⟩

/-- The run that inserts the keys 20, 19, ..., 1 into a fresh heap ends with 20 nodes and
the minimum 19, the handle of the key 1. -/
theorem descending_check :
    minimum_after
      (run
        [Op.create, Op.insert 0 20 0, Op.insert 0 19 0, Op.insert 0 18 0, Op.insert 0 17 0,
         Op.insert 0 16 0, Op.insert 0 15 0, Op.insert 0 14 0, Op.insert 0 13 0,
         Op.insert 0 12 0, Op.insert 0 11 0, Op.insert 0 10 0, Op.insert 0 9 0,
         Op.insert 0 8 0, Op.insert 0 7 0, Op.insert 0 6 0, Op.insert 0 5 0, Op.insert 0 4 0,
         Op.insert 0 3 0, Op.insert 0 2 0, Op.insert 0 1 0]
        (World.init, Ghost.init)) 0 19 1 20 = true := by
  decide!

/-- Example for C26: the keys 20, 19, ..., 1 are inserted into a fresh heap and the minimum
is extracted; the key 1 is returned and 19 nodes are left, with at most 7 roots. -/
theorem root_count_law_witness :
    ∃ s, run
        [Op.create, Op.insert 0 20 0, Op.insert 0 19 0, Op.insert 0 18 0, Op.insert 0 17 0,
         Op.insert 0 16 0, Op.insert 0 15 0, Op.insert 0 14 0, Op.insert 0 13 0,
         Op.insert 0 12 0, Op.insert 0 11 0, Op.insert 0 10 0, Op.insert 0 9 0,
         Op.insert 0 8 0, Op.insert 0 7 0, Op.insert 0 6 0, Op.insert 0 5 0, Op.insert 0 4 0,
         Op.insert 0 3 0, Op.insert 0 2 0, Op.insert 0 1 0]
        (World.init, Ghost.init) = some s ∧
      ∃ w', fib_heap_extract_min 20 s.1 (some 0) = some (w', some 19) ∧
        fib_node_get_key s.1 (some 19) = 1 ∧
        fib_heap_size w' (some 0) = 19 ∧
        ∃ (m : Nat) (ring : List Nat), fib_heap_minimum w' (some 0) = some m ∧
          sibling_ring 19 w' m m = some ring ∧ ring.length ≤ 7 := by
  obtain ⟨s, hs, hm, hk, hn⟩ := minimum_after_spec _ 0 19 1 20 descending_check
  obtain ⟨w', h1, -, h3, h4⟩ := root_count_law _ s hs 0 19 hm 20 (le_of_eq hn)
  have hsz : fib_heap_size w' (some 0) = 19 := by omega
  obtain ⟨m, ring, h5, h6, -, h7⟩ := h4 (by omega)
  rw [hsz] at h6 h7
  exact ⟨s, hs, w', h1, hk, hsz, m, ring, h5, h6 19 (le_refl _), h7.trans (by decide)⟩

end FibHeap


namespace FibHeap

/-! ## The table indices used by `fib_heap_consolidate` -/

theorem link_while_length : ∀ (slots : Nat) (w : World) (T : List (Option Nat)) (x d : Nat)
    (r : World × List (Option Nat) × Nat × Nat),
    consolidate_link_while slots w T x d = some r → r.2.1.length = T.length := by
  intro slots
  induction slots with
  | zero => intro w T x d r hr; simp [consolidate_link_while] at hr
  | succ slots ih =>
    intro w T x d r hr
    unfold consolidate_link_while at hr
    rcases hT : T[d]? with _ | ⟨_ | y⟩
    · simp [hT] at hr
    · simp only [hT, Option.some.injEq] at hr
      rw [← hr]
    · simp only [hT] at hr
      have := ih _ _ _ _ r hr
      simpa using this

/-- When the loop `while (degree_table[d])` returns, every index that it read is inside the
table. -/
theorem link_while_indices_lt : ∀ (slots : Nat) (w : World) (T : List (Option Nat))
    (x d : Nat) (r : World × List (Option Nat) × Nat × Nat),
    consolidate_link_while slots w T x d = some r →
    ∀ i ∈ consolidate_link_while_indices slots w T x d, i < T.length := by
  intro slots
  induction slots with
  | zero => intro w T x d r hr; simp [consolidate_link_while] at hr
  | succ slots ih =>
    intro w T x d r hr i hi
    unfold consolidate_link_while at hr
    unfold consolidate_link_while_indices at hi
    rcases hT : T[d]? with _ | ⟨_ | y⟩
    · simp [hT] at hr
    · simp only [hT, List.mem_singleton] at hi
      rw [hi]
      exact (List.getElem?_eq_some_iff.1 hT).1
    · simp only [hT, List.mem_cons] at hr hi
      rcases hi with hi | hi
      · rw [hi]
        exact (List.getElem?_eq_some_iff.1 hT).1
      · have := ih _ _ _ _ r hr i hi
        simpa using this

/-- When the processing loop returns, every index at which it read or wrote the table is
inside the table. -/
theorem process_indices_bound : ∀ (rl : List Nat) (w : World) (T : List (Option Nat))
    (r : World × List (Option Nat)),
    consolidate_process w T rl = some r →
    ∀ i ∈ consolidate_process_indices w T rl, 0 ≤ i ∧ i < (T.length : Int) := by
  intro rl
  induction rl with
  | nil => intro w T r _ i hi; simp [consolidate_process_indices] at hi
  | cons x rl ih =>
    intro w T r hr i hi
    unfold consolidate_process at hr
    unfold consolidate_process_indices at hi
    by_cases hd : (w.nodes x).degree < 0
    · simp [hd] at hr
    simp only [hd, if_false] at hr hi
    rcases hl : consolidate_link_while (T.length - (w.nodes x).degree.toNat) w T x
        (w.nodes x).degree.toNat with _ | ⟨w', T', x', d'⟩
    · simp [hl] at hr
    simp only [hl] at hr hi
    rcases List.mem_append.1 hi with hi | hi
    · obtain ⟨j, hj, rfl⟩ := List.mem_map.1 hi
      have := link_while_indices_lt _ _ _ _ _ _ hl j hj
      exact ⟨Int.ofNat_nonneg j, Int.ofNat_lt.2 this⟩
    · have h1 := ih _ _ r hr i hi
      have h2 := link_while_length _ _ _ _ _ _ hl
      simp only [List.length_set] at h1
      simp only at h2
      rw [h2] at h1
      exact h1

end FibHeap


namespace FibHeap

end FibHeap


namespace FibHeap

/-! ## `fib_heap_get_statistics` -/

/-- The loop of `fib_heap_get_statistics` walks the ring once. -/
theorem statistics_loop_spec (w : World) (first : Nat) :
    ∀ (post pre : List Nat) (c : Nat) (fuel : Nat) (acc : Nat × Int × Int),
      Ring w.nodes (pre ++ c :: post) → (pre ++ c :: post).Nodup →
      some first = (pre ++ [c]).head? → post.length < fuel →
      statistics_loop fuel w first c acc =
        some ((c :: post).foldl (fun a u =>
          (a.1 + 1, (if (w.nodes u).degree > a.2.1 then (w.nodes u).degree else a.2.1),
            a.2.2 + (w.nodes u).degree)) acc) := by
  intro post
  induction post with
  | nil =>
    intro pre c fuel acc hr hnd hfirst hf
    obtain ⟨s, rfl⟩ : ∃ s, fuel = s + 1 := ⟨fuel - 1, by omega⟩
    obtain ⟨rn, md, td⟩ := acc
    have hnext := Ring_right_eq hr
    simp only [List.nil_append] at hnext
    have hnext' : (w.nodes c).right = first := Option.some.inj (hnext.trans hfirst.symm)
    unfold statistics_loop
    simp [hnext']
  | cons c' post ih =>
    intro pre c fuel acc hr hnd hfirst hf
    obtain ⟨s, rfl⟩ : ∃ s, fuel = s + 1 := ⟨fuel - 1, by omega⟩
    obtain ⟨rn, md, td⟩ := acc
    have hnext := Ring_right_eq hr
    simp only [List.cons_append, List.head?_cons] at hnext
    have hnext' : (w.nodes c).right = c' := Option.some.inj hnext
    have hne : c' ≠ first := by
      intro e
      have hm : c' ∈ pre ++ [c] := List.mem_of_mem_head? (e ▸ hfirst.symm)
      have := List.nodup_append.1 (by simpa using hnd : (pre ++ [c] ++ c' :: post).Nodup)
      exact this.2.2 hm (by simp)
    have h2 := ih (pre ++ [c]) c' s
      (rn + 1, (if (w.nodes c).degree > md then (w.nodes c).degree else md),
        td + (w.nodes c).degree) (by simpa using hr) (by simpa using hnd)
      (by
        rw [hfirst]
        rcases pre with _ | ⟨b, pre⟩ <;> simp)
      (by simp at hf; omega)
    unfold statistics_loop
    simp only [hnext', ne_eq, hne, not_false_eq_true, if_true, h2, List.foldl_cons]

/-- The loop state after a walk over nodes of degree zero. -/
theorem statistics_fold_flat (w : World) : ∀ (l : List Nat) (rn : Nat),
    (∀ u ∈ l, (w.nodes u).degree = 0) →
    l.foldl (fun (a : Nat × Int × Int) u =>
      (a.1 + 1, (if (w.nodes u).degree > a.2.1 then (w.nodes u).degree else a.2.1),
        a.2.2 + (w.nodes u).degree)) (rn, 0, 0) = (rn + l.length, 0, 0)
  | [], rn, _ => by simp
  | u :: l, rn, h => by
    have hu := h u (List.mem_cons_self _ _)
    have ih := statistics_fold_flat w l (rn + 1) (fun v hv => h v (List.mem_cons_of_mem _ hv))
    simp only [List.foldl_cons, hu, gt_iff_lt, lt_irrefl, if_false, add_zero, ih,
      List.length_cons]
    congr 1
    omega

/-- The length of the walk of `fib_heap_get_statistics`: the number of roots. -/
theorem statistics_fold_fst (w : World) : ∀ (l : List Nat) (acc : Nat × Int × Int),
    (l.foldl (fun (a : Nat × Int × Int) u =>
      (a.1 + 1, (if (w.nodes u).degree > a.2.1 then (w.nodes u).degree else a.2.1),
        a.2.2 + (w.nodes u).degree)) acc).1 = acc.1 + l.length
  | [], acc => by simp
  | u :: l, acc => by
    have ih := statistics_fold_fst w l
      (acc.1 + 1, (if (w.nodes u).degree > acc.2.1 then (w.nodes u).degree else acc.2.1),
        acc.2.2 + (w.nodes u).degree)
    simp only [List.foldl_cons, ih, List.length_cons]
    omega

/-- `fib_heap_get_statistics` on a heap whose nodes are all roots of degree zero. -/
theorem statistics_flat {w : World} {h : Nat} {S : List Nat}
    (I : HeapInv w.nodes (w.heaps h) S)
    (hflat : ∀ u ∈ S, (w.nodes u).parent = none ∧ (w.nodes u).degree = 0)
    (fuel : Nat) (hfuel : S.length ≤ fuel) :
    ∃ stats, fib_heap_get_statistics fuel w (some h) = some stats ∧
      stats.total_nodes = S.length ∧ stats.root_nodes = S.length ∧
      stats.tree_count = (S.length : Int) ∧ stats.max_degree = 0 ∧
      stats.marked_nodes = 0 ∧ stats.average_degree = 0 := by
  obtain ⟨K, F, hmin, hcnt, -⟩ := I
  have hperm : (K none).Perm S := by
    apply (List.perm_ext_iff_of_nodup (F.K_nodup none) F.S_nodup).2
    intro u
    rw [F.K_mem none u]
    exact ⟨fun hu => hu.1, fun hu => ⟨hu, (hflat u hu).1⟩⟩
  have hlen := hperm.length_eq
  rcases hK : K none with _ | ⟨z, t⟩
  · rw [hK] at hmin hlen
    simp only [List.head?_nil] at hmin
    simp only [List.length_nil] at hlen
    refine ⟨_, by simp only [fib_heap_get_statistics, hmin]; rfl, ?_⟩
    simp [← hlen]
  · rw [hK] at hmin hlen
    simp only [List.head?_cons] at hmin
    have hring : Ring w.nodes ([] ++ z :: t) := by simpa [hK] using F.K_ring none
    have hnd : ([] ++ z :: t).Nodup := by simpa [hK] using F.K_nodup none
    have hloop := statistics_loop_spec w z t [] z fuel (0, 0, 0) hring hnd (by simp)
      (by simp only [List.length_cons] at hlen; omega)
    rw [statistics_fold_flat w (z :: t) 0 (fun u hu =>
      (hflat u (hperm.subset (hK ▸ hu))).2)] at hloop
    refine ⟨_, by simp only [fib_heap_get_statistics, hmin, hloop]; rfl, ?_⟩
    simp [hcnt, hlen]

end FibHeap


namespace FibHeap

/-- The insertion loop links nothing: when the nodes of heap `h` are roots of degree zero
before the loop, they and the new nodes are so after it. -/
theorem insert_all_flat (h : Nat) : ∀ (kvs : List (Int × Nat)) (s : World × Ghost), RInv s →
    h < s.1.next_heap → (∀ kv ∈ kvs, INT_MIN ≤ kv.1 ∧ kv.1 ≤ INT_MAX) →
    (∀ u ∈ s.2.live h, (s.1.nodes u).parent = none ∧ (s.1.nodes u).degree = 0) →
    ∃ (g' : Ghost),
      run (kvs.map (fun kv => Op.insert h kv.1 kv.2)) s = some (insert_all s.1 h kvs, g') ∧
      (g'.live h).length = (s.2.live h).length + kvs.length ∧
      ∀ u ∈ g'.live h, ((insert_all s.1 h kvs).nodes u).parent = none ∧
        ((insert_all s.1 h kvs).nodes u).degree = 0
  | [], s, _, _, _, hflat => ⟨s.2, rfl, rfl, hflat⟩
  | kv :: rest, s, I, hh, hk, hflat => by
    have hkv := hk kv (by simp)
    have hstep := step_insert s h kv.1 kv.2 hh hkv
    have I1 := I.of_step hstep
    have hnew := insert_new s.1 h kv.1 kv.2
    simp only at hnew
    obtain ⟨g', hrun, hlen, hfl⟩ :=
      insert_all_flat h rest _ I1 (by simpa [insert_next_heap] using hh)
        (fun kv' hkv' => hk kv' (List.mem_cons_of_mem _ hkv'))
        (by
          intro u hu
          simp only [bump_same, List.mem_cons] at hu
          rcases hu with rfl | hu
          · exact ⟨hnew.2.2.1, hnew.2.2.2.2.1⟩
          · have hne : u ≠ s.1.next_node := Nat.ne_of_lt (I.winv.bound h u hu)
            have h2 := insert_frame s.1 h kv.1 kv.2 u hne
            simp only at h2
            rw [h2.2.2.1, h2.2.2.2.2.1]
            exact hflat u hu)
    refine ⟨g', ?_, ?_, ?_⟩
    · simp only [List.map_cons, run, hstep, insert_all]
      exact hrun
    · rw [hlen]
      simp only [bump_same, List.length_cons]
      omega
    · simpa only [insert_all] using hfl

/-- C25 (insert performs no consolidation).  In any reachable state, create a heap and
insert the pairs `kvs` one by one, `n` pairs in all: the traversal of the heap enumerates
`n` nodes, every one of them a root of degree zero, and `fib_heap_get_statistics`, with
enough fuel for its walk, reports `total_nodes = n`, `root_nodes = n`, `tree_count = n` and
`max_degree = 0`. -/
theorem insert_statistics_law (ops : List Op) (s : World × Ghost)
    (hs : run ops (World.init, Ghost.init) = some s)
    (kvs : List (Int × Nat)) (hk : ∀ kv ∈ kvs, INT_MIN ≤ kv.1 ∧ kv.1 ≤ INT_MAX)
    (fuel : Nat) (hf : kvs.length ≤ fuel) :
    ∃ h, (fib_heap_create s.1).2 = some h ∧
      (∃ (N : Nat) (l : List Nat),
        (∀ f, N ≤ f →
          fib_heap_destroy f (insert_all (fib_heap_create s.1).1 h kvs) (some h) = some l) ∧
        l.length = kvs.length ∧
        ∀ u ∈ l, fib_node_is_root (insert_all (fib_heap_create s.1).1 h kvs) (some u) = true ∧
          ((insert_all (fib_heap_create s.1).1 h kvs).nodes u).degree = 0) ∧
      ∃ stats,
        fib_heap_get_statistics fuel (insert_all (fib_heap_create s.1).1 h kvs) (some h) =
          some stats ∧
        stats.total_nodes = kvs.length ∧ stats.root_nodes = kvs.length ∧
        stats.tree_count = (kvs.length : Int) ∧ stats.max_degree = 0 := by
  refine ⟨s.1.next_heap, rfl, ?_⟩
  have I := RInv.reachable hs
  have I1 := I.after_create
  have hnil : s.2.live s.1.next_heap = [] := I.winv.unborn _ (le_refl _)
  obtain ⟨g', hrun, hlen, hflat⟩ := insert_all_flat s.1.next_heap kvs _ I1
    (by simp [fib_heap_create]) hk (by
      intro u hu
      simp only [hnil] at hu
      cases hu)
  have I' := RInv.of_run _ _ _ I1 hrun
  have H' := I'.winv.heap s.1.next_heap
  simp only [hnil, List.length_nil, zero_add] at hlen
  obtain ⟨N, l, hl, hp⟩ := destroy_spec H'
  obtain ⟨stats, hst, h1, h2, h3, h4, -, -⟩ := statistics_flat H' hflat fuel (by
    rw [hlen]; exact hf)
  refine ⟨⟨N, l, hl, by rw [hp.length_eq, hlen], fun u hu => ?_⟩, stats, hst, ?_, ?_, ?_, h4⟩
  · have := hflat u (hp.subset hu)
    exact ⟨by simp [fib_node_is_root, this.1], this.2⟩
  · rw [h1, hlen]
  · rw [h2, hlen]
  · rw [h3, hlen]

/-- Example for C25: the ten keys of the statistics test are inserted into a fresh heap. -/
theorem insert_statistics_law_witness :
    ∃ stats, fib_heap_get_statistics 10 (insert_all (fib_heap_create World.init).1 0
        [(0, 0), (1, 0), (2, 0), (3, 0), (4, 0), (5, 0), (6, 0), (7, 0), (8, 0), (9, 0)])
        (some 0) = some stats ∧
      stats.total_nodes = 10 ∧ stats.root_nodes = 10 ∧ stats.tree_count = 10 ∧
      stats.max_degree = 0 := by
  obtain ⟨h, hh, -, stats, h1, h2, h3, h4, h5⟩ :=
    insert_statistics_law [] (World.init, Ghost.init) rfl
      [(0, 0), (1, 0), (2, 0), (3, 0), (4, 0), (5, 0), (6, 0), (7, 0), (8, 0), (9, 0)]
      (by decide) 10 (by decide)
  have e : 0 = h := Option.some.inj hh
  subst e
  exact ⟨stats, h1, h2, h3, h4, h5⟩

end FibHeap


namespace FibHeap

/-! ## The shape of a cascading cut -/

theorem head_mem_of_head? {l : List Nat} {y : Nat} (h : l.head? = some y) : y ∈ l :=
  List.mem_of_mem_head? h

/-- What `fib_heap_cascading_cut` from `y` does to the parents, marks and degrees: the nodes
of `chain`, marked ancestors-or-self of `y` in a row, are cut, and the walk ends at
`stop`. -/
theorem cascading_shape (h : Nat) (S : List Nat) (rk : Nat → Nat) :
    ∀ (fuel : Nat) (w w' : World) (y : Nat),
      (∀ u ∈ S, ∀ p, (w.nodes u).parent = some p → p ∈ S ∧ rk u < rk p) → y ∈ S →
      fib_heap_cascading_cut fuel w h y = some w' →
      ∃ (chain : List Nat) (stop : Nat),
        List.Chain' (fun a b => (w.nodes a).parent = some b) (chain ++ [stop]) ∧
        (chain ++ [stop]).head? = some y ∧
        (∀ u ∈ chain, (w.nodes u).marked = true) ∧
        ((w.nodes stop).parent = none ∨ (w.nodes stop).marked = false) ∧
        chain.length < fuel ∧
        (∀ u ∈ chain ++ [stop], u ∈ S ∧ rk y ≤ rk u) ∧
        (chain ++ [stop]).Nodup ∧
        (∀ u, (w'.nodes u).parent = if u ∈ chain then none else (w.nodes u).parent) ∧
        (∀ u, (w'.nodes u).marked =
          if u ∈ chain then false
          else if u = stop ∧ (w.nodes stop).parent ≠ none then true else (w.nodes u).marked) ∧
        (∀ u, (w'.nodes u).degree =
          if u ∈ (chain ++ [stop]).tail then (w.nodes u).degree - 1 else (w.nodes u).degree) := by
  intro fuel
  induction fuel with
  | zero => intro w w' y _ _ hr; simp [fib_heap_cascading_cut] at hr
  | succ fuel ih =>
    intro w w' y hacy hy hr
    unfold fib_heap_cascading_cut at hr
    rcases hp : (w.nodes y).parent with _ | z
    · simp only [hp, Option.some.injEq] at hr
      subst hr
      refine ⟨[], y, by simp, by simp, by simp, Or.inl hp, by simp, ?_, by simp, by simp,
        ?_, by simp⟩
      · intro u hu
        simp only [List.nil_append, List.mem_singleton] at hu
        subst hu
        exact ⟨hy, le_refl _⟩
      · intro u
        simp [hp]
    · simp only [hp] at hr
      by_cases hm : (w.nodes y).marked = false
      · rw [if_pos hm] at hr
        simp only [Option.some.injEq] at hr
        subst hr
        refine ⟨[], y, by simp, by simp, by simp, Or.inr hm, by simp, ?_, by simp, by simp,
          ?_, by simp⟩
        · intro u hu
          simp only [List.nil_append, List.mem_singleton] at hu
          subst hu
          exact ⟨hy, le_refl _⟩
        · intro u
          by_cases e : u = y
          · subst e; simp [hp]
          · simp [e, set_marked_ne]
      · rw [if_neg hm] at hr
        have hmt : (w.nodes y).marked = true := by simpa using hm
        obtain ⟨hzS, hyz⟩ := hacy y hy z hp
        have hacy1 : ∀ u ∈ S, ∀ p, ((fib_heap_cut w h y z).nodes u).parent = some p →
            p ∈ S ∧ rk u < rk p := by
          intro u hu p hup
          rw [cut_parent] at hup
          by_cases e : u = y
          · rw [if_pos e] at hup; cases hup
          · rw [if_neg e] at hup; exact hacy u hu p hup
        obtain ⟨chain, stop, hch, hhead, hmk, hstop, hlen, hmem, hnd, hpar, hmar, hdeg⟩ :=
          ih (fib_heap_cut w h y z) w' z hacy1 hzS hr
        have hney : ∀ u ∈ chain ++ [stop], u ≠ y := by
          intro u hu e
          have := (hmem u hu).2
          rw [e] at this
          omega
        have hstopy : stop ≠ y := hney stop (by simp)
        have hzmem : z ∈ chain ++ [stop] := head_mem_of_head? hhead
        refine ⟨y :: chain, stop, ?_, by simp, ?_, ?_, by simp; omega, ?_, ?_, ?_, ?_, ?_⟩
        · rw [List.cons_append, List.chain'_cons']
          refine ⟨?_, ?_⟩
          · intro b hb
            rw [hhead] at hb
            cases hb
            exact hp
          · apply List.Chain'.imp _ hch
            intro a b hab
            rw [cut_parent] at hab
            by_cases e : a = y
            · rw [if_pos e] at hab; cases hab
            · rw [if_neg e] at hab; exact hab
        · intro u hu
          rcases List.mem_cons.1 hu with rfl | hu
          · exact hmt
          · have := hmk u hu
            rw [cut_marked, if_neg (hney u (by simp [hu]))] at this
            exact this
        · rw [cut_parent, cut_marked, if_neg hstopy, if_neg hstopy] at hstop
          exact hstop
        · intro u hu
          rw [List.cons_append] at hu
          rcases List.mem_cons.1 hu with rfl | hu
          · exact ⟨hy, le_refl _⟩
          · exact ⟨(hmem u hu).1, by have := (hmem u hu).2; omega⟩
        · rw [List.cons_append, List.nodup_cons]
          exact ⟨fun c => hney y c rfl, hnd⟩
        · intro u
          rw [hpar u, cut_parent]
          by_cases e : u = y
          · subst e; simp
          · simp [e]
        · intro u
          rw [hmar u, cut_parent, cut_marked, if_neg hstopy]
          by_cases e : u = y
          · subst e
            have h1 : u ∉ chain := fun c => hney u (by simp [c]) rfl
            have h2 : u ≠ stop := fun c => hstopy c.symm
            simp [h1, h2]
          · simp [e]
        · intro u
          rw [hdeg u, cut_degree]
          simp only [List.cons_append, List.tail_cons]
          -- `z` heads the rest of the path and occurs in it once
          obtain ⟨t, ht⟩ : ∃ t, chain ++ [stop] = z :: t := by
            rcases hl : chain ++ [stop] with _ | ⟨b, t⟩
            · simp at hl
            · rw [hl] at hhead
              simp only [List.head?_cons, Option.some.injEq] at hhead
              exact ⟨t, by rw [hhead]⟩
          rw [ht] at hnd
          simp only [ht, List.tail_cons, List.mem_cons]
          have hzt : z ∉ t := (List.nodup_cons.1 hnd).1
          by_cases e : u = z
          · subst e
            simp [hzt]
          · by_cases hut : u ∈ t
            · simp [e, hut]
            · simp [e, hut]

/-- A path of parent links from `y` is at most as long as `y` is deep. -/
theorem path_le_depth (w : World) : ∀ (chain : List Nat) (stop y fuel : Nat),
    List.Chain' (fun a b => (w.nodes a).parent = some b) (chain ++ [stop]) →
    (chain ++ [stop]).head? = some y → chain.length ≤ fuel →
    chain.length ≤ node_depth fuel w y
  | [], _, _, _, _, _, _ => Nat.zero_le _
  | c :: chain, stop, y, fuel, hch, hhead, hlen => by
    obtain ⟨f, rfl⟩ : ∃ f, fuel = f + 1 := ⟨fuel - 1, by simp at hlen; omega⟩
    simp only [List.cons_append, List.head?_cons, Option.some.injEq] at hhead
    subst hhead
    rw [List.cons_append, List.chain'_cons'] at hch
    obtain ⟨b, hb⟩ : ∃ b, (chain ++ [stop]).head? = some b := by
      rcases hl : chain ++ [stop] with _ | ⟨b, t⟩
      · simp at hl
      · exact ⟨b, rfl⟩
    have hpar := hch.1 b hb
    have ih := path_le_depth w chain stop b f hch.2 hb (by simp at hlen; omega)
    unfold node_depth
    simp only [hpar, List.length_cons]
    omega

/-- The nodes after a `fib_heap_decrease_key` that cuts `x` from its parent `y`: those that
`fib_heap_cascading_cut` from `y` leaves. -/
theorem decrease_key_cut_form (w w' : World) (h x y : Nat) (k : Int) (fuel : Nat)
    (hk : k ≤ (w.nodes x).key) (hp : (w.nodes x).parent = some y) (hyx : y ≠ x)
    (hlt : k < (w.nodes y).key)
    (hdk : fib_heap_decrease_key fuel w (some h) (some x) k =
      some (w', fib_heap_error_t.FIB_HEAP_SUCCESS)) :
    ∃ w3, fib_heap_cascading_cut fuel (fib_heap_cut (w.set_key x k) h x y) h y = some w3 ∧
      w'.nodes = w3.nodes := by
  have hlt2 : ((w.set_key x k).nodes x).key < ((w.set_key x k).nodes y).key := by
    rw [set_key_key, if_pos rfl, set_key_key, if_neg hyx]
    exact hlt
  simp only [fib_heap_decrease_key, gt_iff_lt, if_neg (not_lt.2 hk), set_key_parent, hp,
    if_pos hlt2] at hdk
  rcases hc : fib_heap_cascading_cut fuel (fib_heap_cut (w.set_key x k) h x y) h y with _ | w3
  · simp [hc] at hdk
  · refine ⟨w3, rfl, ?_⟩
    simp only [hc] at hdk
    rcases hmn : (w3.heaps h).min_node with _ | mn
    · simp [hmn] at hdk
    · simp only [hmn, Option.some.injEq, Prod.mk.injEq, and_true] at hdk
      rw [← hdk]
      split <;> rfl

end FibHeap


namespace FibHeap

theorem marked_parent_after_spec (o : Option (World × Ghost)) (h x y : Nat) (k : Int)
    (hc : marked_parent_after o h x y k = true) :
    ∃ s, o = some s ∧ x ∈ s.2.live h ∧ (s.1.nodes x).parent = some y ∧
      fib_node_is_root s.1 (some y) = true ∧ k < fib_node_get_key s.1 (some y) ∧
      ∃ w', fib_heap_decrease_key (fib_heap_size s.1 (some h)) s.1 (some h) (some x) k =
          some (w', fib_heap_error_t.FIB_HEAP_SUCCESS) ∧
        fib_node_is_root w' (some y) = true ∧ (w'.nodes y).marked = true := by
  rcases o with _ | s
  · simp [marked_parent_after] at hc
  · simp only [marked_parent_after, Bool.and_eq_true, decide_eq_true_eq] at hc
    obtain ⟨⟨⟨⟨h1, h2⟩, h3⟩, h4⟩, h5⟩ := hc
    refine ⟨s, rfl, h1, h2, h3, h4, ?_⟩
    split at h5
    · rename_i w' heq
      simp only [Bool.and_eq_true] at h5
      exact ⟨w', heq, h5.1, h5.2⟩
    · cases h5

/-- The run of five inserts (keys 1, 2, 4, 3, 5), an extraction, a decrease of the key 5
to 2 and another extraction ends with the node of key 4 below the root of key 3, which is
marked; the decrease of the key 4 to 0 succeeds and leaves that root marked. -/
theorem marked_parent_check :
    marked_parent_after
      (run [Op.create, Op.insert 0 1 0, Op.insert 0 2 0, Op.insert 0 4 0, Op.insert 0 3 0,
        Op.insert 0 5 0, Op.extract_min 0, Op.decrease_key 0 4 2, Op.extract_min 0]
        (World.init, Ghost.init)) 0 2 3 0 = true := by
  decide!

/-- Counterexample to C24 as stated: a reachable heap with a live non-root `x = 2` whose
parent `y = 3` is a root, and a key below the key of `y`, such that the successful
`fib_heap_decrease_key` leaves the root `y` marked, not unmarked. -/
theorem marked_parent_reachable :
    ∃ s, run [Op.create, Op.insert 0 1 0, Op.insert 0 2 0, Op.insert 0 4 0, Op.insert 0 3 0,
        Op.insert 0 5 0, Op.extract_min 0, Op.decrease_key 0 4 2, Op.extract_min 0]
        (World.init, Ghost.init) = some s ∧
      2 ∈ s.2.live 0 ∧ (s.1.nodes 2).parent = some 3 ∧
      fib_node_is_root s.1 (some 3) = true ∧ 0 < fib_node_get_key s.1 (some 3) ∧
      ∃ w', fib_heap_decrease_key (fib_heap_size s.1 (some 0)) s.1 (some 0) (some 2) 0 =
          some (w', fib_heap_error_t.FIB_HEAP_SUCCESS) ∧
        fib_node_is_root w' (some 3) = true ∧ ¬ (w'.nodes 3).marked = false := by
  obtain ⟨s, hs, h1, h2, h3, h4, w', h5, h6, h7⟩ :=
    marked_parent_after_spec _ 0 2 3 0 marked_parent_check
  exact ⟨s, hs, h1, h2, h3, h4, w', h5, h6, by simp [h7]⟩

/-- C24, as amended (cut and cascading cut).  In a reachable state, for a live handle `x` of
heap `h` with parent `y` and an `int` key `k` below the key of `y`, `fib_heap_decrease_key`
with enough fuel returns `FIB_HEAP_SUCCESS`.  There are a list `chain` and a node `stop`
such that `x`, the nodes of `chain` and `stop` form a path of parent links that starts with
`x` and `y`; the nodes of `chain` were marked, and `stop` was a root or unmarked; the path
from `y` is at most as long as `y` is deep.  Afterwards `x` and the nodes of `chain` are
unmarked roots; every node of the path from `y` on, `y` included, has lost one from its
degree; `stop` has its former parent, and its mark is the former one when it was a root (a
root may be marked, and keeps its mark) and is set when it was not a root; no other parent,
mark or degree has changed.  So a root `y` keeps its mark and its place, an unmarked
non-root `y` becomes marked and stays in place, and a marked non-root `y` is cut and the
same rule is applied to its former parent. -/
theorem cut_law (ops : List Op) (s : World × Ghost)
    (hs : run ops (World.init, Ghost.init) = some s) (h x y : Nat) (hx : x ∈ s.2.live h)
    (hp : (s.1.nodes x).parent = some y) (k : Int) (hk0 : INT_MIN ≤ k)
    (hk : k < fib_node_get_key s.1 (some y))
    (fuel : Nat) (hf : fib_heap_size s.1 (some h) ≤ fuel) :
    ∃ (w' : World) (chain : List Nat) (stop : Nat),
      fib_heap_decrease_key fuel s.1 (some h) (some x) k =
        some (w', fib_heap_error_t.FIB_HEAP_SUCCESS) ∧
      List.Chain' (fun a b => (s.1.nodes a).parent = some b) (x :: chain ++ [stop]) ∧
      (chain ++ [stop]).head? = some y ∧
      (∀ u ∈ chain, (s.1.nodes u).marked = true) ∧
      (fib_node_is_root s.1 (some stop) = true ∨ (s.1.nodes stop).marked = false) ∧
      chain.length ≤ node_depth fuel s.1 y ∧
      (∀ u ∈ x :: chain, fib_node_is_root w' (some u) = true ∧ (w'.nodes u).marked = false) ∧
      (∀ u ∈ chain ++ [stop], (w'.nodes u).degree = (s.1.nodes u).degree - 1) ∧
      (w'.nodes stop).parent = (s.1.nodes stop).parent ∧
      (w'.nodes stop).marked =
        (if fib_node_is_root s.1 (some stop) = true then (s.1.nodes stop).marked else true) ∧
      (∀ u, u ∉ x :: chain → (w'.nodes u).parent = (s.1.nodes u).parent) ∧
      (∀ u, u ∉ x :: chain → u ≠ stop → (w'.nodes u).marked = (s.1.nodes u).marked) ∧
      (∀ u, u ∉ chain ++ [stop] → (w'.nodes u).degree = (s.1.nodes u).degree) := by
  have I := RInv.reachable hs
  have H := I.winv.heap h
  have hf' := hf
  rw [size_eq_length I.winv] at hf'
  simp only [fib_node_get_key, fib_node_is_root, decide_eq_true_eq] at hk ⊢
  obtain ⟨hyS, hyx_key⟩ := H.parent_le hx hp
  have hyx : y ≠ x := H.parent_ne hx hp
  have hkx : k ≤ (s.1.nodes x).key := by omega
  obtain ⟨w', hdk, -⟩ := decrease_key_spec s.1 h x k (s.2.live h) fuel H hx hkx hk0 hf'
  obtain ⟨w3, hcas, hnodes⟩ := decrease_key_cut_form s.1 w' h x y k fuel hkx hp hyx hk hdk
  obtain ⟨K, F, -, -, -⟩ := H
  obtain ⟨rk, hrk⟩ := F.rank
  -- the state after the cut of `x`
  have hP2 : ∀ u, ((fib_heap_cut (s.1.set_key x k) h x y).nodes u).parent =
      if u = x then none else (s.1.nodes u).parent := fun u => by
    rw [cut_parent, set_key_parent]
  have hM2 : ∀ u, ((fib_heap_cut (s.1.set_key x k) h x y).nodes u).marked =
      if u = x then false else (s.1.nodes u).marked := fun u => by
    rw [cut_marked, set_key_marked]
  have hD2 : ∀ u, ((fib_heap_cut (s.1.set_key x k) h x y).nodes u).degree =
      if u = y then (s.1.nodes y).degree - 1 else (s.1.nodes u).degree := fun u => by
    rw [cut_degree, set_key_degree, set_key_degree]
  have hacy : ∀ u ∈ s.2.live h, ∀ p,
      ((fib_heap_cut (s.1.set_key x k) h x y).nodes u).parent = some p →
      p ∈ s.2.live h ∧ rk u < rk p := by
    intro u hu p hup
    rw [hP2] at hup
    by_cases e : u = x
    · rw [if_pos e] at hup; cases hup
    · rw [if_neg e] at hup
      exact ⟨F.parent_mem u hu p hup, hrk u hu p hup⟩
  obtain ⟨chain, stop, hch, hhead, hmk, hstop, hlen, hmem, hnd, hpar, hmar, hdeg⟩ :=
    cascading_shape h (s.2.live h) rk fuel _ w3 y hacy hyS hcas
  have hxy : rk x < rk y := hrk x hx y hp
  have hnex : ∀ u ∈ chain ++ [stop], u ≠ x := by
    intro u hu e
    have := (hmem u hu).2
    rw [e] at this
    omega
  have hstopx : stop ≠ x := hnex stop (by simp)
  have hxc : x ∉ chain := fun c => hnex x (by simp [c]) rfl
  have hch0 : List.Chain' (fun a b => (s.1.nodes a).parent = some b) (chain ++ [stop]) := by
    apply List.Chain'.imp _ hch
    intro a b hab
    rw [hP2] at hab
    by_cases e : a = x
    · rw [if_pos e] at hab; cases hab
    · rw [if_neg e] at hab; exact hab
  obtain ⟨t, ht⟩ : ∃ t, chain ++ [stop] = y :: t := by
    rcases hl : chain ++ [stop] with _ | ⟨b, t⟩
    · simp at hl
    · rw [hl] at hhead
      simp only [List.head?_cons, Option.some.injEq] at hhead
      exact ⟨t, by rw [hhead]⟩
  have hyt : y ∉ t := by
    rw [ht] at hnd
    exact (List.nodup_cons.1 hnd).1
  have hstop0 : (s.1.nodes stop).parent = none ∨ (s.1.nodes stop).marked = false := by
    rw [hP2, hM2, if_neg hstopx, if_neg hstopx] at hstop
    exact hstop
  refine ⟨w', chain, stop, hdk, ?_, hhead, ?_, hstop0, ?_, ?_, ?_, ?_, ?_, ?_, ?_, ?_⟩
  all_goals try rw [hnodes]
  · rw [List.cons_append, List.chain'_cons']
    refine ⟨?_, hch0⟩
    intro b hb
    rw [hhead] at hb
    cases hb
    exact hp
  · intro u hu
    have := hmk u hu
    rw [hM2, if_neg (hnex u (by simp [hu]))] at this
    exact this
  · exact path_le_depth s.1 chain stop y fuel hch0 hhead (le_of_lt hlen)
  · intro u hu
    rw [hpar u, hmar u, hP2, hM2]
    rcases List.mem_cons.1 hu with rfl | hu
    · simp [hxc, hstopx.symm]
    · simp [hu]
  · intro u hu
    rw [hdeg u, hD2]
    simp only [ht, List.tail_cons]
    rw [ht] at hu
    rcases List.mem_cons.1 hu with rfl | hu
    · simp [hyt]
    · have : u ≠ y := fun e => hyt (e ▸ hu)
      simp [hu, this]
  · rw [hpar stop, hP2, if_neg hstopx]
    have : stop ∉ chain := by
      intro c
      have := List.nodup_append.1 hnd
      exact this.2.2 c (by simp)
    rw [if_neg this]
  · rw [hmar stop, hP2, hM2, if_neg hstopx]
    have : stop ∉ chain := by
      intro c
      have := List.nodup_append.1 hnd
      exact this.2.2 c (by simp)
    rw [if_neg this]
    by_cases hr : (s.1.nodes stop).parent = none
    · simp [hr, hstopx]
    · simp [hr]
  · intro u hu
    simp only [List.mem_cons, not_or] at hu
    rw [hpar u, hP2, if_neg hu.2, if_neg hu.1]
  · intro u hu hus
    simp only [List.mem_cons, not_or] at hu
    rw [hmar u, hM2, if_neg hu.2, if_neg hu.1]
    simp [hus]
  · intro u hu
    rw [hdeg u, hD2]
    simp only [ht, List.tail_cons]
    rw [ht] at hu
    simp only [List.mem_cons, not_or] at hu
    simp [hu.1, hu.2]

/-- Example for C24: five keys are inserted and the minimum is extracted; the key 5 of the
handle 4, a child of the handle 3, is decreased to 3, below the key 4 of its parent. -/
theorem cut_law_witness :
    ∃ s, run [Op.create, Op.insert 0 1 0, Op.insert 0 2 0, Op.insert 0 3 0, Op.insert 0 4 0,
        Op.insert 0 5 0, Op.extract_min 0] (World.init, Ghost.init) = some s ∧
      ∃ (w' : World) (chain : List Nat) (stop : Nat),
        fib_heap_decrease_key 4 s.1 (some 0) (some 4) 3 =
          some (w', fib_heap_error_t.FIB_HEAP_SUCCESS) ∧
        List.Chain' (fun a b => (s.1.nodes a).parent = some b) (4 :: chain ++ [stop]) ∧
        (chain ++ [stop]).head? = some 3 ∧
        (∀ u ∈ chain, (s.1.nodes u).marked = true) ∧
        (fib_node_is_root s.1 (some stop) = true ∨ (s.1.nodes stop).marked = false) ∧
        chain.length ≤ node_depth 4 s.1 3 ∧
        (∀ u ∈ 4 :: chain,
          fib_node_is_root w' (some u) = true ∧ (w'.nodes u).marked = false) ∧
        (∀ u ∈ chain ++ [stop], (w'.nodes u).degree = (s.1.nodes u).degree - 1) ∧
        (w'.nodes stop).parent = (s.1.nodes stop).parent ∧
        (w'.nodes stop).marked =
          (if fib_node_is_root s.1 (some stop) = true then (s.1.nodes stop).marked
            else true) ∧
        (∀ u, u ∉ 4 :: chain → (w'.nodes u).parent = (s.1.nodes u).parent) ∧
        (∀ u, u ∉ 4 :: chain → u ≠ stop → (w'.nodes u).marked = (s.1.nodes u).marked) ∧
        (∀ u, u ∉ chain ++ [stop] → (w'.nodes u).degree = (s.1.nodes u).degree) :=
  ⟨_, rfl, cut_law [Op.create, Op.insert 0 1 0, Op.insert 0 2 0, Op.insert 0 3 0,
    Op.insert 0 4 0, Op.insert 0 5 0, Op.extract_min 0] _ rfl 0 4 3 (by decide) rfl 3
    (by decide) (by decide) 4 (by decide)⟩

end FibHeap
